import Mathlib

/-!
# ISON (ison-c): a shallow embedding of the parser and the serialisers

The development follows `src/ison-c/src/*.c`; the reference schema of
`src/isonantic-c/src/schema.c` is embedded in a section of its own.

* A C string is the list of its bytes before the terminating NUL, one `Char`
  per byte (`CStr`).  Every comparison the code makes is against an ASCII
  byte, so a multi-byte character behaves like the single `Char` standing for it.
* A nullable `char *` is an `Option CStr` wherever the code tests the pointer.
* Arrays with a count (`fields`, `rows`, `blocks`, `order`) are lists.
* Allocation failure is not modelled.  `free` is modelled where the code goes
  on holding what it released: in `ison_from_json`, whose rows keep the
  payloads `ison_row_free` has released.
* `long` and `int64_t` are 64-bit two's complement (LP64).
* Of libc, `strtol`, `isspace`, `strcasecmp`, `snprintf("%ld")` and the syntax
  `strtod` recognises are modelled after the C standard ("C" locale).  The
  double a numeral denotes and the text `%g` prints are left to a `Libc`
  parameter.
-/

namespace Ison

/-! ## Characters and C strings -/

/-- C string: the bytes before the terminating NUL. -/
abbrev CStr := List Char

/-- The terminating byte of a C string. -/
def NUL : Char := Char.ofNat 0
/-- The double quote character. -/
def DQUOTE : Char := Char.ofNat 34
/-- The backslash character. -/
def BSLASH : Char := Char.ofNat 92
/-- The line feed character. -/
def LF : Char := Char.ofNat 10
/-- The carriage return character. -/
def CR : Char := Char.ofNat 13
/-- The horizontal tab character. -/
def TAB : Char := Char.ofNat 9
/-- The space character. -/
def SP : Char := Char.ofNat 32

/-- Libc `isspace` in the "C" locale: space, `\t`, `\n`, `\v`, `\f`, `\r`. -/
def isspace (c : Char) : Bool :=
  c = SP || c = TAB || c = LF || c = Char.ofNat 11 || c = Char.ofNat 12 || c = CR

/-- Libc `isdigit`. -/
def isdigit (c : Char) : Bool := 48 ≤ c.toNat && c.toNat ≤ 57

/-- Libc `tolower` in the "C" locale. -/
def tolower (c : Char) : Char :=
  if 65 ≤ c.toNat ∧ c.toNat ≤ 90 then Char.ofNat (c.toNat + 32) else c

/-- Libc `strcasecmp(a, b) == 0`. -/
def strcaseeq (a b : CStr) : Bool := a.map tolower = b.map tolower

/-- The part of `s` before the first `c`, and the part after it: `strchr`
    followed by a split at the pointer; `none` when `c` does not occur. -/
def split_at_char (c : Char) : CStr → Option (CStr × CStr)
  | [] => none
  | x :: xs =>
    if x = c then some ([], xs)
    else match split_at_char c xs with
      | some (l, r) => some (x :: l, r)
      | none => none

/-! ## libc number conversions -/

/-- The least `long`. -/
def LONG_MIN : Int := -(2 ^ 63)
/-- The greatest `long`. -/
def LONG_MAX : Int := 2 ^ 63 - 1

/-- Value of a run of decimal digits, most significant first, on top of `acc`. -/
def digits_value (acc : Nat) : CStr → Nat
  | [] => acc
  | c :: cs => digits_value (acc * 10 + (c.toNat - 48)) cs

/-- Clamp to the range of `long`, as `strtol` does on overflow. -/
def clamp_long (v : Int) : Int :=
  if v < LONG_MIN then LONG_MIN else if LONG_MAX < v then LONG_MAX else v

/-- Libc `strtol(s, &end, 10)`: the value and the text from `end` on.
    Leading white space is skipped, one sign is accepted, then the longest run
    of digits is converted; with no digit nothing is consumed and the value is 0.
    A value out of range is clamped. -/
def strtol (s : CStr) : Int × CStr :=
  let body := s.dropWhile isspace
  let (neg, rest) :=
    match body with
    | c :: cs => if c = '-' then (true, cs) else if c = '+' then (false, cs) else (false, body)
    | [] => (false, body)
  let ds := rest.takeWhile isdigit
  if ds = [] then (0, s)
  else
    let v : Int := digits_value 0 ds
    (clamp_long (if neg then -v else v), rest.dropWhile isdigit)

/-- Libc `isxdigit`. -/
def isxdigit (c : Char) : Bool :=
  isdigit c || (97 ≤ c.toNat && c.toNat ≤ 102) || (65 ≤ c.toNat && c.toNat ≤ 70)

/-- Optional exponent part of a numeral: the marker (`e` or `p`, any case), an
    optional sign and at least one decimal digit.  Returns what follows the
    exponent, or the input itself when there is no well-formed exponent. -/
def strtod_exponent (marker : Char) (s : CStr) : CStr :=
  match s with
  | c :: cs =>
    if tolower c = marker then
      let after_sign :=
        match cs with
        | d :: ds => if d = '-' || d = '+' then ds else cs
        | [] => cs
      if (after_sign.takeWhile isdigit) = [] then s else after_sign.dropWhile isdigit
    else s
  | [] => s

/-- Digits with an optional radix point, at least one digit in all: the text
    after the mantissa, or `none` when there is no digit. -/
def strtod_mantissa (isd : Char → Bool) (s : CStr) : Option CStr :=
  let ip := s.takeWhile isd
  let r1 := s.dropWhile isd
  match r1 with
  | c :: cs =>
    if c = '.' then
      let fp := cs.takeWhile isd
      if ip = [] ∧ fp = [] then none else some (cs.dropWhile isd)
    else if ip = [] then none else some r1
  | [] => if ip = [] then none else some r1

/-- The text after a case-insensitive literal `lit` at the start of `s`. -/
def strip_nocase (lit : CStr) (s : CStr) : Option CStr :=
  if strcaseeq (s.take lit.length) lit ∧ lit.length ≤ s.length then some (s.drop lit.length) else none

/-- The characters allowed between the parentheses of `nan(...)`. -/
def is_nchar (c : Char) : Bool :=
  isdigit c || (97 ≤ c.toNat && c.toNat ≤ 122) || (65 ≤ c.toNat && c.toNat ≤ 90) || c = '_'

/-- The text `strtod` leaves unread after the sign: the subject sequence of
    C11 7.22.1.3 (decimal, hexadecimal, `inf`, `infinity`, `nan`, `nan(...)`).
    `none` when no numeral starts here. -/
def strtod_unsigned (s : CStr) : Option CStr :=
  match strip_nocase ['i', 'n', 'f'] s with
  | some r =>
    match strip_nocase ['i', 'n', 'i', 't', 'y'] r with
    | some r2 => some r2
    | none => some r
  | none =>
  match strip_nocase ['n', 'a', 'n'] s with
  | some r =>
    match r with
    | c :: cs =>
      if c = '(' then
        match cs.dropWhile is_nchar with
        | d :: ds => if d = ')' then some ds else some r
        | [] => some r
      else some r
    | [] => some r
  | none =>
  match strip_nocase ['0', 'x'] s with
  | some r =>
    match strtod_mantissa isxdigit r with
    | some r2 => some (strtod_exponent 'p' r2)
    | none => some (s.drop 1)
  | none =>
  match strtod_mantissa isdigit s with
  | some r => some (strtod_exponent 'e' r)
  | none => none

/-- The text from `end` on after libc `strtod(s, &end)`: all of `s` when no
    conversion is performed. -/
def strtod_end (s : CStr) : CStr :=
  let body := s.dropWhile isspace
  let rest :=
    match body with
    | c :: cs => if c = '-' || c = '+' then cs else body
    | [] => body
  match strtod_unsigned rest with
  | some r => r
  | none => s

/-- A `double`, by its bit pattern. -/
structure Double where
  bits : Nat
deriving DecidableEq, Repr, Inhabited

/-- What the development leaves to libc: the double a numeral denotes and the
    text `snprintf("%g")` prints for a double. -/
structure Libc where
  atof : CStr → Double
  fmt_g : Double → CStr

/-- Libc `strtod(s, &end)`: the value and the text from `end` on. -/
def strtod (L : Libc) (s : CStr) : Double × CStr :=
  let r := strtod_end s
  (L.atof (s.take (s.length - r.length)), r)

/-- Decimal digits of `n`, most significant first, in front of `acc`; `fuel`
    bounds the number of digits. -/
def fmt_digits : Nat → Nat → CStr → CStr
  | 0, _, acc => acc
  | fuel + 1, n, acc =>
    let acc1 := Char.ofNat (48 + n % 10) :: acc
    if n / 10 = 0 then acc1 else fmt_digits fuel (n / 10) acc1

/-- The text `snprintf("%ld")` prints. -/
def fmt_ld (n : Int) : CStr :=
  if n < 0 then '-' :: fmt_digits (n.natAbs + 1) n.natAbs []
  else fmt_digits (n.natAbs + 1) n.natAbs []

/-- The text `snprintf(buf, size, ...)` leaves in `buf`: at most `size - 1` bytes. -/
def snprintf_trunc (size : Nat) (s : CStr) : CStr := s.take (size - 1)

/-! ## Values and references (`ison.h`, `value.c`, `reference.c`) -/

/-- The struct `ison_reference_t`: three nullable strings. -/
structure ison_reference_t where
  id : Option CStr
  ns : Option CStr
  relationship : Option CStr
deriving DecidableEq, Repr, Inhabited

/-- The struct `ison_value_t`: the tag `type` with the active member of `data`. -/
inductive ison_value_t where
  | null
  | bool (bool_val : Bool)
  | int (int_val : Int)
  | float (float_val : Double)
  | string (string_val : Option CStr)
  | reference (ref_val : ison_reference_t)
deriving DecidableEq, Repr, Inhabited

/-- Source: `ison_null`. -/
def ison_null : ison_value_t := .null
/-- Source: `ison_bool`. -/
def ison_bool (value : Bool) : ison_value_t := .bool value
/-- Source: `ison_int`. -/
def ison_int (value : Int) : ison_value_t := .int value
/-- Source: `ison_float`. -/
def ison_float (value : Double) : ison_value_t := .float value
/-- Source: `ison_string` on a non-null argument. -/
def ison_string (value : CStr) : ison_value_t := .string (some value)
/-- Source: `ison_ref` on a non-null argument: the three strings are duplicated. -/
def ison_ref (ref : ison_reference_t) : ison_value_t := .reference ref

/-- Source: `ison_reference_to_ison`; `none` is the NULL it returns for a
    reference without id. -/
def ison_reference_to_ison (ref : ison_reference_t) : Option CStr :=
  match ref.id with
  | none => none
  | some id =>
    match ref.relationship with
    | some (c :: cs) => some (':' :: (c :: cs) ++ ':' :: id)
    | _ =>
      match ref.ns with
      | some (c :: cs) => some (':' :: (c :: cs) ++ ':' :: id)
      | _ => some (':' :: id)

/-- The escaping loop of `ison_value_to_ison` for a quoted string. -/
def escape_ison : CStr → CStr
  | [] => []
  | c :: cs =>
    if c = BSLASH then BSLASH :: BSLASH :: escape_ison cs
    else if c = DQUOTE then BSLASH :: DQUOTE :: escape_ison cs
    else if c = LF then BSLASH :: 'n' :: escape_ison cs
    else if c = TAB then BSLASH :: 't' :: escape_ison cs
    else c :: escape_ison cs

/-- The test `needs_quotes` of `ison_value_to_ison`. -/
def needs_quotes (str : CStr) : Bool :=
  str = [] || str.contains SP || str.contains TAB || str.contains LF || str.contains DQUOTE

/-- Source: `ison_value_to_ison` on a non-null value; `none` is a NULL result
    (a reference without id). -/
def ison_value_to_ison (L : Libc) (value : ison_value_t) : Option CStr :=
  match value with
  | .null => some ['~']
  | .bool b => some (if b then ['t', 'r', 'u', 'e'] else ['f', 'a', 'l', 's', 'e'])
  | .int n => some (fmt_ld n)
  | .float d => some (L.fmt_g d)
  | .string none => some ['~']
  | .string (some str) =>
    if needs_quotes str then some (DQUOTE :: escape_ison str ++ [DQUOTE]) else some str
  | .reference r => ison_reference_to_ison r

/-! ## Tokenizer and value decoding (`parse.c`) -/

/-- Source: `trim_right`: trailing `\r` and `\n` are cut. -/
def trim_right (str : CStr) : CStr := str.rdropWhile (fun c => c = CR || c = LF)

/-- Source: `trim`: white space is cut at both ends. -/
def trim (str : CStr) : CStr := (str.dropWhile isspace).rdropWhile isspace

/-- Source: `split_lines`.  `cur` is the line being scanned (the bytes between
    `p` and `end`); a line is closed by `\n` or by the end of the text, and the
    text after a final `\n` holds no further line. -/
def split_lines_loop : CStr → CStr → List CStr
  | [], cur => if cur = [] then [] else [trim_right cur]
  | c :: rest, cur =>
    if c = LF then trim_right cur :: split_lines_loop rest []
    else split_lines_loop rest (cur ++ [c])

/-- Source: `split_lines`. -/
def split_lines (text : CStr) : List CStr := split_lines_loop text []

/-- Source: `is_valid_kind`. -/
def is_valid_kind (kind : CStr) : Bool :=
  kind = ['t', 'a', 'b', 'l', 'e'] || kind = ['o', 'b', 'j', 'e', 'c', 't'] || kind = ['m', 'e', 't', 'a']

/-- The body of the `for` loop of `tokenize`, run on the bytes `line[i..len]`
    (the terminating NUL included): `current` is the token being built,
    the result lists the tokens stored from here on. -/
def tokenize_loop : CStr → CStr → Bool → Bool → List CStr
  | [], _, _, _ => []
  | ch :: rest, current, in_quotes, escaped =>
    if escaped then
      let c :=
        if ch = 'n' then LF
        else if ch = 't' then TAB
        else if ch = DQUOTE then DQUOTE
        else if ch = BSLASH then BSLASH
        else ch
      tokenize_loop rest (current ++ [c]) in_quotes false
    else if ch = BSLASH ∧ in_quotes then tokenize_loop rest current in_quotes true
    else if ch = DQUOTE then tokenize_loop rest current (!in_quotes) false
    else if !in_quotes ∧ (ch = SP ∨ ch = TAB ∨ ch = NUL) then
      if current.length > 0 then current :: tokenize_loop rest [] in_quotes false
      else tokenize_loop rest current in_quotes false
    else tokenize_loop rest (current ++ [ch]) in_quotes false

/-- Source: `tokenize`: the loop runs over `line[0..len]`, NUL included. -/
def tokenize (line : CStr) : List CStr := tokenize_loop (line ++ [NUL]) [] false false

/-- Source: `parse_field_def`: `(name, type_hint)` of a field token. -/
def parse_field_def (field : CStr) : CStr × CStr :=
  match split_at_char ':' field with
  | some (c :: cs, hint) => (c :: cs, hint)
  | _ => (field, [])

/-- Source: `is_all_upper`. -/
def is_all_upper (str : CStr) : Bool :=
  str ≠ [] && str.all (fun c => c = '_' || (65 ≤ c.toNat && c.toNat ≤ 90))

/-- Source: `parse_reference`. -/
def parse_reference (token : CStr) : ison_reference_t :=
  match token with
  | c :: copy =>
    if c = ':' then
      match split_at_char ':' copy with
      | none => { id := some copy, ns := none, relationship := none }
      | some (ns, id) =>
        if is_all_upper ns then { id := some id, ns := none, relationship := some ns }
        else { id := some id, ns := some ns, relationship := none }
    else { id := none, ns := none, relationship := none }
  | [] => { id := none, ns := none, relationship := none }

/-- The generic inference at the end of `parse_value_token`: `strtol`, then
    `strtod`, then the raw token. -/
def parse_value_generic (L : Libc) (token : CStr) : ison_value_t :=
  if (strtol token).2 = [] then ison_int (strtol token).1
  else if (strtod L token).2 = [] then ison_float (strtod L token).1
  else ison_string token

/-- Source: `parse_value_token` on a non-null token. -/
def parse_value_token (L : Libc) (token : CStr) (type_hint : Option CStr) : ison_value_t :=
  if token = ['~'] ∨ strcaseeq token ['n', 'u', 'l', 'l'] then ison_null
  else if strcaseeq token ['t', 'r', 'u', 'e'] then ison_bool true
  else if strcaseeq token ['f', 'a', 'l', 's', 'e'] then ison_bool false
  else if token.head? = some ':' then ison_ref (parse_reference token)
  else
    match type_hint with
    | some (h :: hs) =>
      if h :: hs = ['i', 'n', 't'] then
        if (strtol token).2 = [] then ison_int (strtol token).1
        else parse_value_generic L token
      else if h :: hs = ['f', 'l', 'o', 'a', 't'] then
        if (strtod L token).2 = [] then ison_float (strtod L token).1
        else parse_value_generic L token
      else if h :: hs = ['b', 'o', 'o', 'l'] then
        if token = ['t', 'r', 'u', 'e'] ∨ token = ['1'] then ison_bool true
        else if token = ['f', 'a', 'l', 's', 'e'] ∨ token = ['0'] then ison_bool false
        else parse_value_generic L token
      else if h :: hs = ['s', 't', 'r', 'i', 'n', 'g'] then ison_string token
      else parse_value_generic L token
    | _ => parse_value_generic L token

/-! ## Rows, blocks and documents (`row.c`, `block.c`, `document.c`) -/

/-- The struct `ison_row_t`: the linked list of `(key, value)` entries from
    `head` on, and `count`. -/
structure ison_row_t where
  entries : List (CStr × ison_value_t)
  count : Nat
deriving DecidableEq, Repr, Inhabited

/-- Source: `ison_row_create`. -/
def ison_row_create : ison_row_t := { entries := [], count := 0 }

/-- The search loop of `ison_row_set`: the entries with the value of the first
    entry keyed `key` replaced, or `none` when no entry has that key. -/
def row_replace (key : CStr) (value : ison_value_t) :
    List (CStr × ison_value_t) → Option (List (CStr × ison_value_t))
  | [] => none
  | e :: es =>
    if e.1 = key then some ((e.1, value) :: es)
    else match row_replace key value es with
      | some es1 => some (e :: es1)
      | none => none

/-- Source: `ison_row_set`. -/
def ison_row_set (row : ison_row_t) (key : CStr) (value : ison_value_t) : ison_row_t :=
  match row_replace key value row.entries with
  | some es => { row with entries := es }
  | none => { entries := row.entries ++ [(key, value)], count := row.count + 1 }

/-- The search loop of `ison_row_get` and `ison_row_get_ptr`. -/
def row_find (key : CStr) : List (CStr × ison_value_t) → Option ison_value_t
  | [] => none
  | e :: es => if e.1 = key then some e.2 else row_find key es

/-- Source: `ison_row_get_ptr`, and `ison_row_get` (`none` is its `false`). -/
def ison_row_get (row : ison_row_t) (key : CStr) : Option ison_value_t :=
  row_find key row.entries

/-- The struct `ison_field_info_t`. -/
structure ison_field_info_t where
  name : CStr
  type_hint : Option CStr
deriving DecidableEq, Repr, Inhabited

/-- The struct `ison_block_t`. -/
structure ison_block_t where
  kind : CStr
  name : CStr
  fields : List ison_field_info_t
  rows : List ison_row_t
  summary_row : Option ison_row_t
deriving DecidableEq, Repr, Inhabited

/-- Source: `ison_block_create`. -/
def ison_block_create (kind name : CStr) : ison_block_t :=
  { kind := kind, name := name, fields := [], rows := [], summary_row := none }

/-- Source: `ison_block_add_field`. -/
def ison_block_add_field (block : ison_block_t) (name : CStr) (type_hint : Option CStr) :
    ison_block_t :=
  { block with fields := block.fields ++ [{ name := name, type_hint := type_hint }] }

/-- The copy loop shared by `ison_block_add_row` and `ison_block_set_summary`:
    every entry of `row` is set on a fresh row. -/
def row_copy (row : ison_row_t) : ison_row_t :=
  row.entries.foldl (fun copy e => ison_row_set copy e.1 e.2) ison_row_create

/-- Source: `ison_block_add_row`. -/
def ison_block_add_row (block : ison_block_t) (row : ison_row_t) : ison_block_t :=
  { block with rows := block.rows ++ [row_copy row] }

/-- Source: `ison_block_set_summary` on a non-null row: a summary already
    there is freed and replaced. -/
def ison_block_set_summary (block : ison_block_t) (row : ison_row_t) : ison_block_t :=
  { block with summary_row := some (row_copy row) }

/-- The struct `ison_document_t`. -/
structure ison_document_t where
  blocks : List ison_block_t
  order : List CStr
deriving DecidableEq, Repr, Inhabited

/-- Source: `ison_document_create`. -/
def ison_document_create : ison_document_t := { blocks := [], order := [] }

/-- The search loop of `ison_document_add_block`: the first block named like
    `block` replaced by it, or `none` when there is none. -/
def blocks_replace (block : ison_block_t) : List ison_block_t → Option (List ison_block_t)
  | [] => none
  | b :: bs =>
    if b.name = block.name then some (block :: bs)
    else match blocks_replace block bs with
      | some bs1 => some (b :: bs1)
      | none => none

/-- Source: `ison_document_add_block`. -/
def ison_document_add_block (doc : ison_document_t) (block : ison_block_t) : ison_document_t :=
  match blocks_replace block doc.blocks with
  | some bs => { doc with blocks := bs }
  | none => { blocks := doc.blocks ++ [block], order := doc.order ++ [block.name] }

/-- Source: `ison_document_get`. -/
def ison_document_get (doc : ison_document_t) (name : CStr) : Option ison_block_t :=
  doc.blocks.find? (fun b => b.name = name)

/-! ## The ISON parser (`parse.c`) -/

/-- The header test shared by `ison_parse` and `parse_block`: the line has a
    `.`, does not start with a double quote, and the text before its first `.`
    is a valid kind.  Returns `(kind, name)`. -/
def block_header (line : CStr) : Option (CStr × CStr) :=
  match split_at_char '.' line with
  | some (kind, name) =>
    if line.head? ≠ some DQUOTE ∧ is_valid_kind kind then some (kind, name) else none
  | none => none

/-- The loop of `parse_block` that reads the field tokens into the block. -/
def add_fields (block : ison_block_t) (field_tokens : List CStr) : ison_block_t :=
  field_tokens.foldl
    (fun b tok => ison_block_add_field b (parse_field_def tok).1 (some (parse_field_def tok).2))
    block

/-- The loop of `parse_block` and `ison_parse_isonl` that fills a row: token
    `i` is decoded under the hint of field `i` and set under its name, for
    `i < token_count && i < field_count`. -/
def build_row (L : Libc) (fields : List ison_field_info_t) (tokens : List CStr) : ison_row_t :=
  (tokens.zip fields).foldl
    (fun row tf => ison_row_set row tf.2.name (parse_value_token L tf.1 tf.2.type_hint))
    ison_row_create

/-- The row loop of `parse_block`, on the lines from `p->pos` on; returns the
    block and the lines left for the caller. -/
def parse_rows (L : Libc) : ison_block_t → Bool → List CStr → ison_block_t × List CStr
  | block, _, [] => (block, [])
  | block, in_summary, raw :: rest =>
    let line := trim raw
    if line = [] then (block, rest)
    else if line.head? = some '#' then parse_rows L block in_summary rest
    else if (block_header line).isSome then (block, raw :: rest)
    else if line = ['-', '-', '-'] then parse_rows L block true rest
    else
      let row := build_row L block.fields (tokenize line)
      if in_summary then parse_rows L (ison_block_set_summary block row) in_summary rest
      else parse_rows L (ison_block_add_row block row) in_summary rest

/-- The first loop of `parse_block`: blank lines and comment lines after the
    header are passed over. -/
def skip_to_fields : List CStr → List CStr
  | [] => []
  | raw :: rest =>
    if trim raw ≠ [] ∧ (trim raw).head? ≠ some '#' then raw :: rest
    else skip_to_fields rest

/-- Source: `parse_block`, on the lines after the header line. -/
def parse_block (L : Libc) (kind name : CStr) (lines : List CStr) : ison_block_t × List CStr :=
  let block := ison_block_create kind name
  match skip_to_fields lines with
  | [] => (block, [])
  | fields_line :: rest =>
    parse_rows L (add_fields block (tokenize (trim fields_line))) false rest

/-- The main loop of `ison_parse` on the lines from `p.pos` on.  Every turn
    passes at least one line, so `fuel` equal to the number of lines is enough. -/
def ison_parse_loop (L : Libc) : Nat → List CStr → ison_document_t → ison_document_t
  | 0, _, doc => doc
  | _ + 1, [], doc => doc
  | fuel + 1, raw :: rest, doc =>
    let line := trim raw
    if line = [] ∨ line.head? = some '#' then ison_parse_loop L fuel rest doc
    else
      match block_header line with
      | some (kind, name) =>
        let r := parse_block L kind name rest
        ison_parse_loop L fuel r.2 (ison_document_add_block doc r.1)
      | none => ison_parse_loop L fuel rest doc

/-- Source: `ison_parse` on a non-null text (the error code is always `ISON_OK`). -/
def ison_parse (L : Libc) (text : CStr) : ison_document_t :=
  ison_parse_loop L (split_lines text).length (split_lines text) ison_document_create

/-! ## The ISONL parser (`parse.c`) -/

/-- The block `ison_document_get` points to, changed in place by `f`: the
    first block of the list named `name`. -/
def blocks_update (name : CStr) (f : ison_block_t → ison_block_t) :
    List ison_block_t → List ison_block_t
  | [] => []
  | b :: bs => if b.name = name then f b :: bs else b :: blocks_update name f bs

/-- The body of the `for` loop of `ison_parse_isonl`, for one line. -/
def isonl_line (L : Libc) (doc : ison_document_t) (raw : CStr) : ison_document_t :=
  let line := trim raw
  if line = [] ∨ line.head? = some '#' then doc
  else
    match split_at_char '|' line with
    | none => doc
    | some (header, after_p1) =>
      match split_at_char '|' after_p1 with
      | none => doc
      | some (fields_str, data_str) =>
        match split_at_char '.' header with
        | none => doc
        | some (kind, name) =>
          let doc1 :=
            match ison_document_get doc name with
            | some _ => doc
            | none =>
              ison_document_add_block doc
                (add_fields (ison_block_create kind name) (tokenize fields_str))
          { doc1 with
            blocks := blocks_update name
              (fun block => ison_block_add_row block
                (build_row L block.fields (tokenize data_str)))
              doc1.blocks }

/-- Source: `ison_parse_isonl` on a non-null text (the error code is always `ISON_OK`). -/
def ison_parse_isonl (L : Libc) (text : CStr) : ison_document_t :=
  (split_lines text).foldl (isonl_line L) ison_document_create

/-! ## The serialisers (`dump.c`) -/

/-- The struct `ison_dumps_options_t`. -/
structure ison_dumps_options_t where
  align_columns : Bool
  delimiter : Option CStr
deriving DecidableEq, Repr, Inhabited

/-- The text the field loops of `dump.c` append for one field: `name`, or
    `name:hint` through a 256-byte `snprintf` when the hint is non-empty. -/
def field_token (f : ison_field_info_t) : CStr :=
  match f.type_hint with
  | some (c :: cs) => snprintf_trunc 256 (f.name ++ ':' :: c :: cs)
  | _ => f.name

/-- The text the value loops of `dump.c` append for one field of a row: the
    encoding of the value (nothing when `ison_value_to_ison` returns NULL), or
    `~` for a field the row does not have. -/
def value_token (L : Libc) (row : ison_row_t) (f : ison_field_info_t) : CStr :=
  match ison_row_get row f.name with
  | some val =>
    match ison_value_to_ison L val with
    | some str => str
    | none => []
  | none => ['~']

/-- A `for (j = 0; j < n; j++)` loop of `dump.c` that appends `delim` when
    `j > 0` and then the item `j`. -/
def append_joined (delim : CStr) (items : List CStr) (buf : CStr) : CStr :=
  items.enum.foldl (fun b jx => (if jx.1 > 0 then b ++ delim else b) ++ jx.2) buf

/-- The row lines `ison_dumps_with_options` appends for one row. -/
def append_row (L : Libc) (delim : CStr) (fields : List ison_field_info_t) (row : ison_row_t)
    (buf : CStr) : CStr :=
  append_joined delim (fields.map (value_token L row)) buf ++ [LF]

/-- The body of the block loop of `ison_dumps_with_options` after the lookup. -/
def append_block (L : Libc) (delim : CStr) (block : ison_block_t) (buf : CStr) : CStr :=
  let buf1 := buf ++ snprintf_trunc 256 (block.kind ++ '.' :: block.name ++ [LF])
  let buf2 := append_joined delim (block.fields.map field_token) buf1 ++ [LF]
  let buf3 := block.rows.foldl (fun b row => append_row L delim block.fields row b) buf2
  match block.summary_row with
  | some srow => append_row L delim block.fields srow (buf3 ++ ['-', '-', '-', LF])
  | none => buf3

/-- Source: `ison_dumps_with_options` on a non-null document. -/
def ison_dumps_with_options (L : Libc) (doc : ison_document_t)
    (opts : Option ison_dumps_options_t) : CStr :=
  let delim : CStr :=
    match opts with
    | some o => match o.delimiter with
      | some d => d
      | none => [SP]
    | none => [SP]
  doc.order.enum.foldl
    (fun buf ix =>
      let buf1 := if ix.1 > 0 then buf ++ [LF] else buf
      match ison_document_get doc ix.2 with
      | none => buf1
      | some block => append_block L delim block buf1)
    []

/-- Source: `ison_dumps`. -/
def ison_dumps (L : Libc) (doc : ison_document_t) : CStr := ison_dumps_with_options L doc none

/-- The body of the block loop of `ison_dumps_isonl` after the lookup; `i` is
    the index of the block in `order`. -/
def append_block_isonl (L : Libc) (i : Nat) (block : ison_block_t) (buf : CStr) : CStr :=
  let header := snprintf_trunc 256 (block.kind ++ '.' :: block.name ++ ['|'])
  let buf1 := append_joined [SP] (block.fields.map field_token) buf ++ ['|']
  block.rows.enum.foldl
    (fun b rrow =>
      let b1 := if rrow.1 > 0 ∨ i > 0 then b ++ [LF] else b
      let b2 := b1 ++ header
      let b3 := append_joined [SP] (block.fields.map field_token) b2 ++ ['|']
      append_joined [SP] (block.fields.map (value_token L rrow.2)) b3)
    buf1

/-- Source: `ison_dumps_isonl` on a non-null document. -/
def ison_dumps_isonl (L : Libc) (doc : ison_document_t) : CStr :=
  doc.order.enum.foldl
    (fun buf ix =>
      match ison_document_get doc ix.2 with
      | none => buf
      | some block => append_block_isonl L ix.1 block buf)
    []

/-! ## Vocabulary of the statements -/

/-- A libc whose doubles are all `+0.0`, printed `0`: for closed instances of
    statements that hold for every libc. -/
def libc_zero : Libc := { atof := fun _ => { bits := 0 }, fmt_g := fun _ => ['0'] }

/-- The text made of the given lines, each one closed by a line feed. -/
def unlines (ls : List CStr) : CStr := (ls.map (fun l => l ++ [LF])).flatten

/-- A line that the row loop of `parse_block` reads as a row: once trimmed it
    is not blank, not a comment, not a block header and not the `---` marker. -/
def is_row_line (raw : CStr) : Bool :=
  !decide (trim raw = []) && !decide ((trim raw).head? = some '#') &&
    !(block_header (trim raw)).isSome && !decide (trim raw = ['-', '-', '-'])

/-- The row `parse_block` stores for a row line: the row built from its
    tokens, copied into the block. -/
def row_of_line (L : Libc) (fields : List ison_field_info_t) (raw : CStr) : ison_row_t :=
  row_copy (build_row L fields (tokenize (trim raw)))

/-- The field `parse_block` adds for one token of the field-definition line. -/
def field_of_token (tok : CStr) : ison_field_info_t :=
  { name := (parse_field_def tok).1, type_hint := some (parse_field_def tok).2 }

/-- The field list `parse_block` reads from a field-definition line. -/
def fields_of_line (raw : CStr) : List ison_field_info_t :=
  (tokenize (trim raw)).map field_of_token

/-- The items joined by `d`: `d` stands between consecutive items only. -/
def join_with (d : CStr) : List CStr → CStr
  | [] => []
  | [x] => x
  | x :: y :: ys => x ++ d ++ join_with d (y :: ys)

/-- The delimiter `ison_dumps_with_options` uses: the one of the options, one
    space when there are no options or no delimiter is given. -/
def delimiter_of (opts : Option ison_dumps_options_t) : CStr :=
  match opts with
  | some o => match o.delimiter with
    | some d => d
    | none => [SP]
  | none => [SP]

/-- The field token of the specification: `name`, or `name:hint` when the hint
    is non-empty. -/
def spec_field_token (f : ison_field_info_t) : CStr :=
  match f.type_hint with
  | some (c :: cs) => f.name ++ ':' :: c :: cs
  | _ => f.name

/-- The row line of the specification: each declared field's value rendered by
    `ison_value_to_ison`, or `~` when the row does not have the field, joined
    by the delimiter. -/
def spec_row_line (L : Libc) (d : CStr) (fields : List ison_field_info_t) (row : ison_row_t) : CStr :=
  join_with d (fields.map (value_token L row))

/-- The lines of a block in the ISON text of the specification: `kind.name`,
    the field line, one line per data row and, when there is a summary row,
    `---` and the summary row. -/
def spec_block_lines (L : Libc) (d : CStr) (b : ison_block_t) : List CStr :=
  (b.kind ++ '.' :: b.name) :: join_with d (b.fields.map spec_field_token) ::
    (b.rows.map (spec_row_line L d b.fields) ++
      match b.summary_row with
      | some srow => [['-', '-', '-'], spec_row_line L d b.fields srow]
      | none => [])

/-- The ISON text of the specification: the blocks in document order, every
    line closed by a newline, one more newline between consecutive blocks. -/
def spec_dumps (L : Libc) (d : CStr) (doc : ison_document_t) : CStr :=
  join_with [LF] (doc.blocks.map (fun b => unlines (spec_block_lines L d b)))

/-- The invariant of a document built by `ison_document_add_block`: block names
    are pairwise distinct and `order` lists them. -/
def document_wf (doc : ison_document_t) : Prop :=
  doc.order = doc.blocks.map (fun b => b.name) ∧ (doc.blocks.map (fun b => b.name)).Nodup

/-- The header line and the field tokens of the block fit the 256-byte buffers
    of `dump.c`. -/
def block_fits (b : ison_block_t) : Prop :=
  b.kind.length + b.name.length + 2 ≤ 255 ∧
  ∀ f ∈ b.fields, f.type_hint = none ∨ f.type_hint = some [] ∨
    f.name.length + 1 + (f.type_hint.getD []).length ≤ 255

instance (doc : ison_document_t) : Decidable (document_wf doc) := by
  unfold document_wf; infer_instance

instance (b : ison_block_t) : Decidable (block_fits b) := by
  unfold block_fits; infer_instance

/-- A table `t` with the field `a`, no rows, whose name has 250 bytes. -/
def doc_long_name : ison_document_t :=
  { blocks := [{ kind := ['t', 'a', 'b', 'l', 'e'], name := List.replicate 250 'n',
                 fields := [{ name := ['a'], type_hint := some [] }], rows := [],
                 summary_row := none }],
    order := [List.replicate 250 'n'] }

/-- A table `t` with the field `a` and the one row `a = 1`. -/
def doc_one_row : ison_document_t :=
  { blocks := [{ kind := ['t', 'a', 'b', 'l', 'e'], name := ['t'],
                 fields := [{ name := ['a'], type_hint := some [] }],
                 rows := [{ entries := [(['a'], ison_value_t.int 1)], count := 1 }],
                 summary_row := none }],
    order := [['t']] }

/-- The ISONL line of the specification for one row: `kind.name`, `|`, the
    field tokens joined by one space, `|`, the rendered values joined by one space. -/
def spec_isonl_line (L : Libc) (b : ison_block_t) (row : ison_row_t) : CStr :=
  (b.kind ++ '.' :: b.name) ++ '|' :: join_with [SP] (b.fields.map spec_field_token) ++
    '|' :: spec_row_line L [SP] b.fields row

/-- The ISONL lines of the specification: one per data row, blocks in
    document order, rows in row order. -/
def spec_isonl_lines (L : Libc) (doc : ison_document_t) : List CStr :=
  (doc.blocks.map (fun b => b.rows.map (spec_isonl_line L b))).flatten

/-- The ISONL text of the specification: the lines, a newline between them. -/
def spec_dumps_isonl (L : Libc) (doc : ison_document_t) : CStr :=
  join_with [LF] (spec_isonl_lines L doc)

/-! ## Round-trip vocabulary -/

/-- No byte of `s` is a space, a tab, a line feed, a double quote or NUL: read
    outside quotes, `s` stays inside one token and one line. -/
def plain_bytes (s : CStr) : Bool :=
  s.all (fun c => decide (c ≠ SP) && decide (c ≠ TAB) && decide (c ≠ LF) && decide (c ≠ DQUOTE)
    && decide (c ≠ NUL))

/-- The first byte of `s`, if any, is not white space. -/
def starts_trimmed (s : CStr) : Bool :=
  match s.head? with
  | some c => !isspace c
  | none => true

/-- The last byte of `s`, if any, is not white space. -/
def ends_trimmed (s : CStr) : Bool :=
  match s.getLast? with
  | some c => !isspace c
  | none => true

/-- A text that is one token when written bare: not empty, plain bytes, no
    white space at either end. -/
def bare_token (s : CStr) : Bool :=
  decide (s ≠ []) && plain_bytes s && starts_trimmed s && ends_trimmed s

/-- The token `s` decodes to the String `s` under `hint`: it is none of `~`,
    `null`, `true`, `false` (any letter case), does not start with `:` and,
    unless the hint is `string`, is accepted neither by `strtol` nor by `strtod`. -/
def string_decodes (s : CStr) (hint : Option CStr) : Bool :=
  decide (s ≠ ['~']) && !strcaseeq s ['n', 'u', 'l', 'l'] && !strcaseeq s ['t', 'r', 'u', 'e'] &&
    !strcaseeq s ['f', 'a', 'l', 's', 'e'] && decide (s.head? ≠ some ':') &&
    (decide (hint = some ['s', 't', 'r', 'i', 'n', 'g']) ||
      (decide ((strtol s).2 ≠ []) && decide (strtod_end s ≠ [])))

/-- A reference that its own token decodes to: an id, and either an
    all-capitals relationship, or a namespace that is not all capitals and has
    no `:`, or no qualifier and an id without `:`; all parts of plain bytes. -/
def reference_safe (r : ison_reference_t) : Bool :=
  match r.id, r.relationship, r.ns with
  | some id, some rel, none => is_all_upper rel && plain_bytes id && ends_trimmed id
  | some id, none, some ns =>
    decide (ns ≠ []) && !is_all_upper ns && !ns.contains ':' && plain_bytes ns &&
      plain_bytes id && ends_trimmed id
  | some id, none, none => !id.contains ':' && plain_bytes id && ends_trimmed id
  | _, _, _ => false

/-- A value that survives being printed and decoded again under `hint`.
    Null and Bool always do.  An Int does when it is a 64-bit value and the
    hint does not turn its digits into another type.  A String does when it is
    not empty, is a single token (quoted, or bare without white space at its
    ends and without NUL) and decodes to itself.  A Float never does here. -/
def value_safe (v : ison_value_t) (hint : Option CStr) : Bool :=
  match v with
  | .null => true
  | .bool _ => true
  | .int n =>
    decide (LONG_MIN ≤ n) && decide (n ≤ LONG_MAX) &&
      decide (hint ≠ some ['f', 'l', 'o', 'a', 't']) &&
      decide (hint ≠ some ['s', 't', 'r', 'i', 'n', 'g']) &&
      (decide (hint ≠ some ['b', 'o', 'o', 'l']) || (decide (n ≠ 0) && decide (n ≠ 1)))
  | .float _ => false
  | .string none => false
  | .string (some s) =>
    decide (s ≠ []) &&
      (needs_quotes s || (!s.contains NUL && starts_trimmed s && ends_trimmed s)) &&
      string_decodes s hint
  | .reference r => reference_safe r

/-- A field that its own token of the field line decodes to: a bare name
    without `:`, and a hint (not NULL) of plain bytes without white space at its end. -/
def field_safe (f : ison_field_info_t) : Bool :=
  bare_token f.name && !f.name.contains ':' &&
    match f.type_hint with
    | some h => plain_bytes h && ends_trimmed h
    | none => false

/-- Every declared field has a safe value in the row. -/
def row_values_safe (fields : List ison_field_info_t) (row : ison_row_t) : Bool :=
  fields.all (fun f =>
    match ison_row_get row f.name with
    | some v => value_safe v f.type_hint
    | none => false)

/-- A row that survives `ison_dumps` and `ison_parse`: every declared field has
    a safe value, and the line printed for the row is read as a row (it does
    not start with `#`, is not `---` and does not start like a block header). -/
def row_safe (L : Libc) (fields : List ison_field_info_t) (row : ison_row_t) : Bool :=
  row_values_safe fields row && is_row_line (spec_row_line L [SP] fields row)

/-- A block that survives `ison_dumps` and `ison_parse`: a valid kind; a name on
    one line without white space at its end; header and field tokens within
    the buffers of `dump.c`; at least one field, the first not starting with
    `#`; safe fields, rows and summary row. -/
def block_safe (L : Libc) (b : ison_block_t) : Bool :=
  is_valid_kind b.kind && !b.name.contains LF && ends_trimmed b.name && decide (block_fits b) &&
    decide (b.fields ≠ []) && decide ((b.fields.map (fun f => f.name)).head?.bind List.head? ≠ some '#') &&
    b.fields.all field_safe && b.rows.all (row_safe L b.fields) &&
    match b.summary_row with
    | some srow => row_safe L b.fields srow
    | none => true

/-- A document that survives `ison_dumps` and `ison_parse`. -/
def document_safe (L : Libc) (doc : ison_document_t) : Bool :=
  decide (document_wf doc) && doc.blocks.all (block_safe L)

/-- The two rows give every declared field the same value (or both lack it). -/
def row_agrees (fields : List ison_field_info_t) (r1 r2 : ison_row_t) : Prop :=
  ∀ f ∈ fields, ison_row_get r1 f.name = ison_row_get r2 f.name

/-- The two optional summary rows are both absent, or both present and agree. -/
def summary_agrees (fields : List ison_field_info_t) : Option ison_row_t → Option ison_row_t → Prop
  | none, none => True
  | some r1, some r2 => row_agrees fields r1 r2
  | _, _ => False

/-- Field-for-field equality of blocks: same kind, name, field names and
    hints; the rows agree pairwise, in order; the summary rows agree. -/
def block_agrees (b1 b2 : ison_block_t) : Prop :=
  b1.kind = b2.kind ∧ b1.name = b2.name ∧ b1.fields = b2.fields ∧
    List.Forall₂ (row_agrees b1.fields) b1.rows b2.rows ∧
    summary_agrees b1.fields b1.summary_row b2.summary_row

/-- Field-for-field equality of documents: the blocks agree pairwise, in
    order, and the orders are equal. -/
def document_agrees (d1 d2 : ison_document_t) : Prop :=
  List.Forall₂ block_agrees d1.blocks d2.blocks ∧ d1.order = d2.order

/-- A table `t` with the field `a` and the one row `a = "1"`, a String. -/
def doc_string_one : ison_document_t :=
  { blocks := [{ kind := ['t', 'a', 'b', 'l', 'e'], name := ['t'],
                 fields := [{ name := ['a'], type_hint := some [] }],
                 rows := [{ entries := [(['a'], ison_value_t.string (some ['1']))], count := 1 }],
                 summary_row := none }],
    order := [['t']] }

/-- The table `users` (fields `id:int`, `name`, `boss`; two rows and a summary
    row) and the object `conf` (field `motto`, one row with a quoted string). -/
def doc_sample : ison_document_t :=
  { blocks :=
      [{ kind := ['t', 'a', 'b', 'l', 'e'], name := ['u', 's', 'e', 'r', 's'],
         fields := [{ name := ['i', 'd'], type_hint := some ['i', 'n', 't'] },
                    { name := ['n', 'a', 'm', 'e'], type_hint := some [] },
                    { name := ['b', 'o', 's', 's'], type_hint := some [] }],
         rows := [{ entries := [(['i', 'd'], ison_value_t.int 1),
                                (['n', 'a', 'm', 'e'], ison_value_t.string (some ['A', 'l'])),
                                (['b', 'o', 's', 's'], ison_value_t.null)],
                    count := 3 },
                  { entries := [(['n', 'a', 'm', 'e'], ison_value_t.string (some ['B', 'o'])),
                                (['i', 'd'], ison_value_t.int (-2)),
                                (['b', 'o', 's', 's'], ison_value_t.reference
                                  { id := some ['1'], ns := none, relationship := some ['O', 'F'] })],
                    count := 3 }],
         summary_row := some { entries := [(['i', 'd'], ison_value_t.int 2),
                                           (['n', 'a', 'm', 'e'], ison_value_t.bool true),
                                           (['b', 'o', 's', 's'], ison_value_t.null)],
                               count := 3 } },
       { kind := ['o', 'b', 'j', 'e', 'c', 't'], name := ['c', 'o', 'n', 'f'],
         fields := [{ name := ['m', 'o', 't', 't', 'o'], type_hint := some [] }],
         rows := [{ entries := [(['m', 'o', 't', 't', 'o'],
                                 ison_value_t.string (some ['a', ' ', DQUOTE, 'b', DQUOTE]))],
                    count := 1 }],
         summary_row := none }],
    order := [['u', 's', 'e', 'r', 's'], ['c', 'o', 'n', 'f']] }

/-- Read by the tokenizer from the start of a token, outside quotes, the text
    `r` leaves the token `tok` in `current`, outside quotes again. -/
def reads_as (r tok : CStr) : Prop :=
  ∀ rest : CStr, tokenize_loop (r ++ rest) [] false false = tokenize_loop rest tok false false

/-- The lines that follow a block in the ISON text when the blocks `bs` come
    after it: nothing, or a blank line and the lines of `bs`. -/
def spec_doc_lines (L : Libc) (d : CStr) : List ison_block_t → List CStr
  | [] => []
  | [b] => spec_block_lines L d b
  | b :: b2 :: bs => spec_block_lines L d b ++ [] :: spec_doc_lines L d (b2 :: bs)

/-- The block `ison_parse` reads back from the lines `ison_dumps` prints for
    `b`: same kind, name and fields; every row, and the summary row, read from
    its printed line. -/
def reparse_block (L : Libc) (b : ison_block_t) : ison_block_t :=
  { kind := b.kind, name := b.name, fields := b.fields,
    rows := b.rows.map (fun r => row_of_line L b.fields (spec_row_line L [SP] b.fields r)),
    summary_row :=
      b.summary_row.map (fun r => row_of_line L b.fields (spec_row_line L [SP] b.fields r)) }

/-- A block whose ISONL lines `ison_parse_isonl` reads back: a valid kind; a
    name without line feed and without `|`; safe fields without `|`; rows that
    give every declared field a safe value. -/
def block_safe_isonl (b : ison_block_t) : Bool :=
  is_valid_kind b.kind && !b.name.contains LF && !b.name.contains '|' &&
    b.fields.all (fun f => field_safe f && !f.name.contains '|' &&
      !(f.type_hint.getD []).contains '|') &&
    b.rows.all (row_values_safe b.fields)

/-- A document whose ISONL lines `ison_parse_isonl` reads back. -/
def document_safe_isonl (doc : ison_document_t) : Bool :=
  decide (document_wf doc) && doc.blocks.all block_safe_isonl

/-- The block `ison_parse_isonl` builds from the ISONL lines of `b`: same
    kind, name and fields, every row read from its line, no summary row. -/
def reparse_block_isonl (L : Libc) (b : ison_block_t) : ison_block_t :=
  { kind := b.kind, name := b.name, fields := b.fields,
    rows := b.rows.map (fun r => row_of_line L b.fields (spec_row_line L [SP] b.fields r)),
    summary_row := none }

/-- A table `e` with the field `x` and no rows, then a table `t` with the field
    `a` and the one row `a = "1"`, a String. -/
def doc_two_blocks : ison_document_t :=
  { blocks := [{ kind := ['t', 'a', 'b', 'l', 'e'], name := ['e'],
                 fields := [{ name := ['x'], type_hint := some [] }], rows := [],
                 summary_row := none },
               { kind := ['t', 'a', 'b', 'l', 'e'], name := ['t'],
                 fields := [{ name := ['a'], type_hint := some [] }],
                 rows := [{ entries := [(['a'], ison_value_t.string (some ['1']))], count := 1 }],
                 summary_row := none }],
    order := [['e'], ['t']] }

/-- The maximal runs of characters other than space and tab of a line, in
    order, the empty ones left out: the line is cut at every space and tab and
    the non-empty pieces are kept. This follows the words of the tokenizer
    property for lines without a quote, to be compared with `tokenize`. -/
def unquoted_runs (line : CStr) : List CStr :=
  (line.splitOnP (fun c => c == SP || c == TAB)).filter (fun w => !w.isEmpty)

/-- The enum `ison_error_t`. -/
inductive ison_error_t where
  | ISON_OK
  | ISON_ERROR_MEMORY
  | ISON_ERROR_PARSE
  | ISON_ERROR_IO
  | ISON_ERROR_INVALID
deriving DecidableEq, Repr, Inhabited

/-- Source: `ison_parse` with its out-parameter `error`, on a text that may be
    null: the error code is set to `ISON_OK` first, and a null text gives an
    empty document. -/
def ison_parse_with_error (L : Libc) (text : Option CStr) : ison_document_t × ison_error_t :=
  match text with
  | none => (ison_document_create, ison_error_t.ISON_OK)
  | some t => (ison_parse L t, ison_error_t.ISON_OK)

/-- Source: `ison_parse_isonl` with its out-parameter `error`, on a text that
    may be null. -/
def ison_parse_isonl_with_error (L : Libc) (text : Option CStr) :
    ison_document_t × ison_error_t :=
  match text with
  | none => (ison_document_create, ison_error_t.ISON_OK)
  | some t => (ison_parse_isonl L t, ison_error_t.ISON_OK)

/-- The main loop of `ison_parse` run for at most `fuel` turns: `none` when
    lines are left and no turn is. -/
def ison_parse_run (L : Libc) : Nat → List CStr → ison_document_t → Option ison_document_t
  | _, [], doc => some doc
  | 0, _ :: _, _ => none
  | fuel + 1, raw :: rest, doc =>
    let line := trim raw
    if line = [] ∨ line.head? = some '#' then ison_parse_run L fuel rest doc
    else
      match block_header line with
      | some (kind, name) =>
        let r := parse_block L kind name rest
        ison_parse_run L fuel r.2 (ison_document_add_block doc r.1)
      | none => ison_parse_run L fuel rest doc

/-- One ISONL line with the parts the loop body of `ison_parse_isonl` cuts it
    into: the raw line, the kind, the field segment and the data segment. -/
structure isonl_parts where
  raw : CStr
  kind : CStr
  fields_str : CStr
  data_str : CStr
deriving DecidableEq, Repr, Inhabited

/-- The line is a well-formed ISONL line of the block `name`: once trimmed it
    reads `kind.name|fields|data`, the kind has no `.`, neither the kind, the
    name nor the field segment has a `|`, and the line is no comment and holds
    no line feed. -/
def isonl_wellformed (name : CStr) (p : isonl_parts) : Bool :=
  decide (trim p.raw = p.kind ++ '.' :: (name ++ '|' :: (p.fields_str ++ '|' :: p.data_str))) &&
    decide ('.' ∉ p.kind) && decide ('|' ∉ p.kind) && decide ('|' ∉ name) &&
    decide ('|' ∉ p.fields_str) && decide ((trim p.raw).head? ≠ some '#') &&
    decide (LF ∉ p.raw)

/-! ## JSON output (`value.c`, `convert.c`) -/

/-- How a C call ends in the JSON functions: with a result; not within the
    turns it was given (`out_of_fuel`); or by an operation C leaves undefined,
    an access outside an object or a second `free` of the same block
    (`undefined`). -/
inductive outcome (α : Type) where
  | ok (a : α)
  | out_of_fuel
  | undefined
deriving DecidableEq, Repr, Inhabited

/-- What the JSON functions leave to the machine: whether plain `char` is
    signed; the bytes `strdup` reads at the address of a row struct; the bytes
    a read finds where a string stood before `free` released it; the
    conversions `(int64_t)d` and `(double)i`; and `==` on doubles. -/
structure Machine where
  char_signed : Bool
  row_image : ison_row_t → CStr
  freed_image : CStr → CStr
  to_int64 : Double → Int
  of_int64 : Int → Double
  double_eq : Double → Double → Bool

/-- The test `str[i] < 0x20` on a plain `char`: true for the bytes below 32
    and, where `char` is signed, for the bytes from 128 on (negative values). -/
def char_lt_0x20 (M : Machine) (c : Char) : Bool :=
  decide (c.toNat < 32) || (M.char_signed && decide (128 ≤ c.toNat))

/-- One lower-case hexadecimal digit. -/
def hex_digit (n : Nat) : Char :=
  if n < 10 then Char.ofNat (48 + n) else Char.ofNat (87 + n)

/-- The text `sprintf("%04x")` prints for an `unsigned char`. -/
def fmt_04x (n : Nat) : CStr := ['0', '0', hex_digit (n / 16 % 16), hex_digit (n % 16)]

/-- The counting loop of `ison_value_to_json` for a string: `extra`, started
    at 2 and incremented once for every backslash, double quote and byte for
    which `str[i] < 0x20` holds. -/
def json_extra (M : Machine) (str : CStr) : Nat :=
  2 + (str.filter (fun c => decide (c = BSLASH) || decide (c = DQUOTE) || char_lt_0x20 M c)).length

/-- The bytes the writing loop of `ison_value_to_json` stores for one byte of
    the string. -/
def json_escape_char (M : Machine) (c : Char) : CStr :=
  if c = BSLASH then [BSLASH, BSLASH]
  else if c = DQUOTE then [BSLASH, DQUOTE]
  else if c = LF then [BSLASH, 'n']
  else if c = CR then [BSLASH, 'r']
  else if c = TAB then [BSLASH, 't']
  else if char_lt_0x20 M c then BSLASH :: 'u' :: fmt_04x (c.toNat % 256)
  else [c]

/-- The text the writing loop of `ison_value_to_json` stores for a string,
    the two quotes included (without the closing NUL). -/
def json_quote (M : Machine) (str : CStr) : CStr :=
  DQUOTE :: (str.map (json_escape_char M)).flatten ++ [DQUOTE]

/-- Source: `ison_value_to_json` on a non-null value.  For a string the result
    is written into `malloc(len + extra + 1)` bytes: when the text with its
    closing NUL is longer than that, the writes run past the buffer.  For a
    reference without id `strlen` is called on the NULL that
    `ison_reference_to_ison` returns. -/
def ison_value_to_json (M : Machine) (L : Libc) (value : ison_value_t) : outcome CStr :=
  match value with
  | .null => .ok ['n', 'u', 'l', 'l']
  | .bool b => .ok (if b then ['t', 'r', 'u', 'e'] else ['f', 'a', 'l', 's', 'e'])
  | .int n => .ok (fmt_ld n)
  | .float d => .ok (L.fmt_g d)
  | .string none => .ok ['n', 'u', 'l', 'l']
  | .string (some str) =>
    if (json_quote M str).length + 1 ≤ str.length + json_extra M str + 1 then
      .ok (json_quote M str)
    else .undefined
  | .reference ref =>
    match ison_reference_to_ison ref with
    | some ref_ison => .ok (DQUOTE :: ref_ison ++ [DQUOTE])
    | none => .undefined

/-- The field loop of `ison_to_json` for one row, from field `j` on: `first`
    is the flag of the loop, `buf` the text so far. -/
def to_json_fields (M : Machine) (L : Libc) (row : ison_row_t) :
    List ison_field_info_t → Bool → CStr → outcome CStr
  | [], _, buf => .ok buf
  | f :: fs, first, buf =>
    match ison_row_get row f.name with
    | some val =>
      match ison_value_to_json M L val with
      | .ok json_val =>
        to_json_fields M L row fs false
          ((if first then buf else buf ++ [',']) ++ DQUOTE :: f.name ++ [DQUOTE, ':'] ++ json_val)
      | .out_of_fuel => .out_of_fuel
      | .undefined => .undefined
    | none => to_json_fields M L row fs first buf

/-- The row loop of `ison_to_json` for one block, from row `r` on. -/
def to_json_rows (M : Machine) (L : Libc) (fields : List ison_field_info_t) :
    List ison_row_t → Nat → CStr → outcome CStr
  | [], _, buf => .ok buf
  | row :: rows, r, buf =>
    match to_json_fields M L row fields true ((if r > 0 then buf ++ [','] else buf) ++ ['{']) with
    | .ok buf1 => to_json_rows M L fields rows (r + 1) (buf1 ++ ['}'])
    | .out_of_fuel => .out_of_fuel
    | .undefined => .undefined

/-- The block loop of `ison_to_json`, from entry `i` of `order` on. -/
def to_json_blocks (M : Machine) (L : Libc) (doc : ison_document_t) :
    List CStr → Nat → CStr → outcome CStr
  | [], _, buf => .ok buf
  | name :: names, i, buf =>
    let buf1 := if i > 0 then buf ++ [','] else buf
    match ison_document_get doc name with
    | none => to_json_blocks M L doc names (i + 1) buf1
    | some block =>
      match to_json_rows M L block.fields block.rows 0
          (buf1 ++ DQUOTE :: block.name ++ [DQUOTE, ':', '[', SP]) with
      | .ok buf2 => to_json_blocks M L doc names (i + 1) (buf2 ++ [']'])
      | .out_of_fuel => .out_of_fuel
      | .undefined => .undefined

/-- Source: `ison_to_json`: the text returned (`none` is NULL) and the error code. -/
def ison_to_json (M : Machine) (L : Libc) (ison_text : Option CStr) :
    outcome (Option CStr × ison_error_t) :=
  match ison_text with
  | none => .ok (none, ison_error_t.ISON_ERROR_INVALID)
  | some text =>
    let doc := ison_parse L text
    match to_json_blocks M L doc doc.order 0 ['{'] with
    | .ok buf => .ok (some (buf ++ ['}']), ison_error_t.ISON_OK)
    | .out_of_fuel => .out_of_fuel
    | .undefined => .undefined

/-- Source: `ison_to_isonl`: the text returned (`none` is NULL) and the error code. -/
def ison_to_isonl (L : Libc) (ison_text : Option CStr) : Option CStr × ison_error_t :=
  match ison_text with
  | none => (none, ison_error_t.ISON_OK)
  | some text => (some (ison_dumps_isonl L (ison_parse L text)), ison_error_t.ISON_OK)

/-- Source: `isonl_to_ison`: the text returned (`none` is NULL) and the error code. -/
def isonl_to_ison (L : Libc) (isonl_text : Option CStr) : Option CStr × ison_error_t :=
  match isonl_text with
  | none => (none, ison_error_t.ISON_OK)
  | some text => (some (ison_dumps L (ison_parse_isonl L text)), ison_error_t.ISON_OK)

/-! ## JSON input (`convert.c`) -/

/-- Source: `skip_ws`. -/
def skip_ws (p : CStr) : CStr := p.dropWhile (fun c => c == SP || c == TAB || c == LF || c == CR)

/-- The byte `parse_json_string` stores for the escape `\c`. -/
def json_unescape (c : Char) : Char :=
  if c = 'b' then Char.ofNat 8
  else if c = 'f' then Char.ofNat 12
  else if c = 'n' then LF
  else if c = 'r' then CR
  else if c = 't' then TAB
  else c

/-- The two loops of `parse_json_string` after the opening quote: the decoded
    text and the input from the closing quote (or the end of the text) on.  A
    backslash makes the first loop step over two bytes: when it is the last
    byte of the text, the closing NUL is stepped over and the text is left
    (`none`). -/
def json_string_body : CStr → Option (CStr × CStr)
  | [] => some ([], [])
  | c :: rest =>
    if c = DQUOTE then some ([], c :: rest)
    else if c = BSLASH then
      match rest with
      | [] => none
      | e :: rest2 =>
        match json_string_body rest2 with
        | some (s, p) => some (json_unescape e :: s, p)
        | none => none
    else
      match json_string_body rest with
      | some (s, p) => some (c :: s, p)
      | none => none

/-- Source: `parse_json_string`: the string (`none` is NULL, when the input
    does not start with a double quote) and the input left. -/
def parse_json_string (p : CStr) : outcome (Option CStr × CStr) :=
  match p with
  | c :: rest =>
    if c = DQUOTE then
      match json_string_body rest with
      | some (s, p1) => .ok (some s, if p1.head? = some DQUOTE then p1.tail else p1)
      | none => .undefined
    else .ok (none, p)
  | [] => .ok (none, p)

/-- The number branch of `parse_json_value`: `strtod`, then Int when the
    double equals its own conversion to `int64_t` and back, else Float; Null
    and no byte consumed when `strtod` converts nothing. -/
def parse_json_number (M : Machine) (L : Libc) (p : CStr) : ison_value_t × CStr :=
  let r := strtod L p
  if r.2 ≠ p then
    if M.double_eq r.1 (M.of_int64 (M.to_int64 r.1)) then (ison_int (M.to_int64 r.1), r.2)
    else (ison_float r.1, r.2)
  else (ison_null, p)

mutual

/-- Source: `parse_json_value`, run for at most `fuel` nested calls and loop
    turns: the value and the input left. -/
def parse_json_value (M : Machine) (L : Libc) : Nat → CStr → outcome (ison_value_t × CStr)
  | 0, _ => .out_of_fuel
  | fuel + 1, p0 =>
    let p := skip_ws p0
    if p.head? = some DQUOTE then
      match parse_json_string p with
      | .ok (some s, p1) => .ok (ison_string s, p1)
      | .ok (none, p1) => .ok (ison_value_t.string none, p1)
      | .out_of_fuel => .out_of_fuel
      | .undefined => .undefined
    else if ['t', 'r', 'u', 'e'].isPrefixOf p then .ok (ison_bool true, p.drop 4)
    else if ['f', 'a', 'l', 's', 'e'].isPrefixOf p then .ok (ison_bool false, p.drop 5)
    else if ['n', 'u', 'l', 'l'].isPrefixOf p then .ok (ison_null, p.drop 4)
    else if p.head? = some '{' then
      match parse_json_object M L fuel p with
      | .ok (row, p1) =>
        .ok (ison_ref { id := row.map M.row_image, ns := none, relationship := none }, p1)
      | .out_of_fuel => .out_of_fuel
      | .undefined => .undefined
    else if p.head? = some '[' then
      let p1 := skip_ws p.tail
      if p1.head? = some ']' then .ok (ison_null, p1.tail)
      else
        match parse_json_array_loop M L fuel p1 with
        | .ok p2 => .ok (ison_null, if p2.head? = some ']' then p2.tail else p2)
        | .out_of_fuel => .out_of_fuel
        | .undefined => .undefined
    else .ok (parse_json_number M L p)

/-- The `while (**p && **p != ']')` loop of `parse_json_value`: the input left. -/
def parse_json_array_loop (M : Machine) (L : Libc) : Nat → CStr → outcome CStr
  | 0, _ => .out_of_fuel
  | fuel + 1, p =>
    if p ≠ [] ∧ p.head? ≠ some ']' then
      match parse_json_value M L fuel p with
      | .ok (_, p1) =>
        let p2 := skip_ws p1
        let p3 := if p2.head? = some ',' then p2.tail else p2
        parse_json_array_loop M L fuel (skip_ws p3)
      | .out_of_fuel => .out_of_fuel
      | .undefined => .undefined
    else .ok p

/-- Source: `parse_json_object`: the row (`none` is NULL, when the input does
    not start with `{`) and the input left. -/
def parse_json_object (M : Machine) (L : Libc) : Nat → CStr → outcome (Option ison_row_t × CStr)
  | 0, _ => .out_of_fuel
  | fuel + 1, p =>
    if p.head? ≠ some '{' then .ok (none, p)
    else
      let p1 := skip_ws p.tail
      if p1.head? = some '}' then .ok (some ison_row_create, p1.tail)
      else
        match parse_json_object_loop M L fuel ison_row_create p1 with
        | .ok (row, p2) => .ok (some row, p2)
        | .out_of_fuel => .out_of_fuel
        | .undefined => .undefined

/-- The `while (**p)` loop of `parse_json_object`: the row and the input left. -/
def parse_json_object_loop (M : Machine) (L : Libc) :
    Nat → ison_row_t → CStr → outcome (ison_row_t × CStr)
  | 0, _, _ => .out_of_fuel
  | fuel + 1, row, p =>
    if p = [] then .ok (row, p)
    else
      match parse_json_string (skip_ws p) with
      | .ok (none, p1) => .ok (row, p1)
      | .ok (some key, p1) =>
        let p2 := skip_ws p1
        let p3 := skip_ws (if p2.head? = some ':' then p2.tail else p2)
        match parse_json_value M L fuel p3 with
        | .ok (val, p4) =>
          let row1 := ison_row_set row key val
          let p5 := skip_ws p4
          if p5.head? = some ',' then parse_json_object_loop M L fuel row1 p5.tail
          else if p5.head? = some '}' then .ok (row1, p5.tail)
          else parse_json_object_loop M L fuel row1 p5
        | .out_of_fuel => .out_of_fuel
        | .undefined => .undefined
      | .out_of_fuel => .out_of_fuel
      | .undefined => .undefined

end

/-- The value owns heap memory: a String with a non-null text, or a Reference
    with a non-null part. -/
def heap_payload (v : ison_value_t) : Bool :=
  match v with
  | .string (some _) => true
  | .reference r => r.id.isSome || r.ns.isSome || r.relationship.isSome
  | _ => false

/-- A value struct whose payload `ison_value_free` has released through another
    copy of the struct: the pointers are kept, and what a read through them
    finds is left to the machine.  Int, Float, Bool and Null hold no pointer. -/
def value_after_free (M : Machine) (v : ison_value_t) : ison_value_t :=
  match v with
  | .string (some s) => .string (some (M.freed_image s))
  | .reference r =>
    .reference { id := r.id.map M.freed_image, ns := r.ns.map M.freed_image,
                 relationship := r.relationship.map M.freed_image }
  | _ => v

/-- A row whose values have been released through another copy of their structs. -/
def row_after_free (M : Machine) (row : ison_row_t) : ison_row_t :=
  { row with entries := row.entries.map (fun e => (e.1, value_after_free M e.2)) }

/-- The calls `ison_block_add_row(block, row); ison_row_free(row);` of
    `ison_from_json`.  The copy `ison_block_add_row` stores is built by
    `ison_row_set`, which assigns the value structs (`entry->value = *value`),
    so the stored row shares the String and Reference payloads with `row`;
    `ison_row_free` then releases them through `row`. -/
def add_row_then_free (M : Machine) (block : ison_block_t) (row : ison_row_t) : ison_block_t :=
  { block with rows := block.rows ++ [row_after_free M (row_copy row)] }

/-- The call `ison_document_add_block(doc, block)` of `ison_from_json`.  A
    block of the same name already in the document is released by
    `ison_block_free`, which calls `ison_row_free` on its rows; the payloads of
    these rows were released when the rows were added (`add_row_then_free`),
    and releasing them once more is undefined. -/
def from_json_add_block (doc : ison_document_t) (block : ison_block_t) :
    outcome ison_document_t :=
  match ison_document_get doc block.name with
  | some old =>
    if old.rows.any (fun row => row.entries.any (fun e => heap_payload e.2)) then .undefined
    else .ok (ison_document_add_block doc block)
  | none => .ok (ison_document_add_block doc block)

/-- The `while (*p && *p != ']')` loop of `ison_from_json` that reads the
    elements of an array after the first: the block and the input left. -/
def from_json_more_rows (M : Machine) (L : Libc) :
    Nat → ison_block_t → CStr → outcome (ison_block_t × CStr)
  | 0, _, _ => .out_of_fuel
  | fuel + 1, block, p =>
    if p ≠ [] ∧ p.head? ≠ some ']' then
      let p1 := skip_ws (if p.head? = some ',' then p.tail else p)
      if p1.head? ≠ some '{' then .ok (block, p1)
      else
        match parse_json_object M L fuel p1 with
        | .ok (some row, p2) =>
          from_json_more_rows M L fuel (add_row_then_free M block row) (skip_ws p2)
        | .ok (none, p2) => from_json_more_rows M L fuel block (skip_ws p2)
        | .out_of_fuel => .out_of_fuel
        | .undefined => .undefined
    else .ok (block, p)

/-- The loops of `ison_from_json` that add one field, with the empty hint,
    for every entry of a row. -/
def add_key_fields (block : ison_block_t) (row : ison_row_t) : ison_block_t :=
  row.entries.foldl (fun b e => ison_block_add_field b e.1 (some [])) block

/-- The array branch of `ison_from_json` after `[` and `skip_ws`, up to (not
    including) the test for the closing `]`: the block and the input left. -/
def from_json_table (M : Machine) (L : Libc) (fuel : Nat) (name p : CStr) :
    outcome (ison_block_t × CStr) :=
  let block := ison_block_create ['t', 'a', 'b', 'l', 'e'] name
  if p.head? ≠ some ']' then
    if (skip_ws p).head? = some '{' then
      match parse_json_object M L fuel p with
      | .ok (some first, p1) =>
        from_json_more_rows M L fuel (add_row_then_free M (add_key_fields block first) first)
          (skip_ws p1)
      | .ok (none, p1) => .ok (block, p1)
      | .out_of_fuel => .out_of_fuel
      | .undefined => .undefined
    else .ok (block, p)
  else .ok (block, p)

/-- The three branches of the main loop of `ison_from_json` on the value of
    the member `name`: the document and the input left.  `doc` is the document
    being imported, every row of which was added by `add_row_then_free`. -/
def from_json_member (M : Machine) (L : Libc) (fuel : Nat) (doc : ison_document_t)
    (name p : CStr) : outcome (ison_document_t × CStr) :=
  if p.head? = some '[' then
    match from_json_table M L fuel name (skip_ws p.tail) with
    | .ok (block, p1) =>
      match from_json_add_block doc block with
      | .ok doc1 => .ok (doc1, if p1.head? = some ']' then p1.tail else p1)
      | .out_of_fuel => .out_of_fuel
      | .undefined => .undefined
    | .out_of_fuel => .out_of_fuel
    | .undefined => .undefined
  else if p.head? = some '{' then
    match parse_json_object M L fuel p with
    | .ok (some row, p1) =>
      match from_json_add_block doc
          (add_row_then_free M
            (add_key_fields (ison_block_create ['o', 'b', 'j', 'e', 'c', 't'] name) row) row) with
      | .ok doc1 => .ok (doc1, p1)
      | .out_of_fuel => .out_of_fuel
      | .undefined => .undefined
    | .ok (none, p1) => .ok (doc, p1)
    | .out_of_fuel => .out_of_fuel
    | .undefined => .undefined
  else
    match parse_json_value M L fuel p with
    | .ok (_, p1) => .ok (doc, p1)
    | .out_of_fuel => .out_of_fuel
    | .undefined => .undefined

/-- The main loop `while (*p)` of `ison_from_json`. -/
def from_json_loop (M : Machine) (L : Libc) :
    Nat → ison_document_t → CStr → outcome ison_document_t
  | 0, _, _ => .out_of_fuel
  | fuel + 1, doc, p =>
    if p = [] then .ok doc
    else
      let p1 := skip_ws p
      if p1.head? = some '}' then .ok doc
      else
        match parse_json_string p1 with
        | .ok (none, _) => .ok doc
        | .ok (some name, p2) =>
          let p3 := skip_ws p2
          let p4 := skip_ws (if p3.head? = some ':' then p3.tail else p3)
          match from_json_member M L fuel doc name p4 with
          | .ok (doc1, p5) =>
            let p6 := skip_ws p5
            if p6.head? = some ',' then from_json_loop M L fuel doc1 p6.tail
            else if p6.head? = some '}' then .ok doc1
            else from_json_loop M L fuel doc1 p6
          | .out_of_fuel => .out_of_fuel
          | .undefined => .undefined
        | .out_of_fuel => .out_of_fuel
        | .undefined => .undefined

/-- Source: `ison_from_json`, run for at most `fuel` nested calls and loop
    turns: the document returned (`none` is NULL) and the error code. -/
def ison_from_json (M : Machine) (L : Libc) (fuel : Nat) (json_text : Option CStr) :
    outcome (Option ison_document_t × ison_error_t) :=
  match json_text with
  | none => .ok (none, ison_error_t.ISON_ERROR_INVALID)
  | some text =>
    let p := skip_ws text
    if p.head? ≠ some '{' then .ok (none, ison_error_t.ISON_ERROR_PARSE)
    else
      match from_json_loop M L fuel ison_document_create p.tail with
      | .ok doc => .ok (some doc, ison_error_t.ISON_OK)
      | .out_of_fuel => .out_of_fuel
      | .undefined => .undefined

/-! ## Vocabulary of the JSON statements -/

/-- A machine with signed `char`, whose row structs and freed strings read as
    the empty string and whose doubles all convert to 0: for closed instances
    of statements that hold for every machine. -/
def machine_zero : Machine :=
  { char_signed := true, row_image := fun _ => [], freed_image := fun _ => [],
    to_int64 := fun _ => 0,
    of_int64 := fun _ => { bits := 0 }, double_eq := fun a b => decide (a = b) }

/-- The result passed through `f`; a call that does not end well stays so. -/
def outcome_map {α β : Type} (f : α → β) : outcome α → outcome β
  | .ok a => .ok (f a)
  | .out_of_fuel => .out_of_fuel
  | .undefined => .undefined

/-- The results of the calls, in order, when all of them end well; else the
    way the first one that does not ends. -/
def outcome_all {α : Type} : List (outcome α) → outcome (List α)
  | [] => .ok []
  | x :: xs =>
    match x with
    | .ok a => outcome_map (fun as => a :: as) (outcome_all xs)
    | .out_of_fuel => .out_of_fuel
    | .undefined => .undefined

/-- The items, each one after a comma. -/
def comma_each (xs : List CStr) : CStr := (xs.map (fun x => ',' :: x)).flatten

/-- The JSON member of the specification for a field and its value:
    `"field":` and the JSON text of the value. -/
def spec_json_member (M : Machine) (L : Libc) (name : CStr) (v : ison_value_t) : outcome CStr :=
  outcome_map (fun j => DQUOTE :: name ++ [DQUOTE, ':'] ++ j) (ison_value_to_json M L v)

/-- The JSON object of the specification for a row: `{`, the members of the
    declared fields present in the row, in field order, joined by `,`, `}`. -/
def spec_json_row (M : Machine) (L : Libc) (fields : List ison_field_info_t) (row : ison_row_t) :
    outcome CStr :=
  outcome_map (fun ms => '{' :: join_with [','] ms ++ ['}'])
    (outcome_all
      ((fields.filterMap (fun f => (ison_row_get row f.name).map (fun v => (f.name, v)))).map
        (fun kv => spec_json_member M L kv.1 kv.2)))

/-- The JSON member of the specification for a block: `"name":[ `, its data
    rows joined by `,`, `]`. -/
def spec_json_block (M : Machine) (L : Libc) (b : ison_block_t) : outcome CStr :=
  outcome_map (fun rs => DQUOTE :: b.name ++ [DQUOTE, ':', '[', SP] ++ join_with [','] rs ++ [']'])
    (outcome_all (b.rows.map (spec_json_row M L b.fields)))

/-- The JSON text of the specification for a document: `{`, the blocks in
    document order joined by `,`, `}`. -/
def spec_to_json (M : Machine) (L : Libc) (doc : ison_document_t) : outcome CStr :=
  outcome_map (fun bs => '{' :: join_with [','] bs ++ ['}'])
    (outcome_all (doc.blocks.map (spec_json_block M L)))

/-! ## Vocabulary: the values of a document -/

/-- The value is no Reference, or a Reference whose id is not NULL. -/
def ref_id_present (v : ison_value_t) : Bool :=
  match v with
  | .reference r => r.id.isSome
  | _ => true

/-- The value is no Reference, or a Reference whose id is a non-empty string. -/
def ref_id_nonempty (v : ison_value_t) : Bool :=
  match v with
  | .reference r =>
    match r.id with
    | some (_ :: _) => true
    | _ => false
  | _ => true

/-- Every value stored in the row satisfies `p`. -/
def row_all_values (p : ison_value_t → Bool) (row : ison_row_t) : Bool :=
  row.entries.all (fun e => p e.2)

/-- Every value stored in a data row or in the summary row of the block
    satisfies `p`. -/
def block_all_values (p : ison_value_t → Bool) (b : ison_block_t) : Bool :=
  b.rows.all (row_all_values p) &&
    match b.summary_row with
    | some srow => row_all_values p srow
    | none => true

/-- Every value stored in the document satisfies `p`. -/
def document_all_values (p : ison_value_t → Bool) (doc : ison_document_t) : Bool :=
  doc.blocks.all (block_all_values p)

/-! ## Vocabulary: JSON texts -/

/-- A libc whose doubles are the integers: `atof` gives the integer `strtol`
    reads, kept as twice its absolute value plus one when negative. -/
def libc_int : Libc :=
  { atof := fun s => { bits := 2 * (strtol s).1.natAbs + (if (strtol s).1 < 0 then 1 else 0) },
    fmt_g := fun d => fmt_ld (if d.bits % 2 = 1 then -((d.bits / 2 : Nat) : Int) else (d.bits / 2 : Nat)) }

/-- The machine that goes with `libc_int`; `char` is signed, and a row struct
    and a freed string read as the empty string. -/
def machine_int : Machine :=
  { char_signed := true, row_image := fun _ => [], freed_image := fun _ => [],
    to_int64 := fun d => if d.bits % 2 = 1 then -((d.bits / 2 : Nat) : Int) else (d.bits / 2 : Nat),
    of_int64 := fun i => { bits := 2 * i.natAbs + (if i < 0 then 1 else 0) },
    double_eq := fun a b => decide (a = b) }

/-- The integer a signed decimal numeral denotes: `sign` is empty, `+` or `-`,
    and `ds` is the run of decimal digits, most significant first. -/
def int_denoted (sign ds : CStr) : Int :=
  let v : Nat := Nat.ofDigits 10 (ds.reverse.map (fun c => c.toNat - 48))
  if sign = ['-'] then -(v : Int) else (v : Int)

/-! ## Vocabulary: documents up to their summary rows -/

/-- The block with its summary row taken away. -/
def drop_summary (b : ison_block_t) : ison_block_t := { b with summary_row := none }

/-- The document with the summary row of every block taken away: two documents
    differ only in summary rows when this gives the same document for both. -/
def drop_summaries (d : ison_document_t) : ison_document_t :=
  { d with blocks := d.blocks.map drop_summary }

/-! ## Vocabulary: line endings -/

/-- The text with every line feed replaced by carriage return and line feed. -/
def crlf : CStr → CStr
  | [] => []
  | c :: cs => if c = LF then CR :: LF :: crlf cs else c :: crlf cs

/-! ## Vocabulary: where the rows of a parsed block come from -/

/-- Every data row of the block and its summary row, if any, is the row
    `build_row` makes from the tokens of some line against the fields of the
    block. -/
def built_rows (L : Libc) (b : ison_block_t) : Prop :=
  (∀ r ∈ b.rows, ∃ line : CStr, r = build_row L b.fields (tokenize line)) ∧
  (∀ r, b.summary_row = some r → ∃ line : CStr, r = build_row L b.fields (tokenize line))

/-! ## Reference schemas of isonantic (`isonantic-c/src/schema.c`, `value.c`) -/

/-- The struct `IsonanticDict` as `ref_validate` reads it: the entries by key,
    each holding a nullable string. -/
abbrev IsonanticDict := List (CStr × Option CStr)

/-- The struct `IsonanticValue`: the tag `type` with the member of `data` that
    belongs to it.  Of an array only the size is kept. -/
inductive IsonanticValue where
  | ISONANTIC_VALUE_NULL
  | ISONANTIC_VALUE_STRING (string_value : Option CStr)
  | ISONANTIC_VALUE_NUMBER (number_value : Double)
  | ISONANTIC_VALUE_BOOLEAN (boolean_value : Bool)
  | ISONANTIC_VALUE_OBJECT (object_value : Option IsonanticDict)
  | ISONANTIC_VALUE_ARRAY (array_value : Nat)
  | ISONANTIC_VALUE_REFERENCE (ref_value : Option CStr)
deriving DecidableEq, Repr, Inhabited

/-- The number of the tag of a value in the enum `IsonanticValueType`. -/
def value_type (value : IsonanticValue) : Nat :=
  match value with
  | .ISONANTIC_VALUE_NULL => 0
  | .ISONANTIC_VALUE_STRING _ => 1
  | .ISONANTIC_VALUE_NUMBER _ => 2
  | .ISONANTIC_VALUE_BOOLEAN _ => 3
  | .ISONANTIC_VALUE_OBJECT _ => 4
  | .ISONANTIC_VALUE_ARRAY _ => 5
  | .ISONANTIC_VALUE_REFERENCE _ => 6

/-- The struct `IsonanticValidationError`, without the link `next`. -/
structure IsonanticValidationError where
  field : Option CStr
  message : Option CStr
  value : Option IsonanticValue
deriving DecidableEq, Repr, Inhabited

/-- A pointer to `IsonanticValidationErrors`: `none` is NULL, a list holds the
    errors from `head` on, and `count` is its length. -/
abbrev IsonanticValidationErrors := Option (List IsonanticValidationError)

/-- The struct `IsonanticRefinement`; `fn` is applied to the value with
    `user_data` bound, and `none` is a NULL function pointer. -/
structure IsonanticRefinement where
  fn : Option (Option IsonanticValue → IsonanticValidationErrors)
  error_message : Option CStr

/-- The fields of the struct `IsonanticSchema` the validators read. -/
structure IsonanticSchema where
  optional : Bool
  refinements : Option (List IsonanticRefinement)

/-- The struct `IsonanticRefSchema`. -/
structure IsonanticRefSchema where
  base : IsonanticSchema
  ns : Option CStr
  relationship : Option CStr

/-- Source: `isonantic_value_create_ref`. -/
def isonantic_value_create_ref (ref : Option CStr) : Option IsonanticValue :=
  match ref with
  | none => none
  | some r => some (IsonanticValue.ISONANTIC_VALUE_REFERENCE (some r))

/-- Source: `isonantic_value_create_string`. -/
def isonantic_value_create_string (str : Option CStr) : Option IsonanticValue :=
  match str with
  | none => none
  | some s => some (IsonanticValue.ISONANTIC_VALUE_STRING (some s))

/-- Source: `isonantic_dict_get`. -/
def isonantic_dict_get (dict : Option IsonanticDict) (key : CStr) : Option CStr :=
  match dict with
  | none => none
  | some entries => (entries.find? (fun e => e.1 = key)).bind Prod.snd

/-- Source: `isonantic_validation_error_create`. -/
def isonantic_validation_error_create (field message : Option CStr)
    (value : Option IsonanticValue) : IsonanticValidationError :=
  { field := field, message := message, value := value }

/-- Source: `isonantic_validation_errors_has_errors`. -/
def isonantic_validation_errors_has_errors (errors : IsonanticValidationErrors) : Bool :=
  match errors with
  | none => false
  | some es => decide (es.length > 0)

/-- Source: `isonantic_schema_run_refinements` on a non-null schema. -/
def isonantic_schema_run_refinements (schema : IsonanticSchema)
    (value : Option IsonanticValue) : IsonanticValidationErrors :=
  match schema.refinements with
  | none => none
  | some refinements =>
    refinements.foldl
      (fun errors refinement =>
        match refinement.fn with
        | none => errors
        | some fn =>
          let result := fn value
          if isonantic_validation_errors_has_errors result then
            let errors1 := errors.getD []
            match refinement.error_message with
            | some msg => some (errors1 ++ [isonantic_validation_error_create (some []) (some msg) value])
            | none => some errors1
          else errors)
      none

/-- Source: `is_valid_ref`. -/
def is_valid_ref (str : Option CStr) : Bool :=
  match str with
  | some (c :: _) => decide (c = ':')
  | _ => false

/-- The local variable `errors` of `ref_validate` after the `switch` on the
    type of a present value. -/
def ref_validate_switch (s : IsonanticRefSchema) (value : IsonanticValue) :
    IsonanticValidationErrors :=
  match value with
  | .ISONANTIC_VALUE_REFERENCE ref_value =>
    if !is_valid_ref ref_value then
      some [isonantic_validation_error_create (some [])
        (some "expected reference string starting with ':'".toList) (some value)]
    else none
  | .ISONANTIC_VALUE_OBJECT dict =>
    match isonantic_dict_get dict "_ref".toList with
    | none =>
      some [isonantic_validation_error_create (some [])
        (some "expected reference object with _ref field".toList) (some value)]
    | some _ =>
      match s.ns, s.relationship with
      | some sns, _ =>
        if isonantic_dict_get dict "_namespace".toList ≠ some sns then
          some [isonantic_validation_error_create (some [])
            (some (snprintf_trunc 128 ("expected namespace ".toList ++ sns))) (some value)]
        else none
      | none, some srel =>
        if isonantic_dict_get dict "_relationship".toList ≠ some srel then
          some [isonantic_validation_error_create (some [])
            (some (snprintf_trunc 128 ("expected relationship ".toList ++ srel))) (some value)]
        else none
      | none, none => none
  | _ =>
    some [isonantic_validation_error_create (some [])
      (some (snprintf_trunc 64 ("expected reference, got ".toList ++ fmt_ld (value_type value))))
      (some value)]

/-- Source: `ref_validate`, the `validate` function of a reference schema.  For
    a present value the errors of the `switch` are built and the function then
    returns what `isonantic_schema_run_refinements` returns. -/
def ref_validate (s : IsonanticRefSchema) (value : Option IsonanticValue) :
    IsonanticValidationErrors :=
  match value with
  | none =>
    if s.base.optional then none
    else
      some [isonantic_validation_error_create (some [])
        (some "required field is missing".toList) none]
  | some v =>
    let _errors := ref_validate_switch s v
    isonantic_schema_run_refinements s.base (some v)

/-- Source: `isonantic_ref_create`: the struct is zero-filled. -/
def isonantic_ref_create : IsonanticRefSchema :=
  { base := { optional := false, refinements := none }, ns := none, relationship := none }

/-- Source: `isonantic_ref_optional` on a non-null schema. -/
def isonantic_ref_optional (schema : IsonanticRefSchema) : IsonanticRefSchema :=
  { schema with base := { schema.base with optional := true } }

/-! ## Vocabulary: a printed document that is read back as printed -/

/-- The fields `parse_block` reads from the field line printed for the block. -/
def reread_fields (b : ison_block_t) : List ison_field_info_t :=
  fields_of_line (join_with [SP] (b.fields.map spec_field_token))

/-- The block `parse_block` reads from the lines printed for `b` when each of
    them is read as the kind of line it was printed as: same kind and name, the
    fields read from the printed field line, and every row, and the summary
    row, read from its printed line under those fields. -/
def reread_block (L : Libc) (b : ison_block_t) : ison_block_t :=
  { kind := b.kind, name := b.name, fields := reread_fields b,
    rows := b.rows.map
      (fun r => row_of_line L (reread_fields b) (spec_row_line L [SP] b.fields r)),
    summary_row := b.summary_row.map
      (fun r => row_of_line L (reread_fields b) (spec_row_line L [SP] b.fields r)) }

/-- The line printed for the row `r` of the block `b` stays on one line, is
    read as a row line, and the row read from it prints the same line. -/
def row_reprints (L : Libc) (b : ison_block_t) (r : ison_row_t) : Bool :=
  !(spec_row_line L [SP] b.fields r).contains LF &&
    is_row_line (spec_row_line L [SP] b.fields r) &&
    decide (spec_row_line L [SP] (reread_fields b)
      (row_of_line L (reread_fields b) (spec_row_line L [SP] b.fields r)) =
        spec_row_line L [SP] b.fields r)

/-- The lines printed for the block are read back as printed: the header and
    the field tokens are within the 256-byte buffers of `dump.c`, before and
    after the reading; the field line stays on one line, is neither blank nor a
    comment, and the fields read from it print the same field line; every row
    line and the summary line are read back as rows that print the same line. -/
def block_reprints (L : Libc) (b : ison_block_t) : Bool :=
  decide (block_fits b) && decide (block_fits (reread_block L b)) &&
    !(join_with [SP] (b.fields.map spec_field_token)).contains LF &&
    decide (trim (join_with [SP] (b.fields.map spec_field_token)) ≠ []) &&
    decide ((trim (join_with [SP] (b.fields.map spec_field_token))).head? ≠ some '#') &&
    decide (join_with [SP] ((reread_fields b).map spec_field_token) =
      join_with [SP] (b.fields.map spec_field_token)) &&
    b.rows.all (row_reprints L b) &&
    match b.summary_row with
    | some srow => row_reprints L b srow
    | none => true

/-- A block of a header alone: no fields, no rows, no summary row, and a
    header within the buffer. -/
def block_bare (b : ison_block_t) : Bool :=
  decide (block_fits b) && decide (b.fields = []) && decide (b.rows = []) &&
    decide (b.summary_row = none)

/-- The lines printed for the blocks are read back as printed; a block of a
    header alone is read back only where no line follows it, as the last block. -/
def blocks_reprint (L : Libc) : List ison_block_t → Bool
  | [] => true
  | [b] => block_reprints L b || block_bare b
  | b :: b2 :: bs => block_reprints L b && blocks_reprint L (b2 :: bs)

/-- The text printed for the document is read back line by line as it was
    printed. -/
def document_reprints (L : Libc) (doc : ison_document_t) : Bool := blocks_reprint L doc.blocks

/-- The header line printed for the block stays on one line and is read as the
    header of a block of the same kind and name. -/
def header_rereads (b : ison_block_t) : Prop :=
  LF ∉ b.kind ++ '.' :: b.name ∧
    block_header (trim (b.kind ++ '.' :: b.name)) = some (b.kind, b.name)

/-! # Theorems -/

/-! ## Helper lemmas: strings -/

theorem split_at_char_none {c : Char} {s : CStr} (h : c ∉ s) : split_at_char c s = none := by
  induction s with
  | nil => rfl
  | cons x xs ih =>
    simp only [List.mem_cons, not_or] at h
    simp [split_at_char, Ne.symm h.1, ih h.2]

theorem split_at_char_append {c : Char} {l : CStr} (r : CStr) (h : c ∉ l) :
    split_at_char c (l ++ c :: r) = some (l, r) := by
  induction l with
  | nil => simp [split_at_char]
  | cons x xs ih =>
    simp only [List.mem_cons, not_or] at h
    simp [split_at_char, Ne.symm h.1, ih h.2]

theorem split_at_char_some {c : Char} {s l r : CStr} (h : split_at_char c s = some (l, r)) :
    s = l ++ c :: r ∧ c ∉ l := by
  induction s generalizing l with
  | nil => simp [split_at_char] at h
  | cons x xs ih =>
    unfold split_at_char at h
    by_cases hx : x = c
    · simp only [hx, if_true, Option.some.injEq, Prod.mk.injEq] at h
      obtain ⟨rfl, rfl⟩ := h
      simp [hx]
    · simp only [hx, if_false] at h
      cases hs : split_at_char c xs with
      | none => simp [hs] at h
      | some p =>
        obtain ⟨l1, r1⟩ := p
        simp only [hs, Option.some.injEq, Prod.mk.injEq] at h
        obtain ⟨rfl, rfl⟩ := h
        obtain ⟨e, hn⟩ := ih hs
        refine ⟨by simp [e], ?_⟩
        simp only [List.mem_cons, not_or]
        exact ⟨Ne.symm hx, hn⟩

theorem is_all_upper_iff (s : CStr) :
    is_all_upper s = true ↔ s ≠ [] ∧ ∀ c ∈ s, c = '_' ∨ (65 ≤ c.toNat ∧ c.toNat ≤ 90) := by
  simp [is_all_upper, List.all_eq_true]

/-- C10: reference decoding.  A token `:rest` with no further `:` decodes to
    the bare id `rest`; otherwise `rest` is split at its first `:` into `left`
    and `id`, and `left` is stored as the relationship when it is non-empty and
    made of `A`..`Z` and `_` only, else as the namespace, the other qualifier
    staying unset.  The three tokens of the specification decode as stated. -/
theorem parse_reference_grammar (rest left id : CStr) :
    (':' ∉ rest →
      parse_reference (':' :: rest) = { id := some rest, ns := none, relationship := none }) ∧
    (':' ∉ left →
      parse_reference (':' :: (left ++ ':' :: id)) =
        if left ≠ [] ∧ ∀ c ∈ left, c = '_' ∨ (65 ≤ c.toNat ∧ c.toNat ≤ 90)
        then { id := some id, ns := none, relationship := some left }
        else { id := some id, ns := some left, relationship := none }) ∧
    parse_reference [':', '1'] = { id := some ['1'], ns := none, relationship := none } ∧
    parse_reference [':', 'u', 's', 'e', 'r', ':', '4', '2'] =
      { id := some ['4', '2'], ns := some ['u', 's', 'e', 'r'], relationship := none } ∧
    parse_reference [':', 'O', 'W', 'N', 'S', ':', '5'] =
      { id := some ['5'], ns := none, relationship := some ['O', 'W', 'N', 'S'] } := by
  refine ⟨fun h => ?_, fun h => ?_, by decide, by decide, by decide⟩
  · simp [parse_reference, split_at_char_none h]
  · simp only [parse_reference, if_true, split_at_char_append id h]
    by_cases hu : is_all_upper left = true
    · rw [if_pos hu, if_pos ((is_all_upper_iff left).1 hu)]
    · rw [if_neg hu, if_neg (fun hh => hu ((is_all_upper_iff left).2 hh))]

theorem parse_value_generic_of_reject (L : Libc) (t : CStr) (h : (strtol t).2 ≠ []) :
    parse_value_generic L t =
      if (strtod L t).2 = [] then ison_float (strtod L t).1 else ison_string t := by
  simp [parse_value_generic, h]

/-- C8: type-hint fallback.  When the parse a hint asks for does not accept
    the whole token, the token decodes as it does under the empty hint; an
    unknown hint behaves like the empty hint; a token `strtol` rejects never
    decodes to an Int; `abc` under hint `int` decodes to String `abc`. -/
theorem type_hint_fallback (L : Libc) (t : CStr) :
    ((strtol t).2 ≠ [] →
      parse_value_token L t (some ['i', 'n', 't']) = parse_value_token L t (some [])) ∧
    ((strtod L t).2 ≠ [] →
      parse_value_token L t (some ['f', 'l', 'o', 'a', 't']) = parse_value_token L t (some [])) ∧
    (t ≠ ['t', 'r', 'u', 'e'] → t ≠ ['1'] → t ≠ ['f', 'a', 'l', 's', 'e'] → t ≠ ['0'] →
      parse_value_token L t (some ['b', 'o', 'o', 'l']) = parse_value_token L t (some [])) ∧
    (∀ h : CStr, h ≠ ['i', 'n', 't'] → h ≠ ['f', 'l', 'o', 'a', 't'] → h ≠ ['b', 'o', 'o', 'l'] →
      h ≠ ['s', 't', 'r', 'i', 'n', 'g'] →
      parse_value_token L t (some h) = parse_value_token L t (some [])) ∧
    ((strtol t).2 ≠ [] → ∀ (h : Option CStr) (n : Int), parse_value_token L t h ≠ ison_value_t.int n) ∧
    parse_value_token L ['a', 'b', 'c'] (some ['i', 'n', 't']) =
      ison_value_t.string (some ['a', 'b', 'c']) := by
  refine ⟨fun h => ?_, fun h => ?_, fun h1 h2 h3 h4 => ?_, fun h h1 h2 h3 h4 => ?_,
    fun h hint n => ?_, rfl⟩
  · simp [parse_value_token, h]
  · simp [parse_value_token, h]
  · simp [parse_value_token, h1, h2, h3, h4]
  · cases h with
    | nil => rfl
    | cons c cs => simp [parse_value_token, h1, h2, h3, h4]
  · have hg : ∀ m : Int, parse_value_generic L t ≠ ison_value_t.int m := by
      intro m
      rw [parse_value_generic_of_reject L t h]
      split_ifs <;> simp [ison_float, ison_string]
    rcases hint with _ | _ | ⟨c, cs⟩
    all_goals
      simp only [parse_value_token, ison_null, ison_bool, ison_ref, ison_float,
        ison_string, ison_int, if_neg h]
      split_ifs
      all_goals first
        | exact hg n
        | exact ison_value_t.noConfusion

/-- C9: decoding precedence.  Under every hint `~` and every letter-case
    variant of `null` decode to Null, the variants of `true` and `false` to
    Bool, and a token starting with `:` to the Reference `parse_reference`
    gives; under hint `string` every other token decodes to itself as a String. -/
theorem decoding_precedence (L : Libc) (t : CStr) (h : Option CStr) :
    (t = ['~'] ∨ t.map tolower = ['n', 'u', 'l', 'l'] → parse_value_token L t h = ison_value_t.null) ∧
    (t.map tolower = ['t', 'r', 'u', 'e'] → parse_value_token L t h = ison_value_t.bool true) ∧
    (t.map tolower = ['f', 'a', 'l', 's', 'e'] →
      parse_value_token L t h = ison_value_t.bool false) ∧
    (t.head? = some ':' →
      parse_value_token L t h = ison_value_t.reference (parse_reference t)) ∧
    (t ≠ ['~'] → t.map tolower ≠ ['n', 'u', 'l', 'l'] → t.map tolower ≠ ['t', 'r', 'u', 'e'] →
      t.map tolower ≠ ['f', 'a', 'l', 's', 'e'] → t.head? ≠ some ':' →
      parse_value_token L t (some ['s', 't', 'r', 'i', 'n', 'g']) = ison_value_t.string (some t)) := by
  have low : ∀ s : CStr, s.map tolower = s → strcaseeq t s = decide (t.map tolower = s) := by
    intro s hs; simp [strcaseeq, hs]
  have e1 := low ['n', 'u', 'l', 'l'] (by decide)
  have e2 := low ['t', 'r', 'u', 'e'] (by decide)
  have e3 := low ['f', 'a', 'l', 's', 'e'] (by decide)
  refine ⟨fun h1 => ?_, fun h1 => ?_, fun h1 => ?_, fun h1 => ?_, fun h1 h2 h3 h4 h5 => ?_⟩
  · rcases h1 with h1 | h1
    · simp [parse_value_token, h1, ison_null]
    · simp [parse_value_token, e1, h1, ison_null]
  · have n1 : t ≠ ['~'] := by rintro rfl; revert h1; decide
    simp [parse_value_token, e1, e2, h1, n1, ison_bool]
  · have n1 : t ≠ ['~'] := by rintro rfl; revert h1; decide
    simp [parse_value_token, e1, e2, e3, h1, n1, ison_bool]
  · cases t with
    | nil => simp at h1
    | cons c cs =>
      simp only [List.head?_cons, Option.some.injEq] at h1
      subst h1
      have n1 : (':' :: cs) ≠ ['~'] := by simp
      have n2 : tolower ':' ≠ 'n' := by decide
      have n3 : tolower ':' ≠ 't' := by decide
      have n4 : tolower ':' ≠ 'f' := by decide
      simp [parse_value_token, e1, e2, e3, n1, n2, n3, n4, ison_ref]
  · simp [parse_value_token, e1, e2, e3, h1, h2, h3, h4, h5, ison_string]

/-- Concrete decodings under the hints `string` and `int`: the early rules win. -/
theorem decoding_precedence_witness :
    parse_value_token libc_zero ['N', 'u', 'l', 'L'] (some ['s', 't', 'r', 'i', 'n', 'g'])
      = ison_value_t.null ∧
    parse_value_token libc_zero ['1', '2'] (some ['s', 't', 'r', 'i', 'n', 'g'])
      = ison_value_t.string (some ['1', '2']) :=
  ⟨(decoding_precedence _ ['N', 'u', 'l', 'L'] _).1 (Or.inr (by decide)),
   (decoding_precedence _ ['1', '2'] none).2.2.2.2 (by decide) (by decide) (by decide) (by decide)
     (by decide)⟩

/-! ## Helper lemmas: rows -/

theorem row_replace_none {key : CStr} (value : ison_value_t) {es : List (CStr × ison_value_t)}
    (h : key ∉ es.map Prod.fst) : row_replace key value es = none := by
  induction es with
  | nil => rfl
  | cons e es ih =>
    simp only [List.map_cons, List.mem_cons, not_or] at h
    simp [row_replace, Ne.symm h.1, ih h.2]

theorem ison_row_set_new {row : ison_row_t} {key : CStr} (value : ison_value_t)
    (h : key ∉ row.entries.map Prod.fst) :
    ison_row_set row key value =
      { entries := row.entries ++ [(key, value)], count := row.count + 1 } := by
  simp [ison_row_set, row_replace_none value h]

/-- Setting entries with pairwise distinct keys, none of them in the row yet,
    appends them in order. -/
theorem row_set_all_fresh (es : List (CStr × ison_value_t)) (row : ison_row_t)
    (hnd : (es.map Prod.fst).Nodup)
    (hdis : ∀ k ∈ es.map Prod.fst, k ∉ row.entries.map Prod.fst) :
    es.foldl (fun r e => ison_row_set r e.1 e.2) row =
      { entries := row.entries ++ es, count := row.count + es.length } := by
  induction es generalizing row with
  | nil => simp
  | cons e es ih =>
    simp only [List.map_cons, List.nodup_cons] at hnd
    have h1 : e.1 ∉ row.entries.map Prod.fst := hdis e.1 (by simp)
    rw [List.foldl_cons, ison_row_set_new e.2 h1, ih _ hnd.2]
    · simp [Nat.add_assoc, Nat.add_comm 1]
    · intro k hk
      simp only [List.map_append, List.map_cons, List.map_nil, List.mem_append,
        List.mem_singleton, not_or]
      refine ⟨hdis k (by simp [hk]), ?_⟩
      rintro rfl
      exact hnd.1 hk

theorem row_copy_eq {row : ison_row_t} (hnd : (row.entries.map Prod.fst).Nodup)
    (hc : row.count = row.entries.length) : row_copy row = row := by
  unfold row_copy
  rw [row_set_all_fresh row.entries ison_row_create hnd (by simp [ison_row_create])]
  cases row
  simp_all [ison_row_create]

theorem build_row_eq_foldl (L : Libc) (fields : List ison_field_info_t) (tokens : List CStr) :
    build_row L fields tokens =
      ((tokens.zip fields).map
        (fun tf => (tf.2.name, parse_value_token L tf.1 tf.2.type_hint))).foldl
        (fun r e => ison_row_set r e.1 e.2) ison_row_create := by
  simp [build_row, List.foldl_map]

theorem map_snd_zip_take {α β : Type} (ts : List α) (fs : List β) :
    (ts.zip fs).map Prod.snd = fs.take ts.length := by
  induction ts generalizing fs with
  | nil => simp
  | cons t ts ih =>
    cases fs with
    | nil => simp
    | cons f fs => simp [ih]

theorem map_fst_zip_take {α β : Type} (ts : List α) (fs : List β) :
    (ts.zip fs).map Prod.fst = ts.take fs.length := by
  induction ts generalizing fs with
  | nil => simp
  | cons t ts ih =>
    cases fs with
    | nil => simp
    | cons f fs => simp [ih]

theorem zip_keys_eq (L : Libc) (fields : List ison_field_info_t) (tokens : List CStr) :
    ((tokens.zip fields).map
        (fun tf => (tf.2.name, parse_value_token L tf.1 tf.2.type_hint))).map Prod.fst
      = (fields.take tokens.length).map (fun f => f.name) := by
  rw [← map_snd_zip_take]
  simp [List.map_map, Function.comp_def]

/-- The row built from a token list against fields with pairwise distinct
    names: one entry per zipped pair, in order. -/
theorem build_row_distinct (L : Libc) (fields : List ison_field_info_t) (tokens : List CStr)
    (hnd : ((fields.take tokens.length).map (fun f => f.name)).Nodup) :
    build_row L fields tokens =
      { entries := (tokens.zip fields).map
          (fun tf => (tf.2.name, parse_value_token L tf.1 tf.2.type_hint)),
        count := min tokens.length fields.length } := by
  rw [build_row_eq_foldl, row_set_all_fresh _ _ (by rw [zip_keys_eq]; exact hnd)
    (by simp [ison_row_create])]
  simp [ison_row_create]

theorem row_copy_build_row (L : Libc) (fields : List ison_field_info_t) (tokens : List CStr)
    (hnd : ((fields.take tokens.length).map (fun f => f.name)).Nodup) :
    row_copy (build_row L fields tokens) = build_row L fields tokens := by
  rw [build_row_distinct L fields tokens hnd]
  apply row_copy_eq
  · show (((tokens.zip fields).map
        (fun tf => (tf.2.name, parse_value_token L tf.1 tf.2.type_hint))).map Prod.fst).Nodup
    rw [zip_keys_eq]; exact hnd
  · simp

/-! ## Helper lemmas: lines -/

theorem isspace_LF : isspace LF = true := by decide
theorem isspace_CR : isspace CR = true := by decide

theorem trim_concat_space (a : CStr) {c : Char} (hc : isspace c = true) :
    trim (a ++ [c]) = trim a := by
  unfold trim
  rw [List.dropWhile_append]
  by_cases he : (List.dropWhile isspace a).isEmpty = true
  · rw [if_pos he]
    have : List.dropWhile isspace a = [] := List.isEmpty_iff.1 he
    simp [this, List.dropWhile_cons, hc]
  · rw [if_neg he, List.rdropWhile_concat_pos _ _ _ hc]

theorem trim_trim_right (l : CStr) : trim (trim_right l) = trim l := by
  unfold trim_right
  induction l using List.reverseRecOn with
  | nil => simp
  | append_singleton a c ih =>
    by_cases hc : (c = CR || c = LF) = true
    · rw [List.rdropWhile_concat_pos _ _ _ (by simpa using hc), ih]
      have : isspace c = true := by
        simp only [Bool.or_eq_true, decide_eq_true_eq] at hc
        rcases hc with rfl | rfl
        · exact isspace_CR
        · exact isspace_LF
      rw [trim_concat_space a this]
    · rw [List.rdropWhile_concat_neg _ _ _ (by simpa using hc)]

theorem split_lines_loop_line (l rest cur : CStr) (h : LF ∉ l) :
    split_lines_loop (l ++ LF :: rest) cur = trim_right (cur ++ l) :: split_lines_loop rest [] := by
  induction l generalizing cur with
  | nil => simp [split_lines_loop]
  | cons c cs ih =>
    simp only [List.mem_cons, not_or] at h
    have e : split_lines_loop (c :: (cs ++ LF :: rest)) cur
        = split_lines_loop (cs ++ LF :: rest) (cur ++ [c]) := by
      simp [split_lines_loop, Ne.symm h.1]
    rw [List.cons_append, e, ih _ h.2]
    simp

/-- Splitting a text made of newline-closed lines gives the lines back, each
    cut at the right by `trim_right`. -/
theorem split_lines_unlines (ls : List CStr) (h : ∀ l ∈ ls, LF ∉ l) :
    split_lines (unlines ls) = ls.map trim_right := by
  unfold split_lines
  induction ls with
  | nil => simp [unlines, split_lines_loop]
  | cons l ls ih =>
    have e : unlines (l :: ls) = l ++ LF :: unlines ls := by simp [unlines]
    rw [e, split_lines_loop_line l _ [] (h l (by simp)), ih (fun x hx => h x (by simp [hx]))]
    simp

/-! ## Helper lemmas: the row loop -/

theorem is_row_line_iff (raw : CStr) :
    is_row_line raw = true ↔
      trim raw ≠ [] ∧ (trim raw).head? ≠ some '#' ∧ block_header (trim raw) = none ∧
        trim raw ≠ ['-', '-', '-'] := by
  simp [is_row_line, Option.isSome_iff_ne_none, and_assoc]

theorem is_row_line_trim_right (raw : CStr) : is_row_line (trim_right raw) = is_row_line raw := by
  simp [is_row_line, trim_trim_right]

theorem row_of_line_trim_right (L : Libc) (fields : List ison_field_info_t) (raw : CStr) :
    row_of_line L fields (trim_right raw) = row_of_line L fields raw := by
  simp [row_of_line, trim_trim_right]

theorem parse_rows_row (L : Libc) (block : ison_block_t) (in_summary : Bool) (raw : CStr)
    (rest : List CStr) (h : is_row_line raw = true) :
    parse_rows L block in_summary (raw :: rest) =
      if in_summary then
        parse_rows L { block with summary_row := some (row_of_line L block.fields raw) } true rest
      else
        parse_rows L { block with rows := block.rows ++ [row_of_line L block.fields raw] } false rest := by
  obtain ⟨h1, h2, h3, h4⟩ := (is_row_line_iff raw).1 h
  cases in_summary <;>
    simp [parse_rows, h1, h2, h3, h4, row_of_line, ison_block_add_row, ison_block_set_summary]

/-- Data mode: a run of row lines is appended to the rows of the block, in order. -/
theorem parse_rows_data (L : Libc) (ls : List CStr) (block : ison_block_t) (rest : List CStr)
    (h : ∀ l ∈ ls, is_row_line l = true) :
    parse_rows L block false (ls ++ rest) =
      parse_rows L { block with rows := block.rows ++ ls.map (row_of_line L block.fields) }
        false rest := by
  induction ls generalizing block with
  | nil => simp
  | cons l ls ih =>
    rw [List.cons_append, parse_rows_row L block false l _ (h l (by simp))]
    simp only [Bool.false_eq_true, if_false]
    rw [ih _ (fun x hx => h x (by simp [hx]))]
    simp

/-- Summary mode: of a non-empty run of row lines the last one is left as the
    summary row; the rows of the block do not change. -/
theorem parse_rows_summary (L : Libc) (ls : List CStr) (l : CStr) (block : ison_block_t)
    (rest : List CStr) (h : ∀ x ∈ ls ++ [l], is_row_line x = true) :
    parse_rows L block true (ls ++ l :: rest) =
      parse_rows L { block with summary_row := some (row_of_line L block.fields l) } true rest := by
  induction ls generalizing block with
  | nil =>
    rw [List.nil_append, parse_rows_row L block true l _ (h l (by simp))]
    simp
  | cons x ls ih =>
    rw [List.cons_append, parse_rows_row L block true x _ (h x (by simp))]
    simp only [if_true]
    rw [ih _ (fun y hy => h y (by simp at hy ⊢; tauto))]

theorem parse_rows_marker (L : Libc) (block : ison_block_t) (in_summary : Bool) (raw : CStr)
    (rest : List CStr) (h : trim raw = ['-', '-', '-']) :
    parse_rows L block in_summary (raw :: rest) = parse_rows L block true rest := by
  have h3 : block_header ['-', '-', '-'] = none := by decide
  simp [parse_rows, h, h3]

theorem parse_rows_blank (L : Libc) (block : ison_block_t) (in_summary : Bool) (raw : CStr)
    (rest : List CStr) (h : trim raw = []) :
    parse_rows L block in_summary (raw :: rest) = (block, rest) := by
  simp [parse_rows, h]

theorem add_fields_eq (block : ison_block_t) (toks : List CStr) :
    add_fields block toks = { block with fields := block.fields ++ toks.map field_of_token } := by
  unfold add_fields
  induction toks generalizing block with
  | nil => simp
  | cons t ts ih => rw [List.foldl_cons, ih]; simp [ison_block_add_field, field_of_token]

/-! ## Helper lemmas: one block of text -/

theorem block_header_some {line kind name : CStr} (h : block_header line = some (kind, name)) :
    line = kind ++ '.' :: name ∧ is_valid_kind kind = true ∧ line ≠ [] ∧
      line.head? ≠ some '#' := by
  unfold block_header at h
  cases hs : split_at_char '.' line with
  | none => simp [hs] at h
  | some p =>
    obtain ⟨k, n⟩ := p
    simp only [hs] at h
    split_ifs at h with hc
    simp only [Option.some.injEq, Prod.mk.injEq] at h
    obtain ⟨rfl, rfl⟩ := h
    obtain ⟨e, -⟩ := split_at_char_some hs
    refine ⟨e, hc.2, by simp [e], ?_⟩
    have hk := hc.2
    simp only [is_valid_kind, Bool.or_eq_true, decide_eq_true_eq] at hk
    rcases hk with (rfl | rfl) | rfl <;> simp [e]

theorem skip_to_fields_content (raw : CStr) (rest : List CStr) (h1 : trim raw ≠ [])
    (h2 : (trim raw).head? ≠ some '#') : skip_to_fields (raw :: rest) = raw :: rest := by
  simp [skip_to_fields, h1, h2]

theorem ison_parse_loop_nil (L : Libc) (fuel : Nat) (doc : ison_document_t) :
    ison_parse_loop L fuel [] doc = doc := by
  cases fuel <;> rfl

/-- The text of one block: header line, field line, row lines, a `---` line
    and at least one more row line.  The rows before the marker become the
    data rows; of the rows after it the last one is the summary row. -/
theorem ison_parse_block_text (L : Libc) (hdr flds marker last : CStr) (data sums : List CStr)
    (kind name : CStr)
    (hhdr : block_header (trim hdr) = some (kind, name))
    (hf1 : trim flds ≠ []) (hf2 : (trim flds).head? ≠ some '#')
    (hdata : ∀ l ∈ data, is_row_line l = true)
    (hmark : trim marker = ['-', '-', '-'])
    (hsums : ∀ l ∈ sums ++ [last], is_row_line l = true)
    (hlf : ∀ l ∈ hdr :: flds :: (data ++ marker :: (sums ++ [last])), LF ∉ l) :
    ison_parse L (unlines (hdr :: flds :: (data ++ marker :: (sums ++ [last])))) =
      { blocks := [{ kind := kind, name := name, fields := fields_of_line flds,
                     rows := data.map (row_of_line L (fields_of_line flds)),
                     summary_row := some (row_of_line L (fields_of_line flds) last) }],
        order := [name] } := by
  obtain ⟨-, -, hh1, hh2⟩ := block_header_some hhdr
  unfold ison_parse
  rw [split_lines_unlines _ hlf]
  simp only [List.map_cons, List.map_nil, List.length_cons, List.map_append]
  rw [ison_parse_loop]
  simp only [trim_trim_right, hh1, hh2, or_self, if_false, hhdr]
  have hpb : parse_block L kind name
      (trim_right flds :: (data.map trim_right ++
        trim_right marker :: (sums.map trim_right ++ [trim_right last]))) =
      ({ kind := kind, name := name, fields := fields_of_line flds,
         rows := data.map (row_of_line L (fields_of_line flds)),
         summary_row := some (row_of_line L (fields_of_line flds) last) }, []) := by
    unfold parse_block
    rw [skip_to_fields_content _ _ (by rwa [trim_trim_right]) (by rwa [trim_trim_right])]
    simp only [trim_trim_right, add_fields_eq, ison_block_create, List.nil_append]
    rw [parse_rows_data L _ _ _ (by
      intro l hl
      obtain ⟨x, hx, rfl⟩ := List.mem_map.1 hl
      rw [is_row_line_trim_right]; exact hdata x hx)]
    rw [parse_rows_marker L _ _ _ _ (by rwa [trim_trim_right])]
    rw [parse_rows_summary L _ _ _ _ (by
      intro l hl
      have : l ∈ (sums ++ [last]).map trim_right := by simpa using hl
      obtain ⟨x, hx, rfl⟩ := List.mem_map.1 this
      rw [is_row_line_trim_right]; exact hsums x hx)]
    simp [parse_rows, row_of_line_trim_right, fields_of_line, List.map_map, Function.comp_def]
  rw [hpb]
  simp [ison_parse_loop_nil, ison_document_add_block, blocks_replace, ison_document_create]

theorem row_find_none {key : CStr} {es : List (CStr × ison_value_t)}
    (h : key ∉ es.map Prod.fst) : row_find key es = none := by
  induction es with
  | nil => rfl
  | cons e es ih =>
    simp only [List.map_cons, List.mem_cons, not_or] at h
    simp [row_find, Ne.symm h.1, ih h.2]

theorem row_find_mem {key : CStr} {v : ison_value_t} {es : List (CStr × ison_value_t)}
    (hnd : (es.map Prod.fst).Nodup) (h : (key, v) ∈ es) : row_find key es = some v := by
  induction es with
  | nil => simp at h
  | cons e es ih =>
    simp only [List.map_cons, List.nodup_cons] at hnd
    rcases List.mem_cons.1 h with rfl | h
    · simp [row_find]
    · have : e.1 ≠ key := by
        rintro rfl
        exact hnd.1 (List.mem_map.2 ⟨_, h, rfl⟩)
      simp [row_find, this, ih hnd.2 h]

theorem parse_value_token_tilde (L : Libc) (h : Option CStr) :
    parse_value_token L ['~'] h = ison_value_t.null := by
  simp [parse_value_token, ison_null]

/-- C5: positional zipping.  In data mode a row line read against a block
    whose field names are pairwise distinct adds exactly one row: its entries
    are the first `min m n` fields in order, entry `i` holding the decoding of
    token `i` under the hint of field `i`; a field beyond the tokens is absent
    from the row, while a `~` token gives a present Null. -/
theorem positional_zipping (L : Libc) (block : ison_block_t) (raw : CStr) (rest : List CStr)
    (hnd : (block.fields.map (fun f => f.name)).Nodup)
    (hrow : is_row_line raw = true) :
    parse_rows L block false (raw :: rest) =
      parse_rows L
        { block with rows := block.rows ++ [build_row L block.fields (tokenize (trim raw))] }
        false rest ∧
    (build_row L block.fields (tokenize (trim raw))).entries =
      ((tokenize (trim raw)).zip block.fields).map
        (fun tf => (tf.2.name, parse_value_token L tf.1 tf.2.type_hint)) ∧
    (build_row L block.fields (tokenize (trim raw))).count =
      min (tokenize (trim raw)).length block.fields.length ∧
    (∀ (i : Nat) (hi : i < block.fields.length), (tokenize (trim raw)).length ≤ i →
      ison_row_get (build_row L block.fields (tokenize (trim raw)))
        (block.fields.get ⟨i, hi⟩).name = none) ∧
    (∀ (i : Nat) (hi : i < block.fields.length) (ht : i < (tokenize (trim raw)).length),
      (tokenize (trim raw)).get ⟨i, ht⟩ = ['~'] →
      ison_row_get (build_row L block.fields (tokenize (trim raw)))
        (block.fields.get ⟨i, hi⟩).name = some ison_value_t.null) := by
  have hnd1 : ((block.fields.take (tokenize (trim raw)).length).map (fun f => f.name)).Nodup :=
    hnd.sublist ((List.take_sublist _ _).map _)
  have hb := build_row_distinct L block.fields (tokenize (trim raw)) hnd1
  have hkeys : ((build_row L block.fields (tokenize (trim raw))).entries.map Prod.fst)
      = (block.fields.take (tokenize (trim raw)).length).map (fun f => f.name) := by
    rw [hb]; exact zip_keys_eq L _ _
  refine ⟨?_, by rw [hb], by rw [hb], ?_, ?_⟩
  · rw [parse_rows_row L block false raw rest hrow]
    simp only [Bool.false_eq_true, if_false, row_of_line, row_copy_build_row L _ _ hnd1]
  · intro i hi hle
    apply row_find_none
    rw [hkeys]
    intro hmem
    obtain ⟨f, hf, hfe⟩ := List.mem_map.1 hmem
    obtain ⟨j, hj, rfl⟩ := List.getElem_of_mem hf
    rw [List.getElem_take] at hfe
    have hjlt : j < (tokenize (trim raw)).length := by
      rw [List.length_take] at hj; omega
    have hjf : j < block.fields.length := by
      rw [List.length_take] at hj; omega
    have hjm : j < (block.fields.map (fun f => f.name)).length := by simpa using hjf
    have him : i < (block.fields.map (fun f => f.name)).length := by simpa using hi
    have := (@List.Nodup.getElem_inj_iff _ _ hnd j hjm i him).1 (by simpa using hfe)
    omega
  · intro i hi ht htok
    apply row_find_mem (by rw [hkeys]; exact hnd1)
    rw [hb]
    apply List.mem_map.2
    refine ⟨((tokenize (trim raw)).get ⟨i, ht⟩, block.fields.get ⟨i, hi⟩), ?_, ?_⟩
    · have hz : i < ((tokenize (trim raw)).zip block.fields).length := by
        simp; omega
      have := List.getElem_mem hz
      simpa using this
    · simp only [htok]
      rw [parse_value_token_tilde]

/-- The text `table.t\na b\n1 2 3\n`: two declared fields, three tokens; the
    row is exactly `a = Int 1, b = Int 2`. -/
theorem positional_zipping_witness :
    (build_row libc_zero [{ name := ['a'], type_hint := some [] }, { name := ['b'], type_hint := some [] }]
        (tokenize (trim ['1', ' ', '2', ' ', '3']))).entries =
      [(['a'], ison_value_t.int 1), (['b'], ison_value_t.int 2)] ∧
    ison_parse libc_zero
        ['t', 'a', 'b', 'l', 'e', '.', 't', LF, 'a', ' ', 'b', LF, '1', ' ', '2', ' ', '3', LF] =
      { blocks := [{ kind := ['t', 'a', 'b', 'l', 'e'], name := ['t'],
                     fields := [{ name := ['a'], type_hint := some [] },
                                { name := ['b'], type_hint := some [] }],
                     rows := [{ entries := [(['a'], ison_value_t.int 1), (['b'], ison_value_t.int 2)],
                                count := 2 }],
                     summary_row := none }],
        order := [['t']] } :=
  ⟨((positional_zipping libc_zero
      { kind := ['t', 'a', 'b', 'l', 'e'], name := ['t'],
        fields := [{ name := ['a'], type_hint := some [] }, { name := ['b'], type_hint := some [] }],
        rows := [], summary_row := none }
      ['1', ' ', '2', ' ', '3'] [] (by decide) (by decide)).2.1).trans (by decide),
   by decide⟩

/-- C6: summary isolation.  A block text with `N` row lines, a `---` line and
    exactly one more row line parses to one block with `N` data rows, the
    decodings of the `N` lines in order, and the decoding of the last line as
    summary row. -/
theorem summary_isolation (L : Libc) (hdr flds marker last : CStr) (data : List CStr)
    (kind name : CStr)
    (hhdr : block_header (trim hdr) = some (kind, name))
    (hf1 : trim flds ≠ []) (hf2 : (trim flds).head? ≠ some '#')
    (hdata : ∀ l ∈ data, is_row_line l = true)
    (hmark : trim marker = ['-', '-', '-'])
    (hlast : is_row_line last = true)
    (hlf : ∀ l ∈ hdr :: flds :: (data ++ [marker, last]), LF ∉ l) :
    ∃ block : ison_block_t,
      ison_parse L (unlines (hdr :: flds :: (data ++ [marker, last]))) =
        { blocks := [block], order := [name] } ∧
      block.kind = kind ∧ block.name = name ∧ block.fields = fields_of_line flds ∧
      block.rows.length = data.length ∧
      block.rows = data.map (row_of_line L block.fields) ∧
      block.summary_row = some (row_of_line L block.fields last) := by
  refine ⟨_, ison_parse_block_text L hdr flds marker last data [] kind name hhdr hf1 hf2 hdata
    hmark (by simpa using hlast) (by simpa using hlf), rfl, rfl, rfl, by simp, rfl, rfl⟩

/-- The text `table.t\na\n1\n2\n---\n3\n`: two data rows and the summary row `a = 3`. -/
theorem summary_isolation_witness :
    ∃ block : ison_block_t,
      ison_parse libc_zero
        (unlines [['t', 'a', 'b', 'l', 'e', '.', 't'], ['a'], ['1'], ['2'], ['-', '-', '-'], ['3']]) =
        { blocks := [block], order := [['t']] } ∧
      block.kind = ['t', 'a', 'b', 'l', 'e'] ∧ block.name = ['t'] ∧
      block.fields = fields_of_line ['a'] ∧
      block.rows.length = 2 ∧
      block.rows = [['1'], ['2']].map (row_of_line libc_zero block.fields) ∧
      block.summary_row = some (row_of_line libc_zero block.fields ['3']) :=
  summary_isolation libc_zero ['t', 'a', 'b', 'l', 'e', '.', 't'] ['a'] ['-', '-', '-'] ['3']
    [['1'], ['2']] ['t', 'a', 'b', 'l', 'e'] ['t'] (by decide) (by decide) (by decide) (by decide)
    (by decide) (by decide) (by decide)

/-- C7, as the claim states it, fails: in `table.t\na\n1\n---\n2\n3\n` the
    summary row is not the decoding `a = 2` of the first row line after `---`. -/
theorem summary_first_row_counterexample :
    ¬ ∃ L : Libc,
      (ison_parse L (unlines [['t', 'a', 'b', 'l', 'e', '.', 't'], ['a'], ['1'], ['-', '-', '-'],
          ['2'], ['3']])).blocks.map (fun b => b.summary_row) =
        [some (row_of_line L (fields_of_line ['a']) ['2'])] := by
  rintro ⟨L, h⟩
  have e1 : (ison_parse L (unlines [['t', 'a', 'b', 'l', 'e', '.', 't'], ['a'], ['1'],
      ['-', '-', '-'], ['2'], ['3']])).blocks.map (fun b => b.summary_row) =
      [some { entries := [(['a'], ison_value_t.int 3)], count := 1 }] := rfl
  have e2 : row_of_line L (fields_of_line ['a']) ['2'] =
      { entries := [(['a'], ison_value_t.int 2)], count := 1 } := rfl
  rw [e1, e2] at h
  exact absurd h (by decide)

/-- C7, amended: when one or more row lines follow a `---` line inside one
    block, the summary row of the block is the decoding of the last of them,
    and none of them is added to the data rows. -/
theorem summary_last_row (L : Libc) (hdr flds marker last : CStr) (data sums : List CStr)
    (kind name : CStr)
    (hhdr : block_header (trim hdr) = some (kind, name))
    (hf1 : trim flds ≠ []) (hf2 : (trim flds).head? ≠ some '#')
    (hdata : ∀ l ∈ data, is_row_line l = true)
    (hmark : trim marker = ['-', '-', '-'])
    (hsums : ∀ l ∈ sums ++ [last], is_row_line l = true)
    (hlf : ∀ l ∈ hdr :: flds :: (data ++ marker :: (sums ++ [last])), LF ∉ l) :
    ∃ block : ison_block_t,
      ison_parse L (unlines (hdr :: flds :: (data ++ marker :: (sums ++ [last])))) =
        { blocks := [block], order := [name] } ∧
      block.fields = fields_of_line flds ∧
      block.rows = data.map (row_of_line L block.fields) ∧
      block.summary_row = some (row_of_line L block.fields last) :=
  ⟨_, ison_parse_block_text L hdr flds marker last data sums kind name hhdr hf1 hf2 hdata
    hmark hsums hlf, rfl, rfl, rfl⟩

/-- The text `table.t\na\n1\n---\n2\n3\n`: one data row, summary row `a = 3`. -/
theorem summary_last_row_witness :
    ∃ block : ison_block_t,
      ison_parse libc_zero
        (unlines [['t', 'a', 'b', 'l', 'e', '.', 't'], ['a'], ['1'], ['-', '-', '-'], ['2'], ['3']]) =
        { blocks := [block], order := [['t']] } ∧
      block.fields = fields_of_line ['a'] ∧
      block.rows = [['1']].map (row_of_line libc_zero block.fields) ∧
      block.summary_row = some (row_of_line libc_zero block.fields ['3']) :=
  summary_last_row libc_zero ['t', 'a', 'b', 'l', 'e', '.', 't'] ['a'] ['-', '-', '-'] ['3']
    [['1']] [['2']] ['t', 'a', 'b', 'l', 'e'] ['t'] (by decide) (by decide) (by decide) (by decide)
    (by decide) (by decide) (by decide)

/-! ## Helper lemmas: the serialiser loops -/

theorem enumFrom_foldl_joined {α : Type} (d : CStr) (g : α → CStr) (xs : List α) (n : Nat)
    (buf : CStr) :
    (xs.enumFrom n).foldl (fun b ix => (if ix.1 > 0 then b ++ d else b) ++ g ix.2) buf =
      if n > 0 then buf ++ (xs.map (fun x => d ++ g x)).flatten
      else buf ++ join_with d (xs.map g) := by
  induction xs generalizing n buf with
  | nil => simp [join_with]
  | cons x xs ih =>
    rw [List.enumFrom_cons, List.foldl_cons, ih]
    simp only [gt_iff_lt, Nat.lt_add_one, Nat.zero_lt_succ, if_true]
    by_cases hn : 0 < n
    · simp [hn]
    · simp only [hn, if_false]
      cases xs with
      | nil => simp [join_with]
      | cons y ys =>
        simp only [List.map_cons, join_with, List.flatten_cons, List.append_assoc]
        have key : ∀ (zs : List α) (z : α),
            d ++ join_with d ((z :: zs).map g) = ((z :: zs).map (fun x => d ++ g x)).flatten := by
          intro zs
          induction zs with
          | nil => intro z; simp [join_with]
          | cons w ws ihw =>
            intro z
            have := ihw w
            simp only [List.map_cons, join_with, List.flatten_cons, List.append_assoc] at this ⊢
            rw [this]
        have k := key ys y
        simp only [List.map_cons, List.flatten_cons, List.append_assoc] at k
        rw [← k]

theorem append_joined_eq (d : CStr) (items : List CStr) (buf : CStr) :
    append_joined d items buf = buf ++ join_with d items := by
  have := enumFrom_foldl_joined d (fun x : CStr => x) items 0 buf
  simpa [append_joined, List.enum] using this

theorem ison_document_get_mem {doc : ison_document_t} {b : ison_block_t}
    (hnd : (doc.blocks.map (fun b => b.name)).Nodup) (hb : b ∈ doc.blocks) :
    ison_document_get doc b.name = some b := by
  unfold ison_document_get
  generalize doc.blocks = bs at hnd hb
  induction bs with
  | nil => simp at hb
  | cons x xs ih =>
    simp only [List.map_cons, List.nodup_cons] at hnd
    rcases List.mem_cons.1 hb with rfl | hb
    · simp
    · have : x.name ≠ b.name := by
        intro e
        exact hnd.1 (List.mem_map.2 ⟨b, hb, e.symm⟩)
      simp [List.find?_cons, this, ih hnd.2 hb]

theorem field_token_eq_spec {f : ison_field_info_t}
    (h : f.type_hint = none ∨ f.type_hint = some [] ∨
      f.name.length + 1 + (f.type_hint.getD []).length ≤ 255) :
    field_token f = spec_field_token f := by
  unfold field_token spec_field_token
  rcases hf : f.type_hint with _ | _ | ⟨c, cs⟩
  · rfl
  · rfl
  · simp only [snprintf_trunc]
    apply List.take_of_length_le
    rw [hf] at h
    simp at h ⊢
    omega

theorem append_row_eq (L : Libc) (d : CStr) (fields : List ison_field_info_t) (row : ison_row_t)
    (buf : CStr) :
    append_row L d fields row buf = buf ++ (spec_row_line L d fields row ++ [LF]) := by
  simp [append_row, append_joined_eq, spec_row_line]

theorem foldl_append_row (L : Libc) (d : CStr) (fields : List ison_field_info_t)
    (rows : List ison_row_t) (buf : CStr) :
    rows.foldl (fun b row => append_row L d fields row b) buf =
      buf ++ unlines (rows.map (spec_row_line L d fields)) := by
  induction rows generalizing buf with
  | nil => simp [unlines]
  | cons r rs ih => rw [List.foldl_cons, ih, append_row_eq]; simp [unlines]

theorem unlines_append (xs ys : List CStr) : unlines (xs ++ ys) = unlines xs ++ unlines ys := by
  simp [unlines]

theorem unlines_cons (x : CStr) (xs : List CStr) : unlines (x :: xs) = x ++ LF :: unlines xs := by
  simp [unlines]

theorem append_block_eq (L : Libc) (d : CStr) (b : ison_block_t) (buf : CStr)
    (hfit : block_fits b) :
    append_block L d b buf = buf ++ unlines (spec_block_lines L d b) := by
  have h1 : snprintf_trunc 256 (b.kind ++ '.' :: b.name ++ [LF]) = b.kind ++ '.' :: b.name ++ [LF] := by
    apply List.take_of_length_le
    have := hfit.1
    simp; omega
  have h2 : b.fields.map field_token = b.fields.map spec_field_token :=
    List.map_congr_left (fun f hf => field_token_eq_spec (hfit.2 f hf))
  unfold append_block spec_block_lines
  simp only [h1, h2, append_joined_eq, foldl_append_row]
  cases b.summary_row with
  | none => simp [unlines_cons, unlines_append, unlines]
  | some s => simp [unlines_cons, unlines_append, unlines, append_row_eq]

/-- The body of `ison_dumps_with_options` on a document that keeps the
    invariant and whose blocks fit the buffers. -/
theorem ison_dumps_with_options_eq (L : Libc) (doc : ison_document_t)
    (opts : Option ison_dumps_options_t) (hwf : document_wf doc)
    (hfit : ∀ b ∈ doc.blocks, block_fits b) :
    ison_dumps_with_options L doc opts = spec_dumps L (delimiter_of opts) doc := by
  have hd : ison_dumps_with_options L doc opts =
      doc.order.enum.foldl
        (fun buf ix =>
          let buf1 := if ix.1 > 0 then buf ++ [LF] else buf
          match ison_document_get doc ix.2 with
          | none => buf1
          | some block => append_block L (delimiter_of opts) block buf1)
        [] := by
    unfold ison_dumps_with_options delimiter_of
    rfl
  rw [hd]
  let g : CStr → CStr := fun nm =>
    match ison_document_get doc nm with
    | none => []
    | some b => unlines (spec_block_lines L (delimiter_of opts) b)
  have hstep : ∀ (buf : CStr), ∀ ix ∈ doc.order.enum,
      (fun buf (ix : Nat × CStr) =>
          let buf1 := if ix.1 > 0 then buf ++ [LF] else buf
          match ison_document_get doc ix.2 with
          | none => buf1
          | some block => append_block L (delimiter_of opts) block buf1) buf ix =
      (fun b (ix : Nat × CStr) => (if ix.1 > 0 then b ++ [LF] else b) ++ g ix.2) buf ix := by
    intro buf ix hix
    have hm : ix.2 ∈ doc.order := List.snd_mem_of_mem_enum hix
    rw [hwf.1] at hm
    obtain ⟨b, hb, hbn⟩ := List.mem_map.1 hm
    have hg := ison_document_get_mem hwf.2 hb
    rw [hbn] at hg
    simp only [g, hg, append_block_eq L _ b _ (hfit b hb)]
  rw [List.foldl_ext _ _ _ hstep]
  have := enumFrom_foldl_joined [LF] g doc.order 0 []
  simp only [List.enum, gt_iff_lt, Nat.lt_irrefl, if_false, List.nil_append] at this ⊢
  rw [this, hwf.1, List.map_map]
  unfold spec_dumps
  congr 1
  apply List.map_congr_left
  intro b hb
  simp only [Function.comp, g, ison_document_get_mem hwf.2 hb]

set_option maxRecDepth 100000 in
/-- C4, as the claim states it, fails: the header line of a table named with
    250 bytes is cut at 255 bytes by `snprintf`, its newline included, so the
    output is shorter than the text of the specification. -/
theorem dumps_long_name_counterexample :
    ¬ ∃ L : Libc, ison_dumps_with_options L doc_long_name none = spec_dumps L [SP] doc_long_name := by
  rintro ⟨L, h⟩
  have h1 : (ison_dumps_with_options L doc_long_name none).length = 257 := rfl
  have h2 : (spec_dumps L [SP] doc_long_name).length = 259 := rfl
  rw [h, h2] at h1
  exact absurd h1 (by decide)

/-- C4, amended: for every document that keeps the invariant of
    `ison_document_add_block` and whose header lines and `name:hint` tokens fit
    the 256-byte buffers, and every delimiter, the output of
    `ison_dumps_with_options` is the text of the specification. -/
theorem dumps_refines_spec (L : Libc) (doc : ison_document_t)
    (opts : Option ison_dumps_options_t) (hwf : document_wf doc)
    (hfit : ∀ b ∈ doc.blocks, block_fits b) :
    ison_dumps_with_options L doc opts = spec_dumps L (delimiter_of opts) doc ∧
    delimiter_of none = [SP] ∧
    (∀ o : ison_dumps_options_t, o.delimiter = none → delimiter_of (some o) = [SP]) ∧
    (∀ (o : ison_dumps_options_t) (d : CStr), o.delimiter = some d → delimiter_of (some o) = d) := by
  refine ⟨ison_dumps_with_options_eq L doc opts hwf hfit, rfl, ?_, ?_⟩
  · intro o ho; simp [delimiter_of, ho]
  · intro o d ho; simp [delimiter_of, ho]

/-- The document `doc_one_row` printed with the delimiter `,`. -/
theorem dumps_refines_spec_witness :
    ison_dumps_with_options libc_zero doc_one_row (some { align_columns := false, delimiter := some [','] })
      = ['t', 'a', 'b', 'l', 'e', '.', 't', LF, 'a', LF, '1', LF] :=
  ((dumps_refines_spec libc_zero doc_one_row (some { align_columns := false, delimiter := some [','] })
    ⟨by decide, by decide⟩ (by decide)).1).trans (by decide)

/-- C3 fails on the code: for the one-row table `doc_one_row` the
    specification gives the single line `table.t|a|1`, while `ison_dumps_isonl`
    prints the field list and a `|` in front of it: `a|table.t|a|1`. -/
theorem dumps_isonl_stray_prefix (L : Libc) :
    spec_dumps_isonl L doc_one_row = ['t', 'a', 'b', 'l', 'e', '.', 't', '|', 'a', '|', '1'] ∧
    ison_dumps_isonl L doc_one_row =
      ['a', '|', 't', 'a', 'b', 'l', 'e', '.', 't', '|', 'a', '|', '1'] :=
  ⟨rfl, rfl⟩

/-! ## Helper lemmas: reading a row back -/

theorem row_replace_some_iff {key : CStr} (value : ison_value_t) {es : List (CStr × ison_value_t)}
    (h : key ∈ es.map Prod.fst) : ∃ es1, row_replace key value es = some es1 ∧
      es1.map Prod.fst = es.map Prod.fst ∧ es1.length = es.length ∧
      ∀ k, row_find k es1 = if k = key then some value else row_find k es := by
  induction es with
  | nil => simp at h
  | cons e es ih =>
    by_cases he : e.1 = key
    · refine ⟨(e.1, value) :: es, by simp [row_replace, he], by simp, by simp, ?_⟩
      intro k
      by_cases hk : k = key
      · simp [row_find, hk, he]
      · have : e.1 ≠ k := by rw [he]; exact Ne.symm hk
        simp [row_find, hk, this]
    · have hmem : key ∈ es.map Prod.fst := by
        simp only [List.map_cons, List.mem_cons] at h
        rcases h with h | h
        · exact absurd h.symm he
        · exact h
      obtain ⟨es1, h1, h2, h3, h4⟩ := ih hmem
      refine ⟨e :: es1, by simp [row_replace, he, h1], by simp [h2], by simp [h3], ?_⟩
      intro k
      by_cases hk : k = key
      · subst hk
        simp [row_find, he, h4]
      · by_cases hek : e.1 = k
        · simp [row_find, hek, hk]
        · simp [row_find, hek, h4, hk]

theorem row_find_append_new (k key : CStr) (value : ison_value_t)
    (es : List (CStr × ison_value_t)) (h : key ∉ es.map Prod.fst) :
    row_find k (es ++ [(key, value)]) = if k = key then some value else row_find k es := by
  induction es with
  | nil =>
    by_cases hk : k = key
    · simp [row_find, hk]
    · simp [row_find, hk, Ne.symm hk]
  | cons e es ih =>
    simp only [List.map_cons, List.mem_cons, not_or] at h
    by_cases hek : e.1 = k
    · have : k ≠ key := by rw [← hek]; exact Ne.symm h.1
      simp [row_find, hek, this]
    · simp [row_find, hek, ih h.2]

/-- Reading a row after `ison_row_set`: the key set gives the new value, every
    other key what it gave before. -/
theorem ison_row_get_set (row : ison_row_t) (key k : CStr) (value : ison_value_t) :
    ison_row_get (ison_row_set row key value) k =
      if k = key then some value else ison_row_get row k := by
  unfold ison_row_get ison_row_set
  by_cases h : key ∈ row.entries.map Prod.fst
  · obtain ⟨es1, h1, -, -, h4⟩ := row_replace_some_iff value h
    simp [h1, h4]
  · simp [row_replace_none value h, row_find_append_new k key value _ h]

/-- The invariant of a row: keys pairwise distinct, `count` the number of entries. -/
theorem ison_row_set_inv (row : ison_row_t) (key : CStr) (value : ison_value_t)
    (hnd : (row.entries.map Prod.fst).Nodup) (hc : row.count = row.entries.length) :
    ((ison_row_set row key value).entries.map Prod.fst).Nodup ∧
      (ison_row_set row key value).count = (ison_row_set row key value).entries.length := by
  unfold ison_row_set
  by_cases h : key ∈ row.entries.map Prod.fst
  · obtain ⟨es1, h1, h2, h3, -⟩ := row_replace_some_iff value h
    simp [h1, h2, h3, hnd, hc]
  · simp only [row_replace_none value h, List.map_append, List.map_cons, List.map_nil,
      List.length_append, List.length_singleton, hc, and_true]
    rw [List.nodup_append]
    refine ⟨hnd, by simp, ?_⟩
    intro a ha hb
    simp only [List.mem_singleton] at hb
    subst hb
    exact h ha

theorem foldl_row_set_inv {α : Type} (key : α → CStr) (val : α → ison_value_t) (xs : List α)
    (row : ison_row_t) (hnd : (row.entries.map Prod.fst).Nodup)
    (hc : row.count = row.entries.length) :
    ((xs.foldl (fun r x => ison_row_set r (key x) (val x)) row).entries.map Prod.fst).Nodup ∧
      (xs.foldl (fun r x => ison_row_set r (key x) (val x)) row).count =
        (xs.foldl (fun r x => ison_row_set r (key x) (val x)) row).entries.length := by
  induction xs generalizing row with
  | nil => exact ⟨hnd, hc⟩
  | cons x xs ih =>
    rw [List.foldl_cons]
    exact ih _ (ison_row_set_inv row _ _ hnd hc).1 (ison_row_set_inv row _ _ hnd hc).2

/-- Reading a key after a run of `ison_row_set`: when every item of that key
    carries the value `v` and there is such an item, the key gives `v`. -/
theorem foldl_row_set_get {α : Type} (key : α → CStr) (val : α → ison_value_t) (xs : List α)
    (row : ison_row_t) (k : CStr) (v : ison_value_t)
    (hall : ∀ x ∈ xs, key x = k → val x = v) (hex : ∃ x ∈ xs, key x = k) :
    ison_row_get (xs.foldl (fun r x => ison_row_set r (key x) (val x)) row) k = some v := by
  induction xs generalizing row with
  | nil => simp at hex
  | cons x xs ih =>
    rw [List.foldl_cons]
    by_cases hx : ∃ y ∈ xs, key y = k
    · exact ih _ (fun y hy => hall y (by simp [hy])) hx
    · obtain ⟨y, hy, hyk⟩ := hex
      have hyx : y = x := by
        rcases List.mem_cons.1 hy with h | h
        · exact h
        · exact absurd ⟨y, h, hyk⟩ hx
      subst hyx
      have hrest : ∀ (r : ison_row_t), ison_row_get r k = some v →
          ison_row_get (xs.foldl (fun r x => ison_row_set r (key x) (val x)) r) k = some v := by
        intro r hr
        clear ih hall hy
        induction xs generalizing r with
        | nil => exact hr
        | cons z zs ihz =>
          rw [List.foldl_cons]
          apply ihz
          · intro ⟨w, hw, hwk⟩
            exact hx ⟨w, by simp [hw], hwk⟩
          · rw [ison_row_get_set]
            have : k ≠ key z := by
              intro e
              exact hx ⟨z, by simp, e.symm⟩
            simp [this, hr]
      apply hrest
      rw [ison_row_get_set, ← hyk]
      simp [hall y (by simp) hyk]

/-- A row filled by `build_row` is unchanged by the copy into the block. -/
theorem row_copy_build_row_any (L : Libc) (fields : List ison_field_info_t) (tokens : List CStr) :
    row_copy (build_row L fields tokens) = build_row L fields tokens := by
  have h := foldl_row_set_inv (fun tf : CStr × ison_field_info_t => tf.2.name)
    (fun tf => parse_value_token L tf.1 tf.2.type_hint) (tokens.zip fields) ison_row_create
    (by simp [ison_row_create]) (by simp [ison_row_create])
  exact row_copy_eq h.1 h.2

/-! ## Helper lemmas: the tokenizer on printed tokens -/

theorem tokenize_loop_bare (s rest cur : CStr)
    (h : ∀ c ∈ s, c ≠ SP ∧ c ≠ TAB ∧ c ≠ DQUOTE ∧ c ≠ NUL) :
    tokenize_loop (s ++ rest) cur false false = tokenize_loop rest (cur ++ s) false false := by
  induction s generalizing cur with
  | nil => simp
  | cons c cs ih =>
    obtain ⟨h1, h2, h3, h4⟩ := h c (by simp)
    rw [List.cons_append, tokenize_loop]
    simp only [Bool.false_eq_true, if_false, and_false, h3, Bool.not_false, true_and, h1, h2, h4,
      or_self]
    rw [ih _ (fun x hx => h x (by simp [hx]))]
    simp

theorem tokenize_loop_escaped (s rest cur : CStr) :
    tokenize_loop (escape_ison s ++ rest) cur true false =
      tokenize_loop rest (cur ++ s) true false := by
  induction s generalizing cur with
  | nil => simp [escape_ison]
  | cons c cs ih =>
    have hb : BSLASH ≠ DQUOTE := by decide
    have e1 : ('n' : Char) ≠ BSLASH := by decide
    have e2 : ('t' : Char) ≠ BSLASH := by decide
    have e3 : ('n' : Char) ≠ DQUOTE := by decide
    have e4 : ('t' : Char) ≠ DQUOTE := by decide
    have e5 : BSLASH ≠ 'n' := by decide
    have e6 : BSLASH ≠ 't' := by decide
    have e7 : DQUOTE ≠ 'n' := by decide
    have e8 : DQUOTE ≠ 't' := by decide
    have e9 : ('t' : Char) ≠ 'n' := by decide
    unfold escape_ison
    by_cases c1 : c = BSLASH
    · simp only [c1, if_true, List.cons_append]
      rw [tokenize_loop]
      simp only [Bool.false_eq_true, if_false, and_self, if_true]
      rw [tokenize_loop]
      simp only [if_true, e5, e6, hb, if_false]
      rw [ih]; simp
    · by_cases c2 : c = DQUOTE
      · simp only [c2, if_true, List.cons_append, Ne.symm hb, if_false]
        rw [tokenize_loop]
        simp only [Bool.false_eq_true, if_false, and_self, if_true]
        rw [tokenize_loop]
        simp only [if_true, e7, e8, if_false]
        rw [ih]; simp
      · by_cases c3 : c = LF
        · simp only [c3, c1, c2, if_true, if_false, List.cons_append,
            (by decide : LF ≠ BSLASH), (by decide : LF ≠ DQUOTE)]
          rw [tokenize_loop]
          simp only [Bool.false_eq_true, if_false, and_self, if_true]
          rw [tokenize_loop]
          simp only [if_true]
          rw [ih]; simp
        · by_cases c4 : c = TAB
          · simp only [c4, if_true, if_false, List.cons_append,
              (by decide : TAB ≠ BSLASH), (by decide : TAB ≠ DQUOTE), (by decide : TAB ≠ LF)]
            rw [tokenize_loop]
            simp only [Bool.false_eq_true, if_false, and_self, if_true]
            rw [tokenize_loop]
            simp only [if_true, e9, if_false]
            rw [ih]; simp
          · simp only [c1, c2, c3, c4, if_false, List.cons_append]
            rw [tokenize_loop]
            simp only [Bool.false_eq_true, if_false, c1, false_and, c2, Bool.not_true]
            rw [ih]; simp

theorem reads_as_bare (s : CStr) (h : ∀ c ∈ s, c ≠ SP ∧ c ≠ TAB ∧ c ≠ DQUOTE ∧ c ≠ NUL) :
    reads_as s s := by
  intro rest
  simpa using tokenize_loop_bare s rest [] h

theorem reads_as_quoted (s : CStr) : reads_as (DQUOTE :: escape_ison s ++ [DQUOTE]) s := by
  intro rest
  have hb : DQUOTE ≠ BSLASH := by decide
  simp only [List.cons_append, List.append_assoc]
  rw [tokenize_loop]
  simp only [Bool.false_eq_true, if_false, hb, false_and, if_true, Bool.not_false]
  rw [tokenize_loop_escaped, List.nil_append, List.nil_append, tokenize_loop]
  simp [hb]

theorem tokenize_loop_sep (tok rest : CStr) (h : tok ≠ []) :
    tokenize_loop (SP :: rest) tok false false = tok :: tokenize_loop rest [] false false := by
  rw [tokenize_loop]
  have h1 : SP ≠ BSLASH := by decide
  have h2 : SP ≠ DQUOTE := by decide
  have h3 : 0 < tok.length := List.length_pos.2 h
  simp [h1, h2, h3]

theorem tokenize_loop_end (tok : CStr) (h : tok ≠ []) :
    tokenize_loop [NUL] tok false false = [tok] := by
  rw [tokenize_loop]
  have h1 : NUL ≠ BSLASH := by decide
  have h2 : NUL ≠ DQUOTE := by decide
  have h3 : 0 < tok.length := List.length_pos.2 h
  simp [h1, h2, h3, tokenize_loop]

/-- A line of printed tokens joined by single spaces is split into the tokens
    they stand for. -/
theorem tokenize_join (rs ts : List CStr)
    (h : List.Forall₂ (fun r t => reads_as r t ∧ t ≠ []) rs ts) :
    tokenize (join_with [SP] rs) = ts := by
  unfold tokenize
  induction h with
  | nil => simp [join_with, tokenize_loop]
  | @cons r t rs ts hrt hrest ih =>
    cases hrest with
    | nil =>
      simp only [join_with]
      rw [hrt.1 [NUL], tokenize_loop_end t hrt.2]
    | @cons r2 t2 rs2 ts2 h2 h3 =>
      simp only [join_with, List.append_assoc, List.singleton_append, List.cons_append]
      rw [hrt.1, tokenize_loop_sep t _ hrt.2, List.nil_append, ih]

/-! ## Helper lemmas: printing and reading integers -/

theorem digit_char (k : Nat) (h : k < 10) :
    (Char.ofNat (48 + k)).toNat - 48 = k ∧ isdigit (Char.ofNat (48 + k)) = true := by
  interval_cases k <;> decide

theorem isdigit_facts {c : Char} (h : isdigit c = true) :
    isspace c = false ∧ c ≠ '-' ∧ c ≠ '+' ∧ c ≠ SP ∧ c ≠ TAB ∧ c ≠ LF ∧ c ≠ DQUOTE ∧ c ≠ NUL ∧
      c ≠ ':' ∧ c ≠ '~' ∧ tolower c ≠ 'n' ∧ tolower c ≠ 't' ∧ tolower c ≠ 'f' ∧ c ≠ '#' := by
  have h1 : 48 ≤ c.toNat ∧ c.toNat ≤ 57 := by simpa [isdigit] using h
  have hne : ∀ d : Char, (d.toNat < 48 ∨ 57 < d.toNat) → c ≠ d := by
    intro d hd e
    rw [e] at h1
    omega
  have hlow : tolower c = c := by
    unfold tolower
    rw [if_neg (by omega)]
  refine ⟨?_, hne _ (by decide), hne _ (by decide), hne _ (by decide), hne _ (by decide),
    hne _ (by decide), hne _ (by decide), hne _ (by decide), hne _ (by decide), hne _ (by decide),
    by rw [hlow]; exact hne _ (by decide), by rw [hlow]; exact hne _ (by decide),
    by rw [hlow]; exact hne _ (by decide), hne _ (by decide)⟩
  have e1 := hne SP (by decide)
  have e2 := hne TAB (by decide)
  have e3 := hne LF (by decide)
  have e4 := hne (Char.ofNat 11) (by decide)
  have e5 := hne (Char.ofNat 12) (by decide)
  have e6 := hne CR (by decide)
  simp [isspace, e1, e2, e3, e4, e5, e6]

theorem digits_value_append (a : Nat) (ds tail : CStr) :
    digits_value a (ds ++ tail) = digits_value (digits_value a ds) tail := by
  induction ds generalizing a with
  | nil => rfl
  | cons c cs ih =>
    show digits_value (a * 10 + (c.toNat - 48)) (cs ++ tail) = _
    rw [ih]
    rfl

theorem fmt_digits_spec (fuel n : Nat) (acc : CStr) (h : n < fuel) :
    ∃ ds : CStr, fmt_digits fuel n acc = ds ++ acc ∧ ds ≠ [] ∧ (∀ c ∈ ds, isdigit c = true) ∧
      ∀ a : Nat, digits_value a ds = a * 10 ^ ds.length + n := by
  induction fuel generalizing n acc with
  | zero => omega
  | succ fuel ih =>
    unfold fmt_digits
    have hd := digit_char (n % 10) (Nat.mod_lt _ (by decide))
    by_cases h0 : n / 10 = 0
    · simp only [h0, if_true]
      refine ⟨[Char.ofNat (48 + n % 10)], rfl, by simp, by simpa using hd.2, ?_⟩
      intro a
      have : n % 10 = n := by omega
      show a * 10 + ((Char.ofNat (48 + n % 10)).toNat - 48) = _
      rw [hd.1, this]
      simp
    · simp only [h0, if_false]
      have hlt : n / 10 < fuel := by omega
      obtain ⟨ds, e, hne, hdig, hval⟩ := ih (n / 10) (Char.ofNat (48 + n % 10) :: acc) hlt
      refine ⟨ds ++ [Char.ofNat (48 + n % 10)], by simp [e], by simp, ?_, ?_⟩
      · intro c hc
        rcases List.mem_append.1 hc with hc | hc
        · exact hdig c hc
        · simp only [List.mem_singleton] at hc
          rw [hc]; exact hd.2
      · intro a
        rw [digits_value_append, hval a]
        show (a * 10 ^ ds.length + n / 10) * 10 + ((Char.ofNat (48 + n % 10)).toNat - 48) = _
        rw [hd.1, List.length_append, List.length_singleton, pow_succ]
        have := Nat.div_add_mod n 10
        nlinarith [this]

/-- What `%ld` prints: an optional `-` and a non-empty run of digits whose value
    is the absolute value. -/
theorem fmt_ld_spec (n : Int) :
    ∃ ds : CStr, ds ≠ [] ∧ (∀ c ∈ ds, isdigit c = true) ∧ digits_value 0 ds = n.natAbs ∧
      fmt_ld n = if n < 0 then '-' :: ds else ds := by
  obtain ⟨ds, e, hne, hdig, hval⟩ := fmt_digits_spec (n.natAbs + 1) n.natAbs [] (by omega)
  refine ⟨ds, hne, hdig, by simpa using hval 0, ?_⟩
  unfold fmt_ld
  simp only [e, List.append_nil]

theorem strtol_digits (ds : CStr) (hne : ds ≠ []) (hdig : ∀ c ∈ ds, isdigit c = true) :
    strtol ds = (clamp_long (digits_value 0 ds), []) ∧
    strtol ('-' :: ds) = (clamp_long (-(digits_value 0 ds : Int)), []) := by
  obtain ⟨c, cs, rfl⟩ := List.exists_cons_of_ne_nil hne
  have hc := isdigit_facts (hdig c (by simp))
  have htw : List.takeWhile isdigit (c :: cs) = c :: cs :=
    List.takeWhile_eq_self_iff.2 hdig
  have hdw : List.dropWhile isdigit (c :: cs) = [] :=
    List.dropWhile_eq_nil_iff.2 hdig
  have hm : isspace '-' = false := by decide
  have hsp : List.dropWhile isspace (c :: cs) = c :: cs := by
    simp [List.dropWhile_cons, hc.1]
  have hsm : List.dropWhile isspace ('-' :: c :: cs) = '-' :: c :: cs := by
    simp [List.dropWhile_cons, hm]
  constructor
  · unfold strtol
    simp only [hsp, hc.2.1, hc.2.2.1, if_false, htw, hdw]
    simp
  · unfold strtol
    simp only [hsm, if_true, htw, hdw]
    simp

/-- Reading back what `%ld` printed for a 64-bit value gives the value, with
    nothing left unread. -/
theorem strtol_fmt_ld (n : Int) (h1 : LONG_MIN ≤ n) (h2 : n ≤ LONG_MAX) :
    strtol (fmt_ld n) = (n, []) := by
  obtain ⟨ds, hne, hdig, hval, e⟩ := fmt_ld_spec n
  have hs := strtol_digits ds hne hdig
  have hcl : ∀ v : Int, v = n → clamp_long v = n := by
    intro v hv
    subst hv
    unfold clamp_long
    rw [if_neg (by omega), if_neg (by omega)]
  rw [e]
  by_cases hn : n < 0
  · rw [if_pos hn, hs.2, hval, hcl _ (by omega)]
  · rw [if_neg hn, hs.1, hval, hcl _ (by omega)]

/-- The bytes `%ld` prints: digits and a leading `-`. -/
theorem fmt_ld_chars (n : Int) :
    fmt_ld n ≠ [] ∧ (∀ c ∈ fmt_ld n, isdigit c = true ∨ c = '-') := by
  obtain ⟨ds, hne, hdig, -, e⟩ := fmt_ld_spec n
  rw [e]
  split_ifs
  · exact ⟨by simp, fun c hc => by
      rcases List.mem_cons.1 hc with h | h
      · exact Or.inr h
      · exact Or.inl (hdig c h)⟩
  · exact ⟨hne, fun c hc => Or.inl (hdig c hc)⟩

/-! ## Helper lemmas: decoding a printed value -/

theorem strcaseeq_head_ne {c x : Char} (cs xs : CStr) (h : tolower c ≠ tolower x) :
    strcaseeq (c :: cs) (x :: xs) = false := by
  simp [strcaseeq, h]

/-- The part of `parse_value_token` after the Null, Bool and Reference tests. -/
theorem parse_value_token_late (L : Libc) (t : CStr) (hint : Option CStr)
    (h1 : t ≠ ['~']) (h2 : strcaseeq t ['n', 'u', 'l', 'l'] = false)
    (h3 : strcaseeq t ['t', 'r', 'u', 'e'] = false)
    (h4 : strcaseeq t ['f', 'a', 'l', 's', 'e'] = false) (h5 : t.head? ≠ some ':') :
    parse_value_token L t hint =
      match hint with
      | some (h :: hs) =>
        if h :: hs = ['i', 'n', 't'] then
          if (strtol t).2 = [] then ison_int (strtol t).1 else parse_value_generic L t
        else if h :: hs = ['f', 'l', 'o', 'a', 't'] then
          if (strtod L t).2 = [] then ison_float (strtod L t).1 else parse_value_generic L t
        else if h :: hs = ['b', 'o', 'o', 'l'] then
          if t = ['t', 'r', 'u', 'e'] ∨ t = ['1'] then ison_bool true
          else if t = ['f', 'a', 'l', 's', 'e'] ∨ t = ['0'] then ison_bool false
          else parse_value_generic L t
        else if h :: hs = ['s', 't', 'r', 'i', 'n', 'g'] then ison_string t
        else parse_value_generic L t
      | _ => parse_value_generic L t := by
  unfold parse_value_token
  rw [if_neg (by simp [h1, h2]), if_neg (by simp [h3]), if_neg (by simp [h4]), if_neg h5]

/-- A token `strtol` reads whole decodes to its Int under every hint that does
    not claim it for another type. -/
theorem parse_value_token_int (L : Libc) (t : CStr) (hint : Option CStr) (n : Int)
    (hst : strtol t = (n, []))
    (h1 : t ≠ ['~']) (h2 : strcaseeq t ['n', 'u', 'l', 'l'] = false)
    (h3 : strcaseeq t ['t', 'r', 'u', 'e'] = false)
    (h4 : strcaseeq t ['f', 'a', 'l', 's', 'e'] = false) (h5 : t.head? ≠ some ':')
    (hf : hint ≠ some ['f', 'l', 'o', 'a', 't']) (hs : hint ≠ some ['s', 't', 'r', 'i', 'n', 'g'])
    (hb : hint = some ['b', 'o', 'o', 'l'] → t ≠ ['1'] ∧ t ≠ ['0']) :
    parse_value_token L t hint = ison_value_t.int n := by
  rw [parse_value_token_late L t hint h1 h2 h3 h4 h5]
  have hg : parse_value_generic L t = ison_value_t.int n := by
    simp [parse_value_generic, hst, ison_int]
  have ht1 : t ≠ ['t', 'r', 'u', 'e'] := by rintro rfl; revert h3; decide
  have ht2 : t ≠ ['f', 'a', 'l', 's', 'e'] := by rintro rfl; revert h4; decide
  rcases hint with _ | _ | ⟨c, cs⟩
  · exact hg
  · exact hg
  · simp only
    by_cases a1 : c :: cs = ['i', 'n', 't']
    · rw [if_pos a1, if_pos (by rw [hst])]
      simp [hst, ison_int]
    · rw [if_neg a1]
      by_cases a2 : c :: cs = ['f', 'l', 'o', 'a', 't']
      · exact absurd (by rw [a2]) hf
      · rw [if_neg a2]
        by_cases a3 : c :: cs = ['b', 'o', 'o', 'l']
        · have hb1 := hb (by rw [a3])
          rw [if_pos a3, if_neg (by simp [ht1, hb1.1]), if_neg (by simp [ht2, hb1.2])]
          exact hg
        · rw [if_neg a3]
          by_cases a4 : c :: cs = ['s', 't', 'r', 'i', 'n', 'g']
          · exact absurd (by rw [a4]) hs
          · rw [if_neg a4]
            exact hg

/-- A token that is no Null, Bool, Reference or number decodes to itself. -/
theorem parse_value_token_string (L : Libc) (s : CStr) (hint : Option CStr)
    (h : string_decodes s hint = true) :
    parse_value_token L s hint = ison_value_t.string (some s) := by
  simp only [string_decodes, Bool.and_eq_true, Bool.or_eq_true, decide_eq_true_eq,
    Bool.not_eq_true'] at h
  obtain ⟨⟨⟨⟨⟨h1, h2⟩, h3⟩, h4⟩, h5⟩, h6⟩ := h
  rw [parse_value_token_late L s hint h1 h2 h3 h4 h5]
  have ht1 : s ≠ ['t', 'r', 'u', 'e'] := by rintro rfl; revert h3; decide
  have ht2 : s ≠ ['f', 'a', 'l', 's', 'e'] := by rintro rfl; revert h4; decide
  rcases h6 with h6 | ⟨h6, h7⟩
  · subst h6
    simp [ison_string]
  · have hg : parse_value_generic L s = ison_value_t.string (some s) := by
      simp [parse_value_generic, h6, strtod, h7, ison_string]
    have hn1 : s ≠ ['1'] := by rintro rfl; revert h6; decide
    have hn0 : s ≠ ['0'] := by rintro rfl; revert h6; decide
    rcases hint with _ | _ | ⟨c, cs⟩
    · exact hg
    · exact hg
    · simp only
      by_cases a1 : c :: cs = ['i', 'n', 't']
      · rw [if_pos a1, if_neg h6]
        exact hg
      · rw [if_neg a1]
        by_cases a2 : c :: cs = ['f', 'l', 'o', 'a', 't']
        · rw [if_pos a2, if_neg (by simp [strtod, h7])]
          exact hg
        · rw [if_neg a2]
          by_cases a3 : c :: cs = ['b', 'o', 'o', 'l']
          · rw [if_pos a3, if_neg (by simp [ht1, hn1]), if_neg (by simp [ht2, hn0])]
            exact hg
          · rw [if_neg a3]
            by_cases a4 : c :: cs = ['s', 't', 'r', 'i', 'n', 'g']
            · rw [if_pos a4]; rfl
            · rw [if_neg a4]
              exact hg

theorem parse_value_token_ref (L : Libc) (t : CStr) (hint : Option CStr) (h : t.head? = some ':') :
    parse_value_token L t hint = ison_value_t.reference (parse_reference t) := by
  cases t with
  | nil => simp at h
  | cons c cs =>
    simp only [List.head?_cons, Option.some.injEq] at h
    subst h
    unfold parse_value_token
    rw [if_neg (by
        rw [strcaseeq_head_ne _ _ (by decide)]
        simp),
      if_neg (by rw [strcaseeq_head_ne _ _ (by decide)]; simp),
      if_neg (by rw [strcaseeq_head_ne _ _ (by decide)]; simp), if_pos (by simp)]
    rfl

theorem parse_value_token_bool (L : Libc) (b : Bool) (hint : Option CStr) :
    parse_value_token L (if b then ['t', 'r', 'u', 'e'] else ['f', 'a', 'l', 's', 'e']) hint =
      ison_value_t.bool b := by
  cases b
  · unfold parse_value_token
    rw [if_neg (by decide), if_neg (by decide), if_pos (by decide)]
    rfl
  · unfold parse_value_token
    rw [if_neg (by decide), if_pos (by decide)]
    rfl

/-! ## Helper lemmas: one value, printed and decoded -/

theorem plain_bytes_iff (s : CStr) :
    plain_bytes s = true ↔ ∀ c ∈ s, c ≠ SP ∧ c ≠ TAB ∧ c ≠ LF ∧ c ≠ DQUOTE ∧ c ≠ NUL := by
  simp [plain_bytes, List.all_eq_true, and_assoc]

theorem plain_bytes_append (a b : CStr) :
    plain_bytes (a ++ b) = (plain_bytes a && plain_bytes b) := by
  simp [plain_bytes, List.all_append]

theorem ends_trimmed_append (a b : CStr) (h : b ≠ []) : ends_trimmed (a ++ b) = ends_trimmed b := by
  unfold ends_trimmed
  rw [List.getLast?_append_of_ne_nil _ h]

theorem ends_trimmed_cons (c : Char) (s : CStr) (hc : isspace c = false)
    (h : ends_trimmed s = true) : ends_trimmed (c :: s) = true := by
  cases s with
  | nil => simp [ends_trimmed, hc]
  | cons x xs =>
    have := ends_trimmed_append [c] (x :: xs) (by simp)
    simpa [h] using this

theorem escape_ison_no_lf (s : CStr) : LF ∉ escape_ison s := by
  induction s with
  | nil => simp [escape_ison]
  | cons c cs ih =>
    unfold escape_ison
    have h1 : LF ≠ BSLASH := by decide
    have h2 : LF ≠ DQUOTE := by decide
    have h3 : LF ≠ 'n' := by decide
    have h4 : LF ≠ 't' := by decide
    split_ifs with a b c1 d
    · simp [h1, ih]
    · simp [h1, h2, ih]
    · simp [h1, h3, ih]
    · simp [h1, h4, ih]
    · simp [ih, Ne.symm c1]

theorem needs_quotes_false {s : CStr} (h : needs_quotes s = false) :
    s ≠ [] ∧ ∀ c ∈ s, c ≠ SP ∧ c ≠ TAB ∧ c ≠ LF ∧ c ≠ DQUOTE := by
  simp only [needs_quotes, Bool.or_eq_false_iff, decide_eq_false_iff_not, List.contains_eq_any_beq,
    List.any_eq_false, beq_iff_eq] at h
  obtain ⟨⟨⟨⟨h1, h2⟩, h3⟩, h4⟩, h5⟩ := h
  exact ⟨h1, fun c hc => ⟨Ne.symm (h2 c hc), Ne.symm (h3 c hc), Ne.symm (h4 c hc),
    Ne.symm (h5 c hc)⟩⟩

theorem is_all_upper_plain {s : CStr} (h : is_all_upper s = true) :
    s ≠ [] ∧ plain_bytes s = true ∧ ':' ∉ s := by
  obtain ⟨hne, hall⟩ := (is_all_upper_iff s).1 h
  refine ⟨hne, (plain_bytes_iff s).2 ?_, ?_⟩
  · intro c hc
    rcases hall c hc with rfl | hr
    · decide
    · refine ⟨?_, ?_, ?_, ?_, ?_⟩ <;> (rintro rfl; revert hr; decide)
  · intro hc
    rcases hall _ hc with hr | hr
    · revert hr; decide
    · revert hr; decide

/-- A safe reference, printed: one bare token that `parse_reference` decodes
    to the reference. -/
theorem reference_round_trip (r : ison_reference_t) (h : reference_safe r = true) :
    ∃ t : CStr, ison_reference_to_ison r = some (':' :: t) ∧ plain_bytes t = true ∧
      ends_trimmed (':' :: t) = true ∧ parse_reference (':' :: t) = r := by
  have hcolon : isspace ':' = false := by decide
  obtain ⟨id, ns, rel⟩ := r
  unfold reference_safe at h
  rcases id with _ | id
  · simp at h
  rcases rel with _ | rel <;> rcases ns with _ | ns
  · simp only [Bool.and_eq_true, Bool.not_eq_true', List.contains_eq_any_beq, List.any_eq_false,
      beq_iff_eq] at h
    obtain ⟨⟨h1, h2⟩, h3⟩ := h
    refine ⟨id, by simp [ison_reference_to_ison], h2, ends_trimmed_cons _ _ hcolon h3, ?_⟩
    have : ':' ∉ id := fun hc => h1 _ hc rfl
    simp [parse_reference, split_at_char_none this]
  · simp only [Bool.and_eq_true, Bool.not_eq_true', List.contains_eq_any_beq, List.any_eq_false,
      beq_iff_eq, decide_eq_true_eq] at h
    obtain ⟨⟨⟨⟨⟨h1, h2⟩, h3⟩, h4⟩, h5⟩, h6⟩ := h
    obtain ⟨c, cs, rfl⟩ := List.exists_cons_of_ne_nil h1
    refine ⟨(c :: cs) ++ ':' :: id, by simp [ison_reference_to_ison], ?_, ?_, ?_⟩
    · rw [plain_bytes_append, h4]
      have : plain_bytes (':' :: id) = true := by
        have := (plain_bytes_iff id).1 h5
        rw [plain_bytes_iff]
        intro x hx
        rcases List.mem_cons.1 hx with rfl | hx
        · decide
        · exact this x hx
      simp [this]
    · have := ends_trimmed_append (':' :: c :: cs) (':' :: id) (by simp)
      simp only [List.cons_append] at this ⊢
      rw [this]
      exact ends_trimmed_cons _ _ hcolon h6
    · have hn : ':' ∉ c :: cs := fun hc => h3 _ hc rfl
      have hsp := split_at_char_append id hn
      simp only [parse_reference, if_true, hsp, h2, Bool.false_eq_true, if_false]
  · simp only [Bool.and_eq_true] at h
    obtain ⟨⟨h1, h2⟩, h3⟩ := h
    obtain ⟨hne, hpl, hnc⟩ := is_all_upper_plain h1
    obtain ⟨c, cs, rfl⟩ := List.exists_cons_of_ne_nil hne
    refine ⟨(c :: cs) ++ ':' :: id, by simp [ison_reference_to_ison], ?_, ?_, ?_⟩
    · rw [plain_bytes_append, hpl]
      have : plain_bytes (':' :: id) = true := by
        have := (plain_bytes_iff id).1 h2
        rw [plain_bytes_iff]
        intro x hx
        rcases List.mem_cons.1 hx with rfl | hx
        · decide
        · exact this x hx
      simp [this]
    · have := ends_trimmed_append (':' :: c :: cs) (':' :: id) (by simp)
      simp only [List.cons_append] at this ⊢
      rw [this]
      exact ends_trimmed_cons _ _ hcolon h3
    · have hsp := split_at_char_append id hnc
      simp only [parse_reference, if_true, hsp, h1]
  · simp at h

theorem trimmed_of_no_space (s : CStr) (h : ∀ c ∈ s, isspace c = false) :
    starts_trimmed s = true ∧ ends_trimmed s = true := by
  constructor
  · unfold starts_trimmed
    cases s with
    | nil => rfl
    | cons c cs => simp [h c (by simp)]
  · unfold ends_trimmed
    cases hl : s.getLast? with
    | none => rfl
    | some c => simp [h c (List.mem_of_getLast?_eq_some hl)]

theorem numchar_facts {c : Char} (h : isdigit c = true ∨ c = '-') :
    isspace c = false ∧ c ≠ SP ∧ c ≠ TAB ∧ c ≠ LF ∧ c ≠ DQUOTE ∧ c ≠ NUL ∧
      c ≠ ':' ∧ c ≠ '~' ∧ tolower c ≠ 'n' ∧ tolower c ≠ 't' ∧ tolower c ≠ 'f' := by
  rcases h with h | rfl
  · have := isdigit_facts h
    exact ⟨this.1, this.2.2.2.1, this.2.2.2.2.1, this.2.2.2.2.2.1, this.2.2.2.2.2.2.1,
      this.2.2.2.2.2.2.2.1, this.2.2.2.2.2.2.2.2.1, this.2.2.2.2.2.2.2.2.2.1,
      this.2.2.2.2.2.2.2.2.2.2.1, this.2.2.2.2.2.2.2.2.2.2.2.1, this.2.2.2.2.2.2.2.2.2.2.2.2.1⟩
  · decide

/-- A safe value, printed: the text is one token, not empty, without line
    feed and without white space at its ends, and the token decodes to the
    value under the hint. -/
theorem value_round_trip (L : Libc) (v : ison_value_t) (hint : Option CStr)
    (h : value_safe v hint = true) :
    ∃ r tok : CStr, ison_value_to_ison L v = some r ∧ reads_as r tok ∧ tok ≠ [] ∧
      parse_value_token L tok hint = v ∧ r ≠ [] ∧ starts_trimmed r = true ∧
      ends_trimmed r = true ∧ LF ∉ r := by
  cases v with
  | null =>
    refine ⟨['~'], ['~'], rfl, reads_as_bare _ ?_, by simp, parse_value_token_tilde L hint,
      by simp, by decide, by decide, by decide⟩
    intro c hc
    simp only [List.mem_singleton] at hc
    subst hc
    decide
  | bool b =>
    refine ⟨_, _, rfl, reads_as_bare _ ?_, ?_, parse_value_token_bool L b hint, ?_, ?_, ?_, ?_⟩
    · intro c hc
      cases b <;> simp at hc <;> rcases hc with rfl | rfl | rfl | rfl | rfl <;> decide
    all_goals cases b <;> decide
  | int n =>
    simp only [value_safe, Bool.and_eq_true, Bool.or_eq_true, decide_eq_true_eq] at h
    obtain ⟨⟨⟨⟨h1, h2⟩, h3⟩, h4⟩, h5⟩ := h
    obtain ⟨hne, hch⟩ := fmt_ld_chars n
    have hst := strtol_fmt_ld n h1 h2
    have hf := fun c hc => numchar_facts (hch c hc)
    obtain ⟨c, cs, hcs⟩ := List.exists_cons_of_ne_nil hne
    have hc := hf c (by rw [hcs]; simp)
    have htr := trimmed_of_no_space (fmt_ld n) (fun c hc => (hf c hc).1)
    refine ⟨fmt_ld n, fmt_ld n, rfl, reads_as_bare _ ?_, hne, ?_, hne, htr.1, htr.2, ?_⟩
    · intro x hx
      have := hf x hx
      exact ⟨this.2.1, this.2.2.1, this.2.2.2.2.1, this.2.2.2.2.2.1⟩
    · apply parse_value_token_int L _ hint n hst
      · rw [hcs]; intro e; simp only [List.cons.injEq] at e; exact hc.2.2.2.2.2.2.2.1 e.1
      · rw [hcs]; exact strcaseeq_head_ne _ _ hc.2.2.2.2.2.2.2.2.1
      · rw [hcs]; exact strcaseeq_head_ne _ _ hc.2.2.2.2.2.2.2.2.2.1
      · rw [hcs]; exact strcaseeq_head_ne _ _ hc.2.2.2.2.2.2.2.2.2.2
      · rw [hcs]; simp only [List.head?_cons, ne_eq, Option.some.injEq]; exact hc.2.2.2.2.2.2.1
      · exact h3
      · exact h4
      · intro hb
        rcases h5 with h5 | h5
        · exact absurd hb h5
        · constructor
          · intro e
            rw [e] at hst
            have : strtol ['1'] = (1, []) := by decide
            rw [this] at hst
            exact h5.2 (by simpa using hst.symm)
          · intro e
            rw [e] at hst
            have : strtol ['0'] = (0, []) := by decide
            rw [this] at hst
            exact h5.1 (by simpa using hst.symm)
    · intro hl
      exact (hf LF hl).2.2.2.1 rfl
  | float d => simp [value_safe] at h
  | string s =>
    cases s with
    | none => simp [value_safe] at h
    | some s =>
      simp only [value_safe, Bool.and_eq_true, Bool.or_eq_true, decide_eq_true_eq,
        Bool.not_eq_true', List.contains_eq_any_beq, List.any_eq_false, beq_iff_eq] at h
      obtain ⟨⟨h1, h2⟩, h3⟩ := h
      have hdq : isspace DQUOTE = false := by decide
      by_cases hq : needs_quotes s = true
      · refine ⟨DQUOTE :: escape_ison s ++ [DQUOTE], s, by simp [ison_value_to_ison, hq],
          reads_as_quoted s, h1, parse_value_token_string L s hint h3, by simp, ?_, ?_, ?_⟩
        · simp [starts_trimmed, hdq]
        · rw [ends_trimmed_append _ _ (by simp)]
          simp [ends_trimmed, hdq]
        · have := escape_ison_no_lf s
          have hne : LF ≠ DQUOTE := by decide
          simp [this, hne]
      · have hq' : needs_quotes s = false := by simpa using hq
        obtain ⟨-, hpl⟩ := needs_quotes_false hq'
        rcases h2 with h2 | h2
        · exact absurd h2 hq
        · obtain ⟨⟨h21, h22⟩, h23⟩ := h2
          refine ⟨s, s, by simp [ison_value_to_ison, hq'], reads_as_bare s ?_, h1,
            parse_value_token_string L s hint h3, h1, h22, h23, ?_⟩
          · intro c hc
            have := hpl c hc
            exact ⟨this.1, this.2.1, this.2.2.2, fun e => h21 c hc e.symm⟩
          · intro hl
            exact (hpl LF hl).2.2.1 rfl
  | reference r =>
    obtain ⟨t, e, hpl, hend, hp⟩ := reference_round_trip r h
    have hpl' := (plain_bytes_iff t).1 hpl
    refine ⟨':' :: t, ':' :: t, by simpa [ison_value_to_ison] using e, reads_as_bare _ ?_, by simp,
      ?_, by simp, by simp [starts_trimmed, (by decide : isspace ':' = false)], hend, ?_⟩
    · intro c hc
      rcases List.mem_cons.1 hc with rfl | hc
      · decide
      · have := hpl' c hc
        exact ⟨this.1, this.2.1, this.2.2.2.1, this.2.2.2.2⟩
    · rw [parse_value_token_ref L _ hint (by simp), hp]
    · intro hl
      rcases List.mem_cons.1 hl with e | hl
      · revert e; decide
      · exact (hpl' LF hl).2.2.1 rfl

/-! ## Helper lemmas: one row, printed and parsed -/

theorem trim_eq_self (l : CStr) (h1 : starts_trimmed l = true) (h2 : ends_trimmed l = true) :
    trim l = l := by
  cases l with
  | nil => rfl
  | cons c cs =>
    have hc : isspace c = false := by simpa [starts_trimmed] using h1
    have hd : List.dropWhile isspace (c :: cs) = c :: cs := by simp [List.dropWhile_cons, hc]
    unfold trim
    rw [hd]
    obtain ⟨ys, hys⟩ : ∃ ys x, c :: cs = ys ++ [x] ∧ isspace x = false := by
      cases hl : (c :: cs).getLast? with
      | none => simp at hl
      | some x =>
        obtain ⟨ys, e⟩ := List.getLast?_eq_some_iff.1 hl
        refine ⟨ys, x, e, ?_⟩
        simpa [ends_trimmed, hl] using h2
    obtain ⟨x, e, hx⟩ := hys
    rw [e, List.rdropWhile_concat_neg _ _ _ (by simp [hx])]

theorem join_with_ne_nil (d : CStr) (r : CStr) (rs : List CStr) (h : r ≠ []) :
    join_with d (r :: rs) ≠ [] := by
  cases rs with
  | nil => simpa [join_with] using h
  | cons x xs => simp [join_with, h]

theorem join_with_not_mem (c : Char) (d : CStr) (rs : List CStr) (hd : c ∉ d)
    (h : ∀ r ∈ rs, c ∉ r) : c ∉ join_with d rs := by
  induction rs with
  | nil => simp [join_with]
  | cons r rs ih =>
    cases rs with
    | nil => simpa [join_with] using h r (by simp)
    | cons x xs =>
      have := ih (fun y hy => h y (by simp [hy]))
      simp only [join_with, List.mem_append, not_or]
      exact ⟨⟨h r (by simp), hd⟩, this⟩

theorem join_with_trimmed (d : CStr) (rs : List CStr)
    (h : ∀ r ∈ rs, r ≠ [] ∧ starts_trimmed r = true ∧ ends_trimmed r = true) :
    starts_trimmed (join_with d rs) = true ∧ ends_trimmed (join_with d rs) = true := by
  induction rs with
  | nil => exact ⟨rfl, rfl⟩
  | cons r rs ih =>
    obtain ⟨hr1, hr2, hr3⟩ := h r (by simp)
    cases rs with
    | nil => simpa [join_with] using ⟨hr2, hr3⟩
    | cons x xs =>
      have ihx := ih (fun y hy => h y (by simp [hy]))
      have hx := (h x (by simp)).1
      constructor
      · obtain ⟨c, cs, rfl⟩ := List.exists_cons_of_ne_nil hr1
        simpa [join_with, starts_trimmed] using hr2
      · simp only [join_with]
        rw [ends_trimmed_append _ _ (join_with_ne_nil d x xs hx)]
        exact ihx.2

/-- What `row_values_safe` says of each declared field. -/
theorem row_values_safe_iff (fields : List ison_field_info_t) (row : ison_row_t) :
    row_values_safe fields row = true ↔
      ∀ f ∈ fields, ∃ v, ison_row_get row f.name = some v ∧ value_safe v f.type_hint = true := by
  unfold row_values_safe
  rw [List.all_eq_true]
  constructor
  · intro h f hf
    have := h f hf
    cases hg : ison_row_get row f.name with
    | none => simp [hg] at this
    | some v => exact ⟨v, rfl, by simpa [hg] using this⟩
  · intro h f hf
    obtain ⟨v, hv, hs⟩ := h f hf
    simp [hv, hs]

/-- What the printed text of a safe field value is. -/
theorem value_token_safe (L : Libc) (row : ison_row_t) (f : ison_field_info_t) (v : ison_value_t)
    (hv : ison_row_get row f.name = some v) (hs : value_safe v f.type_hint = true) :
    ∃ tok : CStr, reads_as (value_token L row f) tok ∧ tok ≠ [] ∧
      parse_value_token L tok f.type_hint = v ∧ value_token L row f ≠ [] ∧
      starts_trimmed (value_token L row f) = true ∧ ends_trimmed (value_token L row f) = true ∧
      LF ∉ value_token L row f := by
  obtain ⟨r, tok, e, h1, h2, h3, h4, h5, h6, h7⟩ := value_round_trip L v f.type_hint hs
  have hr : value_token L row f = r := by simp [value_token, hv, e]
  rw [hr]
  exact ⟨tok, h1, h2, h3, h4, h5, h6, h7⟩

theorem row_tokens (L : Libc) (row : ison_row_t) (fields : List ison_field_info_t)
    (h : ∀ f ∈ fields, ∃ v, ison_row_get row f.name = some v ∧ value_safe v f.type_hint = true) :
    ∃ toks : List CStr,
      List.Forall₂ (fun r t => reads_as r t ∧ t ≠ []) (fields.map (value_token L row)) toks ∧
      List.Forall₂ (fun t f => ison_row_get row f.name = some (parse_value_token L t f.type_hint))
        toks fields := by
  induction fields with
  | nil => exact ⟨[], by simp, by simp⟩
  | cons f fs ih =>
    obtain ⟨toks, h1, h2⟩ := ih (fun g hg => h g (by simp [hg]))
    obtain ⟨v, hv, hs⟩ := h f (by simp)
    obtain ⟨tok, t1, t2, t3, -⟩ := value_token_safe L row f v hv hs
    exact ⟨tok :: toks, List.Forall₂.cons ⟨t1, t2⟩ h1, List.Forall₂.cons (by rw [t3, hv]) h2⟩

theorem build_row_get (L : Libc) (row : ison_row_t) (fields : List ison_field_info_t)
    (toks : List CStr)
    (h : List.Forall₂ (fun t f => ison_row_get row f.name = some (parse_value_token L t f.type_hint))
      toks fields) :
    row_agrees fields (build_row L fields toks) row := by
  intro f hf
  obtain ⟨hlen, hzip⟩ := List.forall₂_iff_zip.1 h
  obtain ⟨v, hv⟩ : ∃ v, ison_row_get row f.name = some v := by
    obtain ⟨i, hi, rfl⟩ := List.getElem_of_mem hf
    have hz : i < (toks.zip fields).length := by simp; omega
    have hm := List.getElem_mem hz
    rw [List.getElem_zip] at hm
    exact ⟨_, hzip hm⟩
  rw [hv]
  unfold build_row
  apply foldl_row_set_get (fun tf : CStr × ison_field_info_t => tf.2.name)
    (fun tf => parse_value_token L tf.1 tf.2.type_hint)
  · intro tf htf hk
    have : (tf.1, tf.2) ∈ toks.zip fields := htf
    have := hzip this
    rw [hk, hv] at this
    exact (Option.some.inj this).symm
  · obtain ⟨i, hi, rfl⟩ := List.getElem_of_mem hf
    have hz : i < (toks.zip fields).length := by simp; omega
    refine ⟨(toks.zip fields)[i], List.getElem_mem hz, ?_⟩
    simp

/-- A row with safe values, printed by `ison_dumps` and read by the row loop:
    the line is trimmed already, has no line feed, and the row read from it
    gives every declared field the value it had. -/
theorem row_round_trip (L : Libc) (fields : List ison_field_info_t) (row : ison_row_t)
    (h : row_values_safe fields row = true) :
    trim (spec_row_line L [SP] fields row) = spec_row_line L [SP] fields row ∧
      LF ∉ spec_row_line L [SP] fields row ∧
      ends_trimmed (spec_row_line L [SP] fields row) = true ∧
      row_agrees fields (row_of_line L fields (spec_row_line L [SP] fields row)) row := by
  have hs := (row_values_safe_iff fields row).1 h
  have hfacts : ∀ r ∈ fields.map (value_token L row),
      r ≠ [] ∧ starts_trimmed r = true ∧ ends_trimmed r = true ∧ LF ∉ r := by
    intro r hr
    obtain ⟨f, hf, rfl⟩ := List.mem_map.1 hr
    obtain ⟨v, hv, hsafe⟩ := hs f hf
    obtain ⟨tok, -, -, -, t4, t5, t6, t7⟩ := value_token_safe L row f v hv hsafe
    exact ⟨t4, t5, t6, t7⟩
  have htr := join_with_trimmed [SP] _ (fun r hr => ⟨(hfacts r hr).1, (hfacts r hr).2.1,
    (hfacts r hr).2.2.1⟩)
  have htrim : trim (spec_row_line L [SP] fields row) = spec_row_line L [SP] fields row :=
    trim_eq_self _ htr.1 htr.2
  refine ⟨htrim, join_with_not_mem LF [SP] _ (by decide) (fun r hr => (hfacts r hr).2.2.2),
    htr.2, ?_⟩
  obtain ⟨toks, h1, h2⟩ := row_tokens L row fields hs
  unfold row_of_line
  rw [htrim]
  have : tokenize (spec_row_line L [SP] fields row) = toks := tokenize_join _ _ h1
  rw [this, row_copy_build_row_any]
  exact build_row_get L row fields toks h2

/-! ## Helper lemmas: field line and header line -/

theorem trim_right_eq_self (l : CStr) (h : ends_trimmed l = true) : trim_right l = l := by
  unfold trim_right
  cases hl : l.getLast? with
  | none =>
    have : l = [] := List.getLast?_eq_none_iff.1 hl
    simp [this]
  | some x =>
    obtain ⟨ys, e⟩ := List.getLast?_eq_some_iff.1 hl
    have hx : isspace x = false := by simpa [ends_trimmed, hl] using h
    rw [e]
    apply List.rdropWhile_concat_neg
    intro hc
    simp only [Bool.or_eq_true, decide_eq_true_eq] at hc
    rcases hc with rfl | rfl
    · exact absurd hx (by decide)
    · exact absurd hx (by decide)

theorem bare_token_iff (s : CStr) :
    bare_token s = true ↔
      s ≠ [] ∧ plain_bytes s = true ∧ starts_trimmed s = true ∧ ends_trimmed s = true := by
  simp [bare_token, and_assoc]

/-- What `field_safe` gives for the token of the field line. -/
theorem field_token_safe (f : ison_field_info_t) (h : field_safe f = true) :
    reads_as (spec_field_token f) (spec_field_token f) ∧ spec_field_token f ≠ [] ∧
      field_of_token (spec_field_token f) = f ∧ starts_trimmed (spec_field_token f) = true ∧
      ends_trimmed (spec_field_token f) = true ∧ LF ∉ spec_field_token f ∧
      (spec_field_token f).head? = f.name.head? := by
  obtain ⟨name, hint⟩ := f
  simp only [field_safe, Bool.and_eq_true, Bool.not_eq_true', List.contains_eq_any_beq,
    List.any_eq_false, beq_iff_eq] at h
  obtain ⟨⟨hb, hcol⟩, hh⟩ := h
  obtain ⟨hne, hpl, hst, hen⟩ := (bare_token_iff name).1 hb
  have hcol' : ':' ∉ name := fun hc => hcol _ hc rfl
  have plain_reads : ∀ t : CStr, plain_bytes t = true → reads_as t t ∧ LF ∉ t := by
    intro t ht
    have := (plain_bytes_iff t).1 ht
    exact ⟨reads_as_bare t (fun c hc => ⟨(this c hc).1, (this c hc).2.1, (this c hc).2.2.2.1,
      (this c hc).2.2.2.2⟩), fun hl => (this LF hl).2.2.1 rfl⟩
  rcases hint with _ | _ | ⟨c, cs⟩
  · simp at hh
  · refine ⟨(plain_reads name hpl).1, hne, ?_, hst, hen, (plain_reads name hpl).2, rfl⟩
    simp [spec_field_token, field_of_token, parse_field_def, split_at_char_none hcol']
  · simp only [Bool.and_eq_true] at hh
    have hpt : plain_bytes (name ++ ':' :: c :: cs) = true := by
      rw [plain_bytes_append, hpl]
      have := (plain_bytes_iff (c :: cs)).1 hh.1
      have h2 : plain_bytes (':' :: c :: cs) = true := by
        rw [plain_bytes_iff]
        intro x hx
        rcases List.mem_cons.1 hx with rfl | hx
        · decide
        · exact this x hx
      simp [h2]
    obtain ⟨n, ns, rfl⟩ := List.exists_cons_of_ne_nil hne
    refine ⟨(plain_reads _ hpt).1, by simp [spec_field_token], ?_, ?_, ?_, (plain_reads _ hpt).2,
      by simp [spec_field_token]⟩
    · have hsp := split_at_char_append (c :: cs) hcol'
      simp only [spec_field_token, field_of_token, parse_field_def, hsp]
    · simpa [spec_field_token, starts_trimmed] using hst
    · simp only [spec_field_token]
      have := ends_trimmed_append (n :: ns ++ [':']) (c :: cs) (by simp)
      simp only [List.append_assoc, List.singleton_append] at this
      rw [this]
      exact hh.2

/-- The field line of a block with safe fields: trimmed, not blank, not a
    comment, on one line, and read back as the fields. -/
theorem field_line_round_trip (fields : List ison_field_info_t)
    (hs : ∀ f ∈ fields, field_safe f = true) (hne : fields ≠ [])
    (hhash : (fields.map (fun f => f.name)).head?.bind List.head? ≠ some '#') :
    trim (join_with [SP] (fields.map spec_field_token)) = join_with [SP] (fields.map spec_field_token) ∧
      join_with [SP] (fields.map spec_field_token) ≠ [] ∧
      (join_with [SP] (fields.map spec_field_token)).head? ≠ some '#' ∧
      LF ∉ join_with [SP] (fields.map spec_field_token) ∧
      ends_trimmed (join_with [SP] (fields.map spec_field_token)) = true ∧
      fields_of_line (join_with [SP] (fields.map spec_field_token)) = fields := by
  have hfacts : ∀ r ∈ fields.map spec_field_token,
      r ≠ [] ∧ starts_trimmed r = true ∧ ends_trimmed r = true := by
    intro r hr
    obtain ⟨f, hf, rfl⟩ := List.mem_map.1 hr
    have := field_token_safe f (hs f hf)
    exact ⟨this.2.1, this.2.2.2.1, this.2.2.2.2.1⟩
  have htr := join_with_trimmed [SP] _ hfacts
  have htrim := trim_eq_self _ htr.1 htr.2
  have hlf : LF ∉ join_with [SP] (fields.map spec_field_token) :=
    join_with_not_mem LF [SP] _ (by decide) (fun r hr => by
      obtain ⟨f, hf, rfl⟩ := List.mem_map.1 hr
      exact (field_token_safe f (hs f hf)).2.2.2.2.2.1)
  obtain ⟨f, fs, rfl⟩ := List.exists_cons_of_ne_nil hne
  have hf := field_token_safe f (hs f (by simp))
  have hne1 : join_with [SP] ((f :: fs).map spec_field_token) ≠ [] :=
    join_with_ne_nil [SP] _ _ hf.2.1
  refine ⟨htrim, hne1, ?_, hlf, htr.2, ?_⟩
  · have hhead : (join_with [SP] ((f :: fs).map spec_field_token)).head? = f.name.head? := by
      rw [← hf.2.2.2.2.2.2]
      obtain ⟨c, cs, hc⟩ := List.exists_cons_of_ne_nil hf.2.1
      cases fs with
      | nil => simp [join_with]
      | cons g gs => simp [join_with, hc]
    rw [hhead]
    simpa using hhash
  · unfold fields_of_line
    rw [htrim]
    have hfa : List.Forall₂ (fun r t => reads_as r t ∧ t ≠ []) ((f :: fs).map spec_field_token)
        ((f :: fs).map spec_field_token) := by
      apply List.forall₂_same.2
      intro r hr
      obtain ⟨g, hg, rfl⟩ := List.mem_map.1 hr
      exact ⟨(field_token_safe g (hs g hg)).1, (field_token_safe g (hs g hg)).2.1⟩
    rw [tokenize_join _ _ hfa, List.map_map]
    conv_rhs => rw [← List.map_id (f :: fs)]
    apply List.map_congr_left
    intro g hg
    exact (field_token_safe g (hs g hg)).2.2.1

/-- The header line of a block with a valid kind and a name on one line
    without white space at its end. -/
theorem header_line_round_trip (kind name : CStr) (hk : is_valid_kind kind = true)
    (hlf : LF ∉ name) (hend : ends_trimmed name = true) :
    trim (kind ++ '.' :: name) = kind ++ '.' :: name ∧
      block_header (kind ++ '.' :: name) = some (kind, name) ∧
      LF ∉ kind ++ '.' :: name ∧ ends_trimmed (kind ++ '.' :: name) = true := by
  have hdot : isspace '.' = false := by decide
  have hen : ends_trimmed (kind ++ '.' :: name) = true := by
    rw [ends_trimmed_append _ _ (by simp)]
    exact ends_trimmed_cons _ _ hdot hend
  have hk' := hk
  simp only [is_valid_kind, Bool.or_eq_true, decide_eq_true_eq] at hk'
  have hfacts : '.' ∉ kind ∧ LF ∉ kind ∧ starts_trimmed (kind ++ '.' :: name) = true ∧
      (kind ++ '.' :: name).head? ≠ some DQUOTE := by
    rcases hk' with (rfl | rfl) | rfl <;> refine ⟨by decide, by decide, ?_, ?_⟩ <;>
      simp [starts_trimmed] <;> decide
  refine ⟨trim_eq_self _ hfacts.2.2.1 hen, ?_, ?_, hen⟩
  · unfold block_header
    rw [split_at_char_append name hfacts.1]
    exact if_pos ⟨hfacts.2.2.2, hk⟩
  · intro h
    rcases List.mem_append.1 h with h | h
    · exact hfacts.2.1 h
    · rcases List.mem_cons.1 h with h | h
      · revert h; decide
      · exact hlf h

/-! ## Helper lemmas: a whole document, printed and parsed -/

theorem block_safe_iff (L : Libc) (b : ison_block_t) :
    block_safe L b = true ↔
      is_valid_kind b.kind = true ∧ LF ∉ b.name ∧ ends_trimmed b.name = true ∧ block_fits b ∧
      b.fields ≠ [] ∧ (b.fields.map (fun f => f.name)).head?.bind List.head? ≠ some '#' ∧
      (∀ f ∈ b.fields, field_safe f = true) ∧ (∀ r ∈ b.rows, row_safe L b.fields r = true) ∧
      (∀ s, b.summary_row = some s → row_safe L b.fields s = true) := by
  unfold block_safe
  cases hs : b.summary_row with
  | none =>
    simp only [Bool.and_eq_true, Bool.not_eq_true', List.contains_eq_any_beq, List.any_eq_false,
      beq_iff_eq, decide_eq_true_eq, List.all_eq_true, and_true, and_assoc]
    constructor
    · rintro ⟨h1, h2, h3, h4, h5, h6, h7, h8⟩
      exact ⟨h1, fun hc => h2 _ hc rfl, h3, h4, h5, h6, h7, h8, by simp⟩
    · rintro ⟨h1, h2, h3, h4, h5, h6, h7, h8, -⟩
      exact ⟨h1, fun x hx e => h2 (e ▸ hx), h3, h4, h5, h6, h7, h8⟩
  | some s =>
    simp only [Bool.and_eq_true, Bool.not_eq_true', List.contains_eq_any_beq, List.any_eq_false,
      beq_iff_eq, decide_eq_true_eq, List.all_eq_true, and_assoc]
    constructor
    · rintro ⟨h1, h2, h3, h4, h5, h6, h7, h8, h9⟩
      exact ⟨h1, fun hc => h2 _ hc rfl, h3, h4, h5, h6, h7, h8, by simpa using h9⟩
    · rintro ⟨h1, h2, h3, h4, h5, h6, h7, h8, h9⟩
      exact ⟨h1, fun x hx e => h2 (e ▸ hx), h3, h4, h5, h6, h7, h8, h9 s rfl⟩

theorem row_safe_iff (L : Libc) (fields : List ison_field_info_t) (row : ison_row_t) :
    row_safe L fields row = true ↔
      row_values_safe fields row = true ∧ is_row_line (spec_row_line L [SP] fields row) = true := by
  simp [row_safe]

theorem blocks_replace_none (block : ison_block_t) (bs : List ison_block_t)
    (h : block.name ∉ bs.map (fun b => b.name)) : blocks_replace block bs = none := by
  induction bs with
  | nil => rfl
  | cons b bs ih =>
    simp only [List.map_cons, List.mem_cons, not_or] at h
    simp [blocks_replace, Ne.symm h.1, ih h.2]

theorem ison_document_add_block_new (doc : ison_document_t) (block : ison_block_t)
    (h : block.name ∉ doc.blocks.map (fun b => b.name)) :
    ison_document_add_block doc block =
      { blocks := doc.blocks ++ [block], order := doc.order ++ [block.name] } := by
  simp [ison_document_add_block, blocks_replace_none block _ h]

/-- The lines printed for a safe block, read by `parse_block`: the block read
    is `reparse_block`, and the lines `tail` that follow the block are left as
    the row loop leaves them. -/
theorem parse_block_lines (L : Libc) (b : ison_block_t) (hs : block_safe L b = true)
    (tail left : List CStr)
    (htail : ∀ (blk : ison_block_t) (s : Bool), parse_rows L blk s tail = (blk, left)) :
    parse_block L b.kind b.name ((spec_block_lines L [SP] b).tail ++ tail) =
      (reparse_block L b, left) := by
  obtain ⟨-, -, -, -, hne, hhash, hfs, hrows, hsum⟩ := (block_safe_iff L b).1 hs
  obtain ⟨f1, f2, f3, -, -, f6⟩ := field_line_round_trip b.fields hfs hne hhash
  have hrl : ∀ l ∈ b.rows.map (spec_row_line L [SP] b.fields), is_row_line l = true := by
    intro l hl
    obtain ⟨r, hr, rfl⟩ := List.mem_map.1 hl
    exact ((row_safe_iff L b.fields r).1 (hrows r hr)).2
  unfold parse_block spec_block_lines
  simp only [List.tail_cons, List.cons_append, List.append_assoc]
  rw [skip_to_fields_content _ _ (by rw [f1]; exact f2) (by rw [f1]; exact f3)]
  simp only [add_fields_eq, ison_block_create, List.nil_append]
  have hfl : (tokenize (trim (join_with [SP] (b.fields.map spec_field_token)))).map field_of_token
      = b.fields := f6
  rw [hfl, parse_rows_data L _ _ _ hrl]
  simp only [List.nil_append, List.map_map]
  cases hsr : b.summary_row with
  | none =>
    simp only [List.nil_append]
    rw [htail]
    simp [reparse_block, hsr, Function.comp_def]
  | some s =>
    have hsl := ((row_safe_iff L b.fields s).1 (hsum s hsr)).2
    simp only [List.cons_append, List.nil_append]
    rw [parse_rows_marker L _ _ _ _ (by decide)]
    have := parse_rows_summary L [] (spec_row_line L [SP] b.fields s)
      { kind := b.kind, name := b.name, fields := b.fields,
        rows := b.rows.map (row_of_line L b.fields ∘ spec_row_line L [SP] b.fields),
        summary_row := none } tail (by simpa using hsl)
    simp only [List.nil_append] at this
    rw [this, htail]
    simp [reparse_block, hsr, Function.comp_def]

theorem spec_block_lines_cons (L : Libc) (d : CStr) (b : ison_block_t) :
    spec_block_lines L d b = (b.kind ++ '.' :: b.name) :: (spec_block_lines L d b).tail := by
  simp [spec_block_lines]

theorem spec_block_lines_length (L : Libc) (d : CStr) (b : ison_block_t) :
    2 ≤ (spec_block_lines L d b).length := by
  simp [spec_block_lines]

/-- The main loop of `ison_parse` on the lines printed for safe blocks with
    fresh, pairwise distinct names: the blocks read are added to the document
    in order. -/
theorem parse_doc_lines (L : Libc) (bs : List ison_block_t) (doc : ison_document_t) (fuel : Nat)
    (hsafe : ∀ b ∈ bs, block_safe L b = true)
    (hnd : (bs.map (fun b => b.name)).Nodup)
    (hdis : ∀ b ∈ bs, b.name ∉ doc.blocks.map (fun b => b.name))
    (hfuel : (spec_doc_lines L [SP] bs).length ≤ fuel) :
    ison_parse_loop L fuel (spec_doc_lines L [SP] bs) doc =
      { blocks := doc.blocks ++ bs.map (reparse_block L),
        order := doc.order ++ bs.map (fun b => b.name) } := by
  induction bs generalizing doc fuel with
  | nil => simp [spec_doc_lines, ison_parse_loop_nil]
  | cons b rest ih =>
    have hb := hsafe b (by simp)
    obtain ⟨hk, hlf, hend, -⟩ := (block_safe_iff L b).1 hb
    obtain ⟨h1, h2, -, -⟩ := header_line_round_trip b.kind b.name hk hlf hend
    obtain ⟨-, -, hh1, hh2⟩ := block_header_some h2
    have hnew : (reparse_block L b).name ∉ doc.blocks.map (fun b => b.name) := hdis b (by simp)
    simp only [List.map_cons, List.nodup_cons] at hnd
    have hdis' : ∀ x ∈ rest, x.name ∉
        (ison_document_add_block doc (reparse_block L b)).blocks.map (fun b => b.name) := by
      intro x hx
      rw [ison_document_add_block_new doc _ hnew]
      simp only [List.map_append, List.map_cons, List.map_nil, List.mem_append,
        List.mem_singleton, not_or]
      refine ⟨hdis x (by simp [hx]), ?_⟩
      intro e
      exact hnd.1 (List.mem_map.2 ⟨x, hx, e⟩)
    have hlen := spec_block_lines_length L [SP] b
    cases rest with
    | nil =>
      have hl : spec_doc_lines L [SP] [b] =
          (b.kind ++ '.' :: b.name) :: ((spec_block_lines L [SP] b).tail ++ []) := by
        rw [List.append_nil]
        exact spec_block_lines_cons L [SP] b
      rw [hl] at hfuel ⊢
      obtain ⟨fuel', rfl⟩ : ∃ k, fuel = k + 1 := ⟨fuel - 1, by simp at hfuel; omega⟩
      rw [ison_parse_loop]
      simp only [h1, hh1, hh2, or_self, if_false, h2]
      rw [parse_block_lines L b hb [] [] (fun blk s => by simp [parse_rows])]
      simp only [ison_parse_loop_nil]
      rw [ison_document_add_block_new doc _ hnew]
      simp [reparse_block]
    | cons b2 bs2 =>
      have hl : spec_doc_lines L [SP] (b :: b2 :: bs2) =
          (b.kind ++ '.' :: b.name) ::
            ((spec_block_lines L [SP] b).tail ++ [] :: spec_doc_lines L [SP] (b2 :: bs2)) := by
        show spec_block_lines L [SP] b ++ [] :: spec_doc_lines L [SP] (b2 :: bs2) = _
        conv_lhs => rw [spec_block_lines_cons L [SP] b]
        rfl
      rw [hl] at hfuel ⊢
      obtain ⟨fuel', rfl⟩ : ∃ k, fuel = k + 1 := ⟨fuel - 1, by simp at hfuel; omega⟩
      rw [ison_parse_loop]
      simp only [h1, hh1, hh2, or_self, if_false, h2]
      rw [parse_block_lines L b hb ([] :: spec_doc_lines L [SP] (b2 :: bs2))
        (spec_doc_lines L [SP] (b2 :: bs2))
        (fun blk s => parse_rows_blank L blk s [] _ (by decide))]
      simp only
      rw [ih _ _ (fun x hx => hsafe x (by simp [hx])) hnd.2 hdis'
        (by simp at hfuel ⊢; omega)]
      rw [ison_document_add_block_new doc _ hnew]
      simp [reparse_block]

theorem spec_dumps_eq_unlines (L : Libc) (d : CStr) (doc : ison_document_t) :
    spec_dumps L d doc = unlines (spec_doc_lines L d doc.blocks) := by
  unfold spec_dumps
  generalize doc.blocks = bs
  induction bs with
  | nil => simp [join_with, spec_doc_lines, unlines]
  | cons b rest ih =>
    cases rest with
    | nil => simp [join_with, spec_doc_lines]
    | cons b2 bs2 =>
      simp only [List.map_cons, join_with, spec_doc_lines, unlines_append, unlines_cons] at ih ⊢
      rw [ih]
      simp

theorem doc_lines_facts (L : Libc) (bs : List ison_block_t)
    (hsafe : ∀ b ∈ bs, block_safe L b = true) :
    ∀ l ∈ spec_doc_lines L [SP] bs, LF ∉ l ∧ ends_trimmed l = true := by
  have hblock : ∀ b, block_safe L b = true →
      ∀ l ∈ spec_block_lines L [SP] b, LF ∉ l ∧ ends_trimmed l = true := by
    intro b hb l hl
    obtain ⟨hk, hlf, hend, -, hne, hhash, hfs, hrows, hsum⟩ := (block_safe_iff L b).1 hb
    obtain ⟨-, -, h3, h4⟩ := header_line_round_trip b.kind b.name hk hlf hend
    obtain ⟨-, -, -, f4, f5, -⟩ := field_line_round_trip b.fields hfs hne hhash
    have hrow : ∀ r, row_safe L b.fields r = true →
        LF ∉ spec_row_line L [SP] b.fields r ∧ ends_trimmed (spec_row_line L [SP] b.fields r) = true := by
      intro r hr
      have := row_round_trip L b.fields r ((row_safe_iff L b.fields r).1 hr).1
      exact ⟨this.2.1, this.2.2.1⟩
    unfold spec_block_lines at hl
    simp only [List.mem_cons, List.mem_append, List.mem_map] at hl
    rcases hl with rfl | rfl | ⟨r, hr, rfl⟩ | hl
    · exact ⟨h3, h4⟩
    · exact ⟨f4, f5⟩
    · exact hrow r (hrows r hr)
    · cases hsr : b.summary_row with
      | none => simp [hsr] at hl
      | some s =>
        simp only [hsr, List.mem_cons, List.mem_singleton, List.not_mem_nil, or_false] at hl
        rcases hl with rfl | rfl
        · exact ⟨by decide, by decide⟩
        · exact hrow s (hsum s hsr)
  induction bs with
  | nil => simp [spec_doc_lines]
  | cons b rest ih =>
    cases rest with
    | nil =>
      intro l hl
      exact hblock b (hsafe b (by simp)) l (by simpa [spec_doc_lines] using hl)
    | cons b2 bs2 =>
      intro l hl
      simp only [spec_doc_lines, List.mem_append, List.mem_cons] at hl
      rcases hl with hl | rfl | hl
      · exact hblock b (hsafe b (by simp)) l hl
      · exact ⟨by simp, by decide⟩
      · exact ih (fun x hx => hsafe x (by simp [hx])) l hl

theorem reparse_block_agrees (L : Libc) (b : ison_block_t) (hs : block_safe L b = true) :
    block_agrees (reparse_block L b) b := by
  obtain ⟨-, -, -, -, -, -, -, hrows, hsum⟩ := (block_safe_iff L b).1 hs
  have hrow : ∀ r, row_safe L b.fields r = true →
      row_agrees b.fields (row_of_line L b.fields (spec_row_line L [SP] b.fields r)) r := by
    intro r hr
    exact (row_round_trip L b.fields r ((row_safe_iff L b.fields r).1 hr).1).2.2.2
  refine ⟨rfl, rfl, rfl, ?_, ?_⟩
  · show List.Forall₂ (row_agrees b.fields)
      (b.rows.map (fun r => row_of_line L b.fields (spec_row_line L [SP] b.fields r))) b.rows
    rw [List.forall₂_map_left_iff]
    exact List.forall₂_same.2 (fun r hr => hrow r (hrows r hr))
  · show summary_agrees b.fields
      (b.summary_row.map (fun r => row_of_line L b.fields (spec_row_line L [SP] b.fields r)))
      b.summary_row
    cases hsr : b.summary_row with
    | none => exact trivial
    | some s => exact hrow s (hsum s hsr)

/-- What `ison_parse` reads from the text `ison_dumps` prints for a safe document. -/
theorem ison_parse_dumps (L : Libc) (doc : ison_document_t) (h : document_safe L doc = true) :
    ison_parse L (ison_dumps L doc) =
      { blocks := doc.blocks.map (reparse_block L), order := doc.blocks.map (fun b => b.name) } := by
  simp only [document_safe, Bool.and_eq_true, decide_eq_true_eq, List.all_eq_true] at h
  obtain ⟨hwf, hsafe⟩ := h
  have hfit : ∀ b ∈ doc.blocks, block_fits b := fun b hb =>
    ((block_safe_iff L b).1 (hsafe b hb)).2.2.2.1
  have hfacts := doc_lines_facts L doc.blocks hsafe
  have hsplit : split_lines (unlines (spec_doc_lines L [SP] doc.blocks)) =
      spec_doc_lines L [SP] doc.blocks := by
    rw [split_lines_unlines _ (fun l hl => (hfacts l hl).1)]
    conv_rhs => rw [← List.map_id (spec_doc_lines L [SP] doc.blocks)]
    exact List.map_congr_left (fun l hl => trim_right_eq_self l (hfacts l hl).2)
  unfold ison_dumps ison_parse
  rw [ison_dumps_with_options_eq L doc none hwf hfit, spec_dumps_eq_unlines]
  have hd : delimiter_of none = [SP] := rfl
  rw [hd, hsplit, parse_doc_lines L doc.blocks ison_document_create _ hsafe hwf.2
    (by simp [ison_document_create]) (Nat.le_refl _)]
  simp [ison_document_create]

/-- C1, as the claim states it, fails: a String `1` under an empty hint is
    printed as `1` and read back as the Int 1. -/
theorem round_trip_string_counterexample :
    ¬ ∃ L : Libc, document_agrees (ison_parse L (ison_dumps L doc_string_one)) doc_string_one := by
  rintro ⟨L, h⟩
  have e : ison_parse L (ison_dumps L doc_string_one) =
      { blocks := [{ kind := ['t', 'a', 'b', 'l', 'e'], name := ['t'],
                     fields := [{ name := ['a'], type_hint := some [] }],
                     rows := [{ entries := [(['a'], ison_value_t.int 1)], count := 1 }],
                     summary_row := none }],
        order := [['t']] } := rfl
  rw [e] at h
  obtain ⟨hb, -⟩ := h
  simp only [doc_string_one, List.forall₂_cons, List.forall₂_nil_right_iff, and_true] at hb
  obtain ⟨-, -, -, hr, -⟩ := hb
  simp only [List.forall₂_cons, List.forall₂_nil_right_iff, and_true] at hr
  have := hr { name := ['a'], type_hint := some [] } (by simp)
  revert this
  decide

/-- C1, amended: for every Document whose blocks and values are safe for the
    text form (`document_safe`), `ison_parse (ison_dumps D)` is field-for-field
    equal to `D`: same blocks in the same order with the same kind, name, field
    names and hints, the same value for every declared field of every row, in
    row order, and the same summary row. -/
theorem round_trip (L : Libc) (doc : ison_document_t) (h : document_safe L doc = true) :
    document_agrees (ison_parse L (ison_dumps L doc)) doc := by
  have hp := ison_parse_dumps L doc h
  simp only [document_safe, Bool.and_eq_true, decide_eq_true_eq, List.all_eq_true] at h
  obtain ⟨hwf, hsafe⟩ := h
  rw [hp]
  refine ⟨?_, hwf.1.symm⟩
  show List.Forall₂ block_agrees (doc.blocks.map (reparse_block L)) doc.blocks
  rw [List.forall₂_map_left_iff]
  exact List.forall₂_same.2 (fun b hb => reparse_block_agrees L b (hsafe b hb))

/-- The document `doc_sample` (Null, Bool, Int, bare and quoted String and
    Reference values, a summary row, two blocks) survives the round trip. -/
theorem round_trip_witness :
    document_agrees (ison_parse libc_zero (ison_dumps libc_zero doc_sample)) doc_sample :=
  round_trip libc_zero doc_sample (by decide)

/-! ## Helper lemmas: ISONL lines, read by `ison_parse_isonl` -/

theorem split_lines_loop_last (l cur : CStr) (h : LF ∉ l) :
    split_lines_loop l cur = if cur ++ l = [] then [] else [trim_right (cur ++ l)] := by
  induction l generalizing cur with
  | nil => simp [split_lines_loop]
  | cons c cs ih =>
    simp only [List.mem_cons, not_or] at h
    have e : split_lines_loop (c :: cs) cur = split_lines_loop cs (cur ++ [c]) := by
      simp [split_lines_loop, Ne.symm h.1]
    rw [e, ih _ h.2]
    simp

/-- Splitting a text made of non-empty lines with a newline between them gives
    the lines back, each cut at the right by `trim_right`. -/
theorem split_lines_join (ls : List CStr) (h : ∀ l ∈ ls, LF ∉ l ∧ l ≠ []) :
    split_lines (join_with [LF] ls) = ls.map trim_right := by
  unfold split_lines
  induction ls with
  | nil => simp [join_with, split_lines_loop]
  | cons l ls ih =>
    cases ls with
    | nil =>
      simp only [join_with, List.map_cons, List.map_nil]
      rw [split_lines_loop_last l [] (h l (by simp)).1]
      simp [(h l (by simp)).2]
    | cons l2 rest =>
      have e : join_with [LF] (l :: l2 :: rest) = l ++ LF :: join_with [LF] (l2 :: rest) := by
        simp [join_with]
      rw [e, split_lines_loop_line l _ [] (h l (by simp)).1, ih (fun x hx => h x (by simp [hx]))]
      simp

theorem field_tokens_round_trip (fields : List ison_field_info_t)
    (hs : ∀ f ∈ fields, field_safe f = true) :
    (tokenize (join_with [SP] (fields.map spec_field_token))).map field_of_token = fields := by
  have hfa : List.Forall₂ (fun r t => reads_as r t ∧ t ≠ []) (fields.map spec_field_token)
      (fields.map spec_field_token) := by
    apply List.forall₂_same.2
    intro r hr
    obtain ⟨g, hg, rfl⟩ := List.mem_map.1 hr
    exact ⟨(field_token_safe g (hs g hg)).1, (field_token_safe g (hs g hg)).2.1⟩
  rw [tokenize_join _ _ hfa, List.map_map]
  conv_rhs => rw [← List.map_id fields]
  apply List.map_congr_left
  intro g hg
  exact (field_token_safe g (hs g hg)).2.2.1

theorem block_safe_isonl_iff (b : ison_block_t) :
    block_safe_isonl b = true ↔
      is_valid_kind b.kind = true ∧ LF ∉ b.name ∧ '|' ∉ b.name ∧
      (∀ f ∈ b.fields, field_safe f = true ∧ '|' ∉ f.name ∧ '|' ∉ f.type_hint.getD []) ∧
      (∀ r ∈ b.rows, row_values_safe b.fields r = true) := by
  unfold block_safe_isonl
  simp only [Bool.and_eq_true, Bool.not_eq_true', List.contains_eq_any_beq, List.any_eq_false,
    beq_iff_eq, List.all_eq_true, and_assoc]
  constructor
  · rintro ⟨h1, h2, h3, h4, h5⟩
    exact ⟨h1, fun hc => h2 _ hc rfl, fun hc => h3 _ hc rfl,
      fun f hf => ⟨(h4 f hf).1, fun hc => (h4 f hf).2.1 _ hc rfl, fun hc => (h4 f hf).2.2 _ hc rfl⟩,
      h5⟩
  · rintro ⟨h1, h2, h3, h4, h5⟩
    exact ⟨h1, fun x hx e => h2 (e ▸ hx), fun x hx e => h3 (e ▸ hx),
      fun f hf => ⟨(h4 f hf).1, fun x hx e => (h4 f hf).2.1 (e ▸ hx),
        fun x hx e => (h4 f hf).2.2 (e ▸ hx)⟩, h5⟩

theorem spec_field_token_no_bar (f : ison_field_info_t) (h1 : '|' ∉ f.name)
    (h2 : '|' ∉ f.type_hint.getD []) : '|' ∉ spec_field_token f := by
  obtain ⟨name, hint⟩ := f
  rcases hint with _ | _ | ⟨c, cs⟩
  · simpa [spec_field_token] using h1
  · simpa [spec_field_token] using h1
  · simp only [spec_field_token, List.mem_append, List.mem_cons, not_or]
    simp only [Option.getD_some, List.mem_cons, not_or] at h2
    exact ⟨h1, by decide, h2.1, h2.2⟩

/-- One ISONL line of a safe block, read by the loop body of
    `ison_parse_isonl`: the block is created with the fields of the line when
    the document has no block of that name, and the row read from the line is
    added to the block of that name. -/
theorem isonl_line_eq (L : Libc) (b : ison_block_t) (row : ison_row_t) (doc : ison_document_t)
    (hb : block_safe_isonl b = true) (hr : row_values_safe b.fields row = true) :
    isonl_line L doc (spec_isonl_line L b row) =
      { blocks := blocks_update b.name
          (fun blk => ison_block_add_row blk
            (build_row L blk.fields (tokenize (spec_row_line L [SP] b.fields row))))
          (match ison_document_get doc b.name with
            | some _ => doc
            | none => ison_document_add_block doc
                { kind := b.kind, name := b.name, fields := b.fields, rows := [],
                  summary_row := none }).blocks,
        order := (match ison_document_get doc b.name with
            | some _ => doc
            | none => ison_document_add_block doc
                { kind := b.kind, name := b.name, fields := b.fields, rows := [],
                  summary_row := none }).order } := by
  obtain ⟨hk, hlf, hbar, hfs, hrows⟩ := (block_safe_isonl_iff b).1 hb
  obtain ⟨rt1, rt2, rt3, -⟩ := row_round_trip L b.fields row hr
  have hk' := hk
  simp only [is_valid_kind, Bool.or_eq_true, decide_eq_true_eq] at hk'
  have hkf : '.' ∉ b.kind ∧ '|' ∉ b.kind ∧ (∃ c cs, b.kind = c :: cs ∧ isspace c = false ∧ c ≠ '#') := by
    rcases hk' with (h | h) | h <;> rw [h] <;>
      exact ⟨by decide, by decide, _, _, rfl, by decide, by decide⟩
  obtain ⟨hdot, hkbar, c, cs, hkc, hcsp, hchash⟩ := hkf
  have hhdr : '|' ∉ b.kind ++ '.' :: b.name := by
    simp only [List.mem_append, List.mem_cons, not_or]
    exact ⟨hkbar, by decide, hbar⟩
  have hfl : '|' ∉ join_with [SP] (b.fields.map spec_field_token) :=
    join_with_not_mem '|' [SP] _ (by decide) (fun r hr => by
      obtain ⟨f, hf, rfl⟩ := List.mem_map.1 hr
      exact spec_field_token_no_bar f (hfs f hf).2.1 (hfs f hf).2.2)
  have hline : spec_isonl_line L b row =
      (b.kind ++ '.' :: b.name) ++ '|' ::
        (join_with [SP] (b.fields.map spec_field_token) ++ '|' :: spec_row_line L [SP] b.fields row) := by
    simp [spec_isonl_line]
  have hst : starts_trimmed (spec_isonl_line L b row) = true := by
    rw [hline, hkc]
    simp [starts_trimmed, hcsp]
  have hen : ends_trimmed (spec_isonl_line L b row) = true := by
    have e2 : spec_isonl_line L b row =
        ((b.kind ++ '.' :: b.name) ++ '|' :: join_with [SP] (b.fields.map spec_field_token)) ++
          ('|' :: spec_row_line L [SP] b.fields row) := by
      simp [spec_isonl_line]
    rw [e2, ends_trimmed_append _ _ (by simp)]
    exact ends_trimmed_cons _ _ (by decide) rt3
  have htrim := trim_eq_self _ hst hen
  have hne : spec_isonl_line L b row ≠ [] := by rw [hline, hkc]; simp
  have hhead : (spec_isonl_line L b row).head? ≠ some '#' := by
    rw [hline, hkc]
    simpa using hchash
  unfold isonl_line
  simp only [htrim, hne, hhead, or_self, if_false]
  rw [hline, split_at_char_append _ hhdr]
  simp only
  rw [split_at_char_append _ hfl]
  simp only
  rw [split_at_char_append _ hdot]
  simp only [add_fields_eq, ison_block_create, List.nil_append,
    field_tokens_round_trip b.fields (fun f hf => (hfs f hf).1)]

theorem spec_isonl_line_facts (L : Libc) (b : ison_block_t) (row : ison_row_t)
    (hb : block_safe_isonl b = true) (hr : row_values_safe b.fields row = true) :
    LF ∉ spec_isonl_line L b row ∧ spec_isonl_line L b row ≠ [] ∧
      ends_trimmed (spec_isonl_line L b row) = true := by
  obtain ⟨hk, hlf, -, hfs, -⟩ := (block_safe_isonl_iff b).1 hb
  obtain ⟨-, rt2, rt3, -⟩ := row_round_trip L b.fields row hr
  have hk' := hk
  simp only [is_valid_kind, Bool.or_eq_true, decide_eq_true_eq] at hk'
  have hkf : LF ∉ b.kind := by
    rcases hk' with (h | h) | h <;> rw [h] <;> decide
  have hfl : LF ∉ join_with [SP] (b.fields.map spec_field_token) :=
    join_with_not_mem LF [SP] _ (by decide) (fun r hr => by
      obtain ⟨f, hf, rfl⟩ := List.mem_map.1 hr
      exact (field_token_safe f (hfs f hf).1).2.2.2.2.2.1)
  have e2 : spec_isonl_line L b row =
      ((b.kind ++ '.' :: b.name) ++ '|' :: join_with [SP] (b.fields.map spec_field_token)) ++
        ('|' :: spec_row_line L [SP] b.fields row) := by
    simp [spec_isonl_line]
  refine ⟨?_, by rw [e2]; simp, ?_⟩
  · rw [e2]
    simp only [List.mem_append, List.mem_cons, not_or]
    exact ⟨⟨⟨hkf, by decide, hlf⟩, by decide, hfl⟩, by decide, rt2⟩
  · rw [e2, ends_trimmed_append _ _ (by simp)]
    exact ends_trimmed_cons _ _ (by decide) rt3

theorem blocks_update_append (name : CStr) (f : ison_block_t → ison_block_t)
    (bs0 : List ison_block_t) (blk : ison_block_t) (h : name ∉ bs0.map (fun b => b.name))
    (hn : blk.name = name) : blocks_update name f (bs0 ++ [blk]) = bs0 ++ [f blk] := by
  induction bs0 with
  | nil => simp [blocks_update, hn]
  | cons x xs ih =>
    simp only [List.map_cons, List.mem_cons, not_or] at h
    simp [blocks_update, Ne.symm h.1, ih h.2]

theorem find_block_append (name : CStr) (bs0 : List ison_block_t) (blk : ison_block_t)
    (h : name ∉ bs0.map (fun b => b.name)) (hn : blk.name = name) :
    (bs0 ++ [blk]).find? (fun b => b.name = name) = some blk := by
  induction bs0 with
  | nil => simp [hn]
  | cons x xs ih =>
    simp only [List.map_cons, List.mem_cons, not_or] at h
    simp [List.find?_cons, Ne.symm h.1, ih h.2]

theorem find_block_none (name : CStr) (bs : List ison_block_t)
    (h : name ∉ bs.map (fun b => b.name)) : bs.find? (fun b => b.name = name) = none := by
  induction bs with
  | nil => rfl
  | cons x xs ih =>
    simp only [List.map_cons, List.mem_cons, not_or] at h
    simp [List.find?_cons, Ne.symm h.1, ih h.2]

/-- The row the loop body of `ison_parse_isonl` adds for the line of `row`. -/
theorem isonl_row_eq (L : Libc) (fields : List ison_field_info_t) (row : ison_row_t)
    (hr : row_values_safe fields row = true) (blk : ison_block_t) (hf : blk.fields = fields) :
    ison_block_add_row blk (build_row L blk.fields (tokenize (spec_row_line L [SP] fields row))) =
      { blk with rows := blk.rows ++ [row_of_line L fields (spec_row_line L [SP] fields row)] } := by
  obtain ⟨rt1, -⟩ := row_round_trip L fields row hr
  simp [ison_block_add_row, row_of_line, rt1, hf]

/-- The lines of further rows of a block that is already the last block of the
    document: the rows are added to it, in order. -/
theorem isonl_rows_fold (L : Libc) (b : ison_block_t) (hb : block_safe_isonl b = true)
    (rs : List ison_row_t) (hrs : ∀ r ∈ rs, row_values_safe b.fields r = true)
    (bs0 : List ison_block_t) (order : List CStr) (blk : ison_block_t)
    (hn : blk.name = b.name) (hf : blk.fields = b.fields)
    (hnew : b.name ∉ bs0.map (fun x => x.name)) :
    (rs.map (spec_isonl_line L b)).foldl (isonl_line L) { blocks := bs0 ++ [blk], order := order } =
      { blocks := bs0 ++
          [{ kind := blk.kind, name := blk.name, fields := blk.fields,
             rows := blk.rows ++
               rs.map (fun r => row_of_line L b.fields (spec_row_line L [SP] b.fields r)),
             summary_row := blk.summary_row }],
        order := order } := by
  induction rs generalizing blk with
  | nil => simp
  | cons r rs ih =>
    rw [List.map_cons, List.foldl_cons, isonl_line_eq L b r _ hb (hrs r (by simp))]
    have hg : ison_document_get { blocks := bs0 ++ [blk], order := order } b.name = some blk :=
      find_block_append b.name bs0 blk hnew hn
    simp only [hg]
    rw [blocks_update_append _ _ _ _ hnew hn, isonl_row_eq L b.fields r (hrs r (by simp)) blk hf]
    rw [ih (fun x hx => hrs x (by simp [hx]))
      { kind := blk.kind, name := blk.name, fields := blk.fields,
        rows := blk.rows ++ [row_of_line L b.fields (spec_row_line L [SP] b.fields r)],
        summary_row := blk.summary_row } hn hf]
    simp

/-- The lines of all rows of a block whose name is new to the document. -/
theorem isonl_block_fold (L : Libc) (b : ison_block_t) (hb : block_safe_isonl b = true)
    (doc : ison_document_t) (hnew : b.name ∉ doc.blocks.map (fun x => x.name)) :
    (b.rows.map (spec_isonl_line L b)).foldl (isonl_line L) doc =
      if b.rows = [] then doc
      else { blocks := doc.blocks ++ [reparse_block_isonl L b], order := doc.order ++ [b.name] } := by
  have hrs := ((block_safe_isonl_iff b).1 hb).2.2.2.2
  cases hrows : b.rows with
  | nil => simp
  | cons r rs =>
    rw [hrows] at hrs
    rw [List.map_cons, List.foldl_cons, isonl_line_eq L b r _ hb (hrs r (by simp))]
    have hg : ison_document_get doc b.name = none := find_block_none b.name doc.blocks hnew
    simp only [hg]
    rw [ison_document_add_block_new doc
      { kind := b.kind, name := b.name, fields := b.fields, rows := [], summary_row := none } hnew]
    simp only
    rw [blocks_update_append b.name _ doc.blocks
      { kind := b.kind, name := b.name, fields := b.fields, rows := [], summary_row := none }
      hnew rfl, isonl_row_eq L b.fields r (hrs r (by simp))
      { kind := b.kind, name := b.name, fields := b.fields, rows := [], summary_row := none } rfl]
    rw [isonl_rows_fold L b hb rs (fun x hx => hrs x (by simp [hx])) doc.blocks
      (doc.order ++ [b.name])
      { kind := b.kind, name := b.name, fields := b.fields,
        rows := [] ++ [row_of_line L b.fields (spec_row_line L [SP] b.fields r)],
        summary_row := none } rfl rfl hnew]
    simp [reparse_block_isonl, hrows]

/-- The ISONL lines of safe blocks with fresh, pairwise distinct names: every
    block that has rows is added to the document, in order. -/
theorem isonl_doc_fold (L : Libc) (bs : List ison_block_t) (doc : ison_document_t)
    (hsafe : ∀ b ∈ bs, block_safe_isonl b = true)
    (hnd : (bs.map (fun b => b.name)).Nodup)
    (hdis : ∀ b ∈ bs, b.name ∉ doc.blocks.map (fun b => b.name)) :
    ((bs.map (fun b => b.rows.map (spec_isonl_line L b))).flatten).foldl (isonl_line L) doc =
      { blocks := doc.blocks ++
          (bs.filter (fun b => decide (b.rows ≠ []))).map (reparse_block_isonl L),
        order := doc.order ++ (bs.filter (fun b => decide (b.rows ≠ []))).map (fun b => b.name) } := by
  induction bs generalizing doc with
  | nil => simp
  | cons b rest ih =>
    simp only [List.map_cons, List.nodup_cons] at hnd
    rw [List.map_cons, List.flatten_cons, List.foldl_append,
      isonl_block_fold L b (hsafe b (by simp)) doc (hdis b (by simp))]
    by_cases hr : b.rows = []
    · rw [if_pos hr, ih doc (fun x hx => hsafe x (by simp [hx])) hnd.2
        (fun x hx => hdis x (by simp [hx]))]
      simp [List.filter_cons, hr]
    · rw [if_neg hr, ih _ (fun x hx => hsafe x (by simp [hx])) hnd.2 (by
        intro x hx
        simp only [List.map_append, List.map_cons, List.map_nil, List.mem_append,
          List.mem_singleton, not_or]
        refine ⟨hdis x (by simp [hx]), ?_⟩
        intro e
        have : (reparse_block_isonl L b).name = b.name := rfl
        rw [this] at e
        exact hnd.1 (List.mem_map.2 ⟨x, hx, e⟩))]
      simp [List.filter_cons, hr, reparse_block_isonl]

/-- What `ison_parse_isonl` reads from the ISONL text of a safe document. -/
theorem ison_parse_isonl_spec (L : Libc) (doc : ison_document_t)
    (h : document_safe_isonl doc = true) :
    ison_parse_isonl L (spec_dumps_isonl L doc) =
      { blocks := (doc.blocks.filter (fun b => decide (b.rows ≠ []))).map (reparse_block_isonl L),
        order := (doc.blocks.filter (fun b => decide (b.rows ≠ []))).map (fun b => b.name) } := by
  simp only [document_safe_isonl, Bool.and_eq_true, decide_eq_true_eq, List.all_eq_true] at h
  obtain ⟨hwf, hsafe⟩ := h
  have hfacts : ∀ l ∈ spec_isonl_lines L doc,
      LF ∉ l ∧ l ≠ [] ∧ ends_trimmed l = true := by
    intro l hl
    simp only [spec_isonl_lines, List.mem_flatten, List.mem_map] at hl
    obtain ⟨ls, ⟨b, hb, rfl⟩, hl⟩ := hl
    obtain ⟨r, hr, rfl⟩ := List.mem_map.1 hl
    exact spec_isonl_line_facts L b r (hsafe b hb)
      (((block_safe_isonl_iff b).1 (hsafe b hb)).2.2.2.2 r hr)
  have hsplit : split_lines (spec_dumps_isonl L doc) = spec_isonl_lines L doc := by
    unfold spec_dumps_isonl
    rw [split_lines_join _ (fun l hl => ⟨(hfacts l hl).1, (hfacts l hl).2.1⟩)]
    conv_rhs => rw [← List.map_id (spec_isonl_lines L doc)]
    exact List.map_congr_left (fun l hl => trim_right_eq_self l (hfacts l hl).2.2)
  unfold ison_parse_isonl
  rw [hsplit]
  unfold spec_isonl_lines
  rw [isonl_doc_fold L doc.blocks ison_document_create hsafe hwf.2
    (by simp [ison_document_create])]
  simp [ison_document_create]

/-- C2, as the claim states it, fails.  In `doc_two_blocks` the row of table
    `t` holds the String `1`; it comes back as the Int 1.  In `doc_one_row` the
    single row is lost: the text `ison_dumps_isonl` prints has the field list
    in front of the line, and the parser finds no block `t` in it. -/
theorem isonl_round_trip_counterexample :
    (¬ ∃ L : Libc, ∃ b : ison_block_t,
      ison_document_get (ison_parse_isonl L (ison_dumps_isonl L doc_two_blocks)) ['t'] = some b ∧
      List.Forall₂ (row_agrees [{ name := ['a'], type_hint := some [] }]) b.rows
        [{ entries := [(['a'], ison_value_t.string (some ['1']))], count := 1 }]) ∧
    (¬ ∃ L : Libc, ∃ b : ison_block_t,
      ison_document_get (ison_parse_isonl L (ison_dumps_isonl L doc_one_row)) ['t'] = some b) := by
  constructor
  · rintro ⟨L, b, h1, h2⟩
    have e : ison_document_get (ison_parse_isonl L (ison_dumps_isonl L doc_two_blocks)) ['t'] =
        some { kind := ['t', 'a', 'b', 'l', 'e'], name := ['t'],
               fields := [{ name := ['a'], type_hint := some [] }],
               rows := [{ entries := [(['a'], ison_value_t.int 1)], count := 1 }],
               summary_row := none } := rfl
    rw [e] at h1
    have hb := (Option.some.inj h1).symm
    subst hb
    simp only [List.forall₂_cons, List.forall₂_nil_right_iff, and_true] at h2
    have := h2 { name := ['a'], type_hint := some [] } (by simp)
    revert this
    decide
  · rintro ⟨L, b, h1⟩
    have e : ison_document_get (ison_parse_isonl L (ison_dumps_isonl L doc_one_row)) ['t'] = none :=
      rfl
    rw [e] at h1
    exact Option.noConfusion h1

/-- C2, amended: for every Document whose blocks and values are safe for the
    ISONL text form (`document_safe_isonl`), the document `ison_parse_isonl`
    reads from the ISONL text of the specification (one line
    `kind.name|fields|data` per data row) has, for every block of `D` that has
    rows, a block of the same name, kind and fields whose rows give every
    declared field the value it has in `D`, in the same order. -/
theorem isonl_round_trip (L : Libc) (doc : ison_document_t)
    (h : document_safe_isonl doc = true) (b : ison_block_t) (hb : b ∈ doc.blocks)
    (hrows : b.rows ≠ []) :
    ∃ b1 : ison_block_t,
      ison_document_get (ison_parse_isonl L (spec_dumps_isonl L doc)) b.name = some b1 ∧
      b1.kind = b.kind ∧ b1.name = b.name ∧ b1.fields = b.fields ∧
      List.Forall₂ (row_agrees b.fields) b1.rows b.rows := by
  have hp := ison_parse_isonl_spec L doc h
  simp only [document_safe_isonl, Bool.and_eq_true, decide_eq_true_eq, List.all_eq_true] at h
  obtain ⟨hwf, hsafe⟩ := h
  refine ⟨reparse_block_isonl L b, ?_, rfl, rfl, rfl, ?_⟩
  · rw [hp]
    have hmem : reparse_block_isonl L b ∈
        (doc.blocks.filter (fun b => decide (b.rows ≠ []))).map (reparse_block_isonl L) :=
      List.mem_map.2 ⟨b, List.mem_filter.2 ⟨hb, by simpa using hrows⟩, rfl⟩
    have hnd : (((doc.blocks.filter (fun b => decide (b.rows ≠ []))).map
        (reparse_block_isonl L)).map (fun b => b.name)).Nodup := by
      rw [List.map_map]
      exact hwf.2.sublist ((List.filter_sublist _).map _)
    exact @ison_document_get_mem ⟨_, _⟩ _ hnd hmem
  · show List.Forall₂ (row_agrees b.fields)
      (b.rows.map (fun r => row_of_line L b.fields (spec_row_line L [SP] b.fields r))) b.rows
    rw [List.forall₂_map_left_iff]
    apply List.forall₂_same.2
    intro r hr
    exact (row_round_trip L b.fields r (((block_safe_isonl_iff b).1 (hsafe b hb)).2.2.2.2 r hr)).2.2.2

/-- The table `users` of `doc_sample` comes back from the ISONL text with its
    two rows. -/
theorem isonl_round_trip_witness :
    ∃ b1 : ison_block_t,
      ison_document_get (ison_parse_isonl libc_zero (spec_dumps_isonl libc_zero doc_sample))
        ['u', 's', 'e', 'r', 's'] = some b1 ∧
      b1.kind = ['t', 'a', 'b', 'l', 'e'] ∧ b1.name = ['u', 's', 'e', 'r', 's'] ∧
      b1.fields = [{ name := ['i', 'd'], type_hint := some ['i', 'n', 't'] },
                   { name := ['n', 'a', 'm', 'e'], type_hint := some [] },
                   { name := ['b', 'o', 's', 's'], type_hint := some [] }] ∧
      b1.rows.length = 2 := by
  obtain ⟨b1, h1, h2, h3, h4, h5⟩ := isonl_round_trip libc_zero doc_sample (by decide)
    (doc_sample.blocks.head (by decide)) (by decide) (by decide)
  exact ⟨b1, h1, h2, h3, h4, by simpa using h5.length_eq⟩

/-- C11. Reference token round trip: for a token `:id` (no further colon),
    and for a token `:q:id` whose qualifier `q` is non-empty and has no colon
    (a namespace, or a relationship when `q` is upper case),
    `ison_reference_to_ison (parse_reference t)` is the token `t` itself. The
    tokens `:1`, `:user:42` and `:OWNS:5` are instances. -/
theorem reference_token_round_trip :
    (∀ id : CStr, ':' ∉ id →
      ison_reference_to_ison (parse_reference (':' :: id)) = some (':' :: id)) ∧
    (∀ q id : CStr, q ≠ [] → ':' ∉ q →
      ison_reference_to_ison (parse_reference (':' :: q ++ ':' :: id)) =
        some (':' :: q ++ ':' :: id)) ∧
    ison_reference_to_ison (parse_reference [':', '1']) = some [':', '1'] ∧
    ison_reference_to_ison (parse_reference ":user:42".toList) = some ":user:42".toList ∧
    ison_reference_to_ison (parse_reference ":OWNS:5".toList) = some ":OWNS:5".toList := by
  refine ⟨?_, ?_, by decide, by decide, by decide⟩
  · intro id hid
    simp [parse_reference, split_at_char_none hid, ison_reference_to_ison]
  · intro q id hq hcol
    obtain ⟨c, cs, rfl⟩ := List.exists_cons_of_ne_nil hq
    have hs : split_at_char ':' (c :: (cs ++ ':' :: id)) = some (c :: cs, id) :=
      split_at_char_append id hcol
    by_cases hu : is_all_upper (c :: cs) = true
    · simp [parse_reference, hs, hu, ison_reference_to_ison]
    · simp [parse_reference, hs, hu, ison_reference_to_ison]

/-! ## Helper lemmas: the tokenizer on lines without a quote -/

theorem tokenize_loop_unquoted (line cur : CStr) (hq : DQUOTE ∉ line) (hn : NUL ∉ line) :
    tokenize_loop (line ++ [NUL]) cur false false =
      (((line.splitOnP (fun c => c == SP || c == TAB)).modifyHead (fun w => cur ++ w)).filter
        (fun w => !w.isEmpty)) := by
  induction line generalizing cur with
  | nil =>
    have h1 : NUL ≠ BSLASH := by decide
    have h2 : NUL ≠ DQUOTE := by decide
    cases cur with
    | nil => simp [tokenize_loop, h2, List.splitOnP_nil, List.modifyHead]
    | cons a as => simp [tokenize_loop, h2, List.splitOnP_nil, List.modifyHead]
  | cons c cs ih =>
    simp only [List.mem_cons, not_or] at hq hn
    have hcq : c ≠ DQUOTE := Ne.symm hq.1
    have hcn : c ≠ NUL := Ne.symm hn.1
    rw [List.cons_append, tokenize_loop, List.splitOnP_cons]
    by_cases hsep : c = SP ∨ c = TAB
    · have hp : (c == SP || c == TAB) = true := by simpa using hsep
      have ih0 := ih [] hq.2 hn.2
      have hid : (fun w : CStr => [] ++ w) = id := by funext w; simp
      rw [hid] at ih0
      have hm : ∀ l : List CStr, l.modifyHead id = l := by
        intro l; cases l <;> rfl
      rw [hm] at ih0
      have hsep3 : c = SP ∨ c = TAB ∨ c = NUL := by
        rcases hsep with h | h
        · exact Or.inl h
        · exact Or.inr (Or.inl h)
      simp only [Bool.false_eq_true, if_false, and_false, hcq, Bool.not_false, true_and, hsep3,
        if_true, hp]
      cases cur with
      | nil => simp [List.modifyHead, ih0]
      | cons a as => simp [List.modifyHead, ih0]
    · have hp : (c == SP || c == TAB) = false := by simpa using hsep
      have hsep2 : ¬ (c = SP ∨ c = TAB ∨ c = NUL) := by
        intro h; rcases h with h | h | h
        · exact hsep (Or.inl h)
        · exact hsep (Or.inr h)
        · exact hcn h
      simp only [Bool.false_eq_true, if_false, and_false, hcq, Bool.not_false, true_and, hsep2, hp]
      rw [ih (cur ++ [c]) hq.2 hn.2]
      congr 1
      cases List.splitOnP (fun c => c == SP || c == TAB) cs <;> simp [List.modifyHead]


theorem splitOnP_no_sep (p : Char → Bool) (line : CStr) :
    ∀ w ∈ line.splitOnP p, ∀ c ∈ w, p c = false := by
  induction line with
  | nil => simp [List.splitOnP_nil]
  | cons x xs ih =>
    rw [List.splitOnP_cons]
    by_cases hp : p x = true
    · simp only [hp, if_true, List.mem_cons]
      rintro w (rfl | hw) c hc
      · simp at hc
      · exact ih w hw c hc
    · simp only [hp, if_false, Bool.false_eq_true]
      cases hs : List.splitOnP p xs with
      | nil => simp [List.modifyHead]
      | cons a as =>
        rw [hs] at ih
        simp only [List.modifyHead, List.mem_cons]
        rintro w (rfl | hw) c hc
        · rcases List.mem_cons.1 hc with rfl | hc
          · simpa using hp
          · exact ih a (by simp) c hc
        · exact ih w (by simp [hw]) c hc

theorem splitOnP_all_sep (p : Char → Bool) (line : CStr) (h : ∀ c ∈ line, p c = true) :
    ∀ w ∈ line.splitOnP p, w = [] := by
  induction line with
  | nil => simp [List.splitOnP_nil]
  | cons x xs ih =>
    rw [List.splitOnP_cons]
    simp only [h x (by simp), if_true, List.mem_cons]
    rintro w (rfl | hw)
    · rfl
    · exact ih (fun c hc => h c (by simp [hc])) w hw

/-- C12. Tokenizer on a line without a double quote (and, being a C string,
    without a NUL): `tokenize` yields, in order, the maximal non-empty runs of
    characters other than space and tab, a backslash being an ordinary
    character; no token is empty, no token holds a space or a tab, and a line
    of spaces and tabs only yields no token. -/
theorem tokenize_unquoted (line : CStr) (hq : DQUOTE ∉ line) (hn : NUL ∉ line) :
    tokenize line = unquoted_runs line ∧
    [] ∉ tokenize line ∧
    (∀ t ∈ tokenize line, ∀ c ∈ t, c ≠ SP ∧ c ≠ TAB) ∧
    ((∀ c ∈ line, c = SP ∨ c = TAB) → tokenize line = []) := by
  have hm : ∀ l : List CStr, l.modifyHead (fun w => [] ++ w) = l := by
    intro l; cases l <;> simp [List.modifyHead]
  have h1 : tokenize line = unquoted_runs line := by
    unfold tokenize unquoted_runs
    rw [tokenize_loop_unquoted line [] hq hn, hm]
  refine ⟨h1, ?_, ?_, ?_⟩
  · rw [h1]; unfold unquoted_runs
    simp [List.mem_filter]
  · rw [h1]; unfold unquoted_runs
    intro t ht c hc
    have := splitOnP_no_sep _ line t (List.mem_filter.1 ht).1 c hc
    simpa using this
  · intro hall
    rw [h1]; unfold unquoted_runs
    rw [List.filter_eq_nil_iff]
    intro w hw
    have := splitOnP_all_sep (fun c => c == SP || c == TAB) line
      (fun c hc => by simpa using hall c hc) w hw
    simp [this]

/-- C12, instance: two spaces, a tab and a backslash between three words. -/
theorem tokenize_unquoted_witness :
    tokenize "ab  c\\d\t e ".toList = ["ab".toList, "c\\d".toList, "e".toList] ∧
    tokenize " \t ".toList = [] := by
  have h := tokenize_unquoted "ab  c\\d\t e ".toList (by decide) (by decide)
  have h2 := tokenize_unquoted " \t ".toList (by decide) (by decide)
  refine ⟨?_, h2.2.2.2 (by decide)⟩
  rw [h.1]
  decide

/-! ## Helper lemmas: the tokenizer inside an open quote -/

theorem tokenize_loop_open_quote (rest cur : CStr) (e : Bool) (hq : DQUOTE ∉ rest) :
    tokenize_loop rest cur true e = [] := by
  induction rest generalizing cur e with
  | nil => rw [tokenize_loop]
  | cons c cs ih =>
    simp only [List.mem_cons, not_or] at hq
    have hcq : c ≠ DQUOTE := Ne.symm hq.1
    rw [tokenize_loop]
    by_cases he : e = true
    · rw [if_pos he]; exact ih _ _ hq.2
    · rw [if_neg he]
      by_cases hb : c = BSLASH
      · rw [if_pos ⟨hb, rfl⟩]; exact ih _ _ hq.2
      · rw [if_neg (fun h => hb h.1), if_neg hcq, if_neg (by simp)]
        exact ih _ _ hq.2

theorem tokenize_loop_unquoted_prefix (p rest cur : CStr) (c : Char) (hc : c = SP ∨ c = TAB)
    (hq : DQUOTE ∉ p) :
    tokenize_loop (p ++ c :: rest) cur false false =
      tokenize_loop (p ++ [NUL]) cur false false ++ tokenize_loop rest [] false false := by
  have hsp : SP ≠ DQUOTE := by decide
  have htb : TAB ≠ DQUOTE := by decide
  have hnq : NUL ≠ DQUOTE := by decide
  have hcq : c ≠ DQUOTE := by rcases hc with rfl | rfl <;> assumption
  have hc3 : c = SP ∨ c = TAB ∨ c = NUL := by
    rcases hc with h | h
    · exact Or.inl h
    · exact Or.inr (Or.inl h)
  induction p generalizing cur with
  | nil =>
    simp only [List.nil_append]
    rw [tokenize_loop, tokenize_loop]
    simp only [Bool.false_eq_true, if_false, and_false, hcq, hnq, Bool.not_false, true_and, hc3,
      or_true, if_true]
    cases cur with
    | nil => simp [tokenize_loop]
    | cons a as => simp [tokenize_loop]
  | cons x xs ih =>
    simp only [List.mem_cons, not_or] at hq
    have hxq : x ≠ DQUOTE := Ne.symm hq.1
    rw [List.cons_append, List.cons_append, tokenize_loop, tokenize_loop]
    simp only [Bool.false_eq_true, if_false, and_false, hxq, Bool.not_false, true_and]
    by_cases hx : x = SP ∨ x = TAB ∨ x = NUL
    · rw [if_pos hx, if_pos hx]
      by_cases hl : cur.length > 0
      · rw [if_pos hl, if_pos hl, ih _ hq.2]; rfl
      · rw [if_neg hl, if_neg hl, ih _ hq.2]
    · rw [if_neg hx, if_neg hx, ih _ hq.2]

/-- C13. Unterminated quote: the line `abc "def` tokenizes to the single
    token `abc`, not to `abc`, `def`; in general, when a quote opened after a
    space is never closed, the text from the quote to the end of the line
    yields no token at all, and the line tokenizes as the text before the
    quote does. -/
theorem tokenize_unterminated_quote :
    tokenize "abc \"def".toList = ["abc".toList] ∧
    tokenize "abc \"def".toList ≠ ["abc".toList, "def".toList] ∧
    (∀ p s : CStr, DQUOTE ∉ p → DQUOTE ∉ s →
      tokenize (p ++ SP :: DQUOTE :: s) = tokenize p) := by
  refine ⟨by decide, by decide, ?_⟩
  intro p s hp hs
  unfold tokenize
  have hnq : NUL ≠ DQUOTE := by decide
  rw [List.append_assoc, List.cons_append, tokenize_loop_unquoted_prefix p _ [] SP (Or.inl rfl) hp,
    List.cons_append, tokenize_loop]
  have h1 : DQUOTE ≠ BSLASH := by decide
  simp only [Bool.false_eq_true, if_false, and_false, if_true, Bool.not_false]
  rw [tokenize_loop_open_quote _ _ _ (by simp [hs, hnq.symm])]
  simp

/-- C16. Row set and get: after `ison_row_set r k v`, reading `k` gives `v`
    and reading any other key gives what it gave before; when `k` was already
    a key of `r` the keys, their order and the count are unchanged, otherwise
    the entry `(k, v)` is appended last and the count grows by one; and every
    row built from `ison_row_create` by calls of `ison_row_set` has pairwise
    distinct keys and a count equal to its number of entries, a property each
    call of `ison_row_set` preserves. -/
theorem row_set_get (r : ison_row_t) (k : CStr) (v : ison_value_t) :
    ison_row_get (ison_row_set r k v) k = some v ∧
    (∀ k2 : CStr, k2 ≠ k → ison_row_get (ison_row_set r k v) k2 = ison_row_get r k2) ∧
    (k ∈ r.entries.map Prod.fst →
      (ison_row_set r k v).entries.map Prod.fst = r.entries.map Prod.fst ∧
      (ison_row_set r k v).count = r.count) ∧
    (k ∉ r.entries.map Prod.fst →
      (ison_row_set r k v).entries = r.entries ++ [(k, v)] ∧
      (ison_row_set r k v).count = r.count + 1) ∧
    ((r.entries.map Prod.fst).Nodup ∧ r.count = r.entries.length →
      ((ison_row_set r k v).entries.map Prod.fst).Nodup ∧
      (ison_row_set r k v).count = (ison_row_set r k v).entries.length) ∧
    (∀ sets : List (CStr × ison_value_t),
      ((sets.foldl (fun row e => ison_row_set row e.1 e.2) ison_row_create).entries.map
        Prod.fst).Nodup ∧
      (sets.foldl (fun row e => ison_row_set row e.1 e.2) ison_row_create).count =
        (sets.foldl (fun row e => ison_row_set row e.1 e.2) ison_row_create).entries.length) := by
  refine ⟨?_, ?_, ?_, ?_, ?_, ?_⟩
  · rw [ison_row_get_set, if_pos rfl]
  · intro k2 hk
    rw [ison_row_get_set, if_neg hk]
  · intro h
    obtain ⟨es1, h1, h2, -, -⟩ := row_replace_some_iff v h
    simp [ison_row_set, h1, h2]
  · intro h
    rw [ison_row_set_new v h]
    exact ⟨rfl, rfl⟩
  · intro h
    exact ison_row_set_inv r k v h.1 h.2
  · intro sets
    exact foldl_row_set_inv Prod.fst Prod.snd sets ison_row_create (by simp [ison_row_create])
      (by simp [ison_row_create])

/-! ## Helper lemmas: `ison_document_add_block` -/

theorem blocks_replace_some (block : ison_block_t) (bs : List ison_block_t)
    (h : block.name ∈ bs.map (fun b => b.name)) :
    ∃ pre old post, bs = pre ++ old :: post ∧ old.name = block.name ∧
      (∀ x ∈ pre, x.name ≠ block.name) ∧ blocks_replace block bs = some (pre ++ block :: post) := by
  induction bs with
  | nil => simp at h
  | cons x xs ih =>
    by_cases hx : x.name = block.name
    · exact ⟨[], x, xs, rfl, hx, by simp, by simp [blocks_replace, hx]⟩
    · have h2 : block.name ∈ xs.map (fun b => b.name) := by
        simp only [List.map_cons, List.mem_cons] at h
        rcases h with h | h
        · exact absurd h.symm hx
        · exact h
      obtain ⟨pre, old, post, e1, e2, e3, e4⟩ := ih h2
      refine ⟨x :: pre, old, post, by simp [e1], e2, ?_, by simp [blocks_replace, hx, e4]⟩
      intro y hy
      rcases List.mem_cons.1 hy with rfl | hy
      · exact hx
      · exact e3 y hy

theorem find_block_split (name : CStr) (pre post : List ison_block_t) (blk : ison_block_t)
    (h : ∀ x ∈ pre, x.name ≠ name) :
    (pre ++ blk :: post).find? (fun b => b.name = name) =
      if blk.name = name then some blk else post.find? (fun b => b.name = name) := by
  induction pre with
  | nil => by_cases hb : blk.name = name <;> simp [List.find?_cons, hb]
  | cons x xs ih =>
    have hx : x.name ≠ name := h x (by simp)
    simp only [List.cons_append, List.find?_cons, hx, decide_False]
    exact ih (fun y hy => h y (by simp [hy]))

/-- What `ison_document_add_block` does and what holds afterwards, for any
    document and block. -/
theorem ison_document_add_block_cases (d : ison_document_t) (b : ison_block_t) :
    (b.name ∉ d.blocks.map (fun x => x.name) →
      ison_document_add_block d b =
        { blocks := d.blocks ++ [b], order := d.order ++ [b.name] }) ∧
    (b.name ∈ d.blocks.map (fun x => x.name) →
      ∃ pre old post, d.blocks = pre ++ old :: post ∧ old.name = b.name ∧
        (∀ x ∈ pre, x.name ≠ b.name) ∧
        ison_document_add_block d b = { blocks := pre ++ b :: post, order := d.order }) ∧
    ison_document_get (ison_document_add_block d b) b.name = some b ∧
    (∀ n : CStr, n ≠ b.name →
      ison_document_get (ison_document_add_block d b) n = ison_document_get d n) ∧
    (document_wf d → document_wf (ison_document_add_block d b)) := by
  have hnew := ison_document_add_block_new d b
  have hold : b.name ∈ d.blocks.map (fun x => x.name) →
      ∃ pre old post, d.blocks = pre ++ old :: post ∧ old.name = b.name ∧
        (∀ x ∈ pre, x.name ≠ b.name) ∧
        ison_document_add_block d b = { blocks := pre ++ b :: post, order := d.order } := by
    intro h
    obtain ⟨pre, old, post, e1, e2, e3, e4⟩ := blocks_replace_some b d.blocks h
    exact ⟨pre, old, post, e1, e2, e3, by simp [ison_document_add_block, e4]⟩
  refine ⟨hnew, hold, ?_, ?_, ?_⟩
  · by_cases h : b.name ∈ d.blocks.map (fun x => x.name)
    · obtain ⟨pre, old, post, e1, e2, e3, e4⟩ := hold h
      rw [e4]; unfold ison_document_get
      rw [find_block_split b.name pre post b e3, if_pos rfl]
    · rw [hnew h]; unfold ison_document_get
      exact find_block_append b.name d.blocks b h rfl
  · intro n hn
    by_cases h : b.name ∈ d.blocks.map (fun x => x.name)
    · obtain ⟨pre, old, post, e1, e2, e3, e4⟩ := hold h
      rw [e4]; unfold ison_document_get
      simp only [e1, List.find?_append, List.find?_cons, Ne.symm hn, e2, decide_False]
    · rw [hnew h]; unfold ison_document_get
      simp [List.find?_append, List.find?_cons, Ne.symm hn]
  · intro hwf
    by_cases h : b.name ∈ d.blocks.map (fun x => x.name)
    · obtain ⟨pre, old, post, e1, e2, e3, e4⟩ := hold h
      have hn : (pre ++ b :: post).map (fun x => x.name) = d.blocks.map (fun x => x.name) := by
        simp [e1, e2]
      rw [e4]
      exact ⟨by rw [hn]; exact hwf.1, by rw [hn]; exact hwf.2⟩
    · rw [hnew h]
      refine ⟨by simp [hwf.1], ?_⟩
      simp only [List.map_append, List.map_cons, List.map_nil]
      exact List.Nodup.append hwf.2 (by simp) (by simpa using h)

theorem foldl_add_block_wf (bs : List ison_block_t) (d : ison_document_t) (h : document_wf d) :
    document_wf (bs.foldl ison_document_add_block d) := by
  induction bs generalizing d with
  | nil => exact h
  | cons b bs ih => exact ih _ ((ison_document_add_block_cases d b).2.2.2.2 h)

/-- C17. Document insertion: `ison_document_add_block d b` appends `b` (and
    its name to the order) when no block of `d` is named `b.name`, otherwise it
    puts `b` in the place of the first block of that name and leaves the order
    and both counts as they were; afterwards looking up `b.name` gives `b` and
    looking up any other name gives what it gave before; and when in `d` the
    order is the list of the block names and these are pairwise distinct (as
    in every document built from `ison_document_create` by insertions), the
    same holds afterwards: distinct names, `block_count = order_count`, and
    `order[i] = blocks[i].name` for every index. -/
theorem document_insertion (d : ison_document_t) (b : ison_block_t) :
    (b.name ∉ d.blocks.map (fun x => x.name) →
      ison_document_add_block d b =
        { blocks := d.blocks ++ [b], order := d.order ++ [b.name] }) ∧
    (b.name ∈ d.blocks.map (fun x => x.name) →
      ∃ pre old post, d.blocks = pre ++ old :: post ∧ old.name = b.name ∧
        (∀ x ∈ pre, x.name ≠ b.name) ∧
        (ison_document_add_block d b).blocks = pre ++ b :: post ∧
        (ison_document_add_block d b).order = d.order ∧
        (ison_document_add_block d b).blocks.length = d.blocks.length) ∧
    ison_document_get (ison_document_add_block d b) b.name = some b ∧
    (∀ n : CStr, n ≠ b.name →
      ison_document_get (ison_document_add_block d b) n = ison_document_get d n) ∧
    (document_wf d →
      ((ison_document_add_block d b).blocks.map (fun x => x.name)).Nodup ∧
      (ison_document_add_block d b).blocks.length = (ison_document_add_block d b).order.length ∧
      ∀ i : Nat, (ison_document_add_block d b).order[i]? =
        ((ison_document_add_block d b).blocks[i]?).map (fun x => x.name)) ∧
    (∀ bs : List ison_block_t, document_wf (bs.foldl ison_document_add_block ison_document_create)) := by
  obtain ⟨h1, h2, h3, h4, h5⟩ := ison_document_add_block_cases d b
  refine ⟨h1, ?_, h3, h4, ?_, ?_⟩
  · intro h
    obtain ⟨pre, old, post, e1, e2, e3, e4⟩ := h2 h
    exact ⟨pre, old, post, e1, e2, e3, by rw [e4], by rw [e4], by rw [e4]; simp [e1]⟩
  · intro hwf
    obtain ⟨w1, w2⟩ := h5 hwf
    refine ⟨w2, by rw [w1]; simp, ?_⟩
    intro i
    rw [w1, List.getElem?_map]
  · intro bs
    exact foldl_add_block_wf bs _ ⟨rfl, by simp [ison_document_create]⟩

/-! ## Helper lemmas: the parsers pass over every line -/

theorem parse_rows_length (L : Libc) (block : ison_block_t) (s : Bool) (lines : List CStr) :
    (parse_rows L block s lines).2.length ≤ lines.length := by
  induction lines generalizing block s with
  | nil => simp [parse_rows]
  | cons raw rest ih =>
    unfold parse_rows
    simp only
    split_ifs
    · simp
    · exact Nat.le_succ_of_le (ih _ _)
    · simp
    · exact Nat.le_succ_of_le (ih _ _)
    · exact Nat.le_succ_of_le (ih _ _)
    · exact Nat.le_succ_of_le (ih _ _)

theorem skip_to_fields_length (lines : List CStr) :
    (skip_to_fields lines).length ≤ lines.length := by
  induction lines with
  | nil => simp [skip_to_fields]
  | cons raw rest ih =>
    unfold skip_to_fields
    split_ifs
    · simp
    · exact Nat.le_succ_of_le ih

theorem parse_block_length (L : Libc) (kind name : CStr) (lines : List CStr) :
    (parse_block L kind name lines).2.length ≤ lines.length := by
  unfold parse_block
  have h := skip_to_fields_length lines
  cases hs : skip_to_fields lines with
  | nil => simp
  | cons f rest =>
    rw [hs] at h
    simp only
    exact le_trans (parse_rows_length L _ _ rest) (le_trans (Nat.le_succ _) h)

theorem ison_parse_run_some (L : Libc) (fuel : Nat) (lines : List CStr) (doc : ison_document_t)
    (h : lines.length ≤ fuel) :
    ison_parse_run L fuel lines doc = some (ison_parse_loop L fuel lines doc) := by
  induction fuel generalizing lines doc with
  | zero =>
    cases lines with
    | nil => simp [ison_parse_run, ison_parse_loop]
    | cons a as => simp at h
  | succ n ih =>
    cases lines with
    | nil => simp [ison_parse_run, ison_parse_loop]
    | cons raw rest =>
      have hr : rest.length ≤ n := by simpa using h
      unfold ison_parse_run ison_parse_loop
      simp only
      by_cases h1 : trim raw = [] ∨ (trim raw).head? = some '#'
      · rw [if_pos h1, if_pos h1]; exact ih rest doc hr
      · rw [if_neg h1, if_neg h1]
        cases hb : block_header (trim raw) with
        | none => exact ih rest doc hr
        | some kn =>
          obtain ⟨kind, name⟩ := kn
          exact ih _ _ (le_trans (parse_block_length L kind name rest) hr)

/-- C18. Parsing never fails: for every text, null or not, `ison_parse` and
    `ison_parse_isonl` set the error code to `ISON_OK` and return a document;
    the main loop of `ison_parse` ends within as many turns as the text has
    lines (the ISONL loop is a `for` over the lines); a token that is none of
    `~`, `null`, `true`, `false`, does not start with `:` and is accepted
    neither by `strtol` nor by `strtod` decodes to the String of its text
    under every hint; a top-level line that is no block header is passed over
    by `ison_parse`, and a line without two `|` or without a `.` in its header
    is passed over by `ison_parse_isonl`. -/
theorem parsing_never_fails (L : Libc) :
    (∀ text : Option CStr,
      (ison_parse_with_error L text).2 = ison_error_t.ISON_OK ∧
      (ison_parse_isonl_with_error L text).2 = ison_error_t.ISON_OK) ∧
    (∀ text : CStr,
      ison_parse_run L (split_lines text).length (split_lines text) ison_document_create =
        some (ison_parse_with_error L (some text)).1) ∧
    (∀ (t : CStr) (hint : Option CStr), t ≠ ['~'] →
      strcaseeq t ['n', 'u', 'l', 'l'] = false → strcaseeq t ['t', 'r', 'u', 'e'] = false →
      strcaseeq t ['f', 'a', 'l', 's', 'e'] = false → t.head? ≠ some ':' →
      (strtol t).2 ≠ [] → strtod_end t ≠ [] →
      parse_value_token L t hint = ison_value_t.string (some t)) ∧
    (∀ (fuel : Nat) (raw : CStr) (rest : List CStr) (doc : ison_document_t),
      block_header (trim raw) = none →
      ison_parse_loop L (fuel + 1) (raw :: rest) doc = ison_parse_loop L fuel rest doc) ∧
    (∀ (doc : ison_document_t) (raw : CStr),
      (∀ header after, split_at_char '|' (trim raw) = some (header, after) →
        split_at_char '|' after = none ∨ split_at_char '.' header = none) →
      isonl_line L doc raw = doc) ∧
    ison_parse L "just some words\n=== ???\n".toList = ison_document_create ∧
    ison_parse_isonl L "no bars here\nx|y\nab|c|d\n".toList = ison_document_create ∧
    parse_value_token L "hello".toList none = ison_value_t.string (some "hello".toList) := by
  refine ⟨?_, ?_, ?_, ?_, ?_, ?_, ?_, ?_⟩
  · intro text
    cases text <;> exact ⟨rfl, rfl⟩
  · intro text
    exact ison_parse_run_some L _ _ _ (le_refl _)
  · intro t hint h1 h2 h3 h4 h5 h6 h7
    apply parse_value_token_string
    simp [string_decodes, h1, h2, h3, h4, h5, h6, h7]
  · intro fuel raw rest doc hb
    rw [ison_parse_loop]
    simp only [hb]
    split_ifs <;> rfl
  · intro doc raw h
    unfold isonl_line
    simp only
    split_ifs
    · rfl
    · cases h1 : split_at_char '|' (trim raw) with
      | none => rfl
      | some ha =>
        obtain ⟨header, after⟩ := ha
        rcases h header after h1 with h2 | h2
        · simp only [h2]
        · simp only [h2]
          cases split_at_char '|' after with
          | none => rfl
          | some fd => rfl
  · rfl
  · rfl
  · rfl

/-! ## Helper lemmas: the kind and name of the blocks read -/

theorem parse_rows_kind_name (L : Libc) (block : ison_block_t) (s : Bool) (lines : List CStr) :
    (parse_rows L block s lines).1.kind = block.kind ∧
      (parse_rows L block s lines).1.name = block.name := by
  induction lines generalizing block s with
  | nil => simp [parse_rows]
  | cons raw rest ih =>
    unfold parse_rows
    simp only
    split_ifs
    · exact ⟨rfl, rfl⟩
    · exact ih _ _
    · exact ⟨rfl, rfl⟩
    · exact ih _ _
    · exact ih _ _
    · exact ih _ _

theorem parse_block_kind_name (L : Libc) (kind name : CStr) (lines : List CStr) :
    (parse_block L kind name lines).1.kind = kind ∧
      (parse_block L kind name lines).1.name = name := by
  unfold parse_block
  cases skip_to_fields lines with
  | nil => exact ⟨rfl, rfl⟩
  | cons f rest =>
    simp only
    have h := parse_rows_kind_name L
      (add_fields (ison_block_create kind name) (tokenize (trim f))) false rest
    rw [add_fields_eq] at h
    rw [add_fields_eq]
    exact h

theorem add_block_forall (p : ison_block_t → Prop) (d : ison_document_t) (b : ison_block_t)
    (hd : ∀ x ∈ d.blocks, p x) (hb : p b) : ∀ x ∈ (ison_document_add_block d b).blocks, p x := by
  obtain ⟨h1, h2, -, -, -⟩ := ison_document_add_block_cases d b
  by_cases h : b.name ∈ d.blocks.map (fun x => x.name)
  · obtain ⟨pre, old, post, e1, -, -, e4⟩ := h2 h
    rw [e4]
    intro x hx
    simp only [List.mem_append, List.mem_cons] at hx
    rcases hx with hx | rfl | hx
    · exact hd x (by simp [e1, hx])
    · exact hb
    · exact hd x (by simp [e1, hx])
  · rw [h1 h]
    intro x hx
    simp only [List.mem_append, List.mem_singleton] at hx
    rcases hx with hx | rfl
    · exact hd x hx
    · exact hb

theorem ison_parse_loop_kinds (L : Libc) (fuel : Nat) (lines : List CStr) (doc : ison_document_t)
    (hd : ∀ x ∈ doc.blocks, is_valid_kind x.kind = true) :
    ∀ x ∈ (ison_parse_loop L fuel lines doc).blocks, is_valid_kind x.kind = true := by
  induction fuel generalizing lines doc with
  | zero => simpa [ison_parse_loop] using hd
  | succ n ih =>
    cases lines with
    | nil => simpa [ison_parse_loop] using hd
    | cons raw rest =>
      unfold ison_parse_loop
      simp only
      split_ifs
      · exact ih rest doc hd
      · cases hb : block_header (trim raw) with
        | none => exact ih rest doc hd
        | some kn =>
          obtain ⟨kind, name⟩ := kn
          simp only
          apply ih
          apply add_block_forall (fun x => is_valid_kind x.kind = true) _ _ hd
          show is_valid_kind (parse_block L kind name rest).1.kind = true
          rw [(parse_block_kind_name L kind name rest).1]
          exact (block_header_some hb).2.1

/-- C19. Valid kinds: every block of `ison_parse text` has the kind `table`,
    `object` or `meta`; a line is taken as a block header exactly when it does
    not begin with a double quote, has a `.`, and the text before its first
    `.` is one of these three kinds (the header then gives that kind and the
    text after the `.` as name); any other top-level line is passed over and
    leaves the document as it is. -/
theorem parse_kinds_valid (L : Libc) (text : CStr) :
    (∀ b ∈ (ison_parse L text).blocks,
      b.kind = "table".toList ∨ b.kind = "object".toList ∨ b.kind = "meta".toList) ∧
    (∀ line kind name : CStr, block_header line = some (kind, name) ↔
      (line.head? ≠ some DQUOTE ∧ '.' ∉ kind ∧ line = kind ++ '.' :: name ∧
        (kind = "table".toList ∨ kind = "object".toList ∨ kind = "meta".toList))) ∧
    (∀ (fuel : Nat) (raw : CStr) (rest : List CStr) (doc : ison_document_t),
      block_header (trim raw) = none →
      ison_parse_loop L (fuel + 1) (raw :: rest) doc = ison_parse_loop L fuel rest doc) := by
  have hv : ∀ k : CStr, is_valid_kind k = true ↔
      (k = "table".toList ∨ k = "object".toList ∨ k = "meta".toList) := by
    intro k
    simp [is_valid_kind, or_assoc]
  refine ⟨?_, ?_, ?_⟩
  · intro b hb
    exact (hv _).1 (ison_parse_loop_kinds L _ _ _ (by simp [ison_document_create]) b hb)
  · intro line kind name
    constructor
    · intro h
      unfold block_header at h
      cases hs : split_at_char '.' line with
      | none => simp [hs] at h
      | some p =>
        obtain ⟨k, n⟩ := p
        simp only [hs] at h
        split_ifs at h with hc
        simp only [Option.some.injEq, Prod.mk.injEq] at h
        obtain ⟨rfl, rfl⟩ := h
        obtain ⟨e, hk⟩ := split_at_char_some hs
        exact ⟨hc.1, hk, e, (hv _).1 hc.2⟩
    · rintro ⟨h1, h2, h3, h4⟩
      unfold block_header
      rw [h3, split_at_char_append name h2]
      rw [h3] at h1
      simp only
      rw [if_pos ⟨h1, (hv kind).2 h4⟩]
  · intro fuel raw rest doc hb
    rw [ison_parse_loop]
    simp only [hb]
    split_ifs <;> rfl

/-! ## Helper lemmas: ISONL lines of one block -/

theorem isonl_wellformed_iff (name : CStr) (p : isonl_parts) :
    isonl_wellformed name p = true ↔
      (trim p.raw = p.kind ++ '.' :: (name ++ '|' :: (p.fields_str ++ '|' :: p.data_str)) ∧
        '.' ∉ p.kind ∧ '|' ∉ p.kind ∧ '|' ∉ name ∧ '|' ∉ p.fields_str ∧
        (trim p.raw).head? ≠ some '#' ∧ LF ∉ p.raw) := by
  simp only [isonl_wellformed, Bool.and_eq_true, decide_eq_true_eq]
  tauto

/-- The loop body of `ison_parse_isonl` on a well-formed line. -/
theorem isonl_line_parts (L : Libc) (doc : ison_document_t) (name : CStr) (p : isonl_parts)
    (raw : CStr) (hraw : trim raw = trim p.raw) (h : isonl_wellformed name p = true) :
    isonl_line L doc raw =
      { blocks := blocks_update name
          (fun blk => ison_block_add_row blk (build_row L blk.fields (tokenize p.data_str)))
          (match ison_document_get doc name with
            | some _ => doc
            | none => ison_document_add_block doc
                { kind := p.kind, name := name, fields := (tokenize p.fields_str).map field_of_token,
                  rows := [], summary_row := none }).blocks,
        order := (match ison_document_get doc name with
            | some _ => doc
            | none => ison_document_add_block doc
                { kind := p.kind, name := name, fields := (tokenize p.fields_str).map field_of_token,
                  rows := [], summary_row := none }).order } := by
  obtain ⟨e, hdot, hbk, hbn, hbf, hhash, -⟩ := (isonl_wellformed_iff name p).1 h
  have hne : trim p.raw ≠ [] := by rw [e]; simp
  have hbar : '|' ∉ p.kind ++ '.' :: name := by
    simp only [List.mem_append, List.mem_cons, not_or]
    exact ⟨hbk, by decide, hbn⟩
  have e2 : trim p.raw = (p.kind ++ '.' :: name) ++ '|' :: (p.fields_str ++ '|' :: p.data_str) := by
    rw [e]; simp
  unfold isonl_line
  simp only [hraw]
  rw [if_neg (by simp [hne, hhash])]
  rw [e2, split_at_char_append _ hbar]
  simp only
  rw [split_at_char_append _ hbf]
  simp only
  rw [split_at_char_append _ hdot]
  simp only [add_fields_eq, ison_block_create, List.nil_append]


/-- Further well-formed lines of a block that is already the last block of the
    document: one row per line is added to it, read with the fields of the
    block. -/
theorem isonl_reuse_fold (L : Libc) (name : CStr) (more : List isonl_parts)
    (hw : ∀ p ∈ more, isonl_wellformed name p = true)
    (bs0 : List ison_block_t) (order : List CStr) (blk : ison_block_t)
    (hn : blk.name = name) (hnew : name ∉ bs0.map (fun x => x.name)) :
    ((more.map (fun p => p.raw)).map trim_right).foldl (isonl_line L)
        { blocks := bs0 ++ [blk], order := order } =
      { blocks := bs0 ++
          [{ kind := blk.kind, name := blk.name, fields := blk.fields,
             rows := blk.rows ++ more.map (fun p => build_row L blk.fields (tokenize p.data_str)),
             summary_row := blk.summary_row }],
        order := order } := by
  induction more generalizing blk with
  | nil => simp
  | cons p ps ih =>
    rw [List.map_cons, List.map_cons, List.foldl_cons,
      isonl_line_parts L _ name p _ (trim_trim_right p.raw) (hw p (by simp))]
    have hg : ison_document_get { blocks := bs0 ++ [blk], order := order } name = some blk :=
      find_block_append name bs0 blk hnew hn
    simp only [hg]
    rw [blocks_update_append _ _ _ _ hnew hn]
    have hrow : ison_block_add_row blk (build_row L blk.fields (tokenize p.data_str)) =
        { kind := blk.kind, name := blk.name, fields := blk.fields,
          rows := blk.rows ++ [build_row L blk.fields (tokenize p.data_str)],
          summary_row := blk.summary_row } := by
      simp [ison_block_add_row, row_copy_build_row_any]
    rw [hrow, ih (fun x hx => hw x (by simp [hx]))
      { kind := blk.kind, name := blk.name, fields := blk.fields,
        rows := blk.rows ++ [build_row L blk.fields (tokenize p.data_str)],
        summary_row := blk.summary_row } hn]
    simp

/-- C15. ISONL block reuse: when the lines of an ISONL text are well-formed
    lines `kind.name|fields|data` that all carry the same name, the document
    `ison_parse_isonl` returns has exactly one block, of that name, found by
    `ison_document_get`; its kind and its fields are those of the first line,
    whatever the kind and the field segment of the later lines; and it has one
    row per line, in line order, each read from the data segment of its line
    against the fields of the first line. -/
theorem isonl_block_reuse (L : Libc) (name : CStr) (first : isonl_parts) (more : List isonl_parts)
    (hfirst : isonl_wellformed name first = true)
    (hmore : ∀ p ∈ more, isonl_wellformed name p = true) :
    ison_parse_isonl L (unlines ((first :: more).map (fun p => p.raw))) =
      { blocks :=
          [{ kind := first.kind, name := name,
             fields := (tokenize first.fields_str).map field_of_token,
             rows := (first :: more).map (fun p =>
               build_row L ((tokenize first.fields_str).map field_of_token) (tokenize p.data_str)),
             summary_row := none }],
        order := [name] } ∧
    ((ison_document_get
        (ison_parse_isonl L (unlines ((first :: more).map (fun p => p.raw)))) name).map
      (fun b => (b.kind, b.fields, b.rows.length))) =
      some (first.kind, (tokenize first.fields_str).map field_of_token, more.length + 1) := by
  have hlf : ∀ l ∈ (first :: more).map (fun p => p.raw), LF ∉ l := by
    intro l hl
    obtain ⟨p, hp, rfl⟩ := List.mem_map.1 hl
    rcases List.mem_cons.1 hp with rfl | hp
    · exact ((isonl_wellformed_iff name _).1 hfirst).2.2.2.2.2.2
    · exact ((isonl_wellformed_iff name _).1 (hmore p hp)).2.2.2.2.2.2
  have main : ison_parse_isonl L (unlines ((first :: more).map (fun p => p.raw))) =
      { blocks :=
          [{ kind := first.kind, name := name,
             fields := (tokenize first.fields_str).map field_of_token,
             rows := (first :: more).map (fun p =>
               build_row L ((tokenize first.fields_str).map field_of_token) (tokenize p.data_str)),
             summary_row := none }],
        order := [name] } := by
    unfold ison_parse_isonl
    rw [split_lines_unlines _ hlf, List.map_cons, List.map_cons, List.foldl_cons]
    rw [isonl_line_parts L _ name first _ (trim_trim_right first.raw) hfirst]
    have hg : ison_document_get ison_document_create name = none := rfl
    simp only [hg]
    rw [ison_document_add_block_new _ _ (by simp [ison_document_create])]
    simp only [ison_document_create, List.nil_append]
    have hu : blocks_update name
        (fun blk => ison_block_add_row blk (build_row L blk.fields (tokenize first.data_str)))
        [ison_block_t.mk first.kind name ((tokenize first.fields_str).map field_of_token) []
          none] =
        [] ++ [ison_block_t.mk first.kind name ((tokenize first.fields_str).map field_of_token)
          [build_row L ((tokenize first.fields_str).map field_of_token)
            (tokenize first.data_str)] none] := by
      simp [blocks_update, ison_block_add_row, row_copy_build_row_any]
    rw [hu]
    have hf := isonl_reuse_fold L name more hmore [] [name]
      { kind := first.kind, name := name,
        fields := (tokenize first.fields_str).map field_of_token,
        rows := [build_row L ((tokenize first.fields_str).map field_of_token)
          (tokenize first.data_str)],
        summary_row := none } rfl (by simp)
    rw [hf]
    simp
  refine ⟨main, ?_⟩
  rw [main]
  simp [ison_document_get]

/-- C15, instance: two lines of the block `users`, the second with another
    kind and another field segment; the block keeps the kind `table` and the
    fields `id:int name` of the first line, and both rows are read against them. -/
theorem isonl_block_reuse_witness :
    isonl_wellformed "users".toList
      ⟨"table.users|id:int name|1 Alice".toList, "table".toList, "id:int name".toList,
        "1 Alice".toList⟩ = true ∧
    isonl_wellformed "users".toList
      ⟨"object.users|x y z|2 Bob".toList, "object".toList, "x y z".toList,
        "2 Bob".toList⟩ = true ∧
    ison_parse_isonl libc_zero
        "table.users|id:int name|1 Alice\nobject.users|x y z|2 Bob\n".toList =
      { blocks :=
          [{ kind := "table".toList, name := "users".toList,
             fields := [{ name := "id".toList, type_hint := some "int".toList },
                        { name := "name".toList, type_hint := some [] }],
             rows := [{ entries := [("id".toList, ison_value_t.int 1),
                                    ("name".toList, ison_value_t.string (some "Alice".toList))],
                        count := 2 },
                      { entries := [("id".toList, ison_value_t.int 2),
                                    ("name".toList, ison_value_t.string (some "Bob".toList))],
                        count := 2 }],
             summary_row := none }],
        order := ["users".toList] } := by
  refine ⟨by decide, by decide, ?_⟩
  have h := (isonl_block_reuse libc_zero "users".toList
    ⟨"table.users|id:int name|1 Alice".toList, "table".toList, "id:int name".toList,
      "1 Alice".toList⟩
    [⟨"object.users|x y z|2 Bob".toList, "object".toList, "x y z".toList, "2 Bob".toList⟩]
    (by decide) (by decide)).1
  exact h.trans (by decide)

/-- C20. Kinds in ISONL: `ison_parse_isonl` does not test the kind of a
    line. The one-line text `foo.bar|a|1` gives a document whose only block
    has the kind `foo`, which `is_valid_kind` rejects, while `ison_parse`
    passes over a header line `foo.bar`; in general the loop body of
    `ison_parse_isonl`, on an empty document and a well-formed line
    `kind.name|fields|data` of any kind whatever, creates a block of that
    kind. -/
theorem isonl_kind_unchecked (L : Libc) :
    (ison_parse_isonl L "foo.bar|a|1\n".toList).blocks.map (fun b => (b.kind, b.name)) =
      [("foo".toList, "bar".toList)] ∧
    is_valid_kind "foo".toList = false ∧
    ¬ (∀ b ∈ (ison_parse_isonl L "foo.bar|a|1\n".toList).blocks,
        b.kind = "table".toList ∨ b.kind = "object".toList ∨ b.kind = "meta".toList) ∧
    (ison_parse L "foo.bar\na\n1\n".toList).blocks = [] ∧
    (∀ (name : CStr) (p : isonl_parts), isonl_wellformed name p = true →
      (isonl_line L ison_document_create p.raw).blocks.map (fun b => (b.kind, b.name)) =
        [(p.kind, name)]) := by
  have h1 : (ison_parse_isonl L "foo.bar|a|1\n".toList).blocks =
      [{ kind := "foo".toList, name := "bar".toList,
         fields := [{ name := "a".toList, type_hint := some [] }],
         rows := [{ entries := [("a".toList, ison_value_t.int 1)], count := 1 }],
         summary_row := none }] := rfl
  refine ⟨by rw [h1]; rfl, by decide, ?_, rfl, ?_⟩
  · rw [h1]
    intro h
    have := h _ (List.mem_singleton.2 rfl)
    revert this
    decide
  · intro name p hp
    rw [isonl_line_parts L _ name p _ rfl hp]
    have hg : ison_document_get ison_document_create name = none := rfl
    simp only [hg]
    rw [ison_document_add_block_new _ _ (by simp [ison_document_create])]
    simp [ison_document_create, blocks_update, ison_block_add_row]

/-! ## Helper lemmas: a block without summary -/

/-- The text of one block without summary: header line, field line and row
    lines. Every row line becomes a data row, in order. -/
theorem ison_parse_plain_block_text (L : Libc) (hdr flds : CStr) (data : List CStr)
    (kind name : CStr)
    (hhdr : block_header (trim hdr) = some (kind, name))
    (hf1 : trim flds ≠ []) (hf2 : (trim flds).head? ≠ some '#')
    (hdata : ∀ l ∈ data, is_row_line l = true)
    (hlf : ∀ l ∈ hdr :: flds :: data, LF ∉ l) :
    ison_parse L (unlines (hdr :: flds :: data)) =
      { blocks := [{ kind := kind, name := name, fields := fields_of_line flds,
                     rows := data.map (row_of_line L (fields_of_line flds)),
                     summary_row := none }],
        order := [name] } := by
  obtain ⟨-, -, hh1, hh2⟩ := block_header_some hhdr
  unfold ison_parse
  rw [split_lines_unlines _ hlf]
  simp only [List.map_cons, List.map_nil, List.length_cons]
  rw [ison_parse_loop]
  simp only [trim_trim_right, hh1, hh2, or_self, if_false, hhdr]
  have hpb : parse_block L kind name (trim_right flds :: data.map trim_right) =
      ({ kind := kind, name := name, fields := fields_of_line flds,
         rows := data.map (row_of_line L (fields_of_line flds)),
         summary_row := none }, []) := by
    unfold parse_block
    rw [skip_to_fields_content _ _ (by rwa [trim_trim_right]) (by rwa [trim_trim_right])]
    simp only [trim_trim_right, add_fields_eq, ison_block_create, List.nil_append]
    have hd := parse_rows_data L (data.map trim_right)
      { kind := kind, name := name, fields := (tokenize (trim flds)).map field_of_token,
        rows := [], summary_row := none } [] (by
      intro l hl
      obtain ⟨x, hx, rfl⟩ := List.mem_map.1 hl
      rw [is_row_line_trim_right]; exact hdata x hx)
    rw [List.append_nil] at hd
    rw [hd]
    simp [parse_rows, row_of_line_trim_right, fields_of_line, List.map_map, Function.comp_def]
  rw [hpb]
  simp [ison_parse_loop_nil, ison_document_add_block, blocks_replace, ison_document_create]

theorem field_of_token_plain (nm hint : CStr) (hne : nm ≠ []) (hc : ':' ∉ nm) :
    field_of_token (nm ++ ':' :: hint) = { name := nm, type_hint := some hint } ∧
    field_of_token nm = { name := nm, type_hint := some [] } := by
  obtain ⟨c, cs, rfl⟩ := List.exists_cons_of_ne_nil hne
  constructor
  · simp only [field_of_token, parse_field_def, split_at_char_append hint hc]
  · simp only [field_of_token, parse_field_def, split_at_char_none hc]

/-- C14. Simple table parse: for a text made of a header line `table.<name>`,
    a field line (not blank, no comment) and `k` data lines, each of them
    non-blank, no comment, not `---` and no block header, `ison_parse` sets the
    error code `ISON_OK` and returns a document with exactly one block, found by `ison_document_get` under
    `name`; its kind is `table`, it has one field per token of the field line,
    in order, a token `n:h` giving the name `n` and the hint `h` and a token
    `n` without colon the name `n` and the empty hint; and it has `k` rows,
    one per data line in order, and no summary row. -/
theorem simple_table_parse (L : Libc) (name hdr flds : CStr) (data : List CStr)
    (hhdr : trim hdr = "table.".toList ++ name)
    (hf1 : trim flds ≠ []) (hf2 : (trim flds).head? ≠ some '#')
    (hdata : ∀ l ∈ data, is_row_line l = true)
    (hlf : ∀ l ∈ hdr :: flds :: data, LF ∉ l) :
    ison_parse L (unlines (hdr :: flds :: data)) =
      { blocks := [{ kind := "table".toList, name := name,
                     fields := (tokenize (trim flds)).map field_of_token,
                     rows := data.map (row_of_line L ((tokenize (trim flds)).map field_of_token)),
                     summary_row := none }],
        order := [name] } ∧
    (ison_parse_with_error L (some (unlines (hdr :: flds :: data)))).2 = ison_error_t.ISON_OK ∧
    (ison_parse L (unlines (hdr :: flds :: data))).blocks.length = 1 ∧
    ((ison_document_get (ison_parse L (unlines (hdr :: flds :: data))) name).map
      (fun b => (b.kind, b.fields.length, b.rows.length))) =
      some ("table".toList, (tokenize (trim flds)).length, data.length) ∧
    (∀ nm hint : CStr, nm ≠ [] → ':' ∉ nm →
      field_of_token (nm ++ ':' :: hint) = { name := nm, type_hint := some hint } ∧
      field_of_token nm = { name := nm, type_hint := some [] }) := by
  have hb : block_header (trim hdr) = some ("table".toList, name) := by
    rw [hhdr]
    have hs : split_at_char '.' ("table.".toList ++ name) = some ("table".toList, name) :=
      split_at_char_append (l := "table".toList) name (by decide)
    unfold block_header
    rw [hs]
    simp only
    rw [if_pos ⟨by simp; decide, by decide⟩]
  have main := ison_parse_plain_block_text L hdr flds data _ name hb hf1 hf2 hdata hlf
  unfold fields_of_line at main
  refine ⟨main, rfl, by rw [main]; rfl, ?_, field_of_token_plain⟩
  rw [main]
  simp [ison_document_get]

/-- C14, instance: the `users` table with the fields `id:int name email` and
    two rows; the id of the first row is the Int 1, and `ison_dumps` of the
    document read prints the field line `id:int name email`. -/
theorem simple_table_parse_witness :
    ison_parse libc_zero
        "table.users\nid:int name email\n1 Alice alice@example.com\n2 Bob bob@example.com\n".toList =
      { blocks :=
          [{ kind := "table".toList, name := "users".toList,
             fields := [{ name := "id".toList, type_hint := some "int".toList },
                        { name := "name".toList, type_hint := some [] },
                        { name := "email".toList, type_hint := some [] }],
             rows := [{ entries := [("id".toList, ison_value_t.int 1),
                                    ("name".toList, ison_value_t.string (some "Alice".toList)),
                                    ("email".toList,
                                      ison_value_t.string (some "alice@example.com".toList))],
                        count := 3 },
                      { entries := [("id".toList, ison_value_t.int 2),
                                    ("name".toList, ison_value_t.string (some "Bob".toList)),
                                    ("email".toList,
                                      ison_value_t.string (some "bob@example.com".toList))],
                        count := 3 }],
             summary_row := none }],
        order := ["users".toList] } ∧
    (split_lines (ison_dumps libc_zero (ison_parse libc_zero
        "table.users\nid:int name email\n1 Alice alice@example.com\n2 Bob bob@example.com\n".toList)))[1]? =
      some "id:int name email".toList := by
  have h := (simple_table_parse libc_zero "users".toList "table.users".toList
    "id:int name email".toList
    ["1 Alice alice@example.com".toList, "2 Bob bob@example.com".toList]
    (by decide) (by decide) (by decide) (by decide) (by decide)).1
  exact ⟨h.trans (by decide), by decide⟩

/-- C28. Missing argument: given a null text, `ison_to_json` and
    `ison_from_json` return NULL with the error code `ISON_ERROR_INVALID`,
    whereas `ison_to_isonl` and `isonl_to_ison` return NULL and leave the
    error code `ISON_OK`. -/
theorem missing_argument_codes (M : Machine) (L : Libc) (fuel : Nat) :
    ison_to_json M L none = outcome.ok (none, ison_error_t.ISON_ERROR_INVALID) ∧
    ison_from_json M L fuel none = outcome.ok (none, ison_error_t.ISON_ERROR_INVALID) ∧
    ison_to_isonl L none = (none, ison_error_t.ISON_OK) ∧
    isonl_to_ison L none = (none, ison_error_t.ISON_OK) ∧
    (ison_to_isonl L none).2 ≠ ison_error_t.ISON_ERROR_INVALID ∧
    (isonl_to_ison L none).2 ≠ ison_error_t.ISON_ERROR_INVALID := by
  refine ⟨rfl, rfl, rfl, rfl, ?_, ?_⟩
  · show ison_error_t.ISON_OK ≠ ison_error_t.ISON_ERROR_INVALID
    decide
  · show ison_error_t.ISON_OK ≠ ison_error_t.ISON_ERROR_INVALID
    decide

/-! ## Helper lemmas: the array loop of the JSON reader -/

/-- On an input that starts with a byte that begins no JSON value and that
    `strtod` does not convert, a turn of the array loop of `parse_json_value`
    consumes nothing: the loop never ends. -/
theorem parse_json_array_loop_stuck (M : Machine) (L : Libc) (p : CStr)
    (hne : p ≠ []) (hclose : p.head? ≠ some ']') (hws : skip_ws p = p)
    (hq : p.head? ≠ some DQUOTE) (ht : ['t', 'r', 'u', 'e'].isPrefixOf p = false)
    (hf : ['f', 'a', 'l', 's', 'e'].isPrefixOf p = false)
    (hn : ['n', 'u', 'l', 'l'].isPrefixOf p = false)
    (ho : p.head? ≠ some '{') (ha : p.head? ≠ some '[') (hcomma : p.head? ≠ some ',')
    (hd : strtod_end p = p) (fuel : Nat) :
    parse_json_array_loop M L fuel p = outcome.out_of_fuel := by
  induction fuel with
  | zero => rw [parse_json_array_loop]
  | succ n ih =>
    rw [parse_json_array_loop, if_pos ⟨hne, hclose⟩]
    cases n with
    | zero => rw [parse_json_value]
    | succ k =>
      have hv : parse_json_value M L (k + 1) p = outcome.ok (ison_null, p) := by
        rw [parse_json_value]
        simp only [hws, hq, ht, hf, hn, ho, ha, if_false, Bool.false_eq_true]
        simp [parse_json_number, strtod, hd]
      rw [hv]
      simp only [hws, hcomma, if_false]
      exact ih

/-- C27. Termination of `ison_from_json`: on the text `{"a":{"b":[x]}}` the
    reader does not end, whatever the number of turns it is given: the array
    loop of `parse_json_value` stands on the byte `x`, which starts no JSON
    value and which `strtod` does not convert, so every turn of the loop
    leaves the input where it was. -/
theorem from_json_loops_forever (M : Machine) (L : Libc) (fuel : Nat) :
    ison_from_json M L fuel (some "\x7b\"a\":\x7b\"b\":[x]\x7d\x7d".toList) = outcome.out_of_fuel := by
  have h := parse_json_array_loop_stuck M L "x]\x7d\x7d".toList (by decide) (by decide) (by decide)
    (by decide) (by decide) (by decide) (by decide) (by decide) (by decide) (by decide) (by decide)
  match fuel with
  | 0 => rfl
  | 1 => rfl
  | 2 => rfl
  | 3 => rfl
  | n + 4 =>
    have s1 : parse_json_value M L (n + 1) "[x]\x7d\x7d".toList = outcome.out_of_fuel := by
      show (match parse_json_array_loop M L n "x]\x7d\x7d".toList with
        | .ok p2 => outcome.ok (ison_null, if p2.head? = some ']' then p2.tail else p2)
        | .out_of_fuel => outcome.out_of_fuel
        | .undefined => outcome.undefined) = outcome.out_of_fuel
      rw [h n]
    have s2 : parse_json_object_loop M L (n + 2) ison_row_create "\"b\":[x]\x7d\x7d".toList =
        outcome.out_of_fuel := by
      show (match parse_json_value M L (n + 1) "[x]\x7d\x7d".toList with
        | .ok (val, p4) => _
        | .out_of_fuel => outcome.out_of_fuel
        | .undefined => outcome.undefined) = outcome.out_of_fuel
      rw [s1]
    have s3 : parse_json_object M L (n + 3) "\x7b\"b\":[x]\x7d\x7d".toList = outcome.out_of_fuel := by
      show (match parse_json_object_loop M L (n + 2) ison_row_create "\"b\":[x]\x7d\x7d".toList with
        | .ok (row, p2) => _
        | .out_of_fuel => outcome.out_of_fuel
        | .undefined => outcome.undefined) = outcome.out_of_fuel
      rw [s2]
    have s4 : from_json_member M L (n + 3) ison_document_create ['a'] "\x7b\"b\":[x]\x7d\x7d".toList =
        outcome.out_of_fuel := by
      show (match parse_json_object M L (n + 3) "\x7b\"b\":[x]\x7d\x7d".toList with
        | .ok (some row, p1) => _
        | .ok (none, p1) => _
        | .out_of_fuel => outcome.out_of_fuel
        | .undefined => outcome.undefined) = outcome.out_of_fuel
      rw [s3]
    have s5 : from_json_loop M L (n + 4) ison_document_create "\"a\":\x7b\"b\":[x]\x7d\x7d".toList =
        outcome.out_of_fuel := by
      show (match from_json_member M L (n + 3) ison_document_create ['a']
          "\x7b\"b\":[x]\x7d\x7d".toList with
        | .ok (doc1, p5) => _
        | .out_of_fuel => outcome.out_of_fuel
        | .undefined => outcome.undefined) = outcome.out_of_fuel
      rw [s4]
    show (match from_json_loop M L (n + 4) ison_document_create "\"a\":\x7b\"b\":[x]\x7d\x7d".toList with
      | .ok doc => outcome.ok (some doc, ison_error_t.ISON_OK)
      | .out_of_fuel => outcome.out_of_fuel
      | .undefined => outcome.undefined) = outcome.out_of_fuel
    rw [s5]

/-- C22. Other top-level shapes: on `{"x":[1,2],"users":[{"id":1}]}` the
    document `ison_from_json` returns has exactly one block, the table `x`
    without fields and rows, and no block `users`.  In general, for an array
    whose first element is not an object, the array branch adds an empty table
    block and leaves the input at that element, where the main loop stops when
    the element is no string.  A scalar member, by contrast, is consumed and
    the members after it are converted, as on `{"x":true,"users":[{"id":null}]}`. -/
theorem from_json_scalar_array (M : Machine) (L : Libc) (n : Nat) :
    ison_from_json M L (n + 2) (some "\x7b\"x\":[1,2],\"users\":[\x7b\"id\":1\x7d]\x7d".toList) =
      outcome.ok (some { blocks := [{ kind := "table".toList, name := "x".toList, fields := [],
                                      rows := [], summary_row := none }],
                         order := ["x".toList] }, ison_error_t.ISON_OK) ∧
    (∀ (doc : ison_document_t) (name q : CStr),
      (skip_ws q).head? ≠ some ']' → (skip_ws q).head? ≠ some '{' →
      from_json_member M L (n + 1) doc name ('[' :: q) =
        outcome_map (fun doc1 => (doc1, skip_ws q))
          (from_json_add_block doc (ison_block_create "table".toList name))) ∧
    ison_from_json M L (n + 5) (some "\x7b\"x\":true,\"users\":[\x7b\"id\":null\x7d]\x7d".toList) =
      outcome.ok (some { blocks := [{ kind := "table".toList, name := "users".toList,
                                      fields := [{ name := "id".toList, type_hint := some [] }],
                                      rows := [{ entries := [("id".toList, ison_value_t.null)],
                                                 count := 1 }],
                                      summary_row := none }],
                         order := ["users".toList] }, ison_error_t.ISON_OK) := by
  refine ⟨rfl, ?_, rfl⟩
  intro doc name q h1 h2
  have hws : skip_ws (skip_ws q) = skip_ws q := by
    unfold skip_ws
    rw [List.dropWhile_idempotent]
  have et : "table".toList = ['t', 'a', 'b', 'l', 'e'] := rfl
  simp only [from_json_member, List.head?_cons, if_true, List.tail_cons, from_json_table, h1,
    ne_eq, not_false_eq_true, hws, h2, if_false, et]
  cases from_json_add_block doc (ison_block_create ['t', 'a', 'b', 'l', 'e'] name) with
  | ok d => rfl
  | out_of_fuel => rfl
  | undefined => rfl

/-- C23. Nested JSON values: for a member whose value is a nested object,
    `parse_json_object` stores a Reference, not Null: its id is what `strdup`
    reads at the address of the row built for the nested object.  On
    `{"a":{"b":true},"c":null}` the key `a` gets such a Reference and `c` gets
    Null; whenever `parse_json_value` returns from an input that starts with
    `{`, the value is a Reference.  A nested array is consumed and gives Null,
    as on `{"a":[true,[null]],"c":false}`. -/
theorem nested_object_reference (M : Machine) (L : Libc) (n : Nat) :
    parse_json_object M L (n + 6) "\x7b\"a\":\x7b\"b\":true\x7d,\"c\":null\x7d".toList =
      outcome.ok (some { entries :=
        [("a".toList, ison_value_t.reference
            { id := some (M.row_image
                { entries := [("b".toList, ison_value_t.bool true)], count := 1 }),
              ns := none, relationship := none }),
         ("c".toList, ison_value_t.null)], count := 2 }, []) ∧
    (∀ (fuel : Nat) (p p1 : CStr) (v : ison_value_t), (skip_ws p).head? = some '{' →
      parse_json_value M L fuel p = outcome.ok (v, p1) → ∃ r, v = ison_value_t.reference r) ∧
    parse_json_object M L (n + 8) "\x7b\"a\":[true,[null]],\"c\":false\x7d".toList =
      outcome.ok (some { entries := [("a".toList, ison_value_t.null),
                                     ("c".toList, ison_value_t.bool false)], count := 2 }, []) := by
  refine ⟨rfl, ?_, rfl⟩
  intro fuel p p1 v hp hv
  cases fuel with
  | zero => rw [parse_json_value] at hv; cases hv
  | succ k =>
    rw [parse_json_value] at hv
    cases hq : skip_ws p with
    | nil => rw [hq] at hp; cases hp
    | cons c q =>
      rw [hq] at hp
      simp only [List.head?_cons, Option.some.injEq] at hp
      subst hp
      simp only [hq, List.head?_cons, Option.some.injEq, List.isPrefixOf] at hv
      have d1 : ('{' : Char) ≠ DQUOTE := by decide
      have d2 : (('t' : Char) == '{') = false := by decide
      have d3 : (('f' : Char) == '{') = false := by decide
      have d4 : (('n' : Char) == '{') = false := by decide
      simp only [d1, d2, d3, d4, if_false, Bool.false_and, Bool.false_eq_true, if_true] at hv
      cases ho : parse_json_object M L k ('{' :: q) with
      | ok r =>
        obtain ⟨row, p2⟩ := r
        rw [ho] at hv
        simp only [outcome.ok.injEq, Prod.mk.injEq] at hv
        exact ⟨_, hv.1.symm⟩
      | out_of_fuel => rw [ho] at hv; cases hv
      | undefined => rw [ho] at hv; cases hv

/-! ## Helper lemmas: the buffer of `ison_value_to_json` -/

/-- The bytes that `ison_value_to_json` writes as `\u00XX`. -/
theorem json_escape_char_length (M : Machine) (c : Char) :
    (json_escape_char M c).length =
      1 + (if c = BSLASH ∨ c = DQUOTE ∨ char_lt_0x20 M c = true then 1 else 0) +
        (if char_lt_0x20 M c = true ∧ c ≠ LF ∧ c ≠ CR ∧ c ≠ TAB then 4 else 0) := by
  have hb : char_lt_0x20 M BSLASH = false := by
    have e1 : decide (BSLASH.toNat < 32) = false := by decide
    have e2 : decide (128 ≤ BSLASH.toNat) = false := by decide
    simp [char_lt_0x20, e1, e2]
  have hq : char_lt_0x20 M DQUOTE = false := by
    have e1 : decide (DQUOTE.toNat < 32) = false := by decide
    have e2 : decide (128 ≤ DQUOTE.toNat) = false := by decide
    simp [char_lt_0x20, e1, e2]
  have hl : char_lt_0x20 M LF = true := by
    simp [char_lt_0x20]; left; decide
  have hr : char_lt_0x20 M CR = true := by
    simp [char_lt_0x20]; left; decide
  have ht : char_lt_0x20 M TAB = true := by
    simp [char_lt_0x20]; left; decide
  unfold json_escape_char
  by_cases h1 : c = BSLASH
  · subst h1; simp [hb]
  · by_cases h2 : c = DQUOTE
    · subst h2; simp [hq, h1]
    · by_cases h3 : c = LF
      · subst h3; simp [hl, h1, h2]
      · by_cases h4 : c = CR
        · subst h4; simp [hr, h1, h2, h3]
        · by_cases h5 : c = TAB
          · subst h5; simp [ht, h1, h2, h3, h4]
          · by_cases h6 : char_lt_0x20 M c = true
            · simp [h1, h2, h3, h4, h5, h6, fmt_04x]
            · simp [h1, h2, h3, h4, h5, h6]

theorem json_quote_length (M : Machine) (s : CStr) :
    (json_quote M s).length + 1 =
      s.length + json_extra M s + 1 +
        4 * (s.filter (fun c => char_lt_0x20 M c && decide (c ≠ LF) && decide (c ≠ CR) &&
          decide (c ≠ TAB))).length := by
  have key : ((s.map (json_escape_char M)).flatten).length =
      s.length +
        (s.filter (fun c => decide (c = BSLASH) || decide (c = DQUOTE) || char_lt_0x20 M c)).length +
        4 * (s.filter (fun c => char_lt_0x20 M c && decide (c ≠ LF) && decide (c ≠ CR) &&
          decide (c ≠ TAB))).length := by
    induction s with
    | nil => simp
    | cons c cs ih =>
      simp only [List.map_cons, List.flatten_cons, List.length_append, ih, List.length_cons,
        json_escape_char_length, List.filter_cons]
      by_cases a : c = BSLASH ∨ c = DQUOTE ∨ char_lt_0x20 M c = true
      · by_cases b : char_lt_0x20 M c = true ∧ c ≠ LF ∧ c ≠ CR ∧ c ≠ TAB
        · have a2 : (decide (c = BSLASH) || decide (c = DQUOTE) || char_lt_0x20 M c) = true := by
            simpa [or_assoc] using a
          have b2 : (char_lt_0x20 M c && decide (c ≠ LF) && decide (c ≠ CR) &&
              decide (c ≠ TAB)) = true := by
            simpa [and_assoc] using b
          rw [if_pos a, if_pos b, a2, b2]
          simp only [if_true, List.length_cons]
          omega
        · have a2 : (decide (c = BSLASH) || decide (c = DQUOTE) || char_lt_0x20 M c) = true := by
            simpa [or_assoc] using a
          have b2 : (char_lt_0x20 M c && decide (c ≠ LF) && decide (c ≠ CR) &&
              decide (c ≠ TAB)) = false := by
            rw [Bool.eq_false_iff]
            intro hh
            exact b (by simpa [and_assoc] using hh)
          rw [if_pos a, if_neg b, a2, b2]
          simp only [if_true, List.length_cons, Bool.false_eq_true, if_false]
          omega
      · have a2 : (decide (c = BSLASH) || decide (c = DQUOTE) || char_lt_0x20 M c) = false := by
          rw [Bool.eq_false_iff]
          intro hh
          exact a (by simpa [or_assoc] using hh)
        have b : ¬ (char_lt_0x20 M c = true ∧ c ≠ LF ∧ c ≠ CR ∧ c ≠ TAB) := by
          intro hh
          exact a (Or.inr (Or.inr hh.1))
        have b2 : (char_lt_0x20 M c && decide (c ≠ LF) && decide (c ≠ CR) &&
            decide (c ≠ TAB)) = false := by
          rw [Bool.eq_false_iff]
          intro hh
          exact b (by simpa [and_assoc] using hh)
        rw [if_neg a, if_neg b, a2, b2]
        simp only [Bool.false_eq_true, if_false]
        omega
  unfold json_quote json_extra
  simp only [List.length_cons, List.length_append, key, List.length_singleton, List.length_nil]
  omega

/-- C26. JSON string escaping: for a String without control bytes other than
    line feed, carriage return and tab (and, where `char` is signed, without
    bytes from 0x80 on), `ison_value_to_json` returns the quoted text with
    backslash, double quote, `\n`, `\r`, `\t` escaped and every other byte
    copied.  For every String that holds another byte `c` with `c < 0x20` the
    buffer of `len + extra + 1` bytes is too small for the text written,
    since `extra` counts one byte for the six bytes of `\u00XX`: the String of
    the single byte 0x01 needs 9 bytes and gets 5.  Where `char` is signed the
    byte 0xE9 is such a byte and is written as `\u00e9`. -/
theorem json_string_escaping (M : Machine) (L : Libc) :
    (∀ s : CStr, (∀ c ∈ s, char_lt_0x20 M c = true → c = LF ∨ c = CR ∨ c = TAB) →
      ison_value_to_json M L (ison_value_t.string (some s)) = outcome.ok (json_quote M s)) ∧
    (∀ (s : CStr) (c : Char), c ∈ s → char_lt_0x20 M c = true → c ≠ LF → c ≠ CR → c ≠ TAB →
      ison_value_to_json M L (ison_value_t.string (some s)) = outcome.undefined) ∧
    ison_value_to_json M L (ison_value_t.string (some [Char.ofNat 1])) = outcome.undefined ∧
    json_quote M [Char.ofNat 1] = "\"\\u0001\"".toList ∧
    [Char.ofNat 1].length + json_extra M [Char.ofNat 1] + 1 = 5 ∧
    (M.char_signed = true →
      json_escape_char M (Char.ofNat 233) = "\\u00e9".toList ∧
      ison_value_to_json M L (ison_value_t.string (some [Char.ofNat 233])) = outcome.undefined) ∧
    json_quote M "a\"b\\c\nd\re\tf".toList = "\"a\\\"b\\\\c\\nd\\re\\tf\"".toList := by
  have hundef : ∀ (s : CStr) (c : Char), c ∈ s → char_lt_0x20 M c = true → c ≠ LF → c ≠ CR →
      c ≠ TAB → ison_value_to_json M L (ison_value_t.string (some s)) = outcome.undefined := by
    intro s c hc h1 h2 h3 h4
    have hmem : c ∈ s.filter (fun c => char_lt_0x20 M c && decide (c ≠ LF) && decide (c ≠ CR) &&
        decide (c ≠ TAB)) := by
      simp [List.mem_filter, hc, h1, h2, h3, h4]
    have hpos := List.length_pos_of_mem hmem
    have hl := json_quote_length M s
    simp only [ison_value_to_json]
    rw [if_neg (show ¬ ((json_quote M s).length + 1 ≤ s.length + json_extra M s + 1) by omega)]
  have h1 : char_lt_0x20 M (Char.ofNat 1) = true := by
    have e : decide ((Char.ofNat 1).toNat < 32) = true := by decide
    simp [char_lt_0x20, e]
  refine ⟨?_, hundef, ?_, ?_, ?_, ?_, ?_⟩
  · intro s hs
    have hnil : s.filter (fun c => char_lt_0x20 M c && decide (c ≠ LF) && decide (c ≠ CR) &&
        decide (c ≠ TAB)) = [] := by
      rw [List.filter_eq_nil_iff]
      intro c hc hh
      simp only [Bool.and_eq_true, decide_eq_true_eq] at hh
      rcases hs c hc hh.1.1.1 with e | e | e
      · exact hh.1.1.2 e
      · exact hh.1.2 e
      · exact hh.2 e
    have hl := json_quote_length M s
    rw [hnil] at hl
    simp only [List.length_nil, Nat.mul_zero, Nat.add_zero] at hl
    simp only [ison_value_to_json]
    rw [if_pos (show (json_quote M s).length + 1 ≤ s.length + json_extra M s + 1 by omega)]
  · exact hundef _ (Char.ofNat 1) (by simp) h1 (by decide) (by decide) (by decide)
  · have e1 : (Char.ofNat 1 : Char) ≠ BSLASH := by decide
    have e2 : (Char.ofNat 1 : Char) ≠ DQUOTE := by decide
    have e3 : (Char.ofNat 1 : Char) ≠ LF := by decide
    have e4 : (Char.ofNat 1 : Char) ≠ CR := by decide
    have e5 : (Char.ofNat 1 : Char) ≠ TAB := by decide
    simp only [json_quote, List.map_cons, List.map_nil, json_escape_char, e1, e2, e3, e4, e5, h1,
      if_false, if_true]
    decide
  · have e1 : (Char.ofNat 1 : Char) ≠ BSLASH := by decide
    have e2 : (Char.ofNat 1 : Char) ≠ DQUOTE := by decide
    simp [json_extra, List.filter_cons, h1]
  · intro hsig
    have h233 : char_lt_0x20 M (Char.ofNat 233) = true := by
      have e : decide (128 ≤ (Char.ofNat 233).toNat) = true := by decide
      simp [char_lt_0x20, e, hsig]
    refine ⟨?_, hundef _ (Char.ofNat 233) (by simp) h233 (by decide) (by decide) (by decide)⟩
    have e1 : (Char.ofNat 233 : Char) ≠ BSLASH := by decide
    have e2 : (Char.ofNat 233 : Char) ≠ DQUOTE := by decide
    have e3 : (Char.ofNat 233 : Char) ≠ LF := by decide
    have e4 : (Char.ofNat 233 : Char) ≠ CR := by decide
    have e5 : (Char.ofNat 233 : Char) ≠ TAB := by decide
    simp only [json_escape_char, e1, e2, e3, e4, e5, h233, if_false, if_true]
    decide
  · have e : ∀ c ∈ "a\"b\\c\nd\re\tf".toList, c.toNat < 128 ∧
        (c.toNat < 32 → c = LF ∨ c = CR ∨ c = TAB) := by decide
    have hq : ∀ s : CStr, (∀ c ∈ s, c.toNat < 128 ∧ (c.toNat < 32 → c = LF ∨ c = CR ∨ c = TAB)) →
        (s.map (json_escape_char M)).flatten =
          (s.map (json_escape_char { M with char_signed := false })).flatten := by
      intro s hs
      induction s with
      | nil => rfl
      | cons c cs ih =>
        have hc := hs c (by simp)
        have hlt : char_lt_0x20 M c = char_lt_0x20 { M with char_signed := false } c := by
          have : decide (128 ≤ c.toNat) = false := by simp; omega
          simp [char_lt_0x20, this]
        simp only [List.map_cons, List.flatten_cons, ih (fun x hx => hs x (by simp [hx]))]
        simp only [json_escape_char, hlt]
    unfold json_quote
    rw [hq _ e]
    rfl

/-! ## Helper lemmas: the loops of `ison_to_json` -/

theorem join_with_comma_cons (x : CStr) (xs : List CStr) :
    join_with [','] (x :: xs) = x ++ comma_each xs := by
  induction xs generalizing x with
  | nil => simp [join_with, comma_each]
  | cons y ys ih =>
    rw [join_with, ih y]
    simp [comma_each]

theorem outcome_map_map {α β γ : Type} (f : α → β) (g : β → γ) (x : outcome α) :
    outcome_map g (outcome_map f x) = outcome_map (fun a => g (f a)) x := by
  cases x <;> rfl

theorem outcome_map_ok {α β : Type} (f : α → β) (a : α) :
    outcome_map f (outcome.ok a) = outcome.ok (f a) := rfl

theorem to_json_fields_eq (M : Machine) (L : Libc) (row : ison_row_t)
    (fs : List ison_field_info_t) (first : Bool) (buf : CStr) :
    to_json_fields M L row fs first buf =
      outcome_map (fun ms => buf ++ (if first then join_with [','] ms else comma_each ms))
        (outcome_all
          ((fs.filterMap (fun f => (ison_row_get row f.name).map (fun v => (f.name, v)))).map
            (fun kv => spec_json_member M L kv.1 kv.2))) := by
  induction fs generalizing first buf with
  | nil => cases first <;> simp [to_json_fields, outcome_all, outcome_map, join_with, comma_each]
  | cons f fs ih =>
    rw [to_json_fields]
    cases hg : ison_row_get row f.name with
    | none =>
      simp only [List.filterMap_cons, hg, Option.map_none']
      exact ih first buf
    | some v =>
      simp only [List.filterMap_cons, hg, Option.map_some', List.map_cons, outcome_all,
        spec_json_member]
      cases hv : ison_value_to_json M L v with
      | ok j =>
        simp only [outcome_map_ok]
        rw [ih, outcome_map_map]
        congr 1
        funext ms
        cases first
        · simp [comma_each]
        · simp [join_with_comma_cons]
      | out_of_fuel => rfl
      | undefined => rfl

theorem to_json_rows_eq (M : Machine) (L : Libc) (fields : List ison_field_info_t)
    (rows : List ison_row_t) (r : Nat) (buf : CStr) :
    to_json_rows M L fields rows r buf =
      outcome_map (fun rs => buf ++ (if r = 0 then join_with [','] rs else comma_each rs))
        (outcome_all (rows.map (spec_json_row M L fields))) := by
  induction rows generalizing r buf with
  | nil => by_cases h : r = 0 <;> simp [to_json_rows, outcome_all, outcome_map, join_with, comma_each, h]
  | cons row rows ih =>
    rw [to_json_rows, to_json_fields_eq]
    simp only [List.map_cons, outcome_all, spec_json_row, if_true]
    cases hm : outcome_all
        ((fields.filterMap (fun f => (ison_row_get row f.name).map (fun v => (f.name, v)))).map
          (fun kv => spec_json_member M L kv.1 kv.2)) with
    | ok ms =>
      simp only [outcome_map_ok]
      rw [ih, outcome_map_map]
      congr 1
      funext rs
      by_cases h : r = 0
      · subst h
        simp [join_with_comma_cons]
      · have h2 : r > 0 := Nat.pos_of_ne_zero h
        simp [h, h2, comma_each]
    | out_of_fuel => rfl
    | undefined => rfl

theorem to_json_blocks_eq (M : Machine) (L : Libc) (doc : ison_document_t)
    (bs : List ison_block_t) (hget : ∀ b ∈ bs, ison_document_get doc b.name = some b)
    (i : Nat) (buf : CStr) :
    to_json_blocks M L doc (bs.map (fun b => b.name)) i buf =
      outcome_map (fun xs => buf ++ (if i = 0 then join_with [','] xs else comma_each xs))
        (outcome_all (bs.map (spec_json_block M L))) := by
  induction bs generalizing i buf with
  | nil => by_cases h : i = 0 <;> simp [to_json_blocks, outcome_all, outcome_map, join_with, comma_each, h]
  | cons b bs ih =>
    rw [List.map_cons, to_json_blocks]
    simp only [hget b (by simp), to_json_rows_eq, if_true, List.map_cons, outcome_all,
      spec_json_block]
    cases hm : outcome_all (b.rows.map (spec_json_row M L b.fields)) with
    | ok rs =>
      simp only [outcome_map_ok]
      rw [ih (fun x hx => hget x (by simp [hx])), outcome_map_map]
      congr 1
      funext xs
      by_cases h : i = 0
      · subst h
        simp [join_with_comma_cons]
      · have h2 : i > 0 := Nat.pos_of_ne_zero h
        simp [h, h2, comma_each]
    | out_of_fuel => rfl
    | undefined => rfl

theorem ison_parse_loop_wf (L : Libc) (fuel : Nat) (lines : List CStr) (doc : ison_document_t)
    (hd : document_wf doc) : document_wf (ison_parse_loop L fuel lines doc) := by
  induction fuel generalizing lines doc with
  | zero => simpa [ison_parse_loop] using hd
  | succ n ih =>
    cases lines with
    | nil => simpa [ison_parse_loop] using hd
    | cons raw rest =>
      unfold ison_parse_loop
      simp only
      split_ifs
      · exact ih rest doc hd
      · cases hb : block_header (trim raw) with
        | none => exact ih rest doc hd
        | some kn =>
          obtain ⟨kind, name⟩ := kn
          simp only
          exact ih _ _ ((ison_document_add_block_cases doc _).2.2.2.2 hd)

theorem ison_parse_wf (L : Libc) (text : CStr) : document_wf (ison_parse L text) :=
  ison_parse_loop_wf L _ _ _ ⟨rfl, by simp [ison_document_create]⟩

set_option maxRecDepth 100000 in
/-- C25. Document to JSON: for every ISON text `t`, with `D = ison_parse t`,
    `ison_to_json t` is `{`, the blocks of `D` in document order joined by
    `,`, `}`, where a block is `"name":[ `, its data rows joined by `,`, `]`
    and a row is `{`, `"field":` and the JSON text of the value for each
    declared field present in the row, in field order, joined by `,`, `}`; the
    error code is `ISON_OK`.  Where `ison_value_to_json` has no defined result
    for a value, `ison_to_json` has none either.  The text of the two-row
    table `users` gives `{"users":[ {"id":1,"name":"Alice"},{"id":2,"name":"Bob"}]}`. -/
theorem to_json_refines_spec (M : Machine) (L : Libc) (t : CStr) :
    ison_to_json M L (some t) =
      outcome_map (fun s => (some s, ison_error_t.ISON_OK)) (spec_to_json M L (ison_parse L t)) ∧
    ison_to_json machine_zero libc_zero
        (some "table.users\nid:int name:string\n1 Alice\n2 Bob\n".toList) =
      outcome.ok (some "\x7b\"users\":[ \x7b\"id\":1,\"name\":\"Alice\"\x7d,\x7b\"id\":2,\"name\":\"Bob\"\x7d]\x7d".toList,
        ison_error_t.ISON_OK) := by
  refine ⟨?_, by decide⟩
  have hwf := ison_parse_wf L t
  have hget : ∀ b ∈ (ison_parse L t).blocks, ison_document_get (ison_parse L t) b.name = some b :=
    fun b hb => ison_document_get_mem hwf.2 hb
  unfold ison_to_json spec_to_json
  simp only
  rw [hwf.1, to_json_blocks_eq M L _ _ hget 0 ['{']]
  cases outcome_all ((ison_parse L t).blocks.map (spec_json_block M L)) with
  | ok bs => simp [outcome_map]
  | out_of_fuel => rfl
  | undefined => rfl

/-! ## Helper lemmas: the values a parser stores -/

theorem parse_reference_id (rest : CStr) :
    (parse_reference (':' :: rest)).id =
      some (match split_at_char ':' rest with
        | some (_, id) => id
        | none => rest) := by
  unfold parse_reference
  simp only [if_true]
  cases split_at_char ':' rest with
  | none => rfl
  | some p =>
    obtain ⟨q, id⟩ := p
    simp only
    split_ifs <;> rfl

theorem parse_value_token_ref_present (L : Libc) (t : CStr) (hint : Option CStr) :
    ref_id_present (parse_value_token L t hint) = true := by
  by_cases hc : t.head? = some ':'
  · rw [parse_value_token_ref L t hint hc]
    cases t with
    | nil => simp at hc
    | cons c cs =>
      simp only [List.head?_cons, Option.some.injEq] at hc
      subst hc
      simp [ref_id_present, parse_reference_id]
  · have hg : ref_id_present (parse_value_generic L t) = true := by
      unfold parse_value_generic
      split_ifs <;> rfl
    unfold parse_value_token
    by_cases a1 : t = ['~'] ∨ strcaseeq t ['n', 'u', 'l', 'l'] = true
    · rw [if_pos a1]; rfl
    · rw [if_neg a1]
      by_cases a2 : strcaseeq t ['t', 'r', 'u', 'e'] = true
      · rw [if_pos a2]; rfl
      · rw [if_neg a2]
        by_cases a3 : strcaseeq t ['f', 'a', 'l', 's', 'e'] = true
        · rw [if_pos a3]; rfl
        · rw [if_neg a3, if_neg hc]
          rcases hint with _ | _ | ⟨h, hs⟩
          · exact hg
          · exact hg
          · simp only
            split_ifs <;> first | rfl | exact hg

theorem row_set_all_values (p : ison_value_t → Bool) (row : ison_row_t) (k : CStr)
    (v : ison_value_t) (hr : row_all_values p row = true) (hv : p v = true) :
    row_all_values p (ison_row_set row k v) = true := by
  unfold row_all_values at hr ⊢
  rw [List.all_eq_true] at hr ⊢
  unfold ison_row_set
  by_cases h : k ∈ row.entries.map Prod.fst
  · have key : ∀ es : List (CStr × ison_value_t), (∀ x ∈ es, p x.2 = true) →
        ∀ es1, row_replace k v es = some es1 → ∀ x ∈ es1, p x.2 = true := by
      intro es
      induction es with
      | nil => intro _ es1 h1; simp [row_replace] at h1
      | cons e es ih =>
        intro hes es1 h1
        unfold row_replace at h1
        by_cases he : e.1 = k
        · rw [if_pos he] at h1
          cases h1
          intro x hx
          rcases List.mem_cons.1 hx with rfl | hx
          · exact hv
          · exact hes x (by simp [hx])
        · rw [if_neg he] at h1
          cases h2 : row_replace k v es with
          | none => rw [h2] at h1; cases h1
          | some es2 =>
            rw [h2] at h1
            cases h1
            intro x hx
            rcases List.mem_cons.1 hx with rfl | hx
            · exact hes x (by simp)
            · exact ih (fun y hy => hes y (by simp [hy])) es2 h2 x hx
    obtain ⟨es1, h1, -⟩ := row_replace_some_iff v h
    rw [h1]
    exact key _ hr es1 h1
  · rw [row_replace_none v h]
    intro x hx
    simp only [List.mem_append, List.mem_singleton] at hx
    rcases hx with hx | rfl
    · exact hr x hx
    · exact hv

theorem build_row_all_values (p : ison_value_t → Bool) (L : Libc)
    (hp : ∀ t hint, p (parse_value_token L t hint) = true)
    (fields : List ison_field_info_t) (tokens : List CStr) :
    row_all_values p (build_row L fields tokens) = true := by
  unfold build_row
  have key : ∀ (xs : List (CStr × ison_field_info_t)) (row : ison_row_t),
      row_all_values p row = true →
      row_all_values p (xs.foldl
        (fun row tf => ison_row_set row tf.2.name (parse_value_token L tf.1 tf.2.type_hint))
        row) = true := by
    intro xs
    induction xs with
    | nil => intro row h; exact h
    | cons x xs ih =>
      intro row h
      rw [List.foldl_cons]
      exact ih _ (row_set_all_values p row _ _ h (hp _ _))
  exact key _ _ rfl

theorem parse_rows_all_values (p : ison_value_t → Bool) (L : Libc)
    (hp : ∀ t hint, p (parse_value_token L t hint) = true)
    (block : ison_block_t) (s : Bool) (lines : List CStr)
    (hb : block_all_values p block = true) :
    block_all_values p (parse_rows L block s lines).1 = true := by
  induction lines generalizing block s with
  | nil => simpa [parse_rows] using hb
  | cons raw rest ih =>
    have hrow : ∀ fields toks, row_all_values p (row_copy (build_row L fields toks)) = true := by
      intro fields toks
      rw [row_copy_build_row_any]
      exact build_row_all_values p L hp fields toks
    have hsplit : (block.rows.all (row_all_values p) = true) ∧
        (match block.summary_row with
          | some srow => row_all_values p srow
          | none => true) = true := by
      simpa [block_all_values] using hb
    unfold parse_rows
    simp only
    split_ifs
    · exact hb
    · exact ih _ _ hb
    · exact hb
    · exact ih _ _ hb
    · apply ih
      simp only [block_all_values, ison_block_set_summary, Bool.and_eq_true]
      exact ⟨hsplit.1, hrow _ _⟩
    · apply ih
      simp only [block_all_values, ison_block_add_row, Bool.and_eq_true, List.all_append,
        List.all_cons, List.all_nil, Bool.and_true]
      exact ⟨⟨hsplit.1, hrow _ _⟩, hsplit.2⟩

theorem parse_block_all_values (p : ison_value_t → Bool) (L : Libc)
    (hp : ∀ t hint, p (parse_value_token L t hint) = true) (kind name : CStr)
    (lines : List CStr) : block_all_values p (parse_block L kind name lines).1 = true := by
  unfold parse_block
  cases skip_to_fields lines with
  | nil => rfl
  | cons f rest =>
    simp only
    apply parse_rows_all_values p L hp
    rw [add_fields_eq]
    rfl

theorem ison_parse_loop_all_values (p : ison_value_t → Bool) (L : Libc)
    (hp : ∀ t hint, p (parse_value_token L t hint) = true) (fuel : Nat) (lines : List CStr)
    (doc : ison_document_t) (hd : document_all_values p doc = true) :
    document_all_values p (ison_parse_loop L fuel lines doc) = true := by
  induction fuel generalizing lines doc with
  | zero => simpa [ison_parse_loop] using hd
  | succ n ih =>
    cases lines with
    | nil => simpa [ison_parse_loop] using hd
    | cons raw rest =>
      unfold ison_parse_loop
      simp only
      split_ifs
      · exact ih rest doc hd
      · cases hb : block_header (trim raw) with
        | none => exact ih rest doc hd
        | some kn =>
          obtain ⟨kind, name⟩ := kn
          simp only
          apply ih
          unfold document_all_values at hd ⊢
          rw [List.all_eq_true] at hd ⊢
          exact add_block_forall (fun b => block_all_values p b = true) _ _ hd
            (parse_block_all_values p L hp kind name rest)

theorem blocks_update_forall (q : ison_block_t → Prop) (name : CStr)
    (f : ison_block_t → ison_block_t) (hf : ∀ b, q b → q (f b)) (bs : List ison_block_t)
    (h : ∀ b ∈ bs, q b) : ∀ b ∈ blocks_update name f bs, q b := by
  induction bs with
  | nil => simp [blocks_update]
  | cons x xs ih =>
    unfold blocks_update
    split_ifs
    · intro b hb
      rcases List.mem_cons.1 hb with rfl | hb
      · exact hf x (h x (by simp))
      · exact h b (by simp [hb])
    · intro b hb
      rcases List.mem_cons.1 hb with rfl | hb
      · exact h _ (by simp)
      · exact ih (fun y hy => h y (by simp [hy])) b hb

theorem isonl_line_all_values (p : ison_value_t → Bool) (L : Libc)
    (hp : ∀ t hint, p (parse_value_token L t hint) = true) (doc : ison_document_t) (raw : CStr)
    (hd : document_all_values p doc = true) :
    document_all_values p (isonl_line L doc raw) = true := by
  have hd2 : ∀ b ∈ doc.blocks, block_all_values p b = true := by
    simpa [document_all_values, List.all_eq_true] using hd
  have hadd : ∀ b : ison_block_t, block_all_values p b = true → ∀ toks,
      block_all_values p (ison_block_add_row b (build_row L b.fields toks)) = true := by
    intro b hb toks
    have hsplit : (b.rows.all (row_all_values p) = true) ∧
        (match b.summary_row with
          | some srow => row_all_values p srow
          | none => true) = true := by
      simpa [block_all_values] using hb
    simp only [block_all_values, ison_block_add_row, Bool.and_eq_true, List.all_append,
      List.all_cons, List.all_nil, Bool.and_true, row_copy_build_row_any]
    exact ⟨⟨hsplit.1, build_row_all_values p L hp _ _⟩, hsplit.2⟩
  unfold isonl_line
  simp only
  split_ifs
  · exact hd
  · cases h1 : split_at_char '|' (trim raw) with
    | none => exact hd
    | some ha =>
      obtain ⟨header, after⟩ := ha
      simp only
      cases h2 : split_at_char '|' after with
      | none => exact hd
      | some fd =>
        obtain ⟨fields_str, data_str⟩ := fd
        simp only
        cases h3 : split_at_char '.' header with
        | none => exact hd
        | some kn =>
          obtain ⟨kind, name⟩ := kn
          simp only
          have hdoc1 : ∀ b ∈ (match ison_document_get doc name with
              | some _ => doc
              | none => ison_document_add_block doc
                  (add_fields (ison_block_create kind name) (tokenize fields_str))).blocks,
              block_all_values p b = true := by
            cases ison_document_get doc name with
            | some _ => exact hd2
            | none =>
              simp only
              apply add_block_forall (fun b => block_all_values p b = true) _ _ hd2
              rw [add_fields_eq]
              rfl
          simp only [document_all_values, List.all_eq_true]
          exact blocks_update_forall (fun b => block_all_values p b = true) name _
            (fun b hb => hadd b hb _) _ hdoc1

theorem ison_parse_isonl_all_values (p : ison_value_t → Bool) (L : Libc)
    (hp : ∀ t hint, p (parse_value_token L t hint) = true) (text : CStr) :
    document_all_values p (ison_parse_isonl L text) = true := by
  unfold ison_parse_isonl
  have key : ∀ (ls : List CStr) (doc : ison_document_t), document_all_values p doc = true →
      document_all_values p (ls.foldl (isonl_line L) doc) = true := by
    intro ls
    induction ls with
    | nil => intro doc h; exact h
    | cons l ls ih =>
      intro doc h
      rw [List.foldl_cons]
      exact ih _ (isonl_line_all_values p L hp doc l h)
  exact key _ _ rfl

/-- C29, as the claim states it, fails: in the document read from the table
    `t` with the field `a` and the one row `:`, the value of `a` is a Reference
    with the empty id. -/
theorem ref_empty_id_counterexample :
    ¬ ∃ L : Libc, document_all_values ref_id_nonempty
      (ison_parse L "table.t\na\n:\n".toList) = true := by
  rintro ⟨L, h⟩
  have e : ison_parse L "table.t\na\n:\n".toList =
      { blocks := [{ kind := "table".toList, name := "t".toList,
                     fields := [{ name := "a".toList, type_hint := some [] }],
                     rows := [{ entries := [("a".toList, ison_value_t.reference
                                  { id := some [], ns := none, relationship := none })],
                                count := 1 }],
                     summary_row := none }],
        order := ["t".toList] } := rfl
  rw [e] at h
  revert h
  decide

/-- C29, amended. Every Reference value in a document returned by
    `ison_parse` or `ison_parse_isonl` has an id that is not NULL; the id may
    be empty.  A token `:rest` decodes to a Reference whose id is the text
    after the first colon of `rest`, or `rest` itself when it has no colon:
    the tokens `:` and `:user:` give the empty id, `:a:b:` the id `b:`. -/
theorem ref_id_not_null (L : Libc) (text : CStr) :
    document_all_values ref_id_present (ison_parse L text) = true ∧
    document_all_values ref_id_present (ison_parse_isonl L text) = true ∧
    (∀ (rest : CStr) (hint : Option CStr),
      parse_value_token L (':' :: rest) hint =
        ison_value_t.reference (parse_reference (':' :: rest)) ∧
      (parse_reference (':' :: rest)).id =
        some (match split_at_char ':' rest with
          | some (_, id) => id
          | none => rest)) ∧
    (parse_reference ":".toList).id = some [] ∧
    (parse_reference ":user:".toList).id = some [] ∧
    (parse_reference ":a:b:".toList).id = some "b:".toList := by
  refine ⟨?_, ?_, ?_, by decide, by decide, by decide⟩
  · exact ison_parse_loop_all_values ref_id_present L (parse_value_token_ref_present L) _ _ _ rfl
  · exact ison_parse_isonl_all_values ref_id_present L (parse_value_token_ref_present L) text
  · intro rest hint
    exact ⟨parse_value_token_ref L _ hint rfl, parse_reference_id rest⟩

/-! ## Helper lemmas: the JSON reader on scalars -/

/-- C21. JSON import: `ison_from_json` builds the blocks the claim describes,
    but it releases every row with `ison_row_free` right after
    `ison_block_add_row` has stored a copy that shares the String payloads, so
    in the document returned the text of every String member is freed memory.
    On `{"users":[{"name":"Alice"}]}`, and on the text of the claim with the
    member `id`, the row of the table `users` holds under `name` a String whose
    text is what the machine finds where `Alice` stood; the Int under `id` is
    stored as decoded, as every value without a pointer is.  A second member
    of the same name makes `ison_document_add_block` release the rows of the
    first block once more, which is undefined. -/
theorem json_import_frees_strings (M : Machine) (L : Libc) (n : Nat) (f : CStr → CStr) :
    ison_from_json M L (n + 7) (some "\x7b\"users\":[\x7b\"name\":\"Alice\"\x7d]\x7d".toList) =
      outcome.ok (some (ison_document_t.mk
          [{ kind := "table".toList, name := "users".toList,
             fields := [{ name := "name".toList, type_hint := some [] }],
             rows := [{ entries := [("name".toList,
                                     ison_value_t.string (some (M.freed_image "Alice".toList)))],
                        count := 1 }],
             summary_row := none }]
          ["users".toList]), ison_error_t.ISON_OK) ∧
    ison_from_json { machine_int with freed_image := f } libc_int (n + 9)
        (some "\x7b\"users\":[\x7b\"id\":1,\"name\":\"Alice\"\x7d]\x7d".toList) =
      outcome.ok (some (ison_document_t.mk
          [{ kind := "table".toList, name := "users".toList,
             fields := [{ name := "id".toList, type_hint := some [] },
                        { name := "name".toList, type_hint := some [] }],
             rows := [{ entries := [("id".toList, ison_value_t.int 1),
                                    ("name".toList,
                                     ison_value_t.string (some (f "Alice".toList)))],
                        count := 2 }],
             summary_row := none }]
          ["users".toList]), ison_error_t.ISON_OK) ∧
    (∀ s : CStr, value_after_free M (ison_value_t.string (some s)) =
      ison_value_t.string (some (M.freed_image s))) ∧
    (∀ v : ison_value_t, heap_payload v = false → value_after_free M v = v) ∧
    ison_from_json M L (n + 9)
        (some "\x7b\"t\":[\x7b\"a\":\"x\"\x7d],\"t\":[]\x7d".toList) = outcome.undefined := by
  refine ⟨rfl, rfl, fun s => rfl, ?_, rfl⟩
  intro v hv
  cases v with
  | null => rfl
  | bool b => rfl
  | int i => rfl
  | float d => rfl
  | string s =>
    cases s with
    | none => rfl
    | some t => cases hv
  | reference r =>
    obtain ⟨id, ns, rel⟩ := r
    cases id <;> cases ns <;> cases rel <;> first | rfl | cases hv

theorem tokenize_loop_nonempty (rest : CStr) :
    ∀ (cur : CStr) (q e : Bool), [] ∉ tokenize_loop rest cur q e := by
  induction rest with
  | nil => intro cur q e; simp [tokenize_loop]
  | cons ch rest ih =>
    intro cur q e
    rw [tokenize_loop]
    split_ifs with h1 h2 h3 h4 h5 h6 h7 h8 h9 <;>
      first
      | exact ih _ _ _
      | (intro hmem
         rcases List.mem_cons.1 hmem with h | h
         · have hl : cur.length > 0 := by assumption
           rw [← h] at hl; simp at hl
         · exact ih _ _ _ h)

/-- C31. String rendering inverts tokenization: for every non-empty string `s`
    without a NUL byte, `ison_value_to_ison` of the String `s` returns a text,
    and `tokenize` of that text is the one-element list `[s]`. -/
theorem string_render_tokenize (L : Libc) (s : CStr) (hne : s ≠ []) (hnul : NUL ∉ s) :
    ∃ r, ison_value_to_ison L (ison_value_t.string (some s)) = some r ∧ tokenize r = [s] := by
  unfold ison_value_to_ison
  by_cases hq : needs_quotes s = true
  · refine ⟨DQUOTE :: escape_ison s ++ [DQUOTE], by simp [hq], ?_⟩
    unfold tokenize
    rw [reads_as_quoted s [NUL], tokenize_loop_end s hne]
  · have hq2 : needs_quotes s = false := by simpa using hq
    refine ⟨s, by simp [hq2], ?_⟩
    have hb := (needs_quotes_false hq2).2
    unfold tokenize
    rw [tokenize_loop_bare s [NUL] [] (fun c hc => ⟨(hb c hc).1, (hb c hc).2.1, (hb c hc).2.2.2,
      fun h => hnul (h ▸ hc)⟩), List.nil_append, tokenize_loop_end s hne]

theorem string_render_tokenize_witness :
    ['a', ' ', 'b', TAB, DQUOTE, BSLASH, LF] ≠ [] ∧
    NUL ∉ ['a', ' ', 'b', TAB, DQUOTE, BSLASH, LF] ∧
    ∃ r, ison_value_to_ison libc_zero
        (ison_value_t.string (some ['a', ' ', 'b', TAB, DQUOTE, BSLASH, LF])) = some r ∧
      tokenize r = [['a', ' ', 'b', TAB, DQUOTE, BSLASH, LF]] :=
  ⟨by decide, by decide,
   string_render_tokenize libc_zero ['a', ' ', 'b', TAB, DQUOTE, BSLASH, LF] (by decide)
     (by decide)⟩

/-- C32. Every token returned by `tokenize` is non-empty.  An empty quoted span
    adds nothing to the token being built, so the text the empty String is
    rendered as tokenizes to the empty list, and a line that starts with this
    rendering and a space has the tokens of the rest of the line: the values
    after it move one field to the left, as in the row of the table `t`. -/
theorem tokens_nonempty (L : Libc) :
    (∀ line : CStr, [] ∉ tokenize line) ∧
    (∀ (rest cur : CStr),
      tokenize_loop (DQUOTE :: DQUOTE :: rest) cur false false =
        tokenize_loop rest cur false false) ∧
    ison_value_to_ison L (ison_value_t.string (some [])) = some [DQUOTE, DQUOTE] ∧
    tokenize [DQUOTE, DQUOTE] = [] ∧
    (∀ rest : CStr, tokenize (DQUOTE :: DQUOTE :: SP :: rest) = tokenize rest) ∧
    tokenize "\"\" 1 x".toList = [['1'], ['x']] ∧
    (ison_parse L "table.t\na b c\n\"\" 1 x\n".toList).blocks.map (fun b => b.rows) =
      [[{ entries := [(['a'], ison_value_t.int 1), (['b'], ison_value_t.string (some ['x']))],
          count := 2 }]] := by
  have hb : DQUOTE ≠ BSLASH := by decide
  have hstep : ∀ (rest cur : CStr),
      tokenize_loop (DQUOTE :: DQUOTE :: rest) cur false false =
        tokenize_loop rest cur false false := by
    intro rest cur
    rw [tokenize_loop]
    simp only [Bool.false_eq_true, if_false, hb, false_and, if_true, Bool.not_false]
    rw [tokenize_loop]
    simp [hb]
  refine ⟨fun line => tokenize_loop_nonempty _ _ _ _, hstep, rfl, by decide, ?_, by decide, rfl⟩
  intro rest
  unfold tokenize
  rw [List.cons_append, List.cons_append, List.cons_append, hstep, tokenize_loop]
  have h1 : SP ≠ BSLASH := by decide
  have h2 : SP ≠ DQUOTE := by decide
  simp [h1, h2]

/-! ## Integers: printing and decoding -/

theorem digits_value_ofDigits (ds : CStr) (acc : Nat) :
    digits_value acc ds =
      acc * 10 ^ ds.length + Nat.ofDigits 10 (ds.reverse.map (fun c => c.toNat - 48)) := by
  induction ds generalizing acc with
  | nil => show acc = _; simp
  | cons c cs ih =>
    show digits_value (acc * 10 + (c.toNat - 48)) cs = _
    rw [ih]
    simp only [List.reverse_cons, List.map_append, List.map_cons, List.map_nil, List.length_cons,
      Nat.ofDigits_append, Nat.ofDigits_singleton, List.length_map, List.length_reverse]
    ring

theorem strtol_plus_digits (ds : CStr) (hne : ds ≠ []) (hdig : ∀ c ∈ ds, isdigit c = true) :
    strtol ('+' :: ds) = (clamp_long (digits_value 0 ds), []) := by
  have htw : List.takeWhile isdigit ds = ds := List.takeWhile_eq_self_iff.2 hdig
  have hdw : List.dropWhile isdigit ds = [] := List.dropWhile_eq_nil_iff.2 hdig
  have hm : isspace '+' = false := by decide
  have hsm : List.dropWhile isspace ('+' :: ds) = '+' :: ds := by
    simp [List.dropWhile_cons, hm]
  have hpm : ('+' : Char) ≠ '-' := by decide
  unfold strtol
  simp only [hsm, hpm, if_false, if_true, htw, hdw, hne]
  simp

/-- A signed run of digits is read whole by `strtol`, with the denoted value
    clamped to the range of `long`; the token is none of the special tokens. -/
theorem strtol_int_token (sign ds : CStr) (hsign : sign = [] ∨ sign = ['+'] ∨ sign = ['-'])
    (hne : ds ≠ []) (hdig : ∀ c ∈ ds, isdigit c = true) :
    strtol (sign ++ ds) = (clamp_long (int_denoted sign ds), []) ∧
    sign ++ ds ≠ ['~'] ∧ strcaseeq (sign ++ ds) ['n', 'u', 'l', 'l'] = false ∧
    strcaseeq (sign ++ ds) ['t', 'r', 'u', 'e'] = false ∧
    strcaseeq (sign ++ ds) ['f', 'a', 'l', 's', 'e'] = false ∧
    (sign ++ ds).head? ≠ some ':' := by
  have hv : (digits_value 0 ds : Int) =
      ((Nat.ofDigits 10 (ds.reverse.map (fun c => c.toNat - 48)) : Nat) : Int) := by
    rw [digits_value_ofDigits]; simp
  obtain ⟨c, cs, hcs⟩ := List.exists_cons_of_ne_nil hne
  have hc := isdigit_facts (hdig c (by rw [hcs]; simp))
  rcases hsign with rfl | rfl | rfl
  · refine ⟨?_, ?_, ?_, ?_, ?_, ?_⟩
    · rw [List.nil_append, (strtol_digits ds hne hdig).1, hv]; simp [int_denoted]
    · rw [hcs]; intro e; simp only [List.nil_append, List.cons.injEq] at e
      exact hc.2.2.2.2.2.2.2.2.2.1 e.1
    · rw [hcs]; exact strcaseeq_head_ne _ _ hc.2.2.2.2.2.2.2.2.2.2.1
    · rw [hcs]; exact strcaseeq_head_ne _ _ hc.2.2.2.2.2.2.2.2.2.2.2.1
    · rw [hcs]; exact strcaseeq_head_ne _ _ hc.2.2.2.2.2.2.2.2.2.2.2.2.1
    · rw [hcs]; simp only [List.nil_append, List.head?_cons, ne_eq, Option.some.injEq]
      exact hc.2.2.2.2.2.2.2.2.1
  · refine ⟨?_, ?_, ?_, ?_, ?_, ?_⟩
    · rw [List.singleton_append, strtol_plus_digits ds hne hdig, hv]
      have : (['+'] : CStr) ≠ ['-'] := by decide
      simp [int_denoted, this]
    · rw [hcs]; simp
    · exact strcaseeq_head_ne _ _ (by decide)
    · exact strcaseeq_head_ne _ _ (by decide)
    · exact strcaseeq_head_ne _ _ (by decide)
    · simp only [List.singleton_append, List.head?_cons, ne_eq, Option.some.injEq]; decide
  · refine ⟨?_, ?_, ?_, ?_, ?_, ?_⟩
    · rw [List.singleton_append, (strtol_digits ds hne hdig).2, hv]
      simp [int_denoted]
    · rw [hcs]; simp
    · exact strcaseeq_head_ne _ _ (by decide)
    · exact strcaseeq_head_ne _ _ (by decide)
    · exact strcaseeq_head_ne _ _ (by decide)
    · simp only [List.singleton_append, List.head?_cons, ne_eq, Option.some.injEq]; decide

/-- C33. Int round trip: for every 64-bit signed integer `n`, the bounds
    included, and for a missing, empty or `int` type hint, `ison_value_to_ison`
    of the Int `n` returns a text and `parse_value_token` decodes that text to
    the Int `n`. -/
theorem int_round_trip (L : Libc) (n : Int) (hint : Option CStr)
    (h1 : LONG_MIN ≤ n) (h2 : n ≤ LONG_MAX)
    (hh : hint = none ∨ hint = some [] ∨ hint = some ['i', 'n', 't']) :
    ∃ r, ison_value_to_ison L (ison_value_t.int n) = some r ∧
      parse_value_token L r hint = ison_value_t.int n := by
  obtain ⟨hne, hch⟩ := fmt_ld_chars n
  have hst := strtol_fmt_ld n h1 h2
  obtain ⟨c, cs, hcs⟩ := List.exists_cons_of_ne_nil hne
  have hc := numchar_facts (hch c (by rw [hcs]; simp))
  refine ⟨fmt_ld n, rfl, ?_⟩
  apply parse_value_token_int L _ hint n hst
  · rw [hcs]; intro e; simp only [List.cons.injEq] at e; exact hc.2.2.2.2.2.2.2.1 e.1
  · rw [hcs]; exact strcaseeq_head_ne _ _ hc.2.2.2.2.2.2.2.2.1
  · rw [hcs]; exact strcaseeq_head_ne _ _ hc.2.2.2.2.2.2.2.2.2.1
  · rw [hcs]; exact strcaseeq_head_ne _ _ hc.2.2.2.2.2.2.2.2.2.2
  · rw [hcs]; simp only [List.head?_cons, ne_eq, Option.some.injEq]; exact hc.2.2.2.2.2.2.1
  · rcases hh with rfl | rfl | rfl <;> simp
  · rcases hh with rfl | rfl | rfl <;> simp
  · rcases hh with rfl | rfl | rfl <;> simp

theorem int_round_trip_witness :
    LONG_MIN ≤ -9223372036854775808 ∧ (-9223372036854775808 : Int) ≤ LONG_MAX ∧
    ∃ r, ison_value_to_ison libc_zero (ison_value_t.int (-9223372036854775808)) = some r ∧
      parse_value_token libc_zero r (some ['i', 'n', 't']) =
        ison_value_t.int (-9223372036854775808) :=
  ⟨by decide, by decide,
   int_round_trip libc_zero (-9223372036854775808) (some ['i', 'n', 't']) (by decide) (by decide)
     (Or.inr (Or.inr rfl))⟩

/-- C34. Integer decoding: a token made of an optional sign and one or more
    decimal digits, under a missing, empty or `int` hint, is decoded by
    `parse_value_token` to the Int of the integer it denotes when that integer
    fits in 64 bits, to the Int `LONG_MAX` when it is above the range and to the
    Int `LONG_MIN` when it is below. -/
theorem integer_decoding (L : Libc) (sign ds : CStr) (hint : Option CStr)
    (hsign : sign = [] ∨ sign = ['+'] ∨ sign = ['-'])
    (hne : ds ≠ []) (hdig : ∀ c ∈ ds, isdigit c = true)
    (hh : hint = none ∨ hint = some [] ∨ hint = some ['i', 'n', 't']) :
    (LONG_MIN ≤ int_denoted sign ds → int_denoted sign ds ≤ LONG_MAX →
      parse_value_token L (sign ++ ds) hint = ison_value_t.int (int_denoted sign ds)) ∧
    (LONG_MAX < int_denoted sign ds →
      parse_value_token L (sign ++ ds) hint = ison_value_t.int LONG_MAX) ∧
    (int_denoted sign ds < LONG_MIN →
      parse_value_token L (sign ++ ds) hint = ison_value_t.int LONG_MIN) := by
  obtain ⟨hst, t1, t2, t3, t4, t5⟩ := strtol_int_token sign ds hsign hne hdig
  have hp : parse_value_token L (sign ++ ds) hint =
      ison_value_t.int (clamp_long (int_denoted sign ds)) := by
    apply parse_value_token_int L _ hint _ hst t1 t2 t3 t4 t5
    · rcases hh with rfl | rfl | rfl <;> simp
    · rcases hh with rfl | rfl | rfl <;> simp
    · rcases hh with rfl | rfl | rfl <;> simp
  have hlm : LONG_MIN < LONG_MAX := by decide
  rw [hp]
  refine ⟨fun a b => ?_, fun a => ?_, fun a => ?_⟩
  · unfold clamp_long; rw [if_neg (by omega), if_neg (by omega)]
  · unfold clamp_long; rw [if_neg (by omega), if_pos a]
  · unfold clamp_long; rw [if_pos a]

theorem integer_decoding_witness :
    ((['-'] : CStr) = [] ∨ (['-'] : CStr) = ['+'] ∨ (['-'] : CStr) = ['-']) ∧
    "9223372036854775809".toList ≠ [] ∧
    (∀ c ∈ "9223372036854775809".toList, isdigit c = true) ∧
    parse_value_token libc_zero (['-'] ++ "9223372036854775809".toList) (some []) =
      ison_value_t.int LONG_MIN :=
  ⟨by decide, by decide, by decide,
   (integer_decoding libc_zero ['-'] "9223372036854775809".toList (some [])
      (by decide) (by decide) (by decide) (Or.inr (Or.inl rfl))).2.2 (by decide)⟩

/-! ## The field-definition line -/

theorem skip_to_fields_skipped (skipped : List CStr) (lines : List CStr)
    (hskip : ∀ l ∈ skipped, trim l = [] ∨ (trim l).head? = some '#') :
    skip_to_fields (skipped ++ lines) = skip_to_fields lines := by
  induction skipped with
  | nil => rfl
  | cons l ls ih =>
    have h := hskip l (by simp)
    rw [List.cons_append, skip_to_fields, if_neg (by tauto)]
    exact ih (fun x hx => hskip x (by simp [hx]))

theorem parse_rows_fields (L : Libc) (block : ison_block_t) (s : Bool) (lines : List CStr) :
    (parse_rows L block s lines).1.fields = block.fields := by
  induction lines generalizing block s with
  | nil => simp [parse_rows]
  | cons raw rest ih =>
    unfold parse_rows
    simp only
    split_ifs
    · rfl
    · exact ih _ _
    · rfl
    · exact ih _ _
    · rw [ih]; rfl
    · rw [ih]; rfl

/-- C36. The first line after a block header that is neither blank nor a
    comment is read as the field-definition line, whatever it holds, and the
    blank and comment lines before it are passed over: the block then has the
    fields of that line and its rows are read from the lines after it.  The text
    `table.a`, `table.b`, `x`, `1` parses to the one block `a` with the single
    field `table.b` and two rows. -/
theorem field_line_always_consumed (L : Libc) (kind name : CStr) (skipped : List CStr)
    (f : CStr) (rest : List CStr)
    (hskip : ∀ l ∈ skipped, trim l = [] ∨ (trim l).head? = some '#')
    (hf1 : trim f ≠ []) (hf2 : (trim f).head? ≠ some '#') :
    parse_block L kind name (skipped ++ f :: rest) =
      parse_rows L (ison_block_t.mk kind name (fields_of_line f) [] none) false rest ∧
    (parse_block L kind name (skipped ++ f :: rest)).1.fields = fields_of_line f ∧
    ison_parse L "table.a\ntable.b\nx\n1\n".toList =
      { blocks := [{ kind := "table".toList, name := ['a'],
                     fields := [{ name := "table.b".toList, type_hint := some [] }],
                     rows := [{ entries := [("table.b".toList, ison_value_t.string (some ['x']))],
                                count := 1 },
                              { entries := [("table.b".toList, ison_value_t.int 1)],
                                count := 1 }],
                     summary_row := none }],
        order := [['a']] } := by
  have h : parse_block L kind name (skipped ++ f :: rest) =
      parse_rows L (ison_block_t.mk kind name (fields_of_line f) [] none) false rest := by
    unfold parse_block
    rw [skip_to_fields_skipped skipped _ hskip, skip_to_fields_content f rest hf1 hf2]
    simp only [add_fields_eq]
    rfl
  refine ⟨h, ?_, rfl⟩
  rw [h, parse_rows_fields]

theorem field_line_always_consumed_witness :
    (∀ l ∈ [[], ['#', 'c']], trim l = [] ∨ (trim l).head? = some '#') ∧
    block_header (trim "table.b".toList) = some ("table".toList, ['b']) ∧
    (parse_block libc_zero "table".toList ['a']
        ([[], ['#', 'c']] ++ "table.b".toList :: [['x'], ['1']])).1 =
      { kind := "table".toList, name := ['a'],
        fields := [{ name := "table.b".toList, type_hint := some [] }],
        rows := [{ entries := [("table.b".toList, ison_value_t.string (some ['x']))],
                   count := 1 },
                 { entries := [("table.b".toList, ison_value_t.int 1)], count := 1 }],
        summary_row := none } :=
  ⟨by decide, by decide,
   (congrArg Prod.fst (field_line_always_consumed libc_zero "table".toList ['a'] [[], ['#', 'c']]
      "table.b".toList [['x'], ['1']] (by decide) (by decide) (by decide)).1).trans (by decide)⟩

/-! ## ISONL output and summary rows -/

theorem ison_document_get_drop_summaries (d : ison_document_t) (name : CStr) :
    ison_document_get (drop_summaries d) name = (ison_document_get d name).map drop_summary := by
  unfold ison_document_get drop_summaries
  simp only [List.find?_map]
  rfl

theorem ison_dumps_isonl_drop_summaries (L : Libc) (d : ison_document_t) :
    ison_dumps_isonl L (drop_summaries d) = ison_dumps_isonl L d := by
  unfold ison_dumps_isonl
  have hf : (fun (buf : CStr) (ix : Nat × CStr) =>
      match ison_document_get (drop_summaries d) ix.2 with
      | none => buf
      | some block => append_block_isonl L ix.1 block buf) =
      (fun (buf : CStr) (ix : Nat × CStr) =>
      match ison_document_get d ix.2 with
      | none => buf
      | some block => append_block_isonl L ix.1 block buf) := by
    funext buf ix
    rw [ison_document_get_drop_summaries]
    cases ison_document_get d ix.2 with
    | none => rfl
    | some b => rfl
  show List.foldl _ [] (List.enum d.order) = _
  rw [hf]

/-- C38. ISONL output is independent of summary rows: two documents that
    differ only in the summary rows of their blocks have the same
    `ison_dumps_isonl` text, and the text `ison_to_isonl` returns for an ISON
    text is the ISONL text of the parsed document without its summary rows. -/
theorem isonl_ignores_summary (L : Libc) (d1 d2 : ison_document_t)
    (h : drop_summaries d1 = drop_summaries d2) :
    ison_dumps_isonl L d1 = ison_dumps_isonl L d2 ∧
    ∀ text : CStr, ison_to_isonl L (some text) =
      (some (ison_dumps_isonl L (drop_summaries (ison_parse L text))), ison_error_t.ISON_OK) := by
  constructor
  · rw [← ison_dumps_isonl_drop_summaries L d1, h, ison_dumps_isonl_drop_summaries]
  · intro text
    rw [ison_dumps_isonl_drop_summaries]
    rfl

theorem isonl_ignores_summary_witness :
    drop_summaries (ison_parse libc_zero "table.t\na\n1\n---\n9\n".toList) =
      drop_summaries (ison_parse libc_zero "table.t\na\n1\n".toList) ∧
    (ison_parse libc_zero "table.t\na\n1\n---\n9\n".toList).blocks.map (fun b => b.summary_row) =
      [some { entries := [(['a'], ison_value_t.int 9)], count := 1 }] ∧
    ison_dumps_isonl libc_zero (ison_parse libc_zero "table.t\na\n1\n---\n9\n".toList) =
      "a|table.t|a|1".toList ∧
    ison_to_isonl libc_zero (some "table.t\na\n1\n---\n9\n".toList) =
      (some "a|table.t|a|1".toList, ison_error_t.ISON_OK) :=
  have h := isonl_ignores_summary libc_zero
    (ison_parse libc_zero "table.t\na\n1\n---\n9\n".toList)
    (ison_parse libc_zero "table.t\na\n1\n".toList) (by decide)
  ⟨by decide, by decide, h.1.trans (by decide),
   (h.2 "table.t\na\n1\n---\n9\n".toList).trans (by decide)⟩

/-! ## The failures of `ison_from_json` -/

/-- C39. The function `ison_from_json` fails exactly on a wrong opening: when
    it returns, the result is no document with `ISON_ERROR_INVALID` exactly when
    the text is missing, no document with `ISON_ERROR_PARSE` exactly when the
    first byte after the leading white space is not an opening brace, and a
    document with `ISON_OK` exactly in the remaining case.  On a missing text
    and on a wrong opening it does return, and an opening brace followed by
    `garbage` gives the empty document with `ISON_OK`. -/
theorem from_json_fails_iff_opening (M : Machine) (L : Libc) (fuel : Nat)
    (json_text : Option CStr) (r : Option ison_document_t × ison_error_t)
    (h : ison_from_json M L fuel json_text = outcome.ok r) :
    (r = (none, ison_error_t.ISON_ERROR_INVALID) ↔ json_text = none) ∧
    (r = (none, ison_error_t.ISON_ERROR_PARSE) ↔
      ∃ text, json_text = some text ∧ (skip_ws text).head? ≠ some '\x7b') ∧
    ((∃ doc, r = (some doc, ison_error_t.ISON_OK)) ↔
      ∃ text, json_text = some text ∧ (skip_ws text).head? = some '\x7b') ∧
    ison_from_json M L fuel none = outcome.ok (none, ison_error_t.ISON_ERROR_INVALID) ∧
    (∀ text : CStr, (skip_ws text).head? ≠ some '\x7b' →
      ison_from_json M L fuel (some text) = outcome.ok (none, ison_error_t.ISON_ERROR_PARSE)) ∧
    (∀ n : Nat, ison_from_json M L (n + 1) (some "\x7bgarbage".toList) =
      outcome.ok (some ison_document_create, ison_error_t.ISON_OK)) := by
  have hwrong : ∀ text : CStr, (skip_ws text).head? ≠ some '\x7b' →
      ison_from_json M L fuel (some text) =
        outcome.ok (none, ison_error_t.ISON_ERROR_PARSE) := by
    intro text ht
    unfold ison_from_json
    simp only
    rw [if_pos ht]
  refine ⟨?_, ?_, ?_, rfl, hwrong, fun n => rfl⟩
  · cases json_text with
    | none => simp only [iff_true]; cases h; rfl
    | some text =>
      simp only [reduceCtorEq, iff_false]
      by_cases ht : (skip_ws text).head? ≠ some '\x7b'
      · rw [hwrong text ht] at h
        cases h
        simp
      · unfold ison_from_json at h
        simp only at h
        rw [if_neg ht] at h
        cases hl : from_json_loop M L fuel ison_document_create (skip_ws text).tail with
        | ok doc => rw [hl] at h; cases h; simp
        | out_of_fuel => rw [hl] at h; cases h
        | undefined => rw [hl] at h; cases h
  · cases json_text with
    | none =>
      cases h
      simp
    | some text =>
      by_cases ht : (skip_ws text).head? ≠ some '\x7b'
      · rw [hwrong text ht] at h
        cases h
        simp only [true_iff]
        exact ⟨text, rfl, ht⟩
      · unfold ison_from_json at h
        simp only at h
        rw [if_neg ht] at h
        cases hl : from_json_loop M L fuel ison_document_create (skip_ws text).tail with
        | ok doc =>
          rw [hl] at h; cases h
          constructor
          · intro e; simp at e
          · rintro ⟨t, e, ht2⟩
            cases e
            exact absurd ht2 ht
        | out_of_fuel => rw [hl] at h; cases h
        | undefined => rw [hl] at h; cases h
  · cases json_text with
    | none =>
      cases h
      simp
    | some text =>
      by_cases ht : (skip_ws text).head? ≠ some '\x7b'
      · rw [hwrong text ht] at h
        cases h
        constructor
        · rintro ⟨doc, e⟩; simp at e
        · rintro ⟨t, e, ht2⟩
          cases e
          exact absurd ht2 ht
      · unfold ison_from_json at h
        simp only at h
        rw [if_neg ht] at h
        cases hl : from_json_loop M L fuel ison_document_create (skip_ws text).tail with
        | ok doc =>
          rw [hl] at h; cases h
          constructor
          · intro _
            exact ⟨text, rfl, not_not.1 ht⟩
          · intro _
            exact ⟨doc, rfl⟩
        | out_of_fuel => rw [hl] at h; cases h
        | undefined => rw [hl] at h; cases h

theorem from_json_fails_iff_opening_witness :
    ison_from_json machine_zero libc_zero 3 (some " \x7bgarbage".toList) =
      outcome.ok (some ison_document_create, ison_error_t.ISON_OK) ∧
    ∃ text, some " \x7bgarbage".toList = some text ∧ (skip_ws text).head? = some '\x7b' :=
  ⟨by decide,
   (from_json_fails_iff_opening machine_zero libc_zero 3 (some " \x7bgarbage".toList)
      (some ison_document_create, ison_error_t.ISON_OK) (by decide)).2.2.1.1
      ⟨ison_document_create, rfl⟩⟩

/-! ## Line endings -/

theorem trim_right_concat_cr (cur : CStr) : trim_right (cur ++ [CR]) = trim_right cur := by
  unfold trim_right
  rw [List.rdropWhile_concat_pos]
  simp

theorem split_lines_loop_crlf (t cur : CStr) :
    split_lines_loop (crlf t) cur = split_lines_loop t cur := by
  induction t generalizing cur with
  | nil => rfl
  | cons c cs ih =>
    have hcr : CR ≠ LF := by decide
    unfold crlf
    by_cases hc : c = LF
    · rw [if_pos hc, hc]
      rw [split_lines_loop, if_neg hcr, split_lines_loop, if_pos rfl, ih, trim_right_concat_cr]
      rw [split_lines_loop, if_pos rfl]
    · rw [if_neg hc, split_lines_loop, if_neg hc, ih, split_lines_loop, if_neg hc]

/-- C37. Line-ending independence: `ison_parse` and `ison_parse_isonl` return
    the same document for a text and for the text with every line feed
    replaced by carriage return and line feed, since both texts are split into
    the same lines. -/
theorem crlf_independence (L : Libc) (t : CStr) :
    split_lines (crlf t) = split_lines t ∧
    ison_parse L (crlf t) = ison_parse L t ∧
    ison_parse_isonl L (crlf t) = ison_parse_isonl L t ∧
    ison_parse_with_error L (some (crlf t)) = ison_parse_with_error L (some t) ∧
    ison_parse_isonl_with_error L (some (crlf t)) = ison_parse_isonl_with_error L (some t) ∧
    crlf "table.t\na\r\n1\n".toList = "table.t\r\na\r\r\n1\r\n".toList := by
  have h : split_lines (crlf t) = split_lines t := split_lines_loop_crlf t []
  refine ⟨h, ?_, ?_, ?_, ?_, by decide⟩
  · unfold ison_parse; rw [h]
  · unfold ison_parse_isonl; rw [h]
  · unfold ison_parse_with_error; simp only; unfold ison_parse; rw [h]
  · unfold ison_parse_isonl_with_error; simp only; unfold ison_parse_isonl; rw [h]

/-! ## Row keys and declared fields -/

theorem ison_row_set_keys (row : ison_row_t) (key : CStr) (value : ison_value_t) :
    (key ∈ row.entries.map Prod.fst →
      (ison_row_set row key value).entries.map Prod.fst = row.entries.map Prod.fst) ∧
    (key ∉ row.entries.map Prod.fst →
      (ison_row_set row key value).entries.map Prod.fst = row.entries.map Prod.fst ++ [key]) := by
  constructor
  · intro h
    obtain ⟨es1, h1, h2, -, -⟩ := row_replace_some_iff value h
    simp [ison_row_set, h1, h2]
  · intro h
    rw [ison_row_set_new value h]
    simp

/-- The keys of a row after a run of `ison_row_set`: the keys it had, then the
    new keys in the order of their first setting. -/
theorem foldl_row_set_keys (es : List (CStr × ison_value_t)) (row : ison_row_t) :
    ∃ extra : List CStr,
      (es.foldl (fun r e => ison_row_set r e.1 e.2) row).entries.map Prod.fst =
        row.entries.map Prod.fst ++ extra ∧
      extra.Sublist (es.map Prod.fst) ∧
      (∀ k ∈ es.map Prod.fst,
        k ∈ (es.foldl (fun r e => ison_row_set r e.1 e.2) row).entries.map Prod.fst) ∧
      (extra.length = es.length ↔
        (es.map Prod.fst).Nodup ∧ ∀ k ∈ es.map Prod.fst, k ∉ row.entries.map Prod.fst) := by
  induction es generalizing row with
  | nil => exact ⟨[], by simp, by simp, by simp, by simp⟩
  | cons e es ih =>
    obtain ⟨extra, h1, h2, h3, h4⟩ := ih (ison_row_set row e.1 e.2)
    have hk := ison_row_set_keys row e.1 e.2
    by_cases he : e.1 ∈ row.entries.map Prod.fst
    · rw [hk.1 he] at h1 h4
      refine ⟨extra, ?_, ?_, ?_, ?_⟩
      · rw [List.foldl_cons]; exact h1
      · rw [List.map_cons]; exact List.Sublist.cons _ h2
      · intro k hkm
        rw [List.foldl_cons]
        rw [List.map_cons] at hkm
        rcases List.mem_cons.1 hkm with rfl | hkm
        · rw [h1]; exact List.mem_append_left _ he
        · exact h3 k hkm
      · have hle := h2.length_le
        rw [List.length_map] at hle
        constructor
        · intro hl
          rw [List.length_cons] at hl
          omega
        · rintro ⟨-, hd⟩
          exact absurd he (hd e.1 (by simp))
    · rw [hk.2 he] at h1 h4
      refine ⟨e.1 :: extra, ?_, ?_, ?_, ?_⟩
      · rw [List.foldl_cons, h1]; simp
      · rw [List.map_cons]; exact List.Sublist.cons₂ _ h2
      · intro k hkm
        rw [List.foldl_cons]
        rw [List.map_cons] at hkm
        rcases List.mem_cons.1 hkm with rfl | hkm
        · rw [h1]; simp
        · exact h3 k hkm
      · rw [List.length_cons, List.length_cons, Nat.add_right_cancel_iff, h4, List.map_cons,
          List.nodup_cons]
        constructor
        · rintro ⟨hn, hd⟩
          refine ⟨⟨?_, hn⟩, ?_⟩
          · intro hm
            have := hd e.1 hm
            simp at this
          · intro k hkm
            rcases List.mem_cons.1 hkm with rfl | hkm
            · exact he
            · intro hr
              exact hd k hkm (List.mem_append_left _ hr)
        · rintro ⟨⟨hn1, hn⟩, hd⟩
          refine ⟨hn, ?_⟩
          intro k hkm hr
          rcases List.mem_append.1 hr with hr | hr
          · exact hd k (List.mem_cons_of_mem _ hkm) hr
          · simp only [List.mem_singleton] at hr
            subst hr
            exact hn1 hkm

/-- The keys of the row built from `tokens` against `fields`. -/
theorem build_row_keys (L : Libc) (fields : List ison_field_info_t) (tokens : List CStr) :
    ((build_row L fields tokens).entries.map Prod.fst).Sublist
      ((fields.take tokens.length).map (fun f => f.name)) ∧
    ((build_row L fields tokens).entries.map Prod.fst).Nodup ∧
    (∀ k ∈ (fields.take tokens.length).map (fun f => f.name),
      k ∈ (build_row L fields tokens).entries.map Prod.fst) ∧
    (build_row L fields tokens).count = (build_row L fields tokens).entries.length ∧
    (build_row L fields tokens).entries.length ≤ min tokens.length fields.length ∧
    ((build_row L fields tokens).entries.length < min tokens.length fields.length ↔
      ¬ ((fields.take tokens.length).map (fun f => f.name)).Nodup) := by
  have hinv := foldl_row_set_inv (fun tf : CStr × ison_field_info_t => tf.2.name)
    (fun tf => parse_value_token L tf.1 tf.2.type_hint) (tokens.zip fields) ison_row_create
    (by simp [ison_row_create]) (by simp [ison_row_create])
  have hinv2 : ((build_row L fields tokens).entries.map Prod.fst).Nodup ∧
      (build_row L fields tokens).count = (build_row L fields tokens).entries.length := hinv
  obtain ⟨extra, h1, h2, h3, h4⟩ := foldl_row_set_keys
    ((tokens.zip fields).map (fun tf => (tf.2.name, parse_value_token L tf.1 tf.2.type_hint)))
    ison_row_create
  rw [← build_row_eq_foldl] at h1 h3
  rw [zip_keys_eq] at h2 h3 h4
  have hnil : List.map Prod.fst ison_row_create.entries = [] := rfl
  rw [hnil, List.nil_append] at h1
  rw [hnil] at h4
  have hlen : ((tokens.zip fields).map
      (fun tf => (tf.2.name, parse_value_token L tf.1 tf.2.type_hint))).length =
      min tokens.length fields.length := by
    rw [List.length_map, List.length_zip]
  rw [hlen] at h4
  rw [← h1] at h2 h4
  rw [List.length_map] at h4
  have h5 : (build_row L fields tokens).entries.length = min tokens.length fields.length ↔
      ((fields.take tokens.length).map (fun f => f.name)).Nodup := by
    rw [h4]
    constructor
    · intro h; exact h.1
    · intro h; exact ⟨h, fun k _ hk => by simp at hk⟩
  have hle := h2.length_le
  simp only [List.length_map, List.length_take] at hle
  have hmin : min tokens.length fields.length = min fields.length tokens.length :=
    Nat.min_comm _ _
  refine ⟨h2, hinv2.1, h3, hinv2.2, by omega, ?_⟩
  rw [← h5]
  omega

theorem built_rows_add_row (L : Libc) (b : ison_block_t) (hb : built_rows L b) (line : CStr) :
    built_rows L (ison_block_add_row b (build_row L b.fields (tokenize line))) := by
  refine ⟨?_, hb.2⟩
  intro r hr
  simp only [ison_block_add_row, List.mem_append, List.mem_singleton] at hr
  rcases hr with hr | hr
  · exact hb.1 r hr
  · exact ⟨line, by rw [hr, row_copy_build_row_any]; rfl⟩

theorem built_rows_set_summary (L : Libc) (b : ison_block_t) (hb : built_rows L b)
    (line : CStr) :
    built_rows L (ison_block_set_summary b (build_row L b.fields (tokenize line))) := by
  refine ⟨hb.1, ?_⟩
  intro r hr
  simp only [ison_block_set_summary, Option.some.injEq] at hr
  exact ⟨line, by rw [← hr, row_copy_build_row_any]; rfl⟩

theorem parse_rows_built (L : Libc) (block : ison_block_t) (s : Bool) (lines : List CStr)
    (hb : built_rows L block) : built_rows L (parse_rows L block s lines).1 := by
  induction lines generalizing block s with
  | nil => simpa [parse_rows] using hb
  | cons raw rest ih =>
    unfold parse_rows
    simp only
    split_ifs
    · exact hb
    · exact ih _ _ hb
    · exact hb
    · exact ih _ _ hb
    · exact ih _ _ (built_rows_set_summary L block hb _)
    · exact ih _ _ (built_rows_add_row L block hb _)

theorem built_rows_empty (L : Libc) (kind name : CStr) (toks : List CStr) :
    built_rows L (add_fields (ison_block_create kind name) toks) := by
  rw [add_fields_eq]
  exact ⟨by simp [ison_block_create], by simp [ison_block_create]⟩

theorem parse_block_built (L : Libc) (kind name : CStr) (lines : List CStr) :
    built_rows L (parse_block L kind name lines).1 := by
  unfold parse_block
  cases skip_to_fields lines with
  | nil => exact ⟨by simp [ison_block_create], by simp [ison_block_create]⟩
  | cons f rest =>
    simp only
    exact parse_rows_built L _ _ _ (built_rows_empty L kind name _)

theorem ison_parse_loop_built (L : Libc) (fuel : Nat) (lines : List CStr)
    (doc : ison_document_t) (hd : ∀ b ∈ doc.blocks, built_rows L b) :
    ∀ b ∈ (ison_parse_loop L fuel lines doc).blocks, built_rows L b := by
  induction fuel generalizing lines doc with
  | zero => simpa [ison_parse_loop] using hd
  | succ n ih =>
    cases lines with
    | nil => simpa [ison_parse_loop] using hd
    | cons raw rest =>
      unfold ison_parse_loop
      simp only
      split_ifs
      · exact ih rest doc hd
      · cases hb : block_header (trim raw) with
        | none => exact ih rest doc hd
        | some kn =>
          obtain ⟨kind, name⟩ := kn
          simp only
          apply ih
          exact add_block_forall (built_rows L) _ _ hd (parse_block_built L kind name rest)

theorem isonl_line_built (L : Libc) (doc : ison_document_t) (raw : CStr)
    (hd : ∀ b ∈ doc.blocks, built_rows L b) :
    ∀ b ∈ (isonl_line L doc raw).blocks, built_rows L b := by
  unfold isonl_line
  simp only
  split_ifs
  · exact hd
  · cases h1 : split_at_char '|' (trim raw) with
    | none => exact hd
    | some ha =>
      obtain ⟨header, after⟩ := ha
      simp only
      cases h2 : split_at_char '|' after with
      | none => exact hd
      | some fd =>
        obtain ⟨fields_str, data_str⟩ := fd
        simp only
        cases h3 : split_at_char '.' header with
        | none => exact hd
        | some kn =>
          obtain ⟨kind, name⟩ := kn
          simp only
          have hdoc1 : ∀ b ∈ (match ison_document_get doc name with
              | some _ => doc
              | none => ison_document_add_block doc
                  (add_fields (ison_block_create kind name) (tokenize fields_str))).blocks,
              built_rows L b := by
            cases ison_document_get doc name with
            | some _ => exact hd
            | none =>
              simp only
              exact add_block_forall (built_rows L) _ _ hd (built_rows_empty L kind name _)
          exact blocks_update_forall (built_rows L) name _
            (fun b hb => built_rows_add_row L b hb _) _ hdoc1

theorem ison_parse_isonl_built (L : Libc) (text : CStr) :
    ∀ b ∈ (ison_parse_isonl L text).blocks, built_rows L b := by
  unfold ison_parse_isonl
  have key : ∀ (ls : List CStr) (doc : ison_document_t), (∀ b ∈ doc.blocks, built_rows L b) →
      ∀ b ∈ (ls.foldl (isonl_line L) doc).blocks, built_rows L b := by
    intro ls
    induction ls with
    | nil => intro doc h; exact h
    | cons l ls ih =>
      intro doc h
      rw [List.foldl_cons]
      exact ih _ (isonl_line_built L doc l h)
  exact key _ _ (by simp [ison_document_create])

/-- C35. Row keys are declared fields: every data row and the summary row of
    every block of `ison_parse` and of `ison_parse_isonl` is the row built from
    the tokens of some line against the fields of the block.  Its keys are
    pairwise distinct and form a sublist, in declaration order, of the names of
    the first `min m n` declared fields, each of these names is a key, the row
    holds at most `min m n` entries, and it holds fewer exactly when two of
    those names coincide (`m` tokens, `n` fields). -/
theorem row_keys_declared (L : Libc) (text : CStr) (b : ison_block_t) (r : ison_row_t)
    (hb : b ∈ (ison_parse L text).blocks ∨ b ∈ (ison_parse_isonl L text).blocks)
    (hr : r ∈ b.rows ∨ b.summary_row = some r) :
    ∃ line : CStr, r = build_row L b.fields (tokenize line) ∧
      (r.entries.map Prod.fst).Sublist (b.fields.map (fun f => f.name)) ∧
      (r.entries.map Prod.fst).Sublist
        ((b.fields.take (tokenize line).length).map (fun f => f.name)) ∧
      (r.entries.map Prod.fst).Nodup ∧
      (∀ k ∈ (b.fields.take (tokenize line).length).map (fun f => f.name),
        k ∈ r.entries.map Prod.fst) ∧
      r.count = r.entries.length ∧
      r.entries.length ≤ min (tokenize line).length b.fields.length ∧
      (r.entries.length < min (tokenize line).length b.fields.length ↔
        ¬ ((b.fields.take (tokenize line).length).map (fun f => f.name)).Nodup) := by
  have hbuilt : built_rows L b := by
    rcases hb with hb | hb
    · exact ison_parse_loop_built L _ _ _ (by simp [ison_document_create]) b hb
    · exact ison_parse_isonl_built L text b hb
  have hline : ∃ line : CStr, r = build_row L b.fields (tokenize line) := by
    rcases hr with hr | hr
    · exact hbuilt.1 r hr
    · exact hbuilt.2 r hr
  obtain ⟨line, e⟩ := hline
  obtain ⟨k1, k2, k3, k4, k5, k6⟩ := build_row_keys L b.fields (tokenize line)
  rw [← e] at k1 k2 k3 k4 k5 k6
  refine ⟨line, e, ?_, k1, k2, k3, k4, k5, k6⟩
  exact k1.trans ((List.take_sublist _ _).map _)

set_option maxRecDepth 100000 in
theorem row_keys_declared_witness :
    (ison_block_t.mk "table".toList ['t']
        [{ name := ['a'], type_hint := some [] }, { name := ['b'], type_hint := some [] },
         { name := ['a'], type_hint := some [] }, { name := ['c'], type_hint := some [] }]
        [{ entries := [(['a'], ison_value_t.int 3), (['b'], ison_value_t.int 2)], count := 2 }]
        none ∈ (ison_parse libc_zero "table.t\na b a c\n1 2 3\n".toList).blocks ∨
      ison_block_t.mk "table".toList ['t']
        [{ name := ['a'], type_hint := some [] }, { name := ['b'], type_hint := some [] },
         { name := ['a'], type_hint := some [] }, { name := ['c'], type_hint := some [] }]
        [{ entries := [(['a'], ison_value_t.int 3), (['b'], ison_value_t.int 2)], count := 2 }]
        none ∈ (ison_parse_isonl libc_zero "table.t\na b a c\n1 2 3\n".toList).blocks) ∧
    ((ison_row_t.mk [(['a'], ison_value_t.int 3), (['b'], ison_value_t.int 2)] 2).entries.map
      Prod.fst).Sublist [['a'], ['b'], ['a'], ['c']] :=
  have h := row_keys_declared libc_zero "table.t\na b a c\n1 2 3\n".toList
    (ison_block_t.mk "table".toList ['t']
        [{ name := ['a'], type_hint := some [] }, { name := ['b'], type_hint := some [] },
         { name := ['a'], type_hint := some [] }, { name := ['c'], type_hint := some [] }]
        [{ entries := [(['a'], ison_value_t.int 3), (['b'], ison_value_t.int 2)], count := 2 }]
        none)
    (ison_row_t.mk [(['a'], ison_value_t.int 3), (['b'], ison_value_t.int 2)] 2)
    (Or.inl (by decide)) (Or.inl (by decide))
  ⟨Or.inl (by decide), h.elim (fun _ hl => hl.2.1)⟩

/-! ## Reference schema validation -/

/-- C40. The `validate` function of a reference schema without refinements
    returns no errors for a Reference value whose text starts with `:` and a
    `required field is missing` error for an absent value unless the schema is
    optional, but it returns no errors for every present value: the errors it
    builds for a String, or for a Reference whose text does not start with `:`,
    are not returned. -/
theorem ref_validate_drops_errors (o : Bool) (ns rel : Option CStr) (v : IsonanticValue) :
    ref_validate { base := { optional := o, refinements := none }, ns := ns, relationship := rel }
      (some v) = none ∧
    ref_validate isonantic_ref_create (isonantic_value_create_ref (some ":1".toList)) = none ∧
    ref_validate isonantic_ref_create none =
      some [{ field := some [], message := some "required field is missing".toList,
              value := none }] ∧
    ref_validate (isonantic_ref_optional isonantic_ref_create) none = none ∧
    ref_validate_switch isonantic_ref_create
        (IsonanticValue.ISONANTIC_VALUE_STRING (some "abc".toList)) =
      some [{ field := some [], message := some "expected reference, got 1".toList,
              value := some (IsonanticValue.ISONANTIC_VALUE_STRING (some "abc".toList)) }] ∧
    ref_validate isonantic_ref_create (isonantic_value_create_string (some "abc".toList)) =
      none ∧
    ref_validate_switch isonantic_ref_create
        (IsonanticValue.ISONANTIC_VALUE_REFERENCE (some "abc".toList)) =
      some [{ field := some [],
              message := some "expected reference string starting with ':'".toList,
              value := some (IsonanticValue.ISONANTIC_VALUE_REFERENCE (some "abc".toList)) }] ∧
    ref_validate isonantic_ref_create (isonantic_value_create_ref (some "abc".toList)) = none ∧
    ref_validate isonantic_ref_create
      (some (IsonanticValue.ISONANTIC_VALUE_OBJECT (some []))) = none := by
  refine ⟨rfl, rfl, rfl, rfl, by decide, rfl, by decide, rfl, rfl⟩

/-! ## Helper lemmas: headers of parsed blocks -/

theorem trim_subset (l : CStr) : ∀ c ∈ trim l, c ∈ l := by
  intro c hc
  unfold trim at hc
  exact (List.dropWhile_suffix isspace).subset ((List.rdropWhile_prefix _ _).subset hc)

theorem trim_right_subset (l : CStr) : ∀ c ∈ trim_right l, c ∈ l := by
  intro c hc
  unfold trim_right at hc
  exact (List.rdropWhile_prefix _ _).subset hc

theorem trim_idem (l : CStr) : trim (trim l) = trim l := by
  apply trim_eq_self
  · unfold starts_trimmed
    cases hh : (trim l).head? with
    | none => rfl
    | some c =>
      have hne : trim l ≠ [] := by intro e; rw [e] at hh; cases hh
      have hne2 : l.dropWhile isspace ≠ [] := by
        intro e
        apply hne
        unfold trim
        rw [e]
        rfl
      have hp : trim l <+: l.dropWhile isspace := List.rdropWhile_prefix _ _
      have h1 := hp.head hne
      have h2 := List.head_dropWhile_not isspace l hne2
      have h3 : (trim l).head hne = c := by
        have := List.head?_eq_head hne
        rw [hh] at this
        exact (Option.some.inj this).symm
      simp only
      rw [← h3, h1]
      simpa using h2
  · unfold ends_trimmed
    cases hh : (trim l).getLast? with
    | none => rfl
    | some c =>
      have hne : (l.dropWhile isspace).rdropWhile isspace ≠ [] := by
        intro e
        unfold trim at hh
        rw [e] at hh
        cases hh
      have h2 := List.rdropWhile_last_not (fun c => isspace c) (l.dropWhile isspace) hne
      have h3 : ((l.dropWhile isspace).rdropWhile isspace).getLast hne = c := by
        have := List.getLast?_eq_getLast _ hne
        unfold trim at hh
        rw [hh] at this
        exact (Option.some.inj this).symm
      simp only
      rw [← h3]
      simpa using h2

theorem split_lines_loop_no_lf (t cur : CStr) (h : LF ∉ cur) :
    ∀ l ∈ split_lines_loop t cur, LF ∉ l := by
  induction t generalizing cur with
  | nil =>
    intro l hl
    unfold split_lines_loop at hl
    split_ifs at hl with hc
    · cases hl
    · simp only [List.mem_singleton] at hl
      subst hl
      exact fun hm => h (trim_right_subset cur LF hm)
  | cons c cs ih =>
    intro l hl
    unfold split_lines_loop at hl
    split_ifs at hl with hc
    · rcases List.mem_cons.1 hl with rfl | hl
      · exact fun hm => h (trim_right_subset cur LF hm)
      · exact ih [] (by simp) l hl
    · exact ih (cur ++ [c]) (by simp [h, Ne.symm hc]) l hl

theorem parse_rows_rest_subset (L : Libc) (block : ison_block_t) (s : Bool) (lines : List CStr) :
    ∀ l ∈ (parse_rows L block s lines).2, l ∈ lines := by
  induction lines generalizing block s with
  | nil => simp [parse_rows]
  | cons raw rest ih =>
    unfold parse_rows
    simp only
    split_ifs
    · intro l hl; exact List.mem_cons_of_mem _ hl
    · intro l hl; exact List.mem_cons_of_mem _ (ih _ _ l hl)
    · intro l hl; exact hl
    · intro l hl; exact List.mem_cons_of_mem _ (ih _ _ l hl)
    · intro l hl; exact List.mem_cons_of_mem _ (ih _ _ l hl)
    · intro l hl; exact List.mem_cons_of_mem _ (ih _ _ l hl)

theorem skip_to_fields_subset (lines : List CStr) : ∀ l ∈ skip_to_fields lines, l ∈ lines := by
  induction lines with
  | nil => simp [skip_to_fields]
  | cons raw rest ih =>
    unfold skip_to_fields
    split_ifs
    · intro l hl; exact hl
    · intro l hl; exact List.mem_cons_of_mem _ (ih l hl)

theorem parse_block_rest_subset (L : Libc) (kind name : CStr) (lines : List CStr) :
    ∀ l ∈ (parse_block L kind name lines).2, l ∈ lines := by
  unfold parse_block
  cases hs : skip_to_fields lines with
  | nil => simp
  | cons f rest =>
    simp only
    intro l hl
    have h1 := parse_rows_rest_subset L _ _ _ l hl
    exact skip_to_fields_subset lines l (by rw [hs]; exact List.mem_cons_of_mem _ h1)

theorem ison_parse_loop_headers (L : Libc) (fuel : Nat) (lines : List CStr)
    (doc : ison_document_t) (hl : ∀ l ∈ lines, LF ∉ l)
    (hd : ∀ b ∈ doc.blocks, header_rereads b) :
    ∀ b ∈ (ison_parse_loop L fuel lines doc).blocks, header_rereads b := by
  induction fuel generalizing lines doc with
  | zero => simpa [ison_parse_loop] using hd
  | succ n ih =>
    cases lines with
    | nil => simpa [ison_parse_loop] using hd
    | cons raw rest =>
      have hrest : ∀ l ∈ rest, LF ∉ l := fun l h => hl l (List.mem_cons_of_mem _ h)
      unfold ison_parse_loop
      simp only
      split_ifs
      · exact ih rest doc hrest hd
      · cases hb : block_header (trim raw) with
        | none => exact ih rest doc hrest hd
        | some kn =>
          obtain ⟨kind, name⟩ := kn
          simp only
          apply ih
          · intro l hm
            exact hrest l (parse_block_rest_subset L kind name rest l hm)
          · apply add_block_forall header_rereads _ _ hd
            obtain ⟨e, -⟩ := block_header_some hb
            have hkn := parse_block_kind_name L kind name rest
            unfold header_rereads
            rw [hkn.1, hkn.2, ← e, trim_idem]
            exact ⟨fun hm => hl raw (by simp) (trim_subset raw LF hm), hb⟩

theorem ison_parse_headers (L : Libc) (t : CStr) :
    ∀ b ∈ (ison_parse L t).blocks, header_rereads b := by
  unfold ison_parse
  exact ison_parse_loop_headers L _ _ _ (split_lines_loop_no_lf t [] (by simp))
    (by simp [ison_document_create])

/-! ## Helper lemmas: lines with trailing carriage returns cut -/

theorem parse_rows_map_trim_right (L : Libc) (block : ison_block_t) (s : Bool)
    (lines : List CStr) :
    parse_rows L block s (lines.map trim_right) =
      ((parse_rows L block s lines).1, (parse_rows L block s lines).2.map trim_right) := by
  induction lines generalizing block s with
  | nil => simp [parse_rows]
  | cons raw rest ih =>
    simp only [List.map_cons, parse_rows, trim_trim_right]
    split_ifs
    · rfl
    · exact ih _ _
    · rfl
    · exact ih _ _
    · exact ih _ _
    · exact ih _ _

theorem skip_to_fields_map_trim_right (lines : List CStr) :
    skip_to_fields (lines.map trim_right) = (skip_to_fields lines).map trim_right := by
  induction lines with
  | nil => simp [skip_to_fields]
  | cons raw rest ih =>
    simp only [List.map_cons, skip_to_fields, trim_trim_right]
    split_ifs
    · rfl
    · exact ih

theorem parse_block_map_trim_right (L : Libc) (kind name : CStr) (lines : List CStr) :
    parse_block L kind name (lines.map trim_right) =
      ((parse_block L kind name lines).1, (parse_block L kind name lines).2.map trim_right) := by
  unfold parse_block
  rw [skip_to_fields_map_trim_right]
  cases skip_to_fields lines with
  | nil => rfl
  | cons f rest =>
    simp only [List.map_cons, trim_trim_right]
    exact parse_rows_map_trim_right L _ _ _

theorem ison_parse_loop_map_trim_right (L : Libc) (fuel : Nat) (lines : List CStr)
    (doc : ison_document_t) :
    ison_parse_loop L fuel (lines.map trim_right) doc = ison_parse_loop L fuel lines doc := by
  induction fuel generalizing lines doc with
  | zero => rfl
  | succ n ih =>
    cases lines with
    | nil => rfl
    | cons raw rest =>
      simp only [List.map_cons, ison_parse_loop, trim_trim_right]
      split_ifs
      · exact ih _ _
      · cases hb : block_header (trim raw) with
        | none => exact ih _ _
        | some kn =>
          obtain ⟨kind, name⟩ := kn
          simp only
          rw [parse_block_map_trim_right]
          exact ih _ _

/-- The document read from a text given by its lines, none with a line feed. -/
theorem ison_parse_unlines (L : Libc) (ls : List CStr) (h : ∀ l ∈ ls, LF ∉ l) :
    ison_parse L (unlines ls) = ison_parse_loop L ls.length ls ison_document_create := by
  unfold ison_parse
  rw [split_lines_unlines ls h, List.length_map, ison_parse_loop_map_trim_right]

/-! ## Helper lemmas: a printed document read back as printed -/

theorem row_reprints_iff (L : Libc) (b : ison_block_t) (r : ison_row_t) :
    row_reprints L b r = true ↔
      LF ∉ spec_row_line L [SP] b.fields r ∧
      is_row_line (spec_row_line L [SP] b.fields r) = true ∧
      spec_row_line L [SP] (reread_fields b)
        (row_of_line L (reread_fields b) (spec_row_line L [SP] b.fields r)) =
          spec_row_line L [SP] b.fields r := by
  unfold row_reprints
  simp only [Bool.and_eq_true, Bool.not_eq_true', decide_eq_true_eq, List.contains_eq_any_beq,
    List.any_eq_false, beq_iff_eq, and_assoc]
  constructor
  · rintro ⟨h1, h2, h3⟩
    exact ⟨fun hm => h1 _ hm rfl, h2, h3⟩
  · rintro ⟨h1, h2, h3⟩
    exact ⟨fun x hx e => h1 (e ▸ hx), h2, h3⟩

theorem block_reprints_iff (L : Libc) (b : ison_block_t) :
    block_reprints L b = true ↔
      block_fits b ∧ block_fits (reread_block L b) ∧
      LF ∉ join_with [SP] (b.fields.map spec_field_token) ∧
      trim (join_with [SP] (b.fields.map spec_field_token)) ≠ [] ∧
      (trim (join_with [SP] (b.fields.map spec_field_token))).head? ≠ some '#' ∧
      join_with [SP] ((reread_fields b).map spec_field_token) =
        join_with [SP] (b.fields.map spec_field_token) ∧
      (∀ r ∈ b.rows, row_reprints L b r = true) ∧
      (∀ s, b.summary_row = some s → row_reprints L b s = true) := by
  unfold block_reprints
  cases hs : b.summary_row with
  | none =>
    simp only [Bool.and_eq_true, Bool.not_eq_true', decide_eq_true_eq, List.contains_eq_any_beq,
      List.any_eq_false, beq_iff_eq, List.all_eq_true, and_true, and_assoc]
    constructor
    · rintro ⟨h1, h2, h3, h4, h5, h6, h7⟩
      exact ⟨h1, h2, fun hm => h3 _ hm rfl, h4, h5, h6, h7, by simp⟩
    · rintro ⟨h1, h2, h3, h4, h5, h6, h7, -⟩
      exact ⟨h1, h2, fun x hx e => h3 (e ▸ hx), h4, h5, h6, h7⟩
  | some s =>
    simp only [Bool.and_eq_true, Bool.not_eq_true', decide_eq_true_eq, List.contains_eq_any_beq,
      List.any_eq_false, beq_iff_eq, List.all_eq_true, and_assoc]
    constructor
    · rintro ⟨h1, h2, h3, h4, h5, h6, h7, h8⟩
      exact ⟨h1, h2, fun hm => h3 _ hm rfl, h4, h5, h6, h7, by simpa using h8⟩
    · rintro ⟨h1, h2, h3, h4, h5, h6, h7, h8⟩
      exact ⟨h1, h2, fun x hx e => h3 (e ▸ hx), h4, h5, h6, h7, h8 s rfl⟩

theorem block_bare_iff (b : ison_block_t) :
    block_bare b = true ↔
      block_fits b ∧ b.fields = [] ∧ b.rows = [] ∧ b.summary_row = none := by
  simp [block_bare, and_assoc]

/-- The lines printed for a block that is read back as printed, read by
    `parse_block`. -/
theorem parse_block_reread (L : Libc) (b : ison_block_t) (hb : block_reprints L b = true)
    (tail left : List CStr)
    (htail : ∀ (blk : ison_block_t) (s : Bool), parse_rows L blk s tail = (blk, left)) :
    parse_block L b.kind b.name ((spec_block_lines L [SP] b).tail ++ tail) =
      (reread_block L b, left) := by
  obtain ⟨-, -, -, f2, f3, -, hrows, hsum⟩ := (block_reprints_iff L b).1 hb
  have hrl : ∀ l ∈ b.rows.map (spec_row_line L [SP] b.fields), is_row_line l = true := by
    intro l hl
    obtain ⟨r, hr, rfl⟩ := List.mem_map.1 hl
    exact ((row_reprints_iff L b r).1 (hrows r hr)).2.1
  unfold parse_block spec_block_lines
  simp only [List.tail_cons, List.cons_append, List.append_assoc]
  rw [skip_to_fields_content _ _ f2 f3]
  simp only [add_fields_eq, ison_block_create, List.nil_append]
  have hfl : (tokenize (trim (join_with [SP] (b.fields.map spec_field_token)))).map field_of_token
      = reread_fields b := rfl
  rw [hfl, parse_rows_data L _ _ _ hrl]
  simp only [List.nil_append, List.map_map]
  cases hsr : b.summary_row with
  | none =>
    simp only [List.nil_append]
    rw [htail]
    simp [reread_block, hsr, Function.comp_def]
  | some s =>
    have hsl := ((row_reprints_iff L b s).1 (hsum s hsr)).2.1
    simp only [List.cons_append, List.nil_append]
    rw [parse_rows_marker L _ _ _ _ (by decide)]
    have := parse_rows_summary L [] (spec_row_line L [SP] b.fields s)
      { kind := b.kind, name := b.name, fields := reread_fields b,
        rows := b.rows.map (row_of_line L (reread_fields b) ∘ spec_row_line L [SP] b.fields),
        summary_row := none } tail (by simpa using hsl)
    simp only [List.nil_append] at this
    rw [this, htail]
    simp [reread_block, hsr, Function.comp_def]

/-- The lines printed for a block of a header alone, at the end of the text. -/
theorem parse_block_bare (L : Libc) (b : ison_block_t) (hb : block_bare b = true) :
    parse_block L b.kind b.name ((spec_block_lines L [SP] b).tail ++ []) =
        (reread_block L b, []) ∧
      reread_block L b = b := by
  obtain ⟨-, h1, h2, h3⟩ := (block_bare_iff b).1 hb
  obtain ⟨kind, name, fields, rows, summary⟩ := b
  simp only at h1 h2 h3
  subst h1 h2 h3
  exact ⟨rfl, rfl⟩

theorem spec_block_lines_reread (L : Libc) (b : ison_block_t)
    (hb : block_reprints L b = true) :
    spec_block_lines L [SP] (reread_block L b) = spec_block_lines L [SP] b := by
  obtain ⟨-, -, -, -, -, f6, hrows, hsum⟩ := (block_reprints_iff L b).1 hb
  have hrow : ∀ r, row_reprints L b r = true →
      spec_row_line L [SP] (reread_fields b)
        (row_of_line L (reread_fields b) (spec_row_line L [SP] b.fields r)) =
          spec_row_line L [SP] b.fields r := fun r hr => ((row_reprints_iff L b r).1 hr).2.2
  unfold spec_block_lines reread_block
  simp only [List.map_map]
  rw [f6]
  congr 2
  congr 1
  · apply List.map_congr_left
    intro r hr
    exact hrow r (hrows r hr)
  · cases hsr : b.summary_row with
    | none => rfl
    | some s =>
      simp only [Option.map_some']
      rw [hrow s (hsum s hsr)]

theorem block_lines_no_lf (L : Libc) (b : ison_block_t) (hh : header_rereads b)
    (hb : block_reprints L b = true ∨ block_bare b = true) :
    ∀ l ∈ spec_block_lines L [SP] b, LF ∉ l := by
  intro l hl
  unfold spec_block_lines at hl
  rcases hb with hb | hb
  · obtain ⟨-, -, f1, -, -, -, hrows, hsum⟩ := (block_reprints_iff L b).1 hb
    simp only [List.mem_cons, List.mem_append, List.mem_map] at hl
    rcases hl with rfl | rfl | ⟨r, hr, rfl⟩ | hl
    · exact hh.1
    · exact f1
    · exact ((row_reprints_iff L b r).1 (hrows r hr)).1
    · cases hsr : b.summary_row with
      | none => simp [hsr] at hl
      | some s =>
        simp only [hsr, List.mem_cons, List.mem_singleton, List.not_mem_nil, or_false] at hl
        rcases hl with rfl | rfl
        · decide
        · exact ((row_reprints_iff L b s).1 (hsum s hsr)).1
  · obtain ⟨-, h1, h2, h3⟩ := (block_bare_iff b).1 hb
    rw [h1, h2, h3] at hl
    simp only [List.map_nil, join_with, List.append_nil, List.mem_cons, List.not_mem_nil,
      or_false] at hl
    rcases hl with rfl | rfl
    · exact hh.1
    · simp

theorem blocks_reprint_cons (L : Libc) (b : ison_block_t) (rest : List ison_block_t)
    (h : blocks_reprint L (b :: rest) = true) :
    (block_reprints L b = true ∨ (block_bare b = true ∧ rest = [])) ∧
      blocks_reprint L rest = true := by
  cases rest with
  | nil =>
    simp only [blocks_reprint, Bool.or_eq_true] at h
    rcases h with h | h
    · exact ⟨Or.inl h, rfl⟩
    · exact ⟨Or.inr ⟨h, rfl⟩, rfl⟩
  | cons b2 bs =>
    simp only [blocks_reprint, Bool.and_eq_true] at h
    exact ⟨Or.inl h.1, h.2⟩

theorem doc_lines_no_lf (L : Libc) (bs : List ison_block_t)
    (hh : ∀ b ∈ bs, header_rereads b) (hre : blocks_reprint L bs = true) :
    ∀ l ∈ spec_doc_lines L [SP] bs, LF ∉ l := by
  induction bs with
  | nil => simp [spec_doc_lines]
  | cons b rest ih =>
    obtain ⟨hb, hrest⟩ := blocks_reprint_cons L b rest hre
    have hb2 : block_reprints L b = true ∨ block_bare b = true := by
      rcases hb with hb | hb
      · exact Or.inl hb
      · exact Or.inr hb.1
    cases rest with
    | nil =>
      intro l hl
      exact block_lines_no_lf L b (hh b (by simp)) hb2 l (by simpa [spec_doc_lines] using hl)
    | cons b2 bs2 =>
      intro l hl
      simp only [spec_doc_lines, List.mem_append, List.mem_cons] at hl
      rcases hl with hl | rfl | hl
      · exact block_lines_no_lf L b (hh b (by simp)) hb2 l hl
      · simp
      · exact ih (fun x hx => hh x (by simp [hx])) hrest l hl

/-- The main loop of `ison_parse` on the lines printed for blocks that are
    read back as printed, with fresh, pairwise distinct names. -/
theorem parse_doc_reread (L : Libc) (bs : List ison_block_t) (doc : ison_document_t) (fuel : Nat)
    (hh : ∀ b ∈ bs, header_rereads b) (hre : blocks_reprint L bs = true)
    (hnd : (bs.map (fun b => b.name)).Nodup)
    (hdis : ∀ b ∈ bs, b.name ∉ doc.blocks.map (fun b => b.name))
    (hfuel : (spec_doc_lines L [SP] bs).length ≤ fuel) :
    ison_parse_loop L fuel (spec_doc_lines L [SP] bs) doc =
      { blocks := doc.blocks ++ bs.map (reread_block L),
        order := doc.order ++ bs.map (fun b => b.name) } := by
  induction bs generalizing doc fuel with
  | nil => simp [spec_doc_lines, ison_parse_loop_nil]
  | cons b rest ih =>
    obtain ⟨hb, hrest⟩ := blocks_reprint_cons L b rest hre
    obtain ⟨-, h2⟩ := hh b (by simp)
    obtain ⟨-, -, hh1, hh2⟩ := block_header_some h2
    have hnew : (reread_block L b).name ∉ doc.blocks.map (fun b => b.name) := hdis b (by simp)
    simp only [List.map_cons, List.nodup_cons] at hnd
    have hdis' : ∀ x ∈ rest, x.name ∉
        (ison_document_add_block doc (reread_block L b)).blocks.map (fun b => b.name) := by
      intro x hx
      rw [ison_document_add_block_new doc _ hnew]
      simp only [List.map_append, List.map_cons, List.map_nil, List.mem_append,
        List.mem_singleton, not_or]
      refine ⟨hdis x (by simp [hx]), ?_⟩
      intro e
      exact hnd.1 (List.mem_map.2 ⟨x, hx, e⟩)
    have hlen := spec_block_lines_length L [SP] b
    cases rest with
    | nil =>
      have hl : spec_doc_lines L [SP] [b] =
          (b.kind ++ '.' :: b.name) :: ((spec_block_lines L [SP] b).tail ++ []) := by
        rw [List.append_nil]
        exact spec_block_lines_cons L [SP] b
      rw [hl] at hfuel ⊢
      obtain ⟨fuel', rfl⟩ : ∃ k, fuel = k + 1 := ⟨fuel - 1, by simp at hfuel; omega⟩
      rw [ison_parse_loop]
      simp only [hh1, hh2, or_self, if_false, h2]
      have hpb : parse_block L b.kind b.name ((spec_block_lines L [SP] b).tail ++ []) =
          (reread_block L b, []) := by
        rcases hb with hb | hb
        · exact parse_block_reread L b hb [] [] (fun blk s => by simp [parse_rows])
        · exact (parse_block_bare L b hb.1).1
      rw [hpb]
      simp only [ison_parse_loop_nil]
      rw [ison_document_add_block_new doc _ hnew]
      simp [reread_block]
    | cons b2 bs2 =>
      have hb1 : block_reprints L b = true := by
        rcases hb with hb | hb
        · exact hb
        · cases hb.2
      have hl : spec_doc_lines L [SP] (b :: b2 :: bs2) =
          (b.kind ++ '.' :: b.name) ::
            ((spec_block_lines L [SP] b).tail ++ [] :: spec_doc_lines L [SP] (b2 :: bs2)) := by
        show spec_block_lines L [SP] b ++ [] :: spec_doc_lines L [SP] (b2 :: bs2) = _
        conv_lhs => rw [spec_block_lines_cons L [SP] b]
        rfl
      rw [hl] at hfuel ⊢
      obtain ⟨fuel', rfl⟩ : ∃ k, fuel = k + 1 := ⟨fuel - 1, by simp at hfuel; omega⟩
      rw [ison_parse_loop]
      simp only [hh1, hh2, or_self, if_false, h2]
      rw [parse_block_reread L b hb1 ([] :: spec_doc_lines L [SP] (b2 :: bs2))
        (spec_doc_lines L [SP] (b2 :: bs2))
        (fun blk s => parse_rows_blank L blk s [] _ (by decide))]
      simp only
      rw [ih _ _ (fun x hx => hh x (by simp [hx])) hrest hnd.2 hdis'
        (by simp at hfuel ⊢; omega)]
      rw [ison_document_add_block_new doc _ hnew]
      simp [reread_block]

/-- Printing the document read from the text printed for a document that is
    read back as printed gives that text again. -/
theorem ison_dumps_reread (L : Libc) (doc : ison_document_t) (hwf : document_wf doc)
    (hh : ∀ b ∈ doc.blocks, header_rereads b) (hre : document_reprints L doc = true) :
    ison_dumps L (ison_parse L (ison_dumps L doc)) = ison_dumps L doc := by
  have hcases : ∀ b ∈ doc.blocks, block_reprints L b = true ∨ block_bare b = true := by
    have key : ∀ bs : List ison_block_t, blocks_reprint L bs = true →
        ∀ b ∈ bs, block_reprints L b = true ∨ block_bare b = true := by
      intro bs
      induction bs with
      | nil => intro _ b hb; cases hb
      | cons x xs ih =>
        intro h b hb
        obtain ⟨h1, h2⟩ := blocks_reprint_cons L x xs h
        rcases List.mem_cons.1 hb with rfl | hb
        · rcases h1 with h1 | h1
          · exact Or.inl h1
          · exact Or.inr h1.1
        · exact ih h2 b hb
    exact key doc.blocks hre
  have hfit : ∀ b ∈ doc.blocks, block_fits b := by
    intro b hb
    rcases hcases b hb with h | h
    · exact ((block_reprints_iff L b).1 h).1
    · exact ((block_bare_iff b).1 h).1
  have hblk : ∀ b ∈ doc.blocks,
      spec_block_lines L [SP] (reread_block L b) = spec_block_lines L [SP] b := by
    intro b hb
    rcases hcases b hb with h | h
    · exact spec_block_lines_reread L b h
    · rw [(parse_block_bare L b h).2]
  have hfit2 : ∀ b ∈ doc.blocks.map (reread_block L), block_fits b := by
    intro b hb
    obtain ⟨x, hx, rfl⟩ := List.mem_map.1 hb
    rcases hcases x hx with h | h
    · exact ((block_reprints_iff L x).1 h).2.1
    · rw [(parse_block_bare L x h).2]
      exact ((block_bare_iff x).1 h).1
  have hnames : (doc.blocks.map (reread_block L)).map (fun b => b.name) =
      doc.blocks.map (fun b => b.name) := by
    simp [reread_block, List.map_map, Function.comp_def]
  have hwf2 : document_wf { blocks := doc.blocks.map (reread_block L),
                            order := doc.blocks.map (fun b => b.name) } :=
    ⟨hnames.symm, by rw [hnames]; exact hwf.2⟩
  have hparse : ison_parse L (ison_dumps L doc) =
      { blocks := doc.blocks.map (reread_block L),
        order := doc.blocks.map (fun b => b.name) } := by
    unfold ison_dumps
    rw [ison_dumps_with_options_eq L doc none hwf hfit, spec_dumps_eq_unlines]
    have hd : delimiter_of none = [SP] := rfl
    rw [hd, ison_parse_unlines L _ (doc_lines_no_lf L doc.blocks hh hre),
      parse_doc_reread L doc.blocks ison_document_create _ hh hre hwf.2
        (by simp [ison_document_create]) (Nat.le_refl _)]
    simp [ison_document_create]
  rw [hparse]
  unfold ison_dumps
  rw [ison_dumps_with_options_eq L _ none hwf2 hfit2, ison_dumps_with_options_eq L doc none hwf hfit]
  unfold spec_dumps
  simp only [List.map_map]
  congr 1
  apply List.map_congr_left
  intro b hb
  have hd : delimiter_of none = [SP] := rfl
  simp only [Function.comp_def, hd, hblk b hb]

/-- C30, as the claim states it, fails: the text of the table `t` with the
    field `a` and the one row `"#x"` is read as the String `#x` and printed as
    the bare line `#x`; read again, that line is a comment, so the second
    printing has no row. -/
theorem rerender_counterexample :
    ¬ ∃ L : Libc,
      ison_dumps L (ison_parse L (ison_dumps L (ison_parse L "table.t\na\n\"#x\"\n".toList))) =
        ison_dumps L (ison_parse L "table.t\na\n\"#x\"\n".toList) := by
  rintro ⟨L, h⟩
  have e1 : ison_dumps L (ison_parse L "table.t\na\n\"#x\"\n".toList) =
      "table.t\na\n#x\n".toList := rfl
  have e2 : ison_dumps L (ison_parse L "table.t\na\n#x\n".toList) = "table.t\na\n".toList := rfl
  rw [e1, e2] at h
  revert h
  decide

/-- C30, amended. For every text `t` whose document `D = ison_parse t` is
    printed in lines that are read back as printed (`document_reprints`: the
    header and the field tokens are within the buffers of `dump.c`; the field
    line is on one line, neither blank nor a comment, and the fields read from
    it print the same field line; every row line is on one line, is read as a
    row, and the row read from it prints the same line; a block of a header
    alone is the last one), with `c = ison_dumps D`,
    `ison_dumps (ison_parse c) = c`.  The values themselves need not come back:
    a row shorter than the field list and the reference `::x` are printed
    again as they were printed. -/
theorem rerender_fixed_point (L : Libc) (t : CStr)
    (h : document_reprints L (ison_parse L t) = true) :
    ison_dumps L (ison_parse L (ison_dumps L (ison_parse L t))) = ison_dumps L (ison_parse L t) :=
  ison_dumps_reread L (ison_parse L t) (ison_parse_wf L t) (ison_parse_headers L t) h

set_option maxRecDepth 100000 in
/-- C30, instances: the table `users` with an Int, a String and a Reference
    column, two rows and a summary row; a row shorter than the field list; a
    reference with an empty namespace; a header alone. -/
theorem rerender_fixed_point_witness :
    document_reprints libc_zero (ison_parse libc_zero
      "table.users\nid:int name boss\n1 Alice ~\n2 \"Bob B\" :1\n---\n2 true ~\n".toList) = true ∧
    ison_dumps libc_zero (ison_parse libc_zero (ison_dumps libc_zero (ison_parse libc_zero
      "table.users\nid:int name boss\n1 Alice ~\n2 \"Bob B\" :1\n---\n2 true ~\n".toList))) =
      ison_dumps libc_zero (ison_parse libc_zero
        "table.users\nid:int name boss\n1 Alice ~\n2 \"Bob B\" :1\n---\n2 true ~\n".toList) ∧
    ison_dumps libc_zero (ison_parse libc_zero (ison_dumps libc_zero (ison_parse libc_zero
      "table.t\na b\n1\n".toList))) =
      ison_dumps libc_zero (ison_parse libc_zero "table.t\na b\n1\n".toList) ∧
    ison_dumps libc_zero (ison_parse libc_zero (ison_dumps libc_zero (ison_parse libc_zero
      "table.t\na\n::x\n".toList))) =
      ison_dumps libc_zero (ison_parse libc_zero "table.t\na\n::x\n".toList) ∧
    ison_dumps libc_zero (ison_parse libc_zero (ison_dumps libc_zero (ison_parse libc_zero
      "table.t\n".toList))) =
      ison_dumps libc_zero (ison_parse libc_zero "table.t\n".toList) ∧
    document_reprints libc_zero (ison_parse libc_zero "table.t\na\n\"#x\"\n".toList) = false :=
  ⟨by decide, rerender_fixed_point libc_zero _ (by decide),
   rerender_fixed_point libc_zero "table.t\na b\n1\n".toList (by decide),
   rerender_fixed_point libc_zero "table.t\na\n::x\n".toList (by decide),
   rerender_fixed_point libc_zero "table.t\n".toList (by decide), by decide⟩

end Ison
